import Mathlib

/-!
# hperf: adaptive event grouping and the statistical estimator

A shallow embedding of `src/hperf/pmu_config.cpp` (`PMUConfig::adaptive_grouping`
and its helper lambdas) and of `src/hperf/reporter.cpp`
(`Reporter::process_a_record`, `Reporter::estimation`).

Conventions.
* `std::vector<T>` is `List T`; `size_t` / `uint64_t` values are `Nat`, reduced
  modulo `2 ^ 64` wherever the program performs arithmetic on them.
* `std::sort` is not a stable sort: the C++ standard only promises that the
  result is a permutation of the input on which the comparator never holds
  "backwards".  The embedding therefore takes the sort as a parameter
  (`StdSort`) carrying exactly these two guarantees; `insertionSort` is one
  such sort and is used to evaluate the definitions on concrete inputs.
* `std::set_union` is embedded from the algorithm the C++ standard prescribes
  for it (`set_union` below).
-/

namespace Hperf

/-! ## Data model (`include/hperf/pmu_event.h`) -/

/-- The struct `PMUEvent`: name, description and raw `uint64_t` encoding. -/
structure PMUEvent where
  name : String
  description : String
  encoding : Nat
deriving DecidableEq

/-- The lambda `less_by_encoding` of `adaptive_grouping`. -/
def less_by_encoding (a b : PMUEvent) : Bool :=
  decide (a.encoding < b.encoding)

/-! ## The standard algorithms used by the source -/

/-- The loop body of `std::set_union` once the first range is known to start with `x`:
walks the second range. `cont` is `set_union` on the rest of the first range. -/
def set_union_aux {α : Type} (comp : α → α → Bool) (x : α) (xs : List α)
    (cont : List α → List α) : List α → List α
  | [] => x :: xs
  | y :: ys =>
    if comp y x then y :: set_union_aux comp x xs cont ys
    else if comp x y then x :: cont (y :: ys)
    else x :: cont ys

/-- The algorithm `std::set_union(first1, last1, first2, last2, out, comp)`:
```
while (first1 != last1) {
  if (first2 == last2) return copy(first1, last1, out);
  if (comp(*first2, *first1)) *out++ = *first2++;
  else { *out++ = *first1; if (!comp(*first1, *first2)) ++first2; ++first1; }
}
return copy(first2, last2, out);
```
-/
def set_union {α : Type} (comp : α → α → Bool) : List α → List α → List α
  | [] => fun ys => ys
  | x :: xs => set_union_aux comp x xs (set_union comp xs)

/-- What the C++ standard guarantees of `std::sort(first, last, less_by_encoding)`:
the result is a rearrangement of the input, and no later element compares less than an
earlier one. The order of events with equal encodings is left to the implementation. -/
structure StdSort where
  sort : List PMUEvent → List PMUEvent
  perm : ∀ l, List.Perm (sort l) l
  sorted : ∀ l, List.Pairwise (fun a b => less_by_encoding b a = false) (sort l)

/-- Insertion of one event in front of the first event whose encoding is not smaller. -/
def orderedInsertByEncoding (e : PMUEvent) : List PMUEvent → List PMUEvent
  | [] => [e]
  | x :: xs => if less_by_encoding x e then x :: orderedInsertByEncoding e xs else e :: x :: xs

/-- Insertion sort by encoding; it keeps events of equal encoding in their original order
(what libstdc++ runs for ranges of at most 16 elements). -/
def insertionSortByEncoding : List PMUEvent → List PMUEvent
  | [] => []
  | x :: xs => orderedInsertByEncoding x (insertionSortByEncoding xs)

/-- Insertion sort as an instance of `std::sort`. -/
def insertionSort : StdSort where
  sort := insertionSortByEncoding
  perm := by
    have hins : ∀ (e : PMUEvent) (l : List PMUEvent),
        List.Perm (orderedInsertByEncoding e l) (e :: l) := by
      intro e l
      induction l with
      | nil => exact List.Perm.refl _
      | cons x xs ih =>
        unfold orderedInsertByEncoding
        split
        · exact (List.Perm.cons x ih).trans (List.Perm.swap e x xs)
        · exact List.Perm.refl _
    intro l
    induction l with
    | nil => exact List.Perm.refl _
    | cons x xs ih => exact (hins x _).trans (List.Perm.cons x ih)
  sorted := by
    have hins : ∀ (e : PMUEvent) (l : List PMUEvent),
        List.Perm (orderedInsertByEncoding e l) (e :: l) := by
      intro e l
      induction l with
      | nil => exact List.Perm.refl _
      | cons x xs ih =>
        unfold orderedInsertByEncoding
        split
        · exact (List.Perm.cons x ih).trans (List.Perm.swap e x xs)
        · exact List.Perm.refl _
    have hsorted : ∀ (e : PMUEvent) (l : List PMUEvent),
        List.Pairwise (fun a b => less_by_encoding b a = false) l →
        List.Pairwise (fun a b => less_by_encoding b a = false)
          (orderedInsertByEncoding e l) := by
      intro e l h
      induction l with
      | nil => simp [orderedInsertByEncoding]
      | cons x xs ih =>
        rw [List.pairwise_cons] at h
        unfold orderedInsertByEncoding
        split
        · rename_i hlt
          refine List.Pairwise.cons ?_ (ih h.2)
          intro b hb
          have hb2 := (hins e xs).subset hb
          rcases List.mem_cons.1 hb2 with rfl | hb2
          · simp only [less_by_encoding, decide_eq_true_eq, decide_eq_false_iff_not,
              not_lt] at hlt ⊢
            omega
          · exact h.1 b hb2
        · rename_i hlt
          refine List.Pairwise.cons ?_ (List.Pairwise.cons h.1 h.2)
          intro b hb
          simp only [less_by_encoding, decide_eq_true_eq, decide_eq_false_iff_not,
            not_lt] at hlt ⊢
          rcases List.mem_cons.1 hb with rfl | hb
          · exact hlt
          · have := h.1 b hb
            simp only [less_by_encoding, decide_eq_false_iff_not, not_lt] at this
            omega
    intro l
    induction l with
    | nil => exact List.Pairwise.nil
    | cons x xs ih => exact hsorted x _ ih

/-! ## `PMUConfig::adaptive_grouping` (`src/hperf/pmu_config.cpp`) -/

/-- The lambda `count_union_by_encoding`: sort both copies, `std::set_union`, size of the output. -/
def count_union_by_encoding (S : StdSort) (a b : List PMUEvent) : Nat :=
  (set_union less_by_encoding (S.sort a) (S.sort b)).length

/-- The lambda `union_by_encoding`: sort both copies, `std::set_union`. -/
def union_by_encoding (S : StdSort) (a b : List PMUEvent) : List PMUEvent :=
  set_union less_by_encoding (S.sort a) (S.sort b)

/-- The lambda `get_smallest_event_group_idx`: `smallest_idx = 0`, then for `i = 1 .. size-1`
the index moves to `i` when group `i` is strictly shorter. -/
def get_smallest_event_group_idx (event_groups : List (List PMUEvent)) : Nat :=
  (List.range' 1 (event_groups.length - 1)).foldl
    (fun smallest_idx i =>
      if (event_groups.getD i []).length < (event_groups.getD smallest_idx []).length
      then i else smallest_idx)
    0

/-- The constant `std::numeric_limits<size_t>::max()`. -/
def SIZE_MAX : Nat := 2 ^ 64 - 1

/-- The body of the inner `for (k = 0; k < size; ++k)` loop of `adaptive_grouping`, on the
state `(j, merged_size)`: for `k != i`, a strictly smaller union size moves `j` to `k`. -/
def find_merge_partner_body (S : StdSort) (event_groups : List (List PMUEvent)) (i : Nat)
    (st : Nat × Nat) (k : Nat) : Nat × Nat :=
  if k ≠ i then
    if count_union_by_encoding S (event_groups.getD i []) (event_groups.getD k []) < st.2 then
      (k, count_union_by_encoding S (event_groups.getD i []) (event_groups.getD k []))
    else st
  else st

/-- The inner `for (k = 0; k < size; ++k)` loop of `adaptive_grouping`: the state
`(j, merged_size)` starts at `(0, SIZE_MAX)`. -/
def find_merge_partner (S : StdSort) (event_groups : List (List PMUEvent)) (i : Nat) :
    Nat × Nat :=
  (List.range event_groups.length).foldl (find_merge_partner_body S event_groups i)
    (0, SIZE_MAX)

/-- One pass through the body of the `while (true)` loop of `adaptive_grouping`:
`none` when the loop breaks, `some G'` when two groups were merged. -/
def adaptive_grouping_step (S : StdSort) (event_groups : List (List PMUEvent))
    (programmable_counters_num : Nat) : Option (List (List PMUEvent)) :=
  if event_groups.length < 2 then none
  else
    let i := get_smallest_event_group_idx event_groups
    let j := (find_merge_partner S event_groups i).1
    if count_union_by_encoding S (event_groups.getD i []) (event_groups.getD j [])
        ≤ programmable_counters_num then
      let merged := union_by_encoding S (event_groups.getD i []) (event_groups.getD j [])
      let lo := if i > j then j else i
      let hi := if i > j then i else j
      some (((event_groups.eraseIdx hi).eraseIdx lo) ++ [merged])
    else none

/-- The `while (true)` loop of `adaptive_grouping`, run for at most `fuel` passes. Every pass
that does not break removes one group, so `event_groups.size()` passes always reach the
`break` (`adaptive_grouping_terminal`), and further passes change nothing
(`adaptive_grouping_loop_fuel`). -/
def adaptive_grouping_loop (S : StdSort) (programmable_counters_num : Nat) :
    Nat → List (List PMUEvent) → List (List PMUEvent)
  | 0, event_groups => event_groups
  | fuel + 1, event_groups =>
    match adaptive_grouping_step S event_groups programmable_counters_num with
    | none => event_groups
    | some merged_groups => adaptive_grouping_loop S programmable_counters_num fuel merged_groups

/-- The free function `adaptive_grouping(event_groups, k)` of `test/test_set.cpp`, which is the
body of `PMUConfig::adaptive_grouping` applied to a list of groups. -/
def adaptive_grouping (S : StdSort) (event_groups : List (List PMUEvent))
    (programmable_counters_num : Nat) : List (List PMUEvent) :=
  adaptive_grouping_loop S programmable_counters_num event_groups.length event_groups

/-- The class `PMUConfig`: the fixed events and the event groups. -/
structure PMUConfig where
  fixed_events_ : List PMUEvent
  event_groups_ : List (List PMUEvent)
deriving DecidableEq

/-- The method `PMUConfig::get_fixed_events`. -/
def PMUConfig.get_fixed_events (c : PMUConfig) : List PMUEvent := c.fixed_events_

/-- The method `PMUConfig::get_event_group_num`. -/
def PMUConfig.get_event_group_num (c : PMUConfig) : Nat := c.event_groups_.length

/-- The method `PMUConfig::get_event_group_by_idx`: the empty vector for an invalid index. -/
def PMUConfig.get_event_group_by_idx (c : PMUConfig) (idx : Nat) : List PMUEvent :=
  if idx ≥ c.event_groups_.length then [] else c.event_groups_.getD idx []

/-- The method `PMUConfig::is_valid`. -/
def PMUConfig.is_valid (c : PMUConfig) : Bool :=
  if c.fixed_events_.isEmpty || c.event_groups_.isEmpty then false
  else c.event_groups_.all (fun event_group => !event_group.isEmpty)

/-- The method `PMUConfig::adaptive_grouping`: rewrites `event_groups_` in place. -/
def PMUConfig.adaptive_grouping (S : StdSort) (c : PMUConfig)
    (programmable_counters_num : Nat) : PMUConfig :=
  { c with event_groups_ := Hperf.adaptive_grouping S c.event_groups_ programmable_counters_num }

/-- The encodings of the events of a group, in group order. -/
def encodings (g : List PMUEvent) : List Nat := g.map PMUEvent.encoding

/-- The encodings of a group as a multiset (order forgotten, multiplicity kept). -/
def encoding_multiset (g : List PMUEvent) : Multiset Nat := (encodings g : List Nat)

/-- The comparison `less_by_encoding` performs on the `encoding` fields. -/
def less_encoding (m n : Nat) : Bool := decide (m < n)

/-- Number of distinct encodings among the events of a group. -/
def distinct_encodings (g : List PMUEvent) : Nat :=
  (encodings g).dedup.length

/-! ## The estimator (`include/hperf/reporter.h`, `src/hperf/reporter.cpp`)

Indexing a `std::vector` out of range is undefined behaviour; the operations below return
`none` in that case. Vector sizes are taken to fit the `int` variables that hold them. -/

/-- The struct `Record`: one event count of one interval. -/
structure Record where
  timestamp : Nat
  cpu_id : Int
  group_id : Int
  event_id : Nat
  value : Nat
deriving DecidableEq

/-- The struct `EventStats`. -/
structure EventStats where
  total_value : Nat
  estimated_value : Nat
deriving DecidableEq

/-- The constructor `EventStats()`: both fields zero. -/
def EventStats.new : EventStats := ⟨0, 0⟩

/-- The data members of the class `Reporter`. -/
structure Reporter where
  pmu_config_ : PMUConfig
  stat_ : List (List EventStats)
  enabled_time_in_ns_ : List Nat
  total_time_in_ns_ : Nat
  prev_timestamp_ : Nat
  fixed_event_num_ : Nat
deriving DecidableEq

/-- The constructor `Reporter::Reporter(pmu_config)`. -/
def Reporter.new (pmu_config : PMUConfig) : Reporter :=
  { pmu_config_ := pmu_config
    total_time_in_ns_ := 0
    prev_timestamp_ := 0
    fixed_event_num_ := pmu_config.get_fixed_events.length
    enabled_time_in_ns_ := List.replicate pmu_config.get_event_group_num 0
    stat_ := (List.range pmu_config.get_event_group_num).map fun i =>
      List.replicate
        (pmu_config.get_fixed_events.length + (pmu_config.get_event_group_by_idx i).length)
        EventStats.new }

/-- The time bookkeeping of `Reporter::process_a_record` (the `if` statement); `g` is
`record.group_id` as an index. -/
def Reporter.account_time (r : Reporter) (g : Nat) (timestamp : Nat) : Option Reporter :=
  if timestamp > r.prev_timestamp_ then
    if g < r.enabled_time_in_ns_.length then
      some { r with
        enabled_time_in_ns_ := r.enabled_time_in_ns_.set g
          ((r.enabled_time_in_ns_.getD g 0 + (timestamp - r.prev_timestamp_)) % 2 ^ 64)
        total_time_in_ns_ := (r.total_time_in_ns_ + (timestamp - r.prev_timestamp_)) % 2 ^ 64
        prev_timestamp_ := timestamp }
    else none
  else some r

/-- The statement `stat_[group_id][event_id].total_value += value` of
`Reporter::process_a_record`. -/
def Reporter.add_value (r : Reporter) (g : Nat) (event_id value : Nat) : Option Reporter :=
  if g < r.stat_.length ∧ event_id < (r.stat_.getD g []).length then
    some { r with
      stat_ := r.stat_.set g ((r.stat_.getD g []).set event_id
        { (r.stat_.getD g []).getD event_id EventStats.new with
          total_value :=
            (((r.stat_.getD g []).getD event_id EventStats.new).total_value + value) % 2 ^ 64 }) }
  else none

/-- The method `Reporter::process_a_record`. A negative `group_id` converts to an index
beyond every vector. -/
def Reporter.process_a_record (r : Reporter) (record : Record) : Option Reporter :=
  if record.group_id < 0 then none
  else
    match r.account_time record.group_id.toNat record.timestamp with
    | none => none
    | some r1 => r1.add_value record.group_id.toNat record.event_id record.value

/-- The driver hands its records to `process_a_record` one after the other. -/
def Reporter.process_records (r : Reporter) : List Record → Option Reporter
  | [] => some r
  | record :: rest =>
    match r.process_a_record record with
    | none => none
    | some r1 => r1.process_records rest

/-- A record whose indices address a cell of the statistics grid of the catalog `c`. -/
def Record.in_range (c : PMUConfig) (record : Record) : Prop :=
  0 ≤ record.group_id ∧ record.group_id.toNat < c.get_event_group_num ∧
  record.event_id <
    c.get_fixed_events.length + (c.get_event_group_by_idx record.group_id.toNat).length

/-- Reading the cell `stat_[i][j]`. -/
def stat_at (stat : List (List EventStats)) (i j : Nat) : Option EventStats :=
  match stat.get? i with
  | none => none
  | some row => row.get? j

/-- The assignment `stat_[i][j].estimated_value = v`. -/
def set_estimated_value (stat : List (List EventStats)) (i j v : Nat) :
    Option (List (List EventStats)) :=
  match stat_at stat i j with
  | none => none
  | some cell =>
    some (stat.set i ((stat.getD i []).set j { cell with estimated_value := v }))

/-- The inner loop of the first part of `Reporter::estimation`: `fixed_event_total` after
adding `stat_[i][j].total_value` for `i = 0 .. event_group_num-1` in `uint64_t`. -/
def fixed_event_total (stat : List (List EventStats)) (event_group_num j : Nat) : Option Nat :=
  (List.range event_group_num).foldlM
    (fun fixed_event_total i =>
      match stat_at stat i j with
      | none => none
      | some cell => some ((fixed_event_total + cell.total_value) % 2 ^ 64))
    0

/-- The first loop of `Reporter::estimation`: for every fixed-event slot `j` the total over
the groups is stored in `stat_[0][j].estimated_value`. -/
def estimation_fixed (stat : List (List EventStats)) (event_group_num fixed_event_num : Nat) :
    Option (List (List EventStats)) :=
  (List.range fixed_event_num).foldlM
    (fun st j =>
      match fixed_event_total st event_group_num j with
      | none => none
      | some total => set_estimated_value st 0 j total)
    stat

/-- The inner loop of the second part of `Reporter::estimation` for group `i`. The value
`(uint64_t)(total_value * ((double)total_time_in_ns_ / enabled_time_in_ns_[i]))` is computed
in double precision: `scale total_value total_time enabled_time` stands for it, and
`binary64_scale` below gives its value wherever the C++ expression has one. -/
def estimation_group (scale : Nat → Nat → Nat → Nat) (r : Reporter)
    (stat : List (List EventStats)) (i : Nat) : Option (List (List EventStats)) :=
  (List.range (r.pmu_config_.get_event_group_by_idx i).length).foldlM
    (fun st j =>
      match r.enabled_time_in_ns_.get? i, stat_at st i (r.fixed_event_num_ + j) with
      | some enabled_time, some cell =>
        set_estimated_value st i (r.fixed_event_num_ + j)
          (scale cell.total_value r.total_time_in_ns_ enabled_time)
      | _, _ => none)
    stat

/-- The second loop of `Reporter::estimation`: all groups. -/
def estimation_schedulable (scale : Nat → Nat → Nat → Nat) (r : Reporter)
    (stat : List (List EventStats)) : Option (List (List EventStats)) :=
  (List.range r.pmu_config_.get_event_group_num).foldlM (estimation_group scale r) stat

/-- The method `Reporter::estimation`. -/
def Reporter.estimation (scale : Nat → Nat → Nat → Nat) (r : Reporter) : Option Reporter :=
  match estimation_fixed r.stat_ r.pmu_config_.get_event_group_num r.fixed_event_num_ with
  | none => none
  | some st1 =>
    match estimation_schedulable scale r st1 with
    | none => none
    | some st2 => some { r with stat_ := st2 }

/-- The `total_value` stored in `stat_[i][j]`. -/
def total_at (stat : List (List EventStats)) (i j : Nat) : Option Nat :=
  (stat_at stat i j).map EventStats.total_value

/-- The `estimated_value` stored in `stat_[i][j]`. -/
def estimated_at (stat : List (List EventStats)) (i j : Nat) : Option Nat :=
  (stat_at stat i j).map EventStats.estimated_value

/-- The statistics grid has the shape the constructor gave it: one row per group, with one
cell per fixed event and per event of the group, and one enabled time per group. -/
def Reporter.well_formed (r : Reporter) : Prop :=
  r.stat_.length = r.pmu_config_.get_event_group_num ∧
  r.enabled_time_in_ns_.length = r.pmu_config_.get_event_group_num ∧
  ∀ i, i < r.pmu_config_.get_event_group_num →
    (r.stat_.getD i []).length =
      r.fixed_event_num_ + (r.pmu_config_.get_event_group_by_idx i).length

/-- The invariant of the estimator between two records of the catalog `c`. -/
def Reporter.time_invariant (c : PMUConfig) (r : Reporter) : Prop :=
  r.pmu_config_ = c ∧ r.fixed_event_num_ = c.get_fixed_events.length ∧ r.well_formed ∧
  r.enabled_time_in_ns_.sum = r.total_time_in_ns_ ∧ r.total_time_in_ns_ = r.prev_timestamp_ ∧
  r.prev_timestamp_ < 2 ^ 64

/-- The sum the first loop of `estimation` forms for slot `j`, in `uint64_t`. -/
def fixed_total_spec (stat : List (List EventStats)) (event_group_num j : Nat) : Nat :=
  ((List.range event_group_num).map (fun i => (total_at stat i j).getD 0)).sum % 2 ^ 64

/-! ## Data of the repository used to evaluate the definitions

The fixed events are those of `include/hperf/pmu_config/cpu_taishan.h`; the three groups are
`a`, `b` and `c` of `test/test_set.cpp`. -/

/-- The `fixed_events` of the shipped catalog. -/
def catalog_fixed_events : List PMUEvent :=
  [⟨"cpu_cycles", "Cycle", 0x11⟩,
   ⟨"cnt_cycles", "Constant frequency cycles", 0x4004⟩,
   ⟨"inst_retired", "Instruction architecturally executed", 0x08⟩]

/-- The group `a` of `test/test_set.cpp`. -/
def test_a : List PMUEvent :=
  [⟨"inst_spec", "Operation speculatively executed", 0x1b⟩,
   ⟨"ld_spec", "Operation speculatively executed, load", 0x70⟩,
   ⟨"st_spec", "Operation speculatively executed, store", 0x71⟩,
   ⟨"dp_spec", "Operation speculatively executed, integer data processing", 0x73⟩]

/-- The group `b` of `test/test_set.cpp`. -/
def test_b : List PMUEvent :=
  [⟨"inst_spec", "Operation speculatively executed", 0x1b⟩,
   ⟨"vfp_spec", "Operation speculatively executed, scalar floating-point", 0x75⟩,
   ⟨"ase_spec", "Operation speculatively executed, Advanced SIMD", 0x74⟩,
   ⟨"br_immed_spec", "Branch Speculatively executed, immediate branch", 0x78⟩]

/-- The group `c` of `test/test_set.cpp`. -/
def test_c : List PMUEvent :=
  [⟨"inst_spec", "Operation speculatively executed", 0x1b⟩,
   ⟨"br_indirect_spec", "Branch Speculatively executed, indirect branch", 0x7a⟩,
   ⟨"br_return_spec", "Branch Speculatively executed, procedure return", 0x79⟩]

/-- The catalog made of the fixed events and the three test groups. -/
def test_config : PMUConfig := ⟨catalog_fixed_events, [test_a, test_b, test_c]⟩

instance (c : PMUConfig) (record : Record) : Decidable (record.in_range c) := by
  unfold Record.in_range
  infer_instance

/-- Two groups of the catalog kind that fit a budget of 4 together, next to a smaller group
that fits with neither. -/
def unmerged_groups : List (List PMUEvent) :=
  [[⟨"bus_access_rd", "Bus access, read", 0x60⟩,
    ⟨"bus_access_wr", "Bus access, write", 0x61⟩],
   [⟨"ld_spec", "Operation speculatively executed, load", 0x70⟩,
    ⟨"st_spec", "Operation speculatively executed, store", 0x71⟩,
    ⟨"dp_spec", "Operation speculatively executed, integer data processing", 0x73⟩],
   [⟨"ld_spec", "Operation speculatively executed, load", 0x70⟩,
    ⟨"st_spec", "Operation speculatively executed, store", 0x71⟩,
    ⟨"dp_spec", "Operation speculatively executed, integer data processing", 0x73⟩,
    ⟨"ase_spec", "Operation speculatively executed, Advanced SIMD", 0x74⟩]]

/-- A group that lists the cycle counter twice, under two names. -/
def group_with_repeated_encoding : List PMUEvent :=
  [⟨"cpu_cycles", "Cycle", 0x11⟩, ⟨"cycles", "Cycle (alias)", 0x11⟩]

/-- A catalog with one fixed event and two groups of one event each (boundary scenario 6). -/
def two_group_config : PMUConfig :=
  ⟨[⟨"cpu_cycles", "Cycle", 0x11⟩],
   [[⟨"ld_spec", "Operation speculatively executed, load", 0x70⟩],
    [⟨"st_spec", "Operation speculatively executed, store", 0x71⟩]]⟩

/-- Records of two intervals for `two_group_config`: group 0 active for the first 3 s,
group 1 for the following 1 s. -/
def two_group_records : List Record :=
  [⟨3000000000, -1, 0, 0, 900⟩, ⟨3000000000, -1, 0, 1, 300⟩,
   ⟨4000000000, -1, 1, 0, 250⟩, ⟨4000000000, -1, 1, 1, 50⟩]

/-- The estimator state after `two_group_records`. -/
def two_group_reporter : Reporter :=
  { pmu_config_ := two_group_config
    stat_ := [[⟨900, 0⟩, ⟨300, 0⟩], [⟨250, 0⟩, ⟨50, 0⟩]]
    enabled_time_in_ns_ := [3000000000, 1000000000]
    total_time_in_ns_ := 4000000000
    prev_timestamp_ := 4000000000
    fixed_event_num_ := 1 }

/-- A stand-in for the double-precision scaling, used only to run `estimation`: the exact
quotient rounded down. -/
def exact_scale (total_value total_time enabled_time : Nat) : Nat :=
  total_value * total_time / enabled_time

/-! ## The command line (`include/hperf/profile_config.h`, `src/hperf/args_parser.cpp`) -/

/-- The C function `isspace` in the "C" locale: space, `\t`, `\n`, `\v`, `\f`, `\r`. -/
def isspace (c : Char) : Bool :=
  c = ' ' || (9 ≤ c.toNat && c.toNat ≤ 13)

/-- The value of a decimal digit character. -/
def digit_value (c : Char) : Nat := c.toNat - 48

/-- The number a string of decimal digits denotes. -/
def decimal_value (ds : List Char) : Nat :=
  ds.foldl (fun acc c => 10 * acc + digit_value c) 0

/-- The constant `LONG_MAX` of a 64-bit `long`. -/
def LONG_MAX : Int := 2 ^ 63 - 1

/-- The constant `LONG_MIN` of a 64-bit `long`. -/
def LONG_MIN : Int := -(2 ^ 63)

/-- The constant `INT_MAX`. -/
def INT_MAX : Int := 2 ^ 31 - 1

/-- The sign part of `strtol`: an optional `+` or `-`. -/
def strtol_sign : List Char → Bool × List Char
  | '-' :: u => (true, u)
  | '+' :: u => (false, u)
  | u => (false, u)

/-- The C function `strtol(nptr, &endptr, 10)` on a NUL-free string: white space is skipped,
an optional sign and the longest run of decimal digits are read, and the value saturates at
`LONG_MIN` / `LONG_MAX`. The result is the value and the text `endptr` is left pointing at;
without any digit the value is 0 and `endptr` is `nptr`. -/
def strtol (nptr : List Char) : Int × List Char :=
  let signed := strtol_sign (nptr.dropWhile isspace)
  let digits := signed.2.takeWhile Char.isDigit
  if digits = [] then (0, nptr)
  else if signed.1 then
    (if -(decimal_value digits : Int) < LONG_MIN then LONG_MIN else -(decimal_value digits : Int),
      signed.2.dropWhile Char.isDigit)
  else
    (if (decimal_value digits : Int) > LONG_MAX then LONG_MAX else (decimal_value digits : Int),
      signed.2.dropWhile Char.isDigit)

/-- Conversion of a `long` to `int`: reduction modulo `2 ^ 32` into the `int` range. -/
def long_to_int (x : Int) : Int := (x + 2 ^ 31) % 2 ^ 32 - 2 ^ 31

/-- The text `std::string::c_str()` shows to a C function: the characters before the first
NUL. -/
def c_str (s : List Char) : List Char := s.takeWhile (fun c => c ≠ Char.ofNat 0)

/-- What the body of the `while` loop of `parse_comma_sperated_list` does with one token. -/
inductive TokenOutcome where
  /-- The `return std::vector<int>()` of an invalid token. -/
  | reject
  /-- The CPU ids pushed onto `result`. -/
  | push (ids : List Int)
  /-- The `for (int i = start; i <= end; ++i)` loop with `end == INT_MAX`: `++i` overflows. -/
  | undefined
deriving DecidableEq

/-- The handling of one non-empty token in `parse_comma_sperated_list`: a single CPU id when
the token holds no `-`, a range `start-end` otherwise. -/
def parse_token (token : List Char) : TokenOutcome :=
  if '-' ∉ token then
    if (strtol (c_str token)).2 ≠ [] ∨ long_to_int (strtol (c_str token)).1 < 0 then
      TokenOutcome.reject
    else TokenOutcome.push [long_to_int (strtol (c_str token)).1]
  else
    let start_str := token.takeWhile (fun c => c ≠ '-')
    let end_str := (token.dropWhile (fun c => c ≠ '-')).tail
    let start := long_to_int (strtol (c_str start_str)).1
    let end_ := long_to_int (strtol (c_str end_str)).1
    if (strtol (c_str start_str)).2 ≠ [] ∨ (strtol (c_str end_str)).2 ≠ [] ∨
        start < 0 ∨ end_ < 0 ∨ end_ < start then
      TokenOutcome.reject
    else if end_ = INT_MAX then TokenOutcome.undefined
    else
      TokenOutcome.push ((List.range' start.toNat (end_ - start + 1).toNat).map Int.ofNat)

/-- The `while (pos < cpu_id_str.size())` loop of `parse_comma_sperated_list`; `rest` is
`cpu_id_str` from `pos` on. Each pass moves `pos` beyond one more comma, so `size + 1` passes
are never used up; `none` stands for undefined behaviour. -/
def parse_comma_loop : Nat → List Char → List Int → Option (List Int)
  | 0, _, _ => none
  | fuel + 1, rest, result =>
    if rest = [] then some result
    else if rest.takeWhile (fun c => c ≠ ',') = [] then some []
    else
      match parse_token (rest.takeWhile (fun c => c ≠ ',')) with
      | TokenOutcome.reject => some []
      | TokenOutcome.undefined => none
      | TokenOutcome.push ids =>
        match rest.dropWhile (fun c => c ≠ ',') with
        | [] => some (result ++ ids)
        | _ :: more => parse_comma_loop fuel more (result ++ ids)

/-- The method `ArgsParser::parse_comma_sperated_list`. -/
def parse_comma_sperated_list (cpu_id_str : String) : Option (List Int) :=
  if cpu_id_str.data = [] then some []
  else parse_comma_loop (cpu_id_str.data.length + 1) cpu_id_str.data []

/-- A token of a CPU list as the claim describes it: a number `N`, or a range `M-N`; the
numbers are given by their decimal digits. -/
inductive CpuToken where
  | single (n : List Char)
  | range (m n : List Char)
deriving DecidableEq

/-- A non-empty string of decimal digits whose value is at most `bound`. -/
def is_number (bound : Int) (ds : List Char) : Prop :=
  ds ≠ [] ∧ (∀ c ∈ ds, c.isDigit = true) ∧ (decimal_value ds : Int) ≤ bound

/-- The tokens the amended claim speaks of: numbers that fit an `int`, a range ascending and
ending below `INT_MAX`. -/
def CpuToken.valid : CpuToken → Prop
  | CpuToken.single n => is_number INT_MAX n
  | CpuToken.range m n =>
    is_number INT_MAX m ∧ is_number (INT_MAX - 1) n ∧ decimal_value m ≤ decimal_value n

/-- The characters of a token. -/
def CpuToken.text : CpuToken → List Char
  | CpuToken.single n => n
  | CpuToken.range m n => m ++ '-' :: n

/-- The CPU ids a token stands for: `[N]`, respectively `[M, M+1, …, N]`. -/
def CpuToken.cpus : CpuToken → List Int
  | CpuToken.single n => [(decimal_value n : Int)]
  | CpuToken.range m n =>
    (List.range' (decimal_value m) (decimal_value n + 1 - decimal_value m)).map Int.ofNat

/-- The comma-separated text of a list of tokens. -/
def cpu_list_text : List CpuToken → List Char
  | [] => []
  | [t] => t.text
  | t :: t2 :: ts => t.text ++ ',' :: cpu_list_text (t2 :: ts)

/-- The CPU ids a list of tokens stands for, in token order. -/
def cpu_list_ids : List CpuToken → List Int
  | [] => []
  | t :: ts => t.cpus ++ cpu_list_ids ts

instance (bound : Int) (ds : List Char) : Decidable (is_number bound ds) := by
  unfold is_number
  infer_instance

instance (t : CpuToken) : Decidable t.valid := by
  cases t <;> unfold CpuToken.valid <;> infer_instance

/-- The enum `ProfileMode`. -/
inductive ProfileMode where
  | SYSTEM_WIDE
  | TRACK_PID
  | SUBPROCESS
deriving DecidableEq

/-- The struct `ProfileConfig` (the stream pointer `output_file_ptr`, which `parse` never
touches, is left out); a `char *` of `command_args` is `none` when it is `nullptr`. -/
structure ProfileConfig where
  mode : ProfileMode
  test_duration : Int
  switch_group_interval : Int
  cpu_id_list : List Int
  target_pid : Int
  output_filename : String
  command_args : List (Option String)
  detect_counters : Bool
  optimize_event_groups : Bool
deriving DecidableEq

/-- The default member initialisers of `ProfileConfig`. -/
def ProfileConfig.default : ProfileConfig :=
  { mode := ProfileMode.SYSTEM_WIDE
    test_duration := -1
    switch_group_interval := 1000
    cpu_id_list := []
    target_pid := -1
    output_filename := ""
    command_args := []
    detect_counters := false
    optimize_event_groups := false }

/-- The C function `atoi`: `(int) strtol(s, nullptr, 10)`. -/
def atoi (s : String) : Int := long_to_int (strtol (c_str s.data)).1

/-- The value `getopt_long` returns for a short option. -/
def opt_code (c : Char) : Int := (c.toNat : Int)

/-- How a call of `ArgsParser::parse` ends: it returns `true` or `false` (with the
configuration as it then is), it calls `exit`, or its behaviour is undefined. -/
inductive ParseOutcome where
  | returned (ok : Bool) (profile_config : ProfileConfig)
  | exited (status : Int)
  | undefined
deriving DecidableEq

/-- The local variables of `ArgsParser::parse` the option loop writes, with the
configuration. -/
structure OptionState where
  profile_config : ProfileConfig
  cpu_list_str : String
  a_flag : Bool
  p_flag : Bool
deriving DecidableEq

/-- The `while ((opt = getopt_long(...)) != -1)` loop of `ArgsParser::parse`. The library
function `getopt_long` is not modelled: `opts` lists what its successive calls return before
the final `-1`, each value with the `optarg` of that call. -/
def option_loop : List (Int × String) → OptionState → Except ParseOutcome OptionState
  | [], st => Except.ok st
  | (opt, optarg) :: rest, st =>
    if opt = opt_code 'd' then
      option_loop rest
        { st with profile_config := { st.profile_config with test_duration := atoi optarg } }
    else if opt = opt_code 'i' then
      option_loop rest
        { st with
          profile_config := { st.profile_config with switch_group_interval := atoi optarg } }
    else if opt = opt_code 'a' then option_loop rest { st with a_flag := true }
    else if opt = opt_code 'c' then option_loop rest { st with cpu_list_str := optarg }
    else if opt = opt_code 'p' then
      option_loop rest
        { st with
          p_flag := true
          profile_config := { st.profile_config with target_pid := atoi optarg } }
    else if opt = opt_code 'o' then
      option_loop rest
        { st with profile_config := { st.profile_config with output_filename := optarg } }
    else if opt = 1 then
      Except.error
        (ParseOutcome.returned true { st.profile_config with detect_counters := true })
    else if opt = 2 then
      option_loop rest
        { st with profile_config := { st.profile_config with optimize_event_groups := true } }
    else if opt = opt_code 'h' then Except.error (ParseOutcome.exited 0)
    else Except.error (ParseOutcome.exited 1)

/-- The part of `ArgsParser::parse` after the option loop: the command, the count of
measurement modes and the checks. `num_cpus` is `sysconf(_SC_NPROCESSORS_ONLN)` and `operands`
is `argv[optind .. argc)`. -/
def validate_options (num_cpus : Int) (operands : List String) (st : OptionState) :
    ParseOutcome :=
  let pushed := st.profile_config.command_args ++ operands.map some
  let cmd_flag := !pushed.isEmpty
  let c1 : ProfileConfig :=
    { st.profile_config with command_args := if cmd_flag then pushed ++ [none] else pushed }
  let c2 : ProfileConfig := if st.a_flag then { c1 with mode := ProfileMode.SYSTEM_WIDE } else c1
  let c3 : ProfileConfig := if st.p_flag then { c2 with mode := ProfileMode.TRACK_PID } else c2
  let c4 : ProfileConfig := if cmd_flag then { c3 with mode := ProfileMode.SUBPROCESS } else c3
  let flags : Nat :=
    (if st.a_flag then 1 else 0) + (if st.p_flag then 1 else 0) + (if cmd_flag then 1 else 0)
  if flags > 1 then ParseOutcome.returned false c4
  else if flags = 0 then ParseOutcome.returned false c4
  else if st.a_flag ∧ c4.test_duration ≤ 0 then ParseOutcome.returned false c4
  else if st.a_flag then
    if st.cpu_list_str.data ≠ [] then
      match parse_comma_sperated_list st.cpu_list_str with
      | none => ParseOutcome.undefined
      | some cpu_id_list =>
        if cpu_id_list = [] then ParseOutcome.returned false { c4 with cpu_id_list := [] }
        else ParseOutcome.returned true { c4 with cpu_id_list := cpu_id_list }
    else
      ParseOutcome.returned true
        { c4 with
          cpu_id_list := c4.cpu_id_list ++ (List.range num_cpus.toNat).map Int.ofNat }
  else ParseOutcome.returned true c4

/-- The method `ArgsParser::parse`. -/
def ArgsParser.parse (num_cpus : Int) (opts : List (Int × String)) (operands : List String)
    (profile_config : ProfileConfig) : ParseOutcome :=
  match option_loop opts ⟨profile_config, "", false, false⟩ with
  | Except.error outcome => outcome
  | Except.ok st => validate_options num_cpus operands st

/-- The option `-a` / `--system_wide` occurs on the command line. -/
def system_wide_given (opts : List (Int × String)) : Prop := opt_code 'a' ∈ opts.map Prod.fst

/-- The option `-p` / `--pid` occurs on the command line. -/
def pid_given (opts : List (Int × String)) : Prop := opt_code 'p' ∈ opts.map Prod.fst

/-- The option `--detect-counters` occurs on the command line. -/
def detect_counters_given (opts : List (Int × String)) : Prop := (1 : Int) ∈ opts.map Prod.fst

/-- Exactly one of: `-a`, `-p`, a command to execute. -/
def exactly_one_mode (opts : List (Int × String)) (operands : List String) : Prop :=
  (system_wide_given opts ∧ ¬ pid_given opts ∧ operands = []) ∨
  (¬ system_wide_given opts ∧ pid_given opts ∧ operands = []) ∨
  (¬ system_wide_given opts ∧ ¬ pid_given opts ∧ operands ≠ [])

/-- The options that neither end the option loop nor leave `parse`: `-d`, `-i`, `-a`, `-c`,
`-p`, `-o` and `--optimize-event-groups`. -/
def ordinary_options : List Int :=
  [opt_code 'd', opt_code 'i', opt_code 'a', opt_code 'c', opt_code 'p', opt_code 'o', 2]

instance (opts : List (Int × String)) : Decidable (system_wide_given opts) := by
  unfold system_wide_given
  infer_instance

instance (opts : List (Int × String)) : Decidable (pid_given opts) := by
  unfold pid_given
  infer_instance

instance (opts : List (Int × String)) : Decidable (detect_counters_given opts) := by
  unfold detect_counters_given
  infer_instance

instance (opts : List (Int × String)) (operands : List String) :
    Decidable (exactly_one_mode opts operands) := by
  unfold exactly_one_mode
  infer_instance

/-! ## The kernel interface

The program talks to the kernel through `perf_event_open`, `ioctl`, `read`, `close` and
`usleep`. The kernel is not part of the repository: it is a parameter `k : Kernel` that
answers every call, given all the calls made before. The counter detector
(`include/hperf/counter_detector.h`, `src/hperf/counter_detector.cpp`) follows. -/

/-- The `ioctl` requests the program issues: `PERF_EVENT_IOC_ENABLE`, `PERF_EVENT_IOC_DISABLE`
and `PERF_EVENT_IOC_RESET`. -/
inductive IoctlRequest where
  | ENABLE
  | DISABLE
  | RESET
deriving DecidableEq

/-- The fields of `struct perf_event_attr` the program sets (all others are zeroed by
`memset`; `size` is the constant `sizeof(struct perf_event_attr)`). -/
structure PerfEventAttr where
  type : Nat
  config : Nat
  read_format : Nat
  disabled : Nat
deriving DecidableEq

/-- A system call with its arguments. -/
inductive Syscall where
  | perf_event_open (pe : PerfEventAttr) (pid cpu group_fd : Int) (flags : Nat)
  | ioctl (fd : Int) (request : IoctlRequest) (arg : Nat)
  | read (fd : Int) (count : Nat)
  | close (fd : Int)
  | usleep (usec : Nat)
deriving DecidableEq

/-- What a system call gives back: its return value and, for `read`, the 64-bit words the
buffer holds afterwards. -/
structure SysResult where
  ret : Int
  data : List Nat
deriving DecidableEq

/-- The calls made so far, oldest first, each with its result. -/
abbrev History := List (Syscall × SysResult)

/-- The kernel as the program meets it: the answer to a call after a given history. -/
abbrev Kernel := History → Syscall → SysResult

/-- Making one system call: the kernel answers and the call is appended to the history. -/
def sys (k : Kernel) (hist : History) (call : Syscall) : SysResult × History :=
  (k hist call, hist ++ [(call, k hist call)])

/-- The constant `PERF_TYPE_RAW` of `linux/perf_event.h`. -/
def PERF_TYPE_RAW : Nat := 4

/-- The constant `PERF_FORMAT_TOTAL_TIME_ENABLED`. -/
def PERF_FORMAT_TOTAL_TIME_ENABLED : Nat := 1

/-- The constant `PERF_FORMAT_TOTAL_TIME_RUNNING`. -/
def PERF_FORMAT_TOTAL_TIME_RUNNING : Nat := 2

/-- The constant `PERF_FORMAT_ID`. -/
def PERF_FORMAT_ID : Nat := 4

/-- The constant `PERF_FORMAT_GROUP`. -/
def PERF_FORMAT_GROUP : Nat := 8

/-- The constant `PERF_IOC_FLAG_GROUP`. -/
def PERF_IOC_FLAG_GROUP : Nat := 1

/-- The table `CounterDetector::event_list`: 32 probe events, name and encoding. -/
def event_list : List (String × Nat) :=
  [("l1i_cache_refill", 0x0001), ("l1i_tlb_refill", 0x0002), ("l1d_cache_refill", 0x0003),
   ("l1d_cache", 0x0004), ("l1d_tlb_refill", 0x0005), ("ld_retired", 0x0006),
   ("st_retired", 0x0007), ("inst_retired", 0x0008), ("exc_taken", 0x0009),
   ("exc_return", 0x000a), ("cid_write_retired", 0x000b), ("pc_write_retired", 0x000c),
   ("br_immed_retired", 0x000d), ("br_return_retired", 0x000e),
   ("unaligned_ldst_retired", 0x000f), ("br_mis_pred", 0x0010), ("cpu_cycles", 0x0011),
   ("br_pred", 0x0012), ("mem_access", 0x0013), ("l1i_cache", 0x0014),
   ("l1d_cache_wb", 0x0015), ("l2d_cache", 0x0016), ("l2d_cache_refill", 0x0017),
   ("l2d_cache_wb", 0x0018), ("bus_access", 0x0019), ("memory_error", 0x001a),
   ("inst_spec", 0x001b), ("ttbr_write_retired", 0x001c), ("bus_cycles", 0x001d),
   ("l1d_cache_allocate", 0x001f), ("l2d_cache_allocate", 0x0020), ("br_retired", 0x0021)]

/-- The data members of the class `CounterDetector`. -/
structure CounterDetector where
  detected_ : Bool
  fds_ : List Int
  cpu_num_ : Nat
  detected_general_counter_nums_ : List Int
deriving DecidableEq

/-- The constructor `CounterDetector::CounterDetector()`; `cpu_num` is
`sysconf(_SC_NPROCESSORS_ONLN)`. -/
def CounterDetector.new (cpu_num : Nat) : CounterDetector :=
  { detected_ := false, fds_ := [], cpu_num_ := cpu_num,
    detected_general_counter_nums_ := List.replicate cpu_num (-1) }

/-- The static method `CounterDetector::configure_event`. -/
def CounterDetector.configure_event (encoding : Nat) : PerfEventAttr :=
  { type := PERF_TYPE_RAW
    config := encoding
    read_format :=
      PERF_FORMAT_TOTAL_TIME_ENABLED ||| PERF_FORMAT_TOTAL_TIME_RUNNING ||| PERF_FORMAT_ID
    disabled := 1 }

/-- The static method `CounterDetector::perf_event_open`. -/
def CounterDetector.perf_event_open (k : Kernel) (hist : History) (pe : PerfEventAttr)
    (cpu_id : Nat) : SysResult × History :=
  sys k hist (Syscall.perf_event_open pe (-1) cpu_id (-1) 0)

/-- The `while (fds_.size() < event_num)` loop of `CounterDetector::test`; `events` are the
entries `event_list[fds_.size()], …, event_list[event_num - 1]` still to be opened. The
result is `false` when an open failed. -/
def CounterDetector.open_events (k : Kernel) (cpu_id : Nat) :
    List (String × Nat) → List Int → History → Bool × List Int × History
  | [], fds, hist => (true, fds, hist)
  | event :: events, fds, hist =>
    if (CounterDetector.perf_event_open k hist
        (CounterDetector.configure_event event.2) cpu_id).1.ret = -1 then
      (false, fds, (CounterDetector.perf_event_open k hist
        (CounterDetector.configure_event event.2) cpu_id).2)
    else
      CounterDetector.open_events k cpu_id events
        (fds ++ [(CounterDetector.perf_event_open k hist
          (CounterDetector.configure_event event.2) cpu_id).1.ret])
        (CounterDetector.perf_event_open k hist
          (CounterDetector.configure_event event.2) cpu_id).2

/-- The loop of `enable_all_events` and of `disable_all_events`: one `ioctl` per descriptor,
stopping with `false` at the first failure. -/
def CounterDetector.ioctl_all_events (k : Kernel) (request : IoctlRequest) :
    List Int → History → Bool × History
  | [], hist => (true, hist)
  | fd :: fds, hist =>
    if (sys k hist (Syscall.ioctl fd request 0)).1.ret = -1 then
      (false, (sys k hist (Syscall.ioctl fd request 0)).2)
    else CounterDetector.ioctl_all_events k request fds (sys k hist (Syscall.ioctl fd request 0)).2

/-- The size of a `SingleReadBuffer`: `sizeof(Entry)`, four 64-bit words. -/
def SingleReadBuffer.size : Nat := 32

/-- The read loop of `CounterDetector::test`: `false` when a read fails or a complete read
shows `time_enabled != time_running`; a short read is only warned about. The buffer words are
`value`, `time_enabled`, `time_running`, `id`. -/
def CounterDetector.read_all_events (k : Kernel) : List Int → History → Bool × History
  | [], hist => (true, hist)
  | fd :: fds, hist =>
    if (sys k hist (Syscall.read fd SingleReadBuffer.size)).1.ret = -1 then
      (false, (sys k hist (Syscall.read fd SingleReadBuffer.size)).2)
    else if (sys k hist (Syscall.read fd SingleReadBuffer.size)).1.ret ≠ SingleReadBuffer.size then
      CounterDetector.read_all_events k fds (sys k hist (Syscall.read fd SingleReadBuffer.size)).2
    else if (sys k hist (Syscall.read fd SingleReadBuffer.size)).1.data.getD 1 0 ≠
        (sys k hist (Syscall.read fd SingleReadBuffer.size)).1.data.getD 2 0 then
      (false, (sys k hist (Syscall.read fd SingleReadBuffer.size)).2)
    else
      CounterDetector.read_all_events k fds (sys k hist (Syscall.read fd SingleReadBuffer.size)).2

/-- The method `CounterDetector::test`. -/
def CounterDetector.test (k : Kernel) (cpu_id event_num : Nat) (d : CounterDetector)
    (hist : History) : Bool × CounterDetector × History :=
  let opened := CounterDetector.open_events k cpu_id
    ((event_list.drop d.fds_.length).take (event_num - d.fds_.length)) d.fds_ hist
  if opened.1 = false then (false, { d with fds_ := opened.2.1 }, opened.2.2)
  else
    let enabled := CounterDetector.ioctl_all_events k IoctlRequest.ENABLE opened.2.1 opened.2.2
    if enabled.1 = false then (false, { d with fds_ := opened.2.1 }, enabled.2)
    else
      let slept := (sys k enabled.2 (Syscall.usleep 100000)).2
      let disabled := CounterDetector.ioctl_all_events k IoctlRequest.DISABLE opened.2.1 slept
      if disabled.1 = false then (false, { d with fds_ := opened.2.1 }, disabled.2)
      else
        let read := CounterDetector.read_all_events k opened.2.1 disabled.2
        (read.1, { d with fds_ := opened.2.1 }, read.2)

/-- The method `CounterDetector::close_all_events`. -/
def CounterDetector.close_all_events (k : Kernel) : List Int → History → History
  | [], hist => hist
  | fd :: fds, hist =>
    if fd ≠ -1 then CounterDetector.close_all_events k fds (sys k hist (Syscall.close fd)).2
    else CounterDetector.close_all_events k fds hist

/-- The inner `for (event_num = 1; event_num < event_list.size(); ++event_num)` loop of
`CounterDetector::detect` for one CPU, with `remaining` passes left. -/
def CounterDetector.probe_loop (k : Kernel) (cpu_id : Nat) :
    Nat → Nat → CounterDetector → History → CounterDetector × History
  | 0, _, d, hist => (d, hist)
  | remaining + 1, event_num, d, hist =>
    if (CounterDetector.test k cpu_id event_num d hist).1 = false then
      ({ (CounterDetector.test k cpu_id event_num d hist).2.1 with
          detected_general_counter_nums_ :=
            (CounterDetector.test k cpu_id event_num d hist).2.1.detected_general_counter_nums_.set
              cpu_id ((event_num : Int) - 1) },
        (CounterDetector.test k cpu_id event_num d hist).2.2)
    else
      CounterDetector.probe_loop k cpu_id remaining (event_num + 1)
        (CounterDetector.test k cpu_id event_num d hist).2.1
        (CounterDetector.test k cpu_id event_num d hist).2.2

/-- The body of the outer loop of `CounterDetector::detect` for one CPU: the stress test,
then `close_all_events()` and `fds_.clear()`. -/
def CounterDetector.probe_cpu (k : Kernel) (cpu_id : Nat) (d : CounterDetector)
    (hist : History) : CounterDetector × History :=
  let probed := CounterDetector.probe_loop k cpu_id (event_list.length - 1) 1 d hist
  ({ probed.1 with fds_ := [] }, CounterDetector.close_all_events k probed.1.fds_ probed.2)

/-- The outer `for (cpu_id = 0; cpu_id < cpu_num_; ++cpu_id)` loop of `detect`, for the CPUs
listed. -/
def CounterDetector.probe_cpus (k : Kernel) :
    List Nat → CounterDetector → History → CounterDetector × History
  | [], d, hist => (d, hist)
  | cpu_id :: cpus, d, hist =>
    CounterDetector.probe_cpus k cpus (CounterDetector.probe_cpu k cpu_id d hist).1
      (CounterDetector.probe_cpu k cpu_id d hist).2

/-- The character of a decimal digit. -/
def digit_char (d : Nat) : Char := Char.ofNat (48 + d)

/-- The decimal digits of a natural number pushed in front of `acc`; `fuel` bounds the number
of digits. -/
def nat_to_decimal_aux : Nat → Nat → List Char → List Char
  | 0, _, acc => acc
  | fuel + 1, n, acc =>
    if n < 10 then digit_char n :: acc
    else nat_to_decimal_aux fuel (n / 10) (digit_char (n % 10) :: acc)

/-- The decimal digits of a natural number. -/
def nat_to_decimal (n : Nat) : List Char := nat_to_decimal_aux (n + 1) n []

/-- What `outfile << counter_num` writes for an `int`: the decimal digits, after a `-` when
the number is negative. -/
def int_to_decimal (n : Int) : List Char :=
  if n < 0 then '-' :: nat_to_decimal (-n).toNat else nat_to_decimal n.toNat

/-- The constant `INT_MIN`. -/
def INT_MIN : Int := -(2 ^ 31)

/-- What `infile >> counter_num` does for an `int`: white space is skipped, an optional sign
and the longest run of decimal digits are read; the extraction fails without a digit or when
the number does not fit an `int`. The result is the number and the unread rest. -/
def read_int (s : List Char) : Option (Int × List Char) :=
  let signed := strtol_sign (s.dropWhile isspace)
  let digits := signed.2.takeWhile Char.isDigit
  if digits = [] then none
  else
    let value : Int :=
      if signed.1 then -(decimal_value digits : Int) else (decimal_value digits : Int)
    if value < INT_MIN ∨ INT_MAX < value then none
    else some (value, signed.2.dropWhile Char.isDigit)

/-- The loop `while (infile >> counter_num) push_back(counter_num)`. Every extraction
consumes a character, so `fuel` larger than the length of the text is never used up. -/
def read_ints : Nat → List Char → List Int
  | 0, _ => []
  | fuel + 1, s =>
    match read_int s with
    | none => []
    | some (n, rest) => n :: read_ints fuel rest

/-- The file `/tmp/.hperf` as the program meets it: its text when it exists and can be opened
for reading, and whether it can be created for writing. -/
structure HperfFile where
  content : Option (List Char)
  can_create : Bool
deriving DecidableEq

/-- The text `save_detected_result` writes: every number followed by `std::endl`. -/
def detected_result_text : List Int → List Char
  | [] => []
  | n :: ns => int_to_decimal n ++ '\n' :: detected_result_text ns

/-- The method `CounterDetector::save_detected_result`. -/
def CounterDetector.save_detected_result (d : CounterDetector) (file : HperfFile) : HperfFile :=
  if file.can_create = false then file
  else { file with content := some (detected_result_text d.detected_general_counter_nums_) }

/-- The method `CounterDetector::load_detected_result`. -/
def CounterDetector.load_detected_result (d : CounterDetector) (file : HperfFile) :
    Bool × CounterDetector :=
  match file.content with
  | none => (false, d)
  | some text =>
    if (read_ints (text.length + 1) text).length = d.cpu_num_ then
      (true, { d with
        detected_general_counter_nums_ := read_ints (text.length + 1) text
        detected_ := true })
    else
      (false, { d with detected_general_counter_nums_ := List.replicate d.cpu_num_ (-1) })

/-- The method `CounterDetector::detect`. -/
def CounterDetector.detect (k : Kernel) (d : CounterDetector) (hist : History)
    (file : HperfFile) : CounterDetector × History × HperfFile :=
  if (d.load_detected_result file).1 = true then ((d.load_detected_result file).2, hist, file)
  else
    let probed :=
      CounterDetector.probe_cpus k (List.range d.cpu_num_) (d.load_detected_result file).2 hist
    ({ probed.1 with detected_ := true }, probed.2,
      CounterDetector.save_detected_result { probed.1 with detected_ := true } file)

/-- A kernel for one CPU with `counters` programmable counters, every call of which succeeds:
`perf_event_open` hands out the descriptors 3, 4, 5, … and a `read` reports
`time_running < time_enabled` exactly when more events are open than there are counters
since the last `close`. -/
def kernel_with_counters (counters : Nat) : Kernel := fun hist call =>
  match call with
  | Syscall.perf_event_open _ _ _ _ _ =>
    ⟨3 + ((hist.filter (fun c => match c.1 with
      | Syscall.perf_event_open _ _ _ _ _ => true
      | _ => false)).length : Int), []⟩
  | Syscall.read _ count =>
    let opened := (hist.filter (fun c => match c.1 with
      | Syscall.perf_event_open _ _ _ _ _ => true
      | _ => false)).length
    let closed := (hist.filter (fun c => match c.1 with
      | Syscall.close _ => true
      | _ => false)).length
    ⟨count, [0, 100, if opened - closed > counters then 50 else 100, 0]⟩
  | _ => ⟨0, []⟩

/-- A kernel that refuses every `perf_event_open` (as with `EPERM`). -/
def kernel_refusing_open : Kernel := fun _ call =>
  match call with
  | Syscall.perf_event_open _ _ _ _ _ => ⟨-1, []⟩
  | _ => ⟨0, []⟩

/-- The state after the tests at event counts `start, start + 1, …, start + count - 1` on CPU
`cpu_id`, run one after the other as `detect` does while they pass. -/
def CounterDetector.pass_tests (k : Kernel) (cpu_id : Nat) :
    Nat → Nat → CounterDetector → History → CounterDetector × History
  | 0, _, d, hist => (d, hist)
  | count + 1, start, d, hist =>
    CounterDetector.pass_tests k cpu_id count (start + 1)
      (CounterDetector.test k cpu_id start d hist).2.1
      (CounterDetector.test k cpu_id start d hist).2.2

/-- The tests at event counts `start, …, start + count - 1` on CPU `cpu_id` all return
`true`. -/
def CounterDetector.all_pass (k : Kernel) (cpu_id : Nat) :
    Nat → Nat → CounterDetector → History → Bool
  | 0, _, _, _ => true
  | count + 1, start, d, hist =>
    (CounterDetector.test k cpu_id start d hist).1 &&
      CounterDetector.all_pass k cpu_id count (start + 1)
        (CounterDetector.test k cpu_id start d hist).2.1
        (CounterDetector.test k cpu_id start d hist).2.2

/-- The calls a computation added to the history `before`. -/
def new_calls (before after : History) : History := after.drop before.length

/-- The test at event count `event_num` fails to open a probe counter. -/
def CounterDetector.test_open_fails (k : Kernel) (cpu_id event_num : Nat)
    (d : CounterDetector) (hist : History) : Bool :=
  (CounterDetector.open_events k cpu_id
    ((event_list.drop d.fds_.length).take (event_num - d.fds_.length)) d.fds_ hist).1 = false

/-- A `perf_event_open`, `ioctl` or `read` call that returned `-1`. -/
def call_failed (c : Syscall × SysResult) : Bool :=
  match c.1 with
  | Syscall.perf_event_open _ _ _ _ _ => decide (c.2.ret = -1)
  | Syscall.ioctl _ _ _ => decide (c.2.ret = -1)
  | Syscall.read _ _ => decide (c.2.ret = -1)
  | _ => false

/-- A complete `read` of a probe counter whose buffer has `time_enabled != time_running`. -/
def read_shows_multiplexing (c : Syscall × SysResult) : Bool :=
  match c.1 with
  | Syscall.read _ _ =>
    decide (c.2.ret = SingleReadBuffer.size) &&
      decide (c.2.data.getD 1 0 ≠ c.2.data.getD 2 0)
  | _ => false

/-- The test at event count `event_num` runs without a failed call and without a read that
shows multiplexing. -/
def CounterDetector.test_quiet (k : Kernel) (cpu_id event_num : Nat)
    (d : CounterDetector) (hist : History) : Bool :=
  (new_calls hist (CounterDetector.test k cpu_id event_num d hist).2.2).all
    (fun c => !call_failed c && !read_shows_multiplexing c)

/-- The test at event count `event_num` runs without a failed call and one of its reads
shows multiplexing. -/
def CounterDetector.test_multiplexed (k : Kernel) (cpu_id event_num : Nat)
    (d : CounterDetector) (hist : History) : Bool :=
  (new_calls hist (CounterDetector.test k cpu_id event_num d hist).2.2).all
      (fun c => !call_failed c) &&
    (new_calls hist (CounterDetector.test k cpu_id event_num d hist).2.2).any
      read_shows_multiplexing

/-- All opens, ioctls and reads of the stress test of CPU `cpu_id` succeed and multiplexing
is first observed at event count `start + count`: the tests at `start, …, start + count - 1`
are quiet and the test at `start + count` is multiplexed. -/
def CounterDetector.first_multiplexing_at (k : Kernel) (cpu_id : Nat) :
    Nat → Nat → CounterDetector → History → Bool
  | 0, start, d, hist => CounterDetector.test_multiplexed k cpu_id start d hist
  | count + 1, start, d, hist =>
    CounterDetector.test_quiet k cpu_id start d hist &&
      CounterDetector.first_multiplexing_at k cpu_id count (start + 1)
        (CounterDetector.test k cpu_id start d hist).2.1
        (CounterDetector.test k cpu_id start d hist).2.2

/-! ## The event scheduler (`include/hperf/event_scheduler.h`,
`src/hperf/event_scheduler.cpp`) -/

/-- The size in bytes of a `GroupReadBuffer` for `event_num` events: the header of three
64-bit words and one entry of two 64-bit words per event. -/
def GroupReadBuffer.size (event_num : Nat) : Nat := 24 + event_num * 16

/-- The data members of the class `EventScheduler`; a read buffer is represented by the
number of events it was constructed for. -/
structure EventScheduler where
  fds_ : List (List Int)
  read_buffers_ : List Nat
  pmu_config_ : PMUConfig
  target_pid_ : Int
  target_cpu_ : Int
  active_group_idx_ : Nat
  initialized_ : Bool
deriving DecidableEq

/-- The constructor `EventScheduler::EventScheduler(pmu_config, target_pid, target_cpu)`. -/
def EventScheduler.new (pmu_config : PMUConfig) (target_pid target_cpu : Int) :
    EventScheduler :=
  { fds_ := []
    read_buffers_ := (List.range pmu_config.get_event_group_num).map (fun i =>
      pmu_config.get_fixed_events.length + (pmu_config.get_event_group_by_idx i).length)
    pmu_config_ := pmu_config
    target_pid_ := target_pid
    target_cpu_ := target_cpu
    active_group_idx_ := 0
    initialized_ := false }

/-- The inner loop of `EventScheduler::cleanup_fds`: the descriptors of one group. -/
def EventScheduler.close_group (k : Kernel) : List Int → History → History
  | [], hist => hist
  | fd :: fds, hist =>
    if fd ≠ -1 then EventScheduler.close_group k fds (sys k hist (Syscall.close fd)).2
    else EventScheduler.close_group k fds hist

/-- The outer loop of `EventScheduler::cleanup_fds`. -/
def EventScheduler.close_groups (k : Kernel) : List (List Int) → History → History
  | [], hist => hist
  | group_fds :: groups, hist =>
    EventScheduler.close_groups k groups (EventScheduler.close_group k group_fds hist)

/-- The method `EventScheduler::cleanup_fds`. -/
def EventScheduler.cleanup_fds (k : Kernel) (s : EventScheduler) (hist : History) :
    EventScheduler × History :=
  ({ s with fds_ := [] }, EventScheduler.close_groups k s.fds_ hist)

/-- The static method `EventScheduler::configure_event`; `read_format` stays zero, as
`memset` left it, for an event that is not a group leader. -/
def EventScheduler.configure_event (type config : Nat) (is_group_leader : Bool) :
    PerfEventAttr :=
  if is_group_leader then
    { type := type
      config := config
      read_format := PERF_FORMAT_TOTAL_TIME_ENABLED ||| PERF_FORMAT_TOTAL_TIME_RUNNING |||
        PERF_FORMAT_ID ||| PERF_FORMAT_GROUP
      disabled := 1 }
  else { type := type, config := config, read_format := 0, disabled := 0 }

/-- The static method `EventScheduler::perf_event_open`. -/
def EventScheduler.perf_event_open (k : Kernel) (hist : History) (pe : PerfEventAttr)
    (pid cpu group_fd : Int) (flags : Nat) : SysResult × History :=
  sys k hist (Syscall.perf_event_open pe pid cpu group_fd flags)

/-- The loop `for (const auto &pmu_event : fixed_events_and_schedulable_events)` of
`initialize` for one group: `group_fds` is `fds_[i]`. The result is `false` when an open
failed. -/
def EventScheduler.open_group (k : Kernel) (target_pid target_cpu : Int) :
    List PMUEvent → Int → Bool → List Int → History → Bool × List Int × History
  | [], _, _, group_fds, hist => (true, group_fds, hist)
  | pmu_event :: events, group_leader_fd, is_first_in_group, group_fds, hist =>
    if (EventScheduler.perf_event_open k hist
        (EventScheduler.configure_event PERF_TYPE_RAW pmu_event.encoding is_first_in_group)
        target_pid target_cpu group_leader_fd 0).1.ret = -1 then
      (false, group_fds, (EventScheduler.perf_event_open k hist
        (EventScheduler.configure_event PERF_TYPE_RAW pmu_event.encoding is_first_in_group)
        target_pid target_cpu group_leader_fd 0).2)
    else
      EventScheduler.open_group k target_pid target_cpu events
        (if is_first_in_group then (EventScheduler.perf_event_open k hist
          (EventScheduler.configure_event PERF_TYPE_RAW pmu_event.encoding is_first_in_group)
          target_pid target_cpu group_leader_fd 0).1.ret else group_leader_fd)
        false
        (group_fds ++ [(EventScheduler.perf_event_open k hist
          (EventScheduler.configure_event PERF_TYPE_RAW pmu_event.encoding is_first_in_group)
          target_pid target_cpu group_leader_fd 0).1.ret])
        (EventScheduler.perf_event_open k hist
          (EventScheduler.configure_event PERF_TYPE_RAW pmu_event.encoding is_first_in_group)
          target_pid target_cpu group_leader_fd 0).2

/-- The loop `for (size_t i = 0; i < event_group_num; ++i)` of `initialize`, with
`remaining` groups left from group `i` on; `fds` is `fds_`. -/
def EventScheduler.open_groups (k : Kernel) (s : EventScheduler) :
    Nat → Nat → List (List Int) → History → Bool × List (List Int) × History
  | 0, _, fds, hist => (true, fds, hist)
  | remaining + 1, i, fds, hist =>
    if (EventScheduler.open_group k s.target_pid_ s.target_cpu_
        (s.pmu_config_.get_fixed_events ++ s.pmu_config_.get_event_group_by_idx i)
        (-1) true (fds.getD i []) hist).1 = false then
      (false,
        fds.set i (EventScheduler.open_group k s.target_pid_ s.target_cpu_
          (s.pmu_config_.get_fixed_events ++ s.pmu_config_.get_event_group_by_idx i)
          (-1) true (fds.getD i []) hist).2.1,
        (EventScheduler.open_group k s.target_pid_ s.target_cpu_
          (s.pmu_config_.get_fixed_events ++ s.pmu_config_.get_event_group_by_idx i)
          (-1) true (fds.getD i []) hist).2.2)
    else
      EventScheduler.open_groups k s remaining (i + 1)
        (fds.set i (EventScheduler.open_group k s.target_pid_ s.target_cpu_
          (s.pmu_config_.get_fixed_events ++ s.pmu_config_.get_event_group_by_idx i)
          (-1) true (fds.getD i []) hist).2.1)
        (EventScheduler.open_group k s.target_pid_ s.target_cpu_
          (s.pmu_config_.get_fixed_events ++ s.pmu_config_.get_event_group_by_idx i)
          (-1) true (fds.getD i []) hist).2.2

/-- The call `fds_.resize(n)`: the first `n` groups are kept and empty groups are added. -/
def resize_fds (fds : List (List Int)) (n : Nat) : List (List Int) :=
  fds.take n ++ List.replicate (n - fds.length) []

/-- The method `EventScheduler::initialize`. -/
def EventScheduler.initialize (k : Kernel) (s : EventScheduler) (hist : History) :
    Bool × EventScheduler × History :=
  if s.initialized_ = true then (true, s, hist)
  else if (EventScheduler.open_groups k s s.pmu_config_.get_event_group_num 0
      (resize_fds s.fds_ s.pmu_config_.get_event_group_num) hist).1 = false then
    (false,
      EventScheduler.cleanup_fds k
        { s with fds_ := (EventScheduler.open_groups k s s.pmu_config_.get_event_group_num 0
            (resize_fds s.fds_ s.pmu_config_.get_event_group_num) hist).2.1 }
        (EventScheduler.open_groups k s s.pmu_config_.get_event_group_num 0
          (resize_fds s.fds_ s.pmu_config_.get_event_group_num) hist).2.2)
  else
    (true,
      { s with
        fds_ := (EventScheduler.open_groups k s s.pmu_config_.get_event_group_num 0
          (resize_fds s.fds_ s.pmu_config_.get_event_group_num) hist).2.1
        initialized_ := true
        active_group_idx_ := 0 },
      (EventScheduler.open_groups k s s.pmu_config_.get_event_group_num 0
        (resize_fds s.fds_ s.pmu_config_.get_event_group_num) hist).2.2)

/-- The method `EventScheduler::control_group`. -/
def EventScheduler.control_group (k : Kernel) (group_leader_fd : Int) (request : IoctlRequest)
    (hist : History) : Bool × History :=
  if group_leader_fd = -1 then (false, hist)
  else if (sys k hist (Syscall.ioctl group_leader_fd request PERF_IOC_FLAG_GROUP)).1.ret = -1 then
    (false, (sys k hist (Syscall.ioctl group_leader_fd request PERF_IOC_FLAG_GROUP)).2)
  else (true, (sys k hist (Syscall.ioctl group_leader_fd request PERF_IOC_FLAG_GROUP)).2)

/-- The descriptor `fds_[group_idx][0]`, the leader of a group. The index is in range in
every state the theorems below consider (`EventScheduler.well_formed`). -/
def EventScheduler.leader_fd (s : EventScheduler) (group_idx : Nat) : Int :=
  (s.fds_.getD group_idx []).getD 0 (-1)

/-- The common body of `reset_active_group`, `enable_active_group` and
`disable_active_group`. -/
def EventScheduler.control_active_group (k : Kernel) (s : EventScheduler)
    (request : IoctlRequest) (hist : History) : Bool × History :=
  if s.initialized_ = false ∨ s.fds_ = [] ∨ s.fds_.getD s.active_group_idx_ [] = [] then
    (false, hist)
  else EventScheduler.control_group k (s.leader_fd s.active_group_idx_) request hist

/-- The method `EventScheduler::reset_active_group`. -/
def EventScheduler.reset_active_group (k : Kernel) (s : EventScheduler) (hist : History) :
    Bool × History :=
  EventScheduler.control_active_group k s IoctlRequest.RESET hist

/-- The method `EventScheduler::enable_active_group`. -/
def EventScheduler.enable_active_group (k : Kernel) (s : EventScheduler) (hist : History) :
    Bool × History :=
  EventScheduler.control_active_group k s IoctlRequest.ENABLE hist

/-- The method `EventScheduler::disable_active_group`. -/
def EventScheduler.disable_active_group (k : Kernel) (s : EventScheduler) (hist : History) :
    Bool × History :=
  EventScheduler.control_active_group k s IoctlRequest.DISABLE hist

/-- The method `EventScheduler::get_num_event_groups`. -/
def EventScheduler.get_num_event_groups (s : EventScheduler) : Nat :=
  if s.initialized_ = false then 0 else s.fds_.length

/-- The method `EventScheduler::switch_to_next_group`. -/
def EventScheduler.switch_to_next_group (k : Kernel) (s : EventScheduler) (hist : History) :
    Bool × EventScheduler × History :=
  if s.initialized_ = false ∨ s.fds_ = [] ∨ s.get_num_event_groups ≤ 1 then
    if s.get_num_event_groups = 1 ∧ s.fds_.getD 0 [] ≠ [] then
      if (s.reset_active_group k hist).1 = false then (false, s, (s.reset_active_group k hist).2)
      else
        ((s.enable_active_group k (s.reset_active_group k hist).2).1, s,
          (s.enable_active_group k (s.reset_active_group k hist).2).2)
    else (false, s, hist)
  else if (EventScheduler.reset_active_group k
      { s with active_group_idx_ := (s.active_group_idx_ + 1) % s.get_num_event_groups }
      (s.disable_active_group k hist).2).1 = false then
    (false,
      { s with active_group_idx_ := (s.active_group_idx_ + 1) % s.get_num_event_groups },
      (EventScheduler.reset_active_group k
        { s with active_group_idx_ := (s.active_group_idx_ + 1) % s.get_num_event_groups }
        (s.disable_active_group k hist).2).2)
  else
    ((EventScheduler.enable_active_group k
        { s with active_group_idx_ := (s.active_group_idx_ + 1) % s.get_num_event_groups }
        (EventScheduler.reset_active_group k
          { s with active_group_idx_ := (s.active_group_idx_ + 1) % s.get_num_event_groups }
          (s.disable_active_group k hist).2).2).1,
      { s with active_group_idx_ := (s.active_group_idx_ + 1) % s.get_num_event_groups },
      (EventScheduler.enable_active_group k
        { s with active_group_idx_ := (s.active_group_idx_ + 1) % s.get_num_event_groups }
        (EventScheduler.reset_active_group k
          { s with active_group_idx_ := (s.active_group_idx_ + 1) % s.get_num_event_groups }
          (s.disable_active_group k hist).2).2).2)

/-- The `ioctl` on a group leader that `control_group` issues. -/
def group_ioctl (group_leader_fd : Int) (request : IoctlRequest) : Syscall :=
  Syscall.ioctl group_leader_fd request PERF_IOC_FLAG_GROUP

/-- The states of an initialized scheduler: the active index is in range, and every group
has a leader descriptor, which is not `-1`. -/
def EventScheduler.well_formed (s : EventScheduler) : Prop :=
  s.initialized_ = true ∧ s.active_group_idx_ < s.fds_.length ∧
    ∀ i, i < s.fds_.length → s.fds_.getD i [] ≠ [] ∧ s.leader_fd i ≠ -1

instance (s : EventScheduler) : Decidable s.well_formed := by
  unfold EventScheduler.well_formed
  infer_instance

/-- A kernel that refuses every `ioctl` of the given request and accepts every other call,
handing out the descriptors 3, 4, 5, … -/
def kernel_refusing_ioctl (request : IoctlRequest) : Kernel := fun hist call =>
  match call with
  | Syscall.ioctl _ r _ => if r = request then ⟨-1, []⟩ else ⟨0, []⟩
  | _ => kernel_with_counters 0 hist call

/-- The scheduler of CPU 0 for `two_group_config` after a successful `initialize`: the
descriptors are 3, 4 for group 0 and 5, 6 for group 1. -/
def two_group_scheduler : EventScheduler :=
  ( EventScheduler.initialize (kernel_with_counters 4)
    (EventScheduler.new two_group_config (-1) 0) []).2.1

/-- The scheduler of CPU 0 for a catalog with the single group `test_c` after a successful
`initialize`. -/
def one_group_scheduler : EventScheduler :=
  ( EventScheduler.initialize (kernel_with_counters 4)
    (EventScheduler.new ⟨catalog_fixed_events, [test_c]⟩ (-1) 0) []).2.1

/-- The leaders whose group is enabled after the calls `calls`, starting from the enabled
leaders `enabled`: a successful `PERF_EVENT_IOC_ENABLE` on a leader enables its group, a
successful `PERF_EVENT_IOC_DISABLE` disables it, and no other call changes what is enabled
(every group is opened disabled). -/
def enabled_groups : List Int → History → List Int
  | enabled, [] => enabled
  | enabled, (Syscall.ioctl fd IoctlRequest.ENABLE _, r) :: calls =>
    enabled_groups (if r.ret = -1 ∨ fd ∈ enabled then enabled else fd :: enabled) calls
  | enabled, (Syscall.ioctl fd IoctlRequest.DISABLE _, r) :: calls =>
    enabled_groups (if r.ret = -1 then enabled else enabled.erase fd) calls
  | enabled, _ :: calls => enabled_groups enabled calls

/-- The scheduler after `n` calls of `switch_to_next_group`. -/
def EventScheduler.switch_times (k : Kernel) :
    Nat → EventScheduler → History → EventScheduler × History
  | 0, s, hist => (s, hist)
  | n + 1, s, hist =>
    EventScheduler.switch_times k n (s.switch_to_next_group k hist).2.1
      (s.switch_to_next_group k hist).2.2

/-- The calls `enable_active_group()` and then `n` times `switch_to_next_group()`. -/
def EventScheduler.enable_then_switch (k : Kernel) (n : Nat) (s : EventScheduler)
    (hist : History) : EventScheduler × History :=
  EventScheduler.switch_times k n s (s.enable_active_group k hist).2

/-- The descriptors open after the calls `calls`, starting from the open descriptors
`opened`: a successful `perf_event_open` adds the descriptor it returns and a `close` removes
the descriptor it is given. -/
def open_handles : List Int → History → List Int
  | opened, [] => opened
  | opened, (Syscall.perf_event_open _ _ _ _ _, r) :: calls =>
    open_handles (if r.ret = -1 then opened else r.ret :: opened) calls
  | opened, (Syscall.close fd, _) :: calls => open_handles (opened.erase fd) calls
  | opened, _ :: calls => open_handles opened calls

/-- A `perf_event_open` call that returned `-1`. -/
def open_failed (c : Syscall × SysResult) : Bool :=
  match c.1 with
  | Syscall.perf_event_open _ _ _ _ _ => decide (c.2.ret = -1)
  | _ => false

/-- A kernel with room for `limit` descriptors: `perf_event_open` hands out 3, 4, 5, … until
`limit` descriptors have been handed out and fails from then on; every other call
succeeds. -/
def kernel_with_descriptors (limit : Nat) : Kernel := fun hist call =>
  match call with
  | Syscall.perf_event_open _ _ _ _ _ =>
    if (hist.filter (fun c => match c.1 with
        | Syscall.perf_event_open _ _ _ _ _ => true
        | _ => false)).length < limit then kernel_with_counters 0 hist call
    else ⟨-1, []⟩
  | _ => ⟨0, []⟩

/-! ## The merges of `adaptive_grouping` -/

/-- The number of merges the `while (true)` loop of `adaptive_grouping` performs in at most
`fuel` passes: the passes that do not break. -/
def adaptive_grouping_merges (S : StdSort) (programmable_counters_num : Nat) :
    Nat → List (List PMUEvent) → Nat
  | 0, _ => 0
  | fuel + 1, event_groups =>
    match adaptive_grouping_step S event_groups programmable_counters_num with
    | none => 0
    | some merged_groups =>
      adaptive_grouping_merges S programmable_counters_num fuel merged_groups + 1

/-! ## The driver (`src/hperf/main.cpp`) -/

/-- The loop `for (const auto cpu : config.cpu_id_list)` of `system_wide_measurement`: the
schedulers it constructs, each with `EventScheduler(pmu_config, -1, cpu)`; the loop ends at
the first scheduler whose `initialize()` fails. -/
def system_wide_schedulers (k : Kernel) (pmu_config : PMUConfig) :
    List Int → History → List EventScheduler
  | [], _ => []
  | cpu :: cpus, hist =>
    if ( EventScheduler.initialize k (EventScheduler.new pmu_config (-1) cpu) hist).1 = false
    then [EventScheduler.new pmu_config (-1) cpu]
    else
      EventScheduler.new pmu_config (-1) cpu ::
        system_wide_schedulers k pmu_config cpus
          ( EventScheduler.initialize k (EventScheduler.new pmu_config (-1) cpu) hist).2.2

/-- The scheduler `per_process_measurement` constructs:
`EventScheduler(pmu_config, config.target_pid, -1)`. -/
def per_process_scheduler (pmu_config : PMUConfig) (config : ProfileConfig) : EventScheduler :=
  EventScheduler.new pmu_config config.target_pid (-1)

/-- What `main` learns from the system between `parse` and the measurement: the value
`fork()` returns to the parent in `execute_command`, the value of `kill(target_pid, 0)`, and
whether the output file can be opened. -/
structure Environment where
  child_pid : Int
  kill_result : Int
  output_file_opens : Bool
deriving DecidableEq

/-- The configuration `main` hands to the measurement: with a command, `target_pid` is the
PID of the child. -/
def main_config (config : ProfileConfig) (env : Environment) : ProfileConfig :=
  if config.mode = ProfileMode.SUBPROCESS then { config with target_pid := env.child_pid }
  else config

/-- The schedulers `main` constructs after `parse` has returned `true` with `config`: none
when `main` returns before the measurement (`--detect-counters`, a failed `fork`, a target
process that does not answer `kill`, an output file that cannot be opened), those of
`system_wide_measurement` in system-wide mode and the one of `per_process_measurement`
otherwise. -/
def main_schedulers (k : Kernel) (pmu_config : PMUConfig) (config : ProfileConfig)
    (env : Environment) (hist : History) : List EventScheduler :=
  if config.detect_counters = true then []
  else if config.mode = ProfileMode.SUBPROCESS ∧ env.child_pid = -1 then []
  else if (main_config config env).target_pid ≠ -1 ∧ env.kill_result = -1 then []
  else if config.output_filename ≠ "" ∧ env.output_file_opens = false then []
  else if config.mode = ProfileMode.SYSTEM_WIDE then
    system_wide_schedulers k pmu_config (main_config config env).cpu_id_list hist
  else [per_process_scheduler pmu_config (main_config config env)]

/-- The method `CounterDetector::get_detected_general_counter_num()` (without argument): the
smallest entry; `none` stands for the undefined `*min_element` of an empty vector. -/
def CounterDetector.get_detected_general_counter_num (d : CounterDetector) : Option Int :=
  if d.detected_ = false then some (-1) else d.detected_general_counter_nums_.min?

/-- The argument of `adaptive_grouping` in `main`:
`get_detected_general_counter_num() - get_fixed_events().size()`. The `int` is converted to
`size_t` and the subtraction is that of `size_t`, modulo `2 ^ 64`. -/
def adaptive_grouping_budget (detected : Int) (fixed_event_num : Nat) : Nat :=
  ((detected - (fixed_event_num : Int)) % 2 ^ 64).toNat

/-- The block `if (profile_config.optimize_event_groups)` of `main` after `detect()`: the
catalog after `adaptive_grouping`. -/
def main_optimize_event_groups (S : StdSort) (d : CounterDetector) (pmu_config : PMUConfig) :
    Option PMUConfig :=
  match d.get_detected_general_counter_num with
  | none => none
  | some detected =>
    some (pmu_config.adaptive_grouping S
      (adaptive_grouping_budget detected pmu_config.get_fixed_events.length))

/-! ## The opens of `initialize` -/

/-- The encoding a `perf_event_open` call asks for and the handle it returned. -/
def opened_event (c : Syscall × SysResult) : Option (Nat × Int) :=
  match c.1 with
  | Syscall.perf_event_open pe _ _ _ _ => some (pe.config, c.2.ret)
  | _ => none

/-- The `perf_event_open` calls `initialize` makes for the events of one group, in their
order, when `leader` is the handle the first of them returned: the first event is opened as
the leader (no group reference, `disabled = 1`, the read format
`TOTAL_TIME_ENABLED | TOTAL_TIME_RUNNING | ID | GROUP`), every later event with the group
reference `leader`, `disabled = 0` and `read_format = 0`. -/
def group_open_calls (target_pid target_cpu leader : Int) : List PMUEvent → List Syscall
  | [] => []
  | pmu_event :: events =>
    Syscall.perf_event_open
      ⟨PERF_TYPE_RAW, pmu_event.encoding,
        PERF_FORMAT_TOTAL_TIME_ENABLED ||| PERF_FORMAT_TOTAL_TIME_RUNNING |||
          PERF_FORMAT_ID ||| PERF_FORMAT_GROUP, 1⟩
      target_pid target_cpu (-1) 0 ::
    events.map (fun e =>
      Syscall.perf_event_open ⟨PERF_TYPE_RAW, e.encoding, 0, 0⟩ target_pid target_cpu leader 0)

/-- The calls `g` are the opens of the first `g.length` events of `events` as one group, the
group reference of the later ones being the handle the first call returned. -/
def opens_of_group (target_pid target_cpu : Int) (events : List PMUEvent) (g : History) :
    Prop :=
  g.length ≤ events.length ∧
  g.map Prod.fst = group_open_calls target_pid target_cpu
    ((g.head?.map (fun c => c.2.ret)).getD (-1)) (events.take g.length)

instance (target_pid target_cpu : Int) (events : List PMUEvent) (g : History) :
    Decidable (opens_of_group target_pid target_cpu events g) := by
  unfold opens_of_group
  infer_instance

/-! ## A kernel that never multiplexes -/

/-- A kernel every call of which succeeds and that never multiplexes: `perf_event_open` hands
out the descriptors 3, 4, 5, … and every `read` reports `time_running = time_enabled`. -/
def kernel_without_multiplexing : Kernel := fun hist call =>
  match call with
  | Syscall.perf_event_open _ _ _ _ _ =>
    ⟨3 + ((hist.filter (fun c => match c.1 with
      | Syscall.perf_event_open _ _ _ _ _ => true
      | _ => false)).length : Int), []⟩
  | Syscall.read _ count => ⟨count, [0, 100, 100, 0]⟩
  | _ => ⟨0, []⟩

/-- The number of `perf_event_open` calls for CPU `cpu_id` in a list of calls. -/
def opens_on_cpu (cpu_id : Nat) (calls : History) : Nat :=
  calls.countP (fun c => match c.1 with
    | Syscall.perf_event_open _ _ cpu _ _ => decide (cpu = (cpu_id : Int))
    | _ => false)

/-! ## The double-precision scaling of `estimation` -/

/-- The loop of `floor_log2`; `fuel` bounds the number of halvings. -/
def floor_log2_aux : Nat → Nat → Nat
  | 0, _ => 0
  | fuel + 1, n => if n < 2 then 0 else floor_log2_aux fuel (n / 2) + 1

/-- The position of the leading bit of `n > 0`: the `e` with `2 ^ e ≤ n < 2 ^ (e + 1)`. -/
def floor_log2 (n : Nat) : Nat := floor_log2_aux n n

/-- The IEEE 754 binary64 number nearest to the fraction `p / q` (`q > 0`), ties to the
even significand, as a fraction again: the result of a correctly rounded `double` operation
whose exact value is `p / q`. With `a` and `b` the leading-bit positions of `p` and `q`, the
fraction is scaled by the power of two `2 ^ (b + 53) / 2 ^ e`, with `e` either `a` or
`a + 1`, that brings it into `[2 ^ 52, 2 ^ 53)`, rounded to an integer `m` there (the
significand of 53 bits), and `m` is scaled back. The exponent is not bounded: no value of
`estimation` leaves the range of the normal numbers (`2 ^ -64 < T / E < 2 ^ 64` for two
`uint64_t`, and a product below `2 ^ 128`). -/
def round_binary64 (p q : Nat) : Nat × Nat :=
  if p = 0 then (0, 1)
  else
    let a := floor_log2 p
    let b := floor_log2 q
    let e := if q * 2 ^ a ≤ p * 2 ^ b then a + 1 else a
    let num := p * 2 ^ (b + 53)
    let den := q * 2 ^ e
    let n := num / den
    let r := num % den
    let m := if 2 * r < den then n else if den < 2 * r then n + 1 else n + n % 2
    (m * 2 ^ (e - (b + 53)), 2 ^ (b + 53 - e))

/-- The conversion `(double)n` of a `uint64_t`. -/
def binary64_of_uint64 (n : Nat) : Nat × Nat := round_binary64 n 1

/-- The quotient `x / y` of two `double`s, `y` not zero. -/
def binary64_div (x y : Nat × Nat) : Nat × Nat := round_binary64 (x.1 * y.2) (x.2 * y.1)

/-- The product `x * y` of two `double`s. -/
def binary64_mul (x y : Nat × Nat) : Nat × Nat := round_binary64 (x.1 * y.1) (x.2 * y.2)

/-- The conversion `(uint64_t)x` of a non-negative `double`: the fraction is dropped; the
conversion is undefined when the integer part does not fit. -/
def binary64_to_uint64 (x : Nat × Nat) : Option Nat :=
  if x.1 / x.2 < 2 ^ 64 then some (x.1 / x.2) else none

/-- The value `(uint64_t)(total_value * ((double)total_time_in_ns_ / enabled_time_in_ns_[i]))`
of the second loop of `Reporter::estimation`; `none` when the divisor is zero (the ratio is
then infinite or not a number) or the product does not fit a `uint64_t`. -/
def binary64_scale (total_value total_time enabled_time : Nat) : Option Nat :=
  if enabled_time = 0 then none
  else
    binary64_to_uint64 (binary64_mul (binary64_of_uint64 total_value)
      (binary64_div (binary64_of_uint64 total_time) (binary64_of_uint64 enabled_time)))

/-- The scaling of `estimation` as a total function, to run `estimation`: the binary64 result
of `binary64_scale`; where the C++ expression has no defined value the result is left
at 0. -/
def double_scale (total_value total_time enabled_time : Nat) : Nat :=
  (binary64_scale total_value total_time enabled_time).getD 0

/-- Records of two intervals for `two_group_config`: group 0 active for the first 3 s, with
the count 27 for its event, group 1 for the following 10 s. -/
def long_second_interval_records : List Record :=
  [⟨3000000000, -1, 0, 0, 900⟩, ⟨3000000000, -1, 0, 1, 27⟩,
   ⟨13000000000, -1, 1, 0, 250⟩, ⟨13000000000, -1, 1, 1, 50⟩]

/-- The estimator state after `long_second_interval_records`. -/
def long_second_interval_reporter : Reporter :=
  { pmu_config_ := two_group_config
    stat_ := [[⟨900, 0⟩, ⟨27, 0⟩], [⟨250, 0⟩, ⟨50, 0⟩]]
    enabled_time_in_ns_ := [3000000000, 10000000000]
    total_time_in_ns_ := 13000000000
    prev_timestamp_ := 13000000000
    fixed_event_num_ := 1 }

/-! ## Basic facts: `set_union`, the index loops, one pass of the main loop -/

theorem set_union_nil_left {α : Type} (comp : α → α → Bool) (ys : List α) :
    set_union comp [] ys = ys := rfl

theorem set_union_nil_right {α : Type} (comp : α → α → Bool) (xs : List α) :
    set_union comp xs [] = xs := by
  cases xs <;> rfl

theorem set_union_cons_cons {α : Type} (comp : α → α → Bool) (x y : α) (xs ys : List α) :
    set_union comp (x :: xs) (y :: ys) =
      if comp y x then y :: set_union comp (x :: xs) ys
      else if comp x y then x :: set_union comp xs (y :: ys)
      else x :: set_union comp xs ys := rfl

theorem set_union_length_le {α : Type} (comp : α → α → Bool) (xs ys : List α) :
    (set_union comp xs ys).length ≤ xs.length + ys.length := by
  induction xs generalizing ys with
  | nil => simp [set_union_nil_left]
  | cons x xs ihx =>
    induction ys with
    | nil => simp [set_union_nil_right]
    | cons y ys ihy =>
      rw [set_union_cons_cons]
      split
      · simp only [List.length_cons] at ihy ⊢; omega
      · split
        · have := ihx (y :: ys); simp only [List.length_cons] at this ⊢; omega
        · have := ihx ys; simp only [List.length_cons] at this ⊢; omega

theorem foldl_index_lt (n : Nat) (f : Nat → Nat → Nat) (l : List Nat)
    (hl : ∀ i ∈ l, i < n) (hf : ∀ s i, f s i = s ∨ f s i = i) (s : Nat) (hs : s < n) :
    l.foldl f s < n := by
  induction l generalizing s with
  | nil => simpa using hs
  | cons a l ih =>
    rw [List.foldl_cons]
    apply ih (fun i hi => hl i (List.mem_cons_of_mem _ hi))
    rcases hf s a with h | h
    · rw [h]; exact hs
    · rw [h]; exact hl a (List.mem_cons_self _ _)

theorem get_smallest_event_group_idx_lt (G : List (List PMUEvent)) (h : 0 < G.length) :
    get_smallest_event_group_idx G < G.length := by
  unfold get_smallest_event_group_idx
  apply foldl_index_lt G.length _ _ _ _ 0 h
  · intro i hi
    rw [List.mem_range'_1] at hi
    omega
  · intro s i
    by_cases hc : (G.getD i []).length < (G.getD s []).length
    · right; exact if_pos hc
    · left; exact if_neg hc

theorem find_merge_partner_body_fst (S : StdSort) (G : List (List PMUEvent)) (i : Nat)
    (st : Nat × Nat) (k : Nat) :
    (find_merge_partner_body S G i st k).1 = st.1 ∨ (find_merge_partner_body S G i st k).1 = k := by
  unfold find_merge_partner_body
  split
  · split
    · right; rfl
    · left; rfl
  · left; rfl

theorem find_merge_partner_fst_lt (S : StdSort) (G : List (List PMUEvent)) (i : Nat)
    (h : 0 < G.length) : (find_merge_partner S G i).1 < G.length := by
  unfold find_merge_partner
  have key : ∀ (l : List Nat) (st : Nat × Nat), (∀ k ∈ l, k < G.length) → st.1 < G.length →
      (l.foldl (find_merge_partner_body S G i) st).1 < G.length := by
    intro l
    induction l with
    | nil => intro st _ hs; simpa using hs
    | cons a l ih =>
      intro st hl hs
      rw [List.foldl_cons]
      apply ih _ (fun k hk => hl k (List.mem_cons_of_mem _ hk))
      rcases find_merge_partner_body_fst S G i st a with h1 | h1
      · rw [h1]; exact hs
      · rw [h1]; exact hl a (List.mem_cons_self _ _)
  exact key _ _ (fun k hk => List.mem_range.1 hk) h

theorem adaptive_grouping_step_eq (S : StdSort) (G : List (List PMUEvent)) (k : Nat) :
    adaptive_grouping_step S G k =
      if G.length < 2 then none
      else if count_union_by_encoding S (G.getD (get_smallest_event_group_idx G) [])
          (G.getD (find_merge_partner S G (get_smallest_event_group_idx G)).1 []) ≤ k then
        some (((G.eraseIdx
            (if get_smallest_event_group_idx G >
                (find_merge_partner S G (get_smallest_event_group_idx G)).1
              then get_smallest_event_group_idx G
              else (find_merge_partner S G (get_smallest_event_group_idx G)).1)).eraseIdx
            (if get_smallest_event_group_idx G >
                (find_merge_partner S G (get_smallest_event_group_idx G)).1
              then (find_merge_partner S G (get_smallest_event_group_idx G)).1
              else get_smallest_event_group_idx G)) ++
          [union_by_encoding S (G.getD (get_smallest_event_group_idx G) [])
            (G.getD (find_merge_partner S G (get_smallest_event_group_idx G)).1 [])])
      else none := rfl

theorem find_merge_partner_fst_ne (S : StdSort) (G : List (List PMUEvent)) (i : Nat) :
    (find_merge_partner S G i).1 = 0 ∨ (find_merge_partner S G i).1 ≠ i := by
  unfold find_merge_partner
  have key : ∀ (l : List Nat) (st : Nat × Nat), (st.1 = 0 ∨ st.1 ≠ i) →
      ((l.foldl (find_merge_partner_body S G i) st).1 = 0 ∨
        (l.foldl (find_merge_partner_body S G i) st).1 ≠ i) := by
    intro l
    induction l with
    | nil => intro st hs; simpa using hs
    | cons a l ih =>
      intro st hs
      rw [List.foldl_cons]
      apply ih
      unfold find_merge_partner_body
      split
      · split
        · right; assumption
        · exact hs
      · exact hs
  exact key _ _ (Or.inl rfl)

theorem length_eraseIdx_eraseIdx {α : Type} (l : List α) (lo hi : Nat)
    (h1 : lo < hi ∨ (lo = 0 ∧ hi = 0)) (h2 : hi < l.length) (h3 : 2 ≤ l.length) :
    ((l.eraseIdx hi).eraseIdx lo).length + 2 = l.length := by
  rw [List.length_eraseIdx, List.length_eraseIdx]
  rw [if_pos h2, if_pos (by omega)]
  omega

theorem adaptive_grouping_step_length (S : StdSort) (G G' : List (List PMUEvent)) (k : Nat)
    (h : adaptive_grouping_step S G k = some G') : G'.length + 1 = G.length := by
  rw [adaptive_grouping_step_eq] at h
  have hi := get_smallest_event_group_idx_lt G
  have hj := find_merge_partner_fst_lt S G (get_smallest_event_group_idx G)
  have hne := find_merge_partner_fst_ne S G (get_smallest_event_group_idx G)
  generalize get_smallest_event_group_idx G = i at h hi hj hne
  generalize (find_merge_partner S G i).1 = j at h hi hj hne
  by_cases hlen : G.length < 2
  · rw [if_pos hlen] at h; exact absurd h (by simp)
  · rw [if_neg hlen] at h
    split at h
    · simp only [Option.some.injEq] at h
      subst h
      rw [List.length_append, List.length_singleton]
      have := length_eraseIdx_eraseIdx G (if i > j then j else i) (if i > j then i else j)
        (by split <;> omega) (by split <;> omega) (by omega)
      omega
    · exact absurd h (by simp)

theorem adaptive_grouping_loop_terminal (S : StdSort) (k fuel : Nat) (G : List (List PMUEvent))
    (h : G.length ≤ fuel) :
    adaptive_grouping_step S (adaptive_grouping_loop S k fuel G) k = none := by
  induction fuel generalizing G with
  | zero =>
    have : G.length < 2 := by omega
    simp [adaptive_grouping_loop, adaptive_grouping_step, this]
  | succ n ih =>
    unfold adaptive_grouping_loop
    cases hstep : adaptive_grouping_step S G k with
    | none => simpa using hstep
    | some G' =>
      have := adaptive_grouping_step_length S G G' k hstep
      exact ih G' (by omega)

theorem adaptive_grouping_terminal (S : StdSort) (k : Nat) (G : List (List PMUEvent)) :
    adaptive_grouping_step S (adaptive_grouping S G k) k = none :=
  adaptive_grouping_loop_terminal S k G.length G (le_refl _)

theorem adaptive_grouping_loop_of_terminal (S : StdSort) (k fuel : Nat) (G : List (List PMUEvent))
    (h : adaptive_grouping_step S G k = none) : adaptive_grouping_loop S k fuel G = G := by
  cases fuel with
  | zero => rfl
  | succ n => simp [adaptive_grouping_loop, h]

/-- Once `event_groups.size()` passes are allowed, allowing more makes no difference. -/
theorem adaptive_grouping_loop_fuel (S : StdSort) (k fuel : Nat) (G : List (List PMUEvent))
    (h : G.length ≤ fuel) :
    adaptive_grouping_loop S k fuel G = adaptive_grouping_loop S k G.length G := by
  induction fuel generalizing G with
  | zero =>
    have h0 : G.length = 0 := by omega
    rw [h0]
  | succ n ih =>
    cases hstep : adaptive_grouping_step S G k with
    | none =>
      rw [adaptive_grouping_loop_of_terminal S k _ G hstep,
        adaptive_grouping_loop_of_terminal S k _ G hstep]
    | some G' =>
      have hlen := adaptive_grouping_step_length S G G' k hstep
      have e1 : adaptive_grouping_loop S k (n + 1) G = adaptive_grouping_loop S k n G' := by
        simp only [adaptive_grouping_loop, hstep]
      have e2 : adaptive_grouping_loop S k G.length G =
          adaptive_grouping_loop S k G'.length G' := by
        rw [← hlen]
        simp only [adaptive_grouping_loop, hstep]
      rw [e1, e2]
      exact ih G' (by omega)

theorem adaptive_grouping_of_terminal (S : StdSort) (k : Nat) (G : List (List PMUEvent))
    (h : adaptive_grouping_step S G k = none) : adaptive_grouping S G k = G :=
  adaptive_grouping_loop_of_terminal S k G.length G h

theorem adaptive_grouping_step_mem (S : StdSort) (G G' : List (List PMUEvent)) (k : Nat)
    (h : adaptive_grouping_step S G k = some G') :
    ∀ g ∈ G', g ∈ G ∨ g.length ≤ k := by
  rw [adaptive_grouping_step_eq] at h
  split at h
  · exact absurd h (by simp)
  · split at h
    · rename_i hk
      simp only [Option.some.injEq] at h
      subst h
      intro g hg
      rcases List.mem_append.1 hg with hg | hg
      · exact Or.inl (List.mem_of_mem_eraseIdx (List.mem_of_mem_eraseIdx hg))
      · rw [List.mem_singleton] at hg
        subst hg
        exact Or.inr hk
    · exact absurd h (by simp)

theorem adaptive_grouping_loop_mem (S : StdSort) (k fuel : Nat) (G : List (List PMUEvent)) :
    ∀ g ∈ adaptive_grouping_loop S k fuel G, g ∈ G ∨ g.length ≤ k := by
  induction fuel generalizing G with
  | zero => intro g hg; exact Or.inl hg
  | succ n ih =>
    unfold adaptive_grouping_loop
    cases hstep : adaptive_grouping_step S G k with
    | none => intro g hg; exact Or.inl hg
    | some G' =>
      intro g hg
      rcases ih G' g hg with h1 | h1
      · exact adaptive_grouping_step_mem S G G' k hstep g h1
      · exact Or.inr h1

theorem distinct_encodings_le_length (g : List PMUEvent) : distinct_encodings g ≤ g.length := by
  unfold distinct_encodings
  have := (List.dedup_sublist (encodings g)).length_le
  simpa [encodings] using this

/-- Invariant of the partner-search loop after the indices `0 .. m-1` have been visited. -/
theorem find_merge_partner_upto (S : StdSort) (G : List (List PMUEvent)) (i m : Nat) :
    ((List.range m).foldl (find_merge_partner_body S G i) (0, SIZE_MAX)).2 ≤ SIZE_MAX ∧
    (∀ k, k < m → k ≠ i →
      ((List.range m).foldl (find_merge_partner_body S G i) (0, SIZE_MAX)).2 ≤
        count_union_by_encoding S (G.getD i []) (G.getD k [])) ∧
    (((List.range m).foldl (find_merge_partner_body S G i) (0, SIZE_MAX)).2 = SIZE_MAX →
      ((List.range m).foldl (find_merge_partner_body S G i) (0, SIZE_MAX)).1 = 0) ∧
    (((List.range m).foldl (find_merge_partner_body S G i) (0, SIZE_MAX)).2 < SIZE_MAX →
      ((List.range m).foldl (find_merge_partner_body S G i) (0, SIZE_MAX)).1 < m ∧
      ((List.range m).foldl (find_merge_partner_body S G i) (0, SIZE_MAX)).1 ≠ i ∧
      count_union_by_encoding S (G.getD i [])
        (G.getD ((List.range m).foldl (find_merge_partner_body S G i) (0, SIZE_MAX)).1 []) =
        ((List.range m).foldl (find_merge_partner_body S G i) (0, SIZE_MAX)).2 ∧
      ∀ k, k < ((List.range m).foldl (find_merge_partner_body S G i) (0, SIZE_MAX)).1 → k ≠ i →
        ((List.range m).foldl (find_merge_partner_body S G i) (0, SIZE_MAX)).2 <
          count_union_by_encoding S (G.getD i []) (G.getD k [])) := by
  induction m with
  | zero =>
    simp only [List.range_zero, List.foldl_nil]
    refine ⟨le_refl _, ?_, fun _ => trivial, ?_⟩
    · intro k hk; omega
    · intro h; omega
  | succ m ih =>
    rw [List.range_succ, List.foldl_append]
    simp only [List.foldl_cons, List.foldl_nil]
    generalize (List.range m).foldl (find_merge_partner_body S G i) (0, SIZE_MAX) = st at ih
    obtain ⟨h1, h2, h3, h4⟩ := ih
    unfold find_merge_partner_body
    by_cases hmi : m ≠ i
    · rw [if_pos hmi]
      by_cases hlt : count_union_by_encoding S (G.getD i []) (G.getD m []) < st.2
      · rw [if_pos hlt]
        refine ⟨by simp only; omega, ?_, ?_, ?_⟩
        · intro k hk hki
          simp only
          rcases Nat.lt_succ_iff_lt_or_eq.1 hk with hk | hk
          · have := h2 k hk hki; omega
          · subst hk; exact le_refl _
        · intro h; simp only at h; omega
        · intro _
          refine ⟨by simp, hmi, rfl, ?_⟩
          intro k hk hki
          have := h2 k hk hki
          simp only at this hk ⊢
          by_cases hs : st.2 < SIZE_MAX
          · obtain ⟨_, _, _, h5⟩ := h4 hs
            omega
          · omega
      · rw [if_neg hlt]
        refine ⟨h1, ?_, h3, ?_⟩
        · intro k hk hki
          rcases Nat.lt_succ_iff_lt_or_eq.1 hk with hk | hk
          · exact h2 k hk hki
          · subst hk; omega
        · intro hs
          obtain ⟨h5, h6, h7, h8⟩ := h4 hs
          exact ⟨by omega, h6, h7, h8⟩
    · rw [if_neg hmi]
      refine ⟨h1, ?_, h3, ?_⟩
      · intro k hk hki
        rcases Nat.lt_succ_iff_lt_or_eq.1 hk with hk | hk
        · exact h2 k hk hki
        · subst hk; exact absurd hki hmi
      · intro hs
        obtain ⟨h5, h6, h7, h8⟩ := h4 hs
        exact ⟨by omega, h6, h7, h8⟩

theorem getD_le_sum (l : List Nat) (i : Nat) : l.getD i 0 ≤ l.sum := by
  induction l generalizing i with
  | nil => simp
  | cons a l ih =>
    cases i with
    | zero => simp
    | succ i =>
      have := ih i
      simp only [List.getD_cons_succ, List.sum_cons] at this ⊢
      omega

theorem getD_add_getD_le_sum (l : List Nat) (i k : Nat) (h : i < k) :
    l.getD i 0 + l.getD k 0 ≤ l.sum := by
  induction l generalizing i k with
  | nil => simp
  | cons a l ih =>
    cases k with
    | zero => omega
    | succ k =>
      cases i with
      | zero =>
        have := getD_le_sum l k
        simp only [List.getD_cons_zero, List.getD_cons_succ, List.sum_cons] at this ⊢
        omega
      | succ i =>
        have := ih i k (by omega)
        simp only [List.getD_cons_succ, List.sum_cons] at this ⊢
        omega

theorem length_getD_eq (G : List (List PMUEvent)) (i : Nat) :
    (G.getD i []).length = (G.map List.length).getD i 0 := by
  induction G generalizing i with
  | nil => simp
  | cons g G ih =>
    cases i with
    | zero => simp
    | succ i => simpa using ih i

theorem count_union_by_encoding_le (S : StdSort) (a b : List PMUEvent) :
    count_union_by_encoding S a b ≤ a.length + b.length := by
  unfold count_union_by_encoding
  have := set_union_length_le less_by_encoding (S.sort a) (S.sort b)
  rw [(S.perm a).length_eq, (S.perm b).length_eq] at this
  exact this

theorem count_union_by_encoding_lt_SIZE_MAX (S : StdSort) (G : List (List PMUEvent)) (i k : Nat)
    (hsum : (G.map List.length).sum < SIZE_MAX) (hik : i ≠ k) :
    count_union_by_encoding S (G.getD i []) (G.getD k []) < SIZE_MAX := by
  have h1 := count_union_by_encoding_le S (G.getD i []) (G.getD k [])
  rw [length_getD_eq, length_getD_eq] at h1
  rcases Nat.lt_or_gt_of_ne hik with h | h
  · have := getD_add_getD_le_sum (G.map List.length) i k h
    omega
  · have := getD_add_getD_le_sum (G.map List.length) k i h
    omega

/-- Under the size bound every real `std::vector` satisfies, the partner search returns an
index `j ≠ i` in range whose union with group `i` is smallest, and the lowest such index. -/
theorem find_merge_partner_spec (S : StdSort) (G : List (List PMUEvent)) (i : Nat)
    (hsum : (G.map List.length).sum < SIZE_MAX) (hlen : 2 ≤ G.length) :
    (find_merge_partner S G i).1 < G.length ∧ (find_merge_partner S G i).1 ≠ i ∧
    (∀ k, k < G.length → k ≠ i →
      count_union_by_encoding S (G.getD i []) (G.getD (find_merge_partner S G i).1 []) ≤
        count_union_by_encoding S (G.getD i []) (G.getD k [])) ∧
    (∀ k, k < (find_merge_partner S G i).1 → k ≠ i →
      count_union_by_encoding S (G.getD i []) (G.getD (find_merge_partner S G i).1 []) <
        count_union_by_encoding S (G.getD i []) (G.getD k [])) := by
  obtain ⟨h1, h2, h3, h4⟩ := find_merge_partner_upto S G i G.length
  change (find_merge_partner S G i).2 ≤ SIZE_MAX at h1
  change ∀ k, k < G.length → k ≠ i → (find_merge_partner S G i).2 ≤ _ at h2
  change (find_merge_partner S G i).2 < SIZE_MAX → _ at h4
  -- some index other than `i` exists, and its union is below `SIZE_MAX`
  have hex : ∃ k, k < G.length ∧ k ≠ i := by
    by_cases h0 : i = 0
    · exact ⟨1, by omega, by omega⟩
    · exact ⟨0, by omega, fun h => h0 h.symm⟩
  obtain ⟨k0, hk0, hk0i⟩ := hex
  have hlt : (find_merge_partner S G i).2 < SIZE_MAX :=
    lt_of_le_of_lt (h2 k0 hk0 hk0i)
      (count_union_by_encoding_lt_SIZE_MAX S G i k0 hsum (fun h => hk0i h.symm))
  obtain ⟨h5, h6, h7, h8⟩ := h4 hlt
  change (find_merge_partner S G i).1 < G.length at h5
  change (find_merge_partner S G i).1 ≠ i at h6
  change count_union_by_encoding S (G.getD i []) (G.getD (find_merge_partner S G i).1 []) =
    (find_merge_partner S G i).2 at h7
  refine ⟨h5, h6, ?_, ?_⟩
  · intro k hk hki
    rw [h7]; exact h2 k hk hki
  · intro k hk hki
    rw [h7]; exact h8 k hk hki

theorem perm_getD_cons_eraseIdx {α : Type} (l : List α) (d : α) (i : Nat) (h : i < l.length) :
    List.Perm (l.getD i d :: l.eraseIdx i) l := by
  induction l generalizing i with
  | nil => simp at h
  | cons a l ih =>
    cases i with
    | zero => simp
    | succ i =>
      simp only [List.getD_cons_succ, List.eraseIdx_cons_succ]
      have := ih i (by simpa using h)
      exact (List.Perm.swap a (l.getD i d) (l.eraseIdx i)).trans (List.Perm.cons a this)

theorem getD_eraseIdx_of_lt {α : Type} (l : List α) (d : α) (lo hi : Nat) (h : lo < hi) :
    (l.eraseIdx hi).getD lo d = l.getD lo d := by
  induction l generalizing lo hi with
  | nil => simp
  | cons a l ih =>
    cases hi with
    | zero => omega
    | succ hi =>
      cases lo with
      | zero => simp
      | succ lo =>
        simp only [List.eraseIdx_cons_succ, List.getD_cons_succ]
        exact ih lo hi (by omega)

/-- Removing the groups at two distinct positions and putting them back in front gives a
rearrangement of the list. -/
theorem perm_eraseIdx_eraseIdx {α : Type} (l : List α) (d : α) (lo hi : Nat) (h : lo < hi)
    (hhi : hi < l.length) :
    List.Perm (l.getD lo d :: l.getD hi d :: (l.eraseIdx hi).eraseIdx lo) l := by
  have h1 := perm_getD_cons_eraseIdx l d hi hhi
  have h2 := perm_getD_cons_eraseIdx (l.eraseIdx hi) d lo
    (by rw [List.length_eraseIdx, if_pos hhi]; omega)
  rw [getD_eraseIdx_of_lt l d lo hi h] at h2
  exact ((List.Perm.swap _ _ _).trans (List.Perm.cons _ h2)).trans h1

/-- Shape of a merging pass under the size bound: two distinct positions `i ≠ j` are removed
and the union of the two groups is appended. -/
theorem adaptive_grouping_step_some (S : StdSort) (G G' : List (List PMUEvent)) (k : Nat)
    (hsum : (G.map List.length).sum < SIZE_MAX)
    (h : adaptive_grouping_step S G k = some G') :
    ∃ lo hi rest, lo < hi ∧ hi < G.length ∧ rest = (G.eraseIdx hi).eraseIdx lo ∧
      ((lo = get_smallest_event_group_idx G ∧
          hi = (find_merge_partner S G (get_smallest_event_group_idx G)).1) ∨
        (hi = get_smallest_event_group_idx G ∧
          lo = (find_merge_partner S G (get_smallest_event_group_idx G)).1)) ∧
      count_union_by_encoding S (G.getD (get_smallest_event_group_idx G) [])
        (G.getD (find_merge_partner S G (get_smallest_event_group_idx G)).1 []) ≤ k ∧
      G' = rest ++ [union_by_encoding S (G.getD (get_smallest_event_group_idx G) [])
        (G.getD (find_merge_partner S G (get_smallest_event_group_idx G)).1 [])] := by
  rw [adaptive_grouping_step_eq] at h
  by_cases hlen : G.length < 2
  · rw [if_pos hlen] at h; exact absurd h (by simp)
  · rw [if_neg hlen] at h
    have hi := get_smallest_event_group_idx_lt G (by omega)
    obtain ⟨hj, hne, -, -⟩ :=
      find_merge_partner_spec S G (get_smallest_event_group_idx G) hsum (by omega)
    generalize get_smallest_event_group_idx G = i at h hi hj hne ⊢
    generalize (find_merge_partner S G i).1 = j at h hi hj hne ⊢
    split at h
    · rename_i hk
      simp only [Option.some.injEq] at h
      by_cases hij : i > j
      · rw [if_pos hij, if_pos hij] at h
        exact ⟨j, i, _, hij, hi, rfl, Or.inr ⟨rfl, rfl⟩, hk, h.symm⟩
      · rw [if_neg hij, if_neg hij] at h
        exact ⟨i, j, _, by omega, hj, rfl, Or.inl ⟨rfl, rfl⟩, hk, h.symm⟩
    · exact absurd h (by simp)

theorem adaptive_grouping_step_sum_le (S : StdSort) (G G' : List (List PMUEvent)) (k : Nat)
    (hsum : (G.map List.length).sum < SIZE_MAX)
    (h : adaptive_grouping_step S G k = some G') :
    (G'.map List.length).sum ≤ (G.map List.length).sum := by
  obtain ⟨lo, hi, rest, hlt, hhi, hrest, hij, -, hG'⟩ :=
    adaptive_grouping_step_some S G G' k hsum h
  have hperm := perm_eraseIdx_eraseIdx G [] lo hi hlt hhi
  have hs := (hperm.map List.length).sum_eq
  have hu := count_union_by_encoding_le S (G.getD (get_smallest_event_group_idx G) [])
    (G.getD (find_merge_partner S G (get_smallest_event_group_idx G)).1 [])
  rw [hG', hrest]
  simp only [List.map_append, List.sum_append, List.map_cons, List.map_nil, List.sum_cons,
    List.sum_nil] at hs ⊢
  unfold count_union_by_encoding at hu
  unfold union_by_encoding
  rcases hij with ⟨h1, h2⟩ | ⟨h1, h2⟩
  · rw [← h1] at h2; rw [← h1, ← h2] at hu ⊢; omega
  · rw [← h1] at h2; rw [← h1, ← h2] at hu ⊢; omega

theorem adaptive_grouping_loop_sum_le (S : StdSort) (k fuel : Nat) (G : List (List PMUEvent))
    (hsum : (G.map List.length).sum < SIZE_MAX) :
    ((adaptive_grouping_loop S k fuel G).map List.length).sum ≤ (G.map List.length).sum := by
  induction fuel generalizing G with
  | zero => exact le_refl _
  | succ n ih =>
    unfold adaptive_grouping_loop
    cases hstep : adaptive_grouping_step S G k with
    | none => exact le_refl _
    | some G' =>
      have h1 := adaptive_grouping_step_sum_le S G G' k hsum hstep
      exact le_trans (ih G' (by omega)) h1

/-- What the `break` of the main loop establishes (under the size bound): with at least two
groups left, the smallest group cannot be merged with any other group within the budget. -/
theorem adaptive_grouping_step_none (S : StdSort) (G : List (List PMUEvent)) (k : Nat)
    (hsum : (G.map List.length).sum < SIZE_MAX)
    (h : adaptive_grouping_step S G k = none) :
    G.length < 2 ∨ ∀ j, j < G.length → j ≠ get_smallest_event_group_idx G →
      k < count_union_by_encoding S (G.getD (get_smallest_event_group_idx G) []) (G.getD j []) := by
  rw [adaptive_grouping_step_eq] at h
  by_cases hlen : G.length < 2
  · exact Or.inl hlen
  · right
    rw [if_neg hlen] at h
    obtain ⟨-, -, hmin, -⟩ :=
      find_merge_partner_spec S G (get_smallest_event_group_idx G) hsum (by omega)
    split at h
    · exact absurd h (by simp)
    · rename_i hk
      intro j hj hji
      have := hmin j hj hji
      omega

/-! ## `std::set_union` on the encodings -/

theorem encodings_set_union (xs ys : List PMUEvent) :
    encodings (set_union less_by_encoding xs ys) =
      set_union less_encoding (encodings xs) (encodings ys) := by
  induction xs generalizing ys with
  | nil => rfl
  | cons x xs ihx =>
    induction ys with
    | nil => rw [set_union_nil_right]; exact (set_union_nil_right _ _).symm
    | cons y ys ihy =>
      have e1 : encodings (x :: xs) = x.encoding :: encodings xs := rfl
      have e2 : encodings (y :: ys) = y.encoding :: encodings ys := rfl
      rw [e1, e2, set_union_cons_cons, set_union_cons_cons]
      have c1 : less_by_encoding y x = less_encoding y.encoding x.encoding := rfl
      have c2 : less_by_encoding x y = less_encoding x.encoding y.encoding := rfl
      rw [c1, c2]
      split
      · rw [← e1, ← ihy]; rfl
      · split
        · rw [← e2, ← ihx]; rfl
        · rw [← ihx]; rfl

theorem set_union_less_encoding_lt (x y : Nat) (xs ys : List Nat) (h : y < x) :
    set_union less_encoding (x :: xs) (y :: ys) = y :: set_union less_encoding (x :: xs) ys := by
  rw [set_union_cons_cons]
  simp [less_encoding, h]

theorem set_union_less_encoding_gt (x y : Nat) (xs ys : List Nat) (h : x < y) :
    set_union less_encoding (x :: xs) (y :: ys) = x :: set_union less_encoding xs (y :: ys) := by
  rw [set_union_cons_cons]
  have : ¬ y < x := by omega
  simp [less_encoding, h, this]

theorem set_union_less_encoding_eq (x : Nat) (xs ys : List Nat) :
    set_union less_encoding (x :: xs) (x :: ys) = x :: set_union less_encoding xs ys := by
  rw [set_union_cons_cons]
  simp [less_encoding]

theorem set_union_less_encoding_comm (xs ys : List Nat) :
    set_union less_encoding xs ys = set_union less_encoding ys xs := by
  induction xs generalizing ys with
  | nil => rw [set_union_nil_left, set_union_nil_right]
  | cons x xs ihx =>
    induction ys with
    | nil => rw [set_union_nil_left, set_union_nil_right]
    | cons y ys ihy =>
      rcases Nat.lt_trichotomy y x with h | h | h
      · rw [set_union_less_encoding_lt x y xs ys h, set_union_less_encoding_gt y x ys xs h, ihy]
      · subst h
        rw [set_union_less_encoding_eq, set_union_less_encoding_eq, ihx]
      · rw [set_union_less_encoding_gt x y xs ys h, set_union_less_encoding_lt y x ys xs h, ihx]

theorem mem_set_union {α : Type} (comp : α → α → Bool) (xs ys : List α) (e : α)
    (h : e ∈ set_union comp xs ys) : e ∈ xs ∨ e ∈ ys := by
  induction xs generalizing ys with
  | nil => exact Or.inr h
  | cons x xs ihx =>
    induction ys with
    | nil => rw [set_union_nil_right] at h; exact Or.inl h
    | cons y ys ihy =>
      rw [set_union_cons_cons] at h
      split at h
      · rcases List.mem_cons.1 h with h | h
        · exact Or.inr (h ▸ List.mem_cons_self _ _)
        · rcases ihy h with h | h
          · exact Or.inl h
          · exact Or.inr (List.mem_cons_of_mem _ h)
      · split at h
        · rcases List.mem_cons.1 h with h | h
          · exact Or.inl (h ▸ List.mem_cons_self _ _)
          · rcases ihx _ h with h | h
            · exact Or.inl (List.mem_cons_of_mem _ h)
            · exact Or.inr h
        · rcases List.mem_cons.1 h with h | h
          · exact Or.inl (h ▸ List.mem_cons_self _ _)
          · rcases ihx _ h with h | h
            · exact Or.inl (List.mem_cons_of_mem _ h)
            · exact Or.inr (List.mem_cons_of_mem _ h)

theorem set_union_less_encoding_sorted (xs ys : List Nat)
    (hx : xs.Pairwise (· ≤ ·)) (hy : ys.Pairwise (· ≤ ·)) :
    (set_union less_encoding xs ys).Pairwise (· ≤ ·) := by
  induction xs generalizing ys with
  | nil => exact hy
  | cons x xs ihx =>
    induction ys with
    | nil => rw [set_union_nil_right]; exact hx
    | cons y ys ihy =>
      have hx2 := List.pairwise_cons.1 hx
      have hy2 := List.pairwise_cons.1 hy
      rcases Nat.lt_trichotomy y x with h | h | h
      · rw [set_union_less_encoding_lt x y xs ys h]
        refine List.Pairwise.cons ?_ (ihy hy2.2)
        intro e he
        rcases mem_set_union _ _ _ _ he with he | he
        · rcases List.mem_cons.1 he with he | he
          · omega
          · have := hx2.1 e he; omega
        · exact hy2.1 e he
      · subst h
        rw [set_union_less_encoding_eq]
        refine List.Pairwise.cons ?_ (ihx _ hx2.2 hy2.2)
        intro e he
        rcases mem_set_union _ _ _ _ he with he | he
        · exact hx2.1 e he
        · exact hy2.1 e he
      · rw [set_union_less_encoding_gt x y xs ys h]
        refine List.Pairwise.cons ?_ (ihx _ hx2.2 hy)
        intro e he
        rcases mem_set_union _ _ _ _ he with he | he
        · exact hx2.1 e he
        · rcases List.mem_cons.1 he with he | he
          · omega
          · have := hy2.1 e he; omega

theorem count_eq_zero_of_lt (x : Nat) (xs : List Nat) (e : Nat)
    (hx : (x :: xs).Pairwise (· ≤ ·)) (h : e < x) : (x :: xs).count e = 0 := by
  rw [List.count_eq_zero]
  intro he
  rw [List.pairwise_cons] at hx
  rcases List.mem_cons.1 he with he | he
  · omega
  · have := hx.1 e he; omega

/-- On sorted ranges the algorithm keeps each value as often as the operand holding it more
often does. -/
theorem count_set_union_less_encoding (xs ys : List Nat)
    (hx : xs.Pairwise (· ≤ ·)) (hy : ys.Pairwise (· ≤ ·)) (e : Nat) :
    (set_union less_encoding xs ys).count e = max (xs.count e) (ys.count e) := by
  induction xs generalizing ys with
  | nil => simp [set_union_nil_left]
  | cons x xs ihx =>
    induction ys with
    | nil => simp [set_union_nil_right]
    | cons y ys ihy =>
      rcases Nat.lt_trichotomy y x with h | h | h
      · rw [set_union_less_encoding_lt x y xs ys h]
        rw [List.count_cons, ihy (List.Pairwise.of_cons hy), List.count_cons e y ys]
        by_cases hey : y = e
        · subst hey
          rw [count_eq_zero_of_lt x xs y hx h]
          simp
        · simp [hey]
      · subst h
        rw [set_union_less_encoding_eq]
        rw [List.count_cons, ihx _ (List.Pairwise.of_cons hx) (List.Pairwise.of_cons hy),
          List.count_cons e y xs, List.count_cons e y ys]
        by_cases hex : y = e
        · simp [hex, Nat.add_max_add_right]
        · simp [hex]
      · rw [set_union_less_encoding_gt x y xs ys h]
        rw [List.count_cons, ihx _ (List.Pairwise.of_cons hx) hy, List.count_cons e x xs]
        by_cases hex : x = e
        · subst hex
          rw [count_eq_zero_of_lt y ys x hy h]
          simp
        · simp [hex]

theorem set_union_less_encoding_assoc (xs ys zs : List Nat)
    (hx : xs.Pairwise (· ≤ ·)) (hy : ys.Pairwise (· ≤ ·)) (hz : zs.Pairwise (· ≤ ·)) :
    set_union less_encoding (set_union less_encoding xs ys) zs =
      set_union less_encoding xs (set_union less_encoding ys zs) := by
  have hxy := set_union_less_encoding_sorted xs ys hx hy
  have hyz := set_union_less_encoding_sorted ys zs hy hz
  apply @List.eq_of_perm_of_sorted _ (· ≤ ·) _ _ _
  · rw [List.perm_iff_count]
    intro e
    rw [count_set_union_less_encoding _ _ hxy hz, count_set_union_less_encoding _ _ hx hy,
      count_set_union_less_encoding _ _ hx hyz, count_set_union_less_encoding _ _ hy hz]
    exact max_assoc _ _ _
  · exact set_union_less_encoding_sorted _ _ hxy hz
  · exact set_union_less_encoding_sorted _ _ hx hyz

theorem encodings_sort_sorted (S : StdSort) (a : List PMUEvent) :
    (encodings (S.sort a)).Pairwise (· ≤ ·) := by
  unfold encodings
  rw [List.pairwise_map]
  refine (S.sorted a).imp ?_
  intro x y h
  simpa [less_by_encoding] using h

theorem encodings_sort_perm (S : StdSort) (a : List PMUEvent) :
    (encodings (S.sort a)).Perm (encodings a) :=
  (S.perm a).map _

theorem encodings_sort_of_sorted (S : StdSort) (a : List PMUEvent)
    (h : (encodings a).Pairwise (· ≤ ·)) : encodings (S.sort a) = encodings a :=
  @List.eq_of_perm_of_sorted _ (· ≤ ·) _ _ _ (encodings_sort_perm S a) (encodings_sort_sorted S a) h

theorem encodings_union_by_encoding (S : StdSort) (a b : List PMUEvent) :
    encodings (union_by_encoding S a b) =
      set_union less_encoding (encodings (S.sort a)) (encodings (S.sort b)) :=
  encodings_set_union _ _

theorem encodings_union_by_encoding_sorted (S : StdSort) (a b : List PMUEvent) :
    (encodings (union_by_encoding S a b)).Pairwise (· ≤ ·) := by
  rw [encodings_union_by_encoding]
  exact set_union_less_encoding_sorted _ _ (encodings_sort_sorted S a) (encodings_sort_sorted S b)

theorem set_union_less_by_encoding_lt (x y : PMUEvent) (xs ys : List PMUEvent)
    (h : y.encoding < x.encoding) :
    set_union less_by_encoding (x :: xs) (y :: ys) =
      y :: set_union less_by_encoding (x :: xs) ys := by
  rw [set_union_cons_cons]
  simp [less_by_encoding, h]

theorem set_union_less_by_encoding_gt (x y : PMUEvent) (xs ys : List PMUEvent)
    (h : x.encoding < y.encoding) :
    set_union less_by_encoding (x :: xs) (y :: ys) =
      x :: set_union less_by_encoding xs (y :: ys) := by
  rw [set_union_cons_cons]
  have : ¬ y.encoding < x.encoding := by omega
  simp [less_by_encoding, h, this]

theorem set_union_less_by_encoding_eq (x y : PMUEvent) (xs ys : List PMUEvent)
    (h : x.encoding = y.encoding) :
    set_union less_by_encoding (x :: xs) (y :: ys) = x :: set_union less_by_encoding xs ys := by
  rw [set_union_cons_cons]
  simp [less_by_encoding, h]

theorem set_union_less_encoding_strict (xs ys : List Nat)
    (hx : xs.Pairwise (· < ·)) (hy : ys.Pairwise (· < ·)) :
    (set_union less_encoding xs ys).Pairwise (· < ·) := by
  induction xs generalizing ys with
  | nil => exact hy
  | cons x xs ihx =>
    induction ys with
    | nil => rw [set_union_nil_right]; exact hx
    | cons y ys ihy =>
      have hx2 := List.pairwise_cons.1 hx
      have hy2 := List.pairwise_cons.1 hy
      rcases Nat.lt_trichotomy y x with h | h | h
      · rw [set_union_less_encoding_lt x y xs ys h]
        refine List.Pairwise.cons ?_ (ihy hy2.2)
        intro e he
        rcases mem_set_union _ _ _ _ he with he | he
        · rcases List.mem_cons.1 he with he | he
          · omega
          · have := hx2.1 e he; omega
        · exact hy2.1 e he
      · subst h
        rw [set_union_less_encoding_eq]
        refine List.Pairwise.cons ?_ (ihx _ hx2.2 hy2.2)
        intro e he
        rcases mem_set_union _ _ _ _ he with he | he
        · exact hx2.1 e he
        · exact hy2.1 e he
      · rw [set_union_less_encoding_gt x y xs ys h]
        refine List.Pairwise.cons ?_ (ihx _ hx2.2 hy)
        intro e he
        rcases mem_set_union _ _ _ _ he with he | he
        · exact hx2.1 e he
        · rcases List.mem_cons.1 he with he | he
          · omega
          · have := hy2.1 e he; omega

theorem encoding_mem_encodings {e : PMUEvent} {l : List PMUEvent} (h : e ∈ l) :
    e.encoding ∈ encodings l := List.mem_map_of_mem _ h

/-- Members of the output of `std::set_union` on two ranges that are strictly ascending by
encoding: everything of the first range, and of the second range the events whose encoding
the first range lacks. -/
theorem mem_set_union_less_by_encoding (xs ys : List PMUEvent)
    (hx : (encodings xs).Pairwise (· < ·)) (hy : (encodings ys).Pairwise (· < ·))
    (e : PMUEvent) :
    e ∈ set_union less_by_encoding xs ys ↔
      e ∈ xs ∨ (e ∈ ys ∧ e.encoding ∉ encodings xs) := by
  induction xs generalizing ys with
  | nil => simp [set_union_nil_left, encodings]
  | cons x xs ihx =>
    induction ys with
    | nil => simp [set_union_nil_right]
    | cons y ys ihy =>
      have hx2 := List.pairwise_cons.1 hx
      have hy2 := List.pairwise_cons.1 hy
      have hxs : ∀ z ∈ xs, x.encoding < z.encoding :=
        fun z hz => hx2.1 _ (encoding_mem_encodings hz)
      have hys : ∀ z ∈ ys, y.encoding < z.encoding :=
        fun z hz => hy2.1 _ (encoding_mem_encodings hz)
      have hxe : ∀ n ∈ encodings xs, x.encoding < n := hx2.1
      rcases Nat.lt_trichotomy y.encoding x.encoding with h | h | h
      · rw [set_union_less_by_encoding_lt x y xs ys h, List.mem_cons, ihy hy2.2]
        have hy_notin : y.encoding ∉ encodings (x :: xs) := by
          intro hmem
          rcases List.mem_cons.1 hmem with h' | h'
          · omega
          · have := hxe _ h'; omega
        constructor
        · rintro (rfl | h1 | ⟨h1, h2⟩)
          · exact Or.inr ⟨List.mem_cons_self _ _, hy_notin⟩
          · exact Or.inl h1
          · exact Or.inr ⟨List.mem_cons_of_mem _ h1, h2⟩
        · rintro (h1 | ⟨h1, h2⟩)
          · exact Or.inr (Or.inl h1)
          · rcases List.mem_cons.1 h1 with rfl | h1
            · exact Or.inl rfl
            · exact Or.inr (Or.inr ⟨h1, h2⟩)
      · rw [set_union_less_by_encoding_eq x y xs ys h.symm, List.mem_cons, ihx ys hx2.2 hy2.2]
        constructor
        · rintro (rfl | h1 | ⟨h1, h2⟩)
          · exact Or.inl (List.mem_cons_self _ _)
          · exact Or.inl (List.mem_cons_of_mem _ h1)
          · refine Or.inr ⟨List.mem_cons_of_mem _ h1, ?_⟩
            intro hmem
            rcases List.mem_cons.1 hmem with h' | h'
            · have := hys e h1; omega
            · exact h2 h'
        · rintro (h1 | ⟨h1, h2⟩)
          · rcases List.mem_cons.1 h1 with rfl | h1
            · exact Or.inl rfl
            · exact Or.inr (Or.inl h1)
          · rcases List.mem_cons.1 h1 with rfl | h1
            · exact absurd (h ▸ List.mem_cons_self _ _ : e.encoding ∈ encodings (x :: xs)) h2
            · exact Or.inr (Or.inr ⟨h1, fun hm => h2 (List.mem_cons_of_mem _ hm)⟩)
      · rw [set_union_less_by_encoding_gt x y xs ys h, List.mem_cons, ihx (y :: ys) hx2.2 hy]
        constructor
        · rintro (rfl | h1 | ⟨h1, h2⟩)
          · exact Or.inl (List.mem_cons_self _ _)
          · exact Or.inl (List.mem_cons_of_mem _ h1)
          · refine Or.inr ⟨h1, ?_⟩
            intro hmem
            rcases List.mem_cons.1 hmem with h' | h'
            · rcases List.mem_cons.1 h1 with rfl | h1
              · omega
              · have := hys e h1; omega
            · exact h2 h'
        · rintro (h1 | ⟨h1, h2⟩)
          · rcases List.mem_cons.1 h1 with rfl | h1
            · exact Or.inl rfl
            · exact Or.inr (Or.inl h1)
          · exact Or.inr (Or.inr ⟨h1, fun hm => h2 (List.mem_cons_of_mem _ hm)⟩)

theorem encodings_sort_strict (S : StdSort) (a : List PMUEvent) (h : (encodings a).Nodup) :
    (encodings (S.sort a)).Pairwise (· < ·) := by
  have h1 := encodings_sort_sorted S a
  have h2 : (encodings (S.sort a)).Nodup := (encodings_sort_perm S a).nodup_iff.2 h
  exact (h1.and h2).imp (fun ⟨hle, hne⟩ => lt_of_le_of_ne hle hne)

theorem union_by_encoding_strict (S : StdSort) (a b : List PMUEvent)
    (ha : (encodings a).Nodup) (hb : (encodings b).Nodup) :
    (encodings (union_by_encoding S a b)).Pairwise (· < ·) := by
  rw [encodings_union_by_encoding]
  exact set_union_less_encoding_strict _ _ (encodings_sort_strict S a ha)
    (encodings_sort_strict S b hb)

theorem mem_union_by_encoding (S : StdSort) (a b : List PMUEvent)
    (ha : (encodings a).Nodup) (hb : (encodings b).Nodup) (e : PMUEvent) :
    e ∈ union_by_encoding S a b ↔ e ∈ a ∨ (e ∈ b ∧ e.encoding ∉ encodings a) := by
  unfold union_by_encoding
  rw [mem_set_union_less_by_encoding _ _ (encodings_sort_strict S a ha)
    (encodings_sort_strict S b hb), (S.perm a).mem_iff, (S.perm b).mem_iff,
    (encodings_sort_perm S a).mem_iff]

theorem count_encodings_union_by_encoding (S : StdSort) (a b : List PMUEvent) (n : Nat) :
    (encodings (union_by_encoding S a b)).count n =
      max ((encodings a).count n) ((encodings b).count n) := by
  rw [encodings_union_by_encoding,
    count_set_union_less_encoding _ _ (encodings_sort_sorted S a) (encodings_sort_sorted S b),
    (encodings_sort_perm S a).count_eq, (encodings_sort_perm S b).count_eq]

theorem count_union_by_encoding_eq_length (S : StdSort) (a b : List PMUEvent) :
    count_union_by_encoding S a b = (union_by_encoding S a b).length := rfl

/-- With encodings distinct inside each operand, the union is a rearrangement of the first
operand followed by the events of the second whose encoding the first lacks. -/
theorem union_by_encoding_perm (S : StdSort) (a b : List PMUEvent)
    (ha : (encodings a).Nodup) (hb : (encodings b).Nodup) :
    (union_by_encoding S a b).Perm
      (a ++ b.filter (fun e => decide (e.encoding ∉ encodings a))) := by
  have hs := union_by_encoding_strict S a b ha hb
  have hn1 : (union_by_encoding S a b).Nodup := List.Nodup.of_map _ hs.nodup
  have hna : a.Nodup := List.Nodup.of_map _ ha
  have hnb : b.Nodup := List.Nodup.of_map _ hb
  have hn2 : (a ++ b.filter (fun e => decide (e.encoding ∉ encodings a))).Nodup := by
    refine List.Nodup.append hna (hnb.filter _) ?_
    intro e he1 he2
    rw [List.mem_filter] at he2
    have := he2.2
    simp only [decide_eq_true_eq] at this
    exact this (encoding_mem_encodings he1)
  rw [List.perm_ext_iff_of_nodup hn1 hn2]
  intro e
  rw [mem_union_by_encoding S a b ha hb, List.mem_append, List.mem_filter]
  simp

theorem count_union_by_encoding_congr (S : StdSort) (a a' b b' : List PMUEvent)
    (ha : a.Perm a') (hb : b.Perm b') :
    count_union_by_encoding S a b = count_union_by_encoding S a' b' := by
  have h : ∀ x y, count_union_by_encoding S x y =
      (set_union less_encoding (encodings (S.sort x)) (encodings (S.sort y))).length := by
    intro x y
    rw [← encodings_set_union]
    simp [count_union_by_encoding, encodings]
  have e1 : encodings (S.sort a) = encodings (S.sort a') :=
    @List.eq_of_perm_of_sorted _ (· ≤ ·) _ _ _
      (((encodings_sort_perm S a).trans (ha.map _)).trans (encodings_sort_perm S a').symm)
      (encodings_sort_sorted S a) (encodings_sort_sorted S a')
  have e2 : encodings (S.sort b) = encodings (S.sort b') :=
    @List.eq_of_perm_of_sorted _ (· ≤ ·) _ _ _
      (((encodings_sort_perm S b).trans (hb.map _)).trans (encodings_sort_perm S b').symm)
      (encodings_sort_sorted S b) (encodings_sort_sorted S b')
  rw [h, h, e1, e2]

theorem count_union_by_encoding_eq (S : StdSort) (a b : List PMUEvent)
    (ha : (encodings a).Nodup) (hb : (encodings b).Nodup) :
    count_union_by_encoding S a b =
      a.length + (b.filter (fun e => decide (e.encoding ∉ encodings a))).length := by
  rw [count_union_by_encoding_eq_length, (union_by_encoding_perm S a b ha hb).length_eq,
    List.length_append]

/-! ## The estimator: time bookkeeping -/

theorem sum_set_add (l : List Nat) (g x : Nat) (h : g < l.length) :
    (l.set g x).sum + l.getD g 0 = l.sum + x := by
  induction l generalizing g with
  | nil => simp at h
  | cons a l ih =>
    cases g with
    | zero => simp only [List.set_cons_zero, List.sum_cons, List.getD_cons_zero]; omega
    | succ g =>
      have := ih g (by simpa using h)
      simp only [List.set_cons_succ, List.sum_cons, List.getD_cons_succ]
      omega

theorem getD_set_self {α : Type} (l : List α) (g : Nat) (x d : α) (h : g < l.length) :
    (l.set g x).getD g d = x := by
  induction l generalizing g with
  | nil => simp at h
  | cons a l ih =>
    cases g with
    | zero => rfl
    | succ g => simpa using ih g (by simpa using h)

theorem getD_set_of_ne {α : Type} (l : List α) (g i : Nat) (x d : α) (h : g ≠ i) :
    (l.set g x).getD i d = l.getD i d := by
  induction l generalizing g i with
  | nil => rfl
  | cons a l ih =>
    cases g with
    | zero =>
      cases i with
      | zero => exact absurd rfl h
      | succ i => rfl
    | succ g =>
      cases i with
      | zero => rfl
      | succ i => simpa using ih g i (by omega)

theorem getD_map_range {α : Type} (f : Nat → α) (n i : Nat) (d : α) (h : i < n) :
    ((List.range n).map f).getD i d = f i := by
  rw [List.getD_eq_getElem?_getD, List.getElem?_map, List.getElem?_range h]
  rfl

theorem Reporter.new_time_invariant (c : PMUConfig) : (Reporter.new c).time_invariant c := by
  refine ⟨rfl, rfl, ⟨?_, ?_, ?_⟩, ?_, rfl, (by show (0 : Nat) < 2 ^ 64; decide)⟩
  · simp [Reporter.new]
  · simp [Reporter.new]
  · intro i hi
    have hi2 : i < c.get_event_group_num := hi
    show (List.getD (List.map _ (List.range c.get_event_group_num)) i []).length = _
    rw [getD_map_range _ _ _ _ hi2, List.length_replicate]
    rfl
  · simp [Reporter.new]

theorem Reporter.account_time_invariant (c : PMUConfig) (r : Reporter) (g timestamp : Nat)
    (hr : r.time_invariant c) (hg : g < c.get_event_group_num) (ht : timestamp < 2 ^ 64) :
    ∃ r1, r.account_time g timestamp = some r1 ∧ r1.time_invariant c := by
  obtain ⟨h1, h2, ⟨h3, h4, h5⟩, h6, h7, h8⟩ := hr
  unfold Reporter.account_time
  by_cases hts : timestamp > r.prev_timestamp_
  · rw [if_pos hts]
    have hg' : g < r.enabled_time_in_ns_.length := by rw [h4, h1]; exact hg
    rw [if_pos hg']
    refine ⟨_, rfl, h1, h2, ⟨h3, ?_, h5⟩, ?_, ?_, ht⟩
    · simp only [List.length_set]; exact h4
    · have hle := getD_le_sum r.enabled_time_in_ns_ g
      have hmod1 : (r.enabled_time_in_ns_.getD g 0 + (timestamp - r.prev_timestamp_)) % 2 ^ 64 =
          r.enabled_time_in_ns_.getD g 0 + (timestamp - r.prev_timestamp_) :=
        Nat.mod_eq_of_lt (by omega)
      have hmod2 : (r.total_time_in_ns_ + (timestamp - r.prev_timestamp_)) % 2 ^ 64 =
          r.total_time_in_ns_ + (timestamp - r.prev_timestamp_) :=
        Nat.mod_eq_of_lt (by omega)
      simp only [hmod1, hmod2]
      have := sum_set_add r.enabled_time_in_ns_ g
        (r.enabled_time_in_ns_.getD g 0 + (timestamp - r.prev_timestamp_)) hg'
      omega
    · show (r.total_time_in_ns_ + (timestamp - r.prev_timestamp_)) % 2 ^ 64 = timestamp
      rw [Nat.mod_eq_of_lt (by omega)]
      omega
  · rw [if_neg hts]
    exact ⟨r, rfl, h1, h2, ⟨h3, h4, h5⟩, h6, h7, h8⟩

theorem Reporter.add_value_invariant (c : PMUConfig) (r : Reporter) (g event_id value : Nat)
    (hr : r.time_invariant c) (hg : g < c.get_event_group_num)
    (he : event_id < c.get_fixed_events.length + (c.get_event_group_by_idx g).length) :
    ∃ r2, r.add_value g event_id value = some r2 ∧ r2.time_invariant c := by
  obtain ⟨h1, h2, ⟨h3, h4, h5⟩, h6, h7, h8⟩ := hr
  unfold Reporter.add_value
  have hg' : g < r.stat_.length := by rw [h3, h1]; exact hg
  have hrow := h5 g (by rw [h1]; exact hg)
  rw [h2, h1] at hrow
  rw [if_pos ⟨hg', by rw [hrow]; exact he⟩]
  refine ⟨_, rfl, h1, h2, ⟨?_, h4, ?_⟩, h6, h7, h8⟩
  · simp only [List.length_set]; exact h3
  · intro i hi
    show (List.getD (List.set r.stat_ g _) i []).length = _
    by_cases hgi : g = i
    · subst hgi
      rw [getD_set_self _ _ _ _ hg', List.length_set]
      exact h5 g hi
    · rw [getD_set_of_ne _ _ _ _ _ hgi]
      exact h5 i hi

theorem Reporter.process_a_record_invariant (c : PMUConfig) (r : Reporter) (record : Record)
    (hr : r.time_invariant c) (hin : record.in_range c) (ht : record.timestamp < 2 ^ 64) :
    ∃ r2, r.process_a_record record = some r2 ∧ r2.time_invariant c := by
  obtain ⟨h0, hg, he⟩ := hin
  unfold Reporter.process_a_record
  rw [if_neg (by omega)]
  obtain ⟨r1, hr1, hinv1⟩ := Reporter.account_time_invariant c r _ _ hr hg ht
  rw [hr1]
  exact Reporter.add_value_invariant c r1 _ _ _ hinv1 hg he

theorem Reporter.process_records_invariant (c : PMUConfig) (records : List Record)
    (r : Reporter) (hr : r.time_invariant c)
    (h : ∀ record ∈ records, record.in_range c ∧ record.timestamp < 2 ^ 64) :
    ∃ r2, r.process_records records = some r2 ∧ r2.time_invariant c := by
  induction records generalizing r with
  | nil => exact ⟨r, rfl, hr⟩
  | cons record rest ih =>
    obtain ⟨hin, ht⟩ := h record (List.mem_cons_self _ _)
    obtain ⟨r1, hr1, hinv1⟩ := Reporter.process_a_record_invariant c r record hr hin ht
    unfold Reporter.process_records
    rw [hr1]
    exact ih r1 hinv1 (fun x hx => h x (List.mem_cons_of_mem _ hx))

/-! ## The estimator: the two loops of `estimation` -/

theorem stat_at_eq (stat : List (List EventStats)) (i j : Nat) :
    stat_at stat i j = (stat[i]?).bind (fun row => row[j]?) := by
  unfold stat_at
  cases h : stat.get? i with
  | none => rw [List.get?_eq_getElem?] at h; rw [h]; rfl
  | some row => rw [List.get?_eq_getElem?] at h; rw [h]; simp

theorem stat_at_set (stat : List (List EventStats)) (i j : Nat) (cell c : EventStats)
    (h : stat_at stat i j = some c) (i' j' : Nat) :
    stat_at (stat.set i ((stat.getD i []).set j cell)) i' j' =
      if i' = i ∧ j' = j then some cell else stat_at stat i' j' := by
  rw [stat_at_eq] at h
  rw [stat_at_eq, stat_at_eq]
  cases hrow : stat[i]? with
  | none => rw [hrow] at h; simp at h
  | some row =>
    rw [hrow] at h
    simp only [Option.some_bind] at h
    have hi : i < stat.length := by
      rcases Nat.lt_or_ge i stat.length with h1 | h1
      · exact h1
      · rw [List.getElem?_eq_none h1] at hrow; simp at hrow
    have hj : j < row.length := by
      rcases Nat.lt_or_ge j row.length with h1 | h1
      · exact h1
      · rw [List.getElem?_eq_none h1] at h; simp at h
    have hgetD : stat.getD i [] = row := by
      rw [List.getD_eq_getElem?_getD, hrow]; rfl
    rw [hgetD]
    by_cases hii : i' = i
    · subst hii
      rw [List.getElem?_set_self hi]
      simp only [Option.some_bind, true_and]
      by_cases hjj : j' = j
      · subst hjj
        rw [List.getElem?_set_self hj, if_pos rfl]
      · rw [List.getElem?_set_ne (fun h => hjj h.symm), if_neg hjj, hrow]
        rfl
    · rw [List.getElem?_set_ne (fun h => hii h.symm), if_neg (fun h => hii h.1)]

theorem set_estimated_value_spec (stat : List (List EventStats)) (i j v : Nat) (c : EventStats)
    (h : stat_at stat i j = some c) :
    ∃ stat', set_estimated_value stat i j v = some stat' ∧
      (∀ i' j', total_at stat' i' j' = total_at stat i' j') ∧
      estimated_at stat' i j = some v ∧
      (∀ i' j', ¬ (i' = i ∧ j' = j) → estimated_at stat' i' j' = estimated_at stat i' j') := by
  refine ⟨stat.set i ((stat.getD i []).set j { c with estimated_value := v }), ?_, ?_, ?_, ?_⟩
  · unfold set_estimated_value; rw [h]
  · intro i' j'
    unfold total_at
    rw [stat_at_set stat i j _ c h]
    by_cases hc : i' = i ∧ j' = j
    · rw [if_pos hc, hc.1, hc.2, h]; rfl
    · rw [if_neg hc]
  · unfold estimated_at
    rw [stat_at_set stat i j _ c h, if_pos ⟨rfl, rfl⟩]; rfl
  · intro i' j' hc
    unfold estimated_at
    rw [stat_at_set stat i j _ c h, if_neg hc]


theorem total_at_eq_some (stat : List (List EventStats)) (i j : Nat) (c : EventStats)
    (h : stat_at stat i j = some c) : total_at stat i j = some c.total_value := by
  unfold total_at; rw [h]; rfl

theorem stat_at_isSome_of_total_at (stat : List (List EventStats)) (i j : Nat)
    (h : (total_at stat i j).isSome) : ∃ c, stat_at stat i j = some c := by
  unfold total_at at h
  cases hc : stat_at stat i j with
  | none => rw [hc] at h; simp at h
  | some c => exact ⟨c, rfl⟩

theorem fixed_event_total_eq (stat : List (List EventStats)) (n j : Nat)
    (h : ∀ i, i < n → (total_at stat i j).isSome) :
    fixed_event_total stat n j = some (fixed_total_spec stat n j) := by
  unfold fixed_event_total fixed_total_spec
  induction n with
  | zero => rfl
  | succ n ih =>
    rw [List.range_succ, List.foldlM_append, ih (fun i hi => h i (by omega))]
    obtain ⟨c, hc⟩ := stat_at_isSome_of_total_at stat n j (h n (by omega))
    simp only [Option.some_bind, List.foldlM_cons, List.foldlM_nil, hc, Option.bind_eq_bind,
      List.map_append, List.map_cons, List.map_nil, List.sum_append, List.sum_cons, List.sum_nil,
      total_at_eq_some stat n j c hc, Option.getD_some, Option.pure_def, Option.some.injEq]
    omega

theorem fixed_total_spec_congr (stat stat' : List (List EventStats)) (n j : Nat)
    (h : ∀ i j, total_at stat' i j = total_at stat i j) :
    fixed_total_spec stat' n j = fixed_total_spec stat n j := by
  unfold fixed_total_spec
  simp only [h]

/-- The first loop of `estimation` after the slots `0 .. m-1`. -/
theorem estimation_fixed_upto (stat : List (List EventStats)) (n fixed m : Nat)
    (hn : 0 < n) (hm : m ≤ fixed)
    (h : ∀ i j, i < n → j < fixed → (total_at stat i j).isSome) :
    ∃ st, (List.range m).foldlM
        (fun st j =>
          match fixed_event_total st n j with
          | none => none
          | some total => set_estimated_value st 0 j total) stat = some st ∧
      (∀ i j, total_at st i j = total_at stat i j) ∧
      (∀ j, j < m → estimated_at st 0 j = some (fixed_total_spec stat n j)) := by
  induction m with
  | zero => exact ⟨stat, rfl, fun _ _ => rfl, fun j hj => absurd hj (by omega)⟩
  | succ m ih =>
    obtain ⟨st, hst, htot, hest⟩ := ih (by omega)
    rw [List.range_succ, List.foldlM_append, hst]
    have hin : ∀ i, i < n → (total_at st i m).isSome := by
      intro i hi; rw [htot]; exact h i m hi (by omega)
    obtain ⟨c, hc⟩ := stat_at_isSome_of_total_at st 0 m (hin 0 hn)
    obtain ⟨st', hst', htot', hest', hother⟩ :=
      set_estimated_value_spec st 0 m (fixed_total_spec st n m) c hc
    refine ⟨st', ?_, ?_, ?_⟩
    · simp only [Option.some_bind, List.foldlM_cons, List.foldlM_nil, Option.bind_eq_bind,
        fixed_event_total_eq st n m hin, hst']
      rfl
    · intro i j; rw [htot', htot]
    · intro j hj
      rcases Nat.lt_succ_iff_lt_or_eq.1 hj with hj | hj
      · rw [hother 0 j (by omega)]; exact hest j hj
      · subst hj
        rw [hest', fixed_total_spec_congr stat st n j htot]

theorem estimation_fixed_spec (stat : List (List EventStats)) (n fixed : Nat)
    (hn : 0 < n) (h : ∀ i j, i < n → j < fixed → (total_at stat i j).isSome) :
    ∃ st, estimation_fixed stat n fixed = some st ∧
      (∀ i j, total_at st i j = total_at stat i j) ∧
      (∀ j, j < fixed → estimated_at st 0 j = some (fixed_total_spec stat n j)) :=
  estimation_fixed_upto stat n fixed fixed hn (le_refl _) h


/-- The inner loop of the second part of `estimation` after the slots `0 .. m-1` of group `i`:
it has run without a bad access, kept every total and every estimate of a fixed slot. -/
theorem estimation_group_upto (scale : Nat → Nat → Nat → Nat) (r : Reporter)
    (stat : List (List EventStats)) (i len m : Nat) (hm : m ≤ len)
    (hi : i < r.enabled_time_in_ns_.length)
    (h : ∀ j, j < len → (total_at stat i (r.fixed_event_num_ + j)).isSome) :
    ∃ st, (List.range m).foldlM
        (fun st j =>
          match r.enabled_time_in_ns_.get? i, stat_at st i (r.fixed_event_num_ + j) with
          | some enabled_time, some cell =>
            set_estimated_value st i (r.fixed_event_num_ + j)
              (scale cell.total_value r.total_time_in_ns_ enabled_time)
          | _, _ => none) stat = some st ∧
      (∀ i' j', total_at st i' j' = total_at stat i' j') ∧
      (∀ i' j', j' < r.fixed_event_num_ → estimated_at st i' j' = estimated_at stat i' j') := by
  induction m with
  | zero => exact ⟨stat, rfl, fun _ _ => rfl, fun _ _ _ => rfl⟩
  | succ m ih =>
    obtain ⟨st, hst, htot, hest⟩ := ih (by omega)
    rw [List.range_succ, List.foldlM_append, hst]
    obtain ⟨c, hc⟩ := stat_at_isSome_of_total_at st i (r.fixed_event_num_ + m)
      (by rw [htot]; exact h m (by omega))
    have hen : r.enabled_time_in_ns_.get? i = some (r.enabled_time_in_ns_.get ⟨i, hi⟩) :=
      List.get?_eq_get hi
    obtain ⟨st', hst', htot', -, hother⟩ :=
      set_estimated_value_spec st i (r.fixed_event_num_ + m)
        (scale c.total_value r.total_time_in_ns_ (r.enabled_time_in_ns_.get ⟨i, hi⟩)) c hc
    refine ⟨st', ?_, ?_, ?_⟩
    · simp only [Option.some_bind, List.foldlM_cons, List.foldlM_nil, Option.bind_eq_bind,
        hen, hc, hst']
      rfl
    · intro i' j'; rw [htot', htot]
    · intro i' j' hj'
      rw [hother i' j' (by omega)]
      exact hest i' j' hj'

theorem estimation_group_spec (scale : Nat → Nat → Nat → Nat) (r : Reporter)
    (stat : List (List EventStats)) (i : Nat) (hi : i < r.enabled_time_in_ns_.length)
    (h : ∀ j, j < (r.pmu_config_.get_event_group_by_idx i).length →
      (total_at stat i (r.fixed_event_num_ + j)).isSome) :
    ∃ st, estimation_group scale r stat i = some st ∧
      (∀ i' j', total_at st i' j' = total_at stat i' j') ∧
      (∀ i' j', j' < r.fixed_event_num_ → estimated_at st i' j' = estimated_at stat i' j') :=
  estimation_group_upto scale r stat i _ _ (le_refl _) hi h

theorem estimation_schedulable_upto (scale : Nat → Nat → Nat → Nat) (r : Reporter)
    (stat : List (List EventStats)) (m : Nat) (hm : m ≤ r.enabled_time_in_ns_.length)
    (h : ∀ i j, i < m → j < (r.pmu_config_.get_event_group_by_idx i).length →
      (total_at stat i (r.fixed_event_num_ + j)).isSome) :
    ∃ st, (List.range m).foldlM (estimation_group scale r) stat = some st ∧
      (∀ i' j', total_at st i' j' = total_at stat i' j') ∧
      (∀ i' j', j' < r.fixed_event_num_ → estimated_at st i' j' = estimated_at stat i' j') := by
  induction m with
  | zero => exact ⟨stat, rfl, fun _ _ => rfl, fun _ _ _ => rfl⟩
  | succ m ih =>
    obtain ⟨st, hst, htot, hest⟩ := ih (by omega) (fun i j hi hj => h i j (by omega) hj)
    rw [List.range_succ, List.foldlM_append, hst]
    obtain ⟨st', hst', htot', hest'⟩ := estimation_group_spec scale r st m (by omega)
      (fun j hj => by rw [htot]; exact h m j (by omega) hj)
    refine ⟨st', ?_, ?_, ?_⟩
    · simp only [Option.some_bind, List.foldlM_cons, List.foldlM_nil, Option.bind_eq_bind, hst']
      rfl
    · intro i' j'; rw [htot', htot]
    · intro i' j' hj'; rw [hest' i' j' hj', hest i' j' hj']

theorem total_at_isSome_of_lt (stat : List (List EventStats)) (i j : Nat)
    (hi : i < stat.length) (hj : j < (stat.getD i []).length) : (total_at stat i j).isSome := by
  unfold total_at
  rw [stat_at_eq, List.getElem?_eq_getElem hi]
  have : stat.getD i [] = stat[i] := by
    rw [List.getD_eq_getElem?_getD, List.getElem?_eq_getElem hi]; rfl
  rw [this] at hj
  simp [List.getElem?_eq_getElem hj]

theorem Reporter.well_formed_total_at (r : Reporter) (hwf : r.well_formed) (i j : Nat)
    (hi : i < r.pmu_config_.get_event_group_num)
    (hj : j < r.fixed_event_num_ + (r.pmu_config_.get_event_group_by_idx i).length) :
    (total_at r.stat_ i j).isSome := by
  obtain ⟨h1, h2, h3⟩ := hwf
  exact total_at_isSome_of_lt r.stat_ i j (by omega) (by rw [h3 i hi]; exact hj)

/-! ## The claims about adaptive grouping -/

/-- C1, as stated, fails: with the three test groups (4, 4 and 3 events) and budget 3 nothing
can be merged, the groups stay as they are, and a group of 4 distinct encodings exceeds the
budget. -/
theorem adaptive_grouping_group_exceeds_budget :
    ¬ ∀ g ∈ (test_config.adaptive_grouping insertionSort 3).event_groups_,
      distinct_encodings g ≤ 3 := by
  decide

/-- C1, amended: if every group of the input has at most `k` events by distinct encoding, then
after `adaptive_grouping(k)` every group of the result has at most `k` events by distinct
encoding (groups are only ever merged, never split). -/
theorem adaptive_grouping_group_size_le (S : StdSort) (c : PMUConfig) (k : Nat)
    (h : ∀ g ∈ c.event_groups_, distinct_encodings g ≤ k) :
    ∀ g ∈ (c.adaptive_grouping S k).event_groups_, distinct_encodings g ≤ k := by
  intro g hg
  rcases adaptive_grouping_loop_mem S k _ c.event_groups_ g hg with h1 | h1
  · exact h g h1
  · exact le_trans (distinct_encodings_le_length g) h1

/-- Witness for C1 amended: the three test groups with budget 7. -/
theorem adaptive_grouping_group_size_le_witness :
    (∀ g ∈ test_config.event_groups_, distinct_encodings g ≤ 7) ∧
    ∀ g ∈ (test_config.adaptive_grouping insertionSort 7).event_groups_,
      distinct_encodings g ≤ 7 :=
  ⟨by decide, adaptive_grouping_group_size_le insertionSort test_config 7 (by decide)⟩

/-- C2, as stated, fails: on `unmerged_groups` with budget 4 the smallest group (2 events)
fits with no other group, the loop breaks at once, and the two other groups, whose union has
4 events, stay unmerged. -/
theorem adaptive_grouping_leaves_mergeable_pair :
    ¬ ∀ i, i < (PMUConfig.adaptive_grouping insertionSort
          ⟨catalog_fixed_events, unmerged_groups⟩ 4).event_groups_.length →
      ∀ j, j < (PMUConfig.adaptive_grouping insertionSort
          ⟨catalog_fixed_events, unmerged_groups⟩ 4).event_groups_.length →
      i ≠ j →
      4 < (union_by_encoding insertionSort
        ((PMUConfig.adaptive_grouping insertionSort
          ⟨catalog_fixed_events, unmerged_groups⟩ 4).event_groups_.getD i [])
        ((PMUConfig.adaptive_grouping insertionSort
          ⟨catalog_fixed_events, unmerged_groups⟩ 4).event_groups_.getD j [])).length := by
  decide

/-- C2, amended: for a catalog of fewer than `2^64 - 1` events in all, after
`adaptive_grouping(k)` either fewer than two groups are left or the group that
`get_smallest_event_group_idx` selects cannot be merged with any other group: each such union
by encoding has more than `k` events. -/
theorem adaptive_grouping_smallest_unmergeable (S : StdSort) (c : PMUConfig) (k : Nat)
    (hsize : (c.event_groups_.map List.length).sum < SIZE_MAX) :
    (c.adaptive_grouping S k).event_groups_.length < 2 ∨
    ∀ j, j < (c.adaptive_grouping S k).event_groups_.length →
      j ≠ get_smallest_event_group_idx (c.adaptive_grouping S k).event_groups_ →
      k < count_union_by_encoding S
        ((c.adaptive_grouping S k).event_groups_.getD
          (get_smallest_event_group_idx (c.adaptive_grouping S k).event_groups_) [])
        ((c.adaptive_grouping S k).event_groups_.getD j []) := by
  have hsum : ((adaptive_grouping S c.event_groups_ k).map List.length).sum < SIZE_MAX :=
    lt_of_le_of_lt (adaptive_grouping_loop_sum_le S k _ c.event_groups_ hsize) hsize
  exact adaptive_grouping_step_none S _ k hsum (adaptive_grouping_terminal S k c.event_groups_)

/-- Witness for C2 amended: the three test groups with budget 7. -/
theorem adaptive_grouping_smallest_unmergeable_witness :
    (test_config.event_groups_.map List.length).sum < SIZE_MAX ∧
    ((test_config.adaptive_grouping insertionSort 7).event_groups_.length < 2 ∨
    ∀ j, j < (test_config.adaptive_grouping insertionSort 7).event_groups_.length →
      j ≠ get_smallest_event_group_idx
        (test_config.adaptive_grouping insertionSort 7).event_groups_ →
      7 < count_union_by_encoding insertionSort
        ((test_config.adaptive_grouping insertionSort 7).event_groups_.getD
          (get_smallest_event_group_idx
            (test_config.adaptive_grouping insertionSort 7).event_groups_) [])
        ((test_config.adaptive_grouping insertionSort 7).event_groups_.getD j [])) :=
  ⟨by decide, adaptive_grouping_smallest_unmergeable insertionSort test_config 7 (by decide)⟩

/-- C3: `adaptive_grouping` is a fixed point: applying `adaptive_grouping(k)` to its own
result changes nothing. -/
theorem adaptive_grouping_fixed_point (S : StdSort) (c : PMUConfig) (k : Nat) :
    (c.adaptive_grouping S k).adaptive_grouping S k = c.adaptive_grouping S k := by
  unfold PMUConfig.adaptive_grouping
  simp only
  rw [adaptive_grouping_of_terminal S k _ (adaptive_grouping_terminal S k c.event_groups_)]

/-- C4, as stated, fails: for the three test groups, which have the shape `{A,B,C,D}`,
`{A,E,F,G}`, `{A,H,I}`, and budget 7, no group of the result has the encodings of
`{A,B,C,D}`: that group is the one merged away. -/
theorem first_test_group_merged_away :
    ¬ ∃ g ∈ (test_config.adaptive_grouping insertionSort 7).event_groups_,
      (encodings g).Perm (encodings test_a) := by
  decide

/-- C4, amended: for events `A .. I` of pairwise distinct encodings, the groups `{A,B,C,D}`,
`{A,E,F,G}`, `{A,H,I}` and budget 7, `adaptive_grouping` merges the smallest group `{A,H,I}`
with `{A,B,C,D}` (both candidate unions have 6 events and the lower index wins) and stops
with exactly two groups: `{A,E,F,G}` as it was, followed by the merged group, which holds the
six events `A,B,C,D,H,I` in ascending order of encoding. -/
theorem adaptive_grouping_example (S : StdSort) (A B C D E F G H I : PMUEvent)
    (hd : (encodings [A, B, C, D, E, F, G, H, I]).Nodup) :
    adaptive_grouping S [[A, B, C, D], [A, E, F, G], [A, H, I]] 7 =
      [[A, E, F, G], union_by_encoding S [A, H, I] [A, B, C, D]] ∧
    (union_by_encoding S [A, H, I] [A, B, C, D]).Perm [A, B, C, D, H, I] ∧
    (union_by_encoding S [A, H, I] [A, B, C, D]).Pairwise
      (fun x y => x.encoding < y.encoding) := by
  simp only [encodings, List.map_cons, List.map_nil, List.nodup_cons, List.mem_cons,
    List.mem_singleton, not_or, List.not_mem_nil, not_false_eq_true, List.nodup_nil,
    and_true] at hd
  obtain ⟨⟨hAB, hAC, hAD, hAE, hAF, hAG, hAH, hAI⟩, ⟨hBC, hBD, hBE, hBF, hBG, hBH, hBI⟩,
    ⟨hCD, hCE, hCF, hCG, hCH, hCI⟩, ⟨hDE, hDF, hDG, hDH, hDI⟩, ⟨hEF, hEG, hEH, hEI⟩,
    ⟨hFG, hFH, hFI⟩, ⟨hGH, hGI⟩, hHI⟩ := hd
  have n1 : (encodings [A, B, C, D]).Nodup := by simp [encodings, *]
  have n2 : (encodings [A, E, F, G]).Nodup := by simp [encodings, *]
  have n3 : (encodings [A, H, I]).Nodup := by simp [encodings, *]
  have hperm : (union_by_encoding S [A, H, I] [A, B, C, D]).Perm [A, H, I, B, C, D] := by
    refine (union_by_encoding_perm S _ _ n3 n1).trans ?_
    have : List.filter (fun e => decide (e.encoding ∉ encodings [A, H, I])) [A, B, C, D] =
        [B, C, D] := by
      simp [List.filter, encodings, Ne.symm, *]
    rw [this]; rfl
  have hlen : (union_by_encoding S [A, H, I] [A, B, C, D]).length = 6 := hperm.length_eq
  have c1 : count_union_by_encoding S [A, H, I] [A, B, C, D] = 6 := hlen
  have c2 : count_union_by_encoding S [A, H, I] [A, E, F, G] = 6 := by
    rw [count_union_by_encoding_eq S _ _ n3 n2]
    have : List.filter (fun e => decide (e.encoding ∉ encodings [A, H, I])) [A, E, F, G] =
        [E, F, G] := by
      simp [List.filter, encodings, Ne.symm, *]
    rw [this]; rfl
  have c3 : count_union_by_encoding S [A, E, F, G]
      (union_by_encoding S [A, H, I] [A, B, C, D]) = 9 := by
    rw [count_union_by_encoding_congr S _ _ _ _ (List.Perm.refl _) hperm,
      count_union_by_encoding_eq S _ _ n2 (by simp [encodings, Ne.symm, *])]
    have : List.filter (fun e => decide (e.encoding ∉ encodings [A, E, F, G]))
        [A, H, I, B, C, D] = [H, I, B, C, D] := by
      simp [List.filter, encodings, Ne.symm, *]
    rw [this]; rfl
  have s1 : get_smallest_event_group_idx [[A, B, C, D], [A, E, F, G], [A, H, I]] = 2 := rfl
  have f1 : find_merge_partner S [[A, B, C, D], [A, E, F, G], [A, H, I]] 2 = (0, 6) := by
    simp [find_merge_partner, find_merge_partner_body, List.range_succ, c1, c2, SIZE_MAX]
  have step1 : adaptive_grouping_step S [[A, B, C, D], [A, E, F, G], [A, H, I]] 7 =
      some [[A, E, F, G], union_by_encoding S [A, H, I] [A, B, C, D]] := by
    rw [adaptive_grouping_step_eq, s1, f1]
    simp [c1]
  have s2 : get_smallest_event_group_idx
      [[A, E, F, G], union_by_encoding S [A, H, I] [A, B, C, D]] = 0 := by
    simp [get_smallest_event_group_idx, hlen]
  have f2 : (find_merge_partner S
      [[A, E, F, G], union_by_encoding S [A, H, I] [A, B, C, D]] 0).1 = 1 := by
    simp [find_merge_partner, find_merge_partner_body, List.range_succ, c3, SIZE_MAX]
  have step2 : adaptive_grouping_step S
      [[A, E, F, G], union_by_encoding S [A, H, I] [A, B, C, D]] 7 = none := by
    rw [adaptive_grouping_step_eq, s2, f2]
    simp [c3]
  refine ⟨?_, ?_, ?_⟩
  · simp [adaptive_grouping, adaptive_grouping_loop, step1, step2]
  · exact hperm.trans (List.Perm.cons A (@List.perm_append_comm _ [H, I] [B, C, D]))
  · have := union_by_encoding_strict S _ _ n3 n1
    unfold encodings at this
    rw [List.pairwise_map] at this
    exact this


/-- Witness for C4 amended: the nine events of the three test groups. -/
theorem adaptive_grouping_example_witness :
    (encodings
      [⟨"inst_spec", "Operation speculatively executed", 0x1b⟩,
       ⟨"ld_spec", "Operation speculatively executed, load", 0x70⟩,
       ⟨"st_spec", "Operation speculatively executed, store", 0x71⟩,
       ⟨"dp_spec", "Operation speculatively executed, integer data processing", 0x73⟩,
       ⟨"vfp_spec", "Operation speculatively executed, scalar floating-point", 0x75⟩,
       ⟨"ase_spec", "Operation speculatively executed, Advanced SIMD", 0x74⟩,
       ⟨"br_immed_spec", "Branch Speculatively executed, immediate branch", 0x78⟩,
       ⟨"br_indirect_spec", "Branch Speculatively executed, indirect branch", 0x7a⟩,
       ⟨"br_return_spec", "Branch Speculatively executed, procedure return", 0x79⟩]).Nodup ∧
    adaptive_grouping insertionSort [test_a, test_b, test_c] 7 =
      [test_b, union_by_encoding insertionSort test_c test_a] ∧
    (union_by_encoding insertionSort test_c test_a).Perm
      [⟨"inst_spec", "Operation speculatively executed", 0x1b⟩,
       ⟨"ld_spec", "Operation speculatively executed, load", 0x70⟩,
       ⟨"st_spec", "Operation speculatively executed, store", 0x71⟩,
       ⟨"dp_spec", "Operation speculatively executed, integer data processing", 0x73⟩,
       ⟨"br_indirect_spec", "Branch Speculatively executed, indirect branch", 0x7a⟩,
       ⟨"br_return_spec", "Branch Speculatively executed, procedure return", 0x79⟩] ∧
    (union_by_encoding insertionSort test_c test_a).Pairwise
      (fun x y => x.encoding < y.encoding) :=
  ⟨by decide, adaptive_grouping_example insertionSort _ _ _ _ _ _ _ _ _ (by decide)⟩

/-! ## The claims about `union_by_encoding` -/

/-- C5: `union_by_encoding` is commutative by encoding multiset: the encodings of
`union_by_encoding(a, b)` and of `union_by_encoding(b, a)` form the same multiset. -/
theorem union_by_encoding_comm (S : StdSort) (a b : List PMUEvent) :
    encoding_multiset (union_by_encoding S a b) = encoding_multiset (union_by_encoding S b a) := by
  unfold encoding_multiset
  rw [encodings_union_by_encoding, encodings_union_by_encoding, set_union_less_encoding_comm]

/-- C6: `union_by_encoding` is associative by encoding multiset: merging `a` with `b` and then
with `c` gives the same multiset of encodings as merging `a` with the union of `b` and `c`. -/
theorem union_by_encoding_assoc (S : StdSort) (a b c : List PMUEvent) :
    encoding_multiset (union_by_encoding S (union_by_encoding S a b) c) =
      encoding_multiset (union_by_encoding S a (union_by_encoding S b c)) := by
  unfold encoding_multiset
  rw [encodings_union_by_encoding S (union_by_encoding S a b) c,
    encodings_union_by_encoding S a (union_by_encoding S b c),
    encodings_sort_of_sorted S _ (encodings_union_by_encoding_sorted S a b),
    encodings_sort_of_sorted S _ (encodings_union_by_encoding_sorted S b c),
    encodings_union_by_encoding, encodings_union_by_encoding,
    set_union_less_encoding_assoc _ _ _ (encodings_sort_sorted S a) (encodings_sort_sorted S b)
      (encodings_sort_sorted S c)]

/-- C7, as stated, fails: `std::set_union` removes repetitions between its operands, not
inside one. For a group listing encoding `0x11` twice and an empty second group the output
holds two events of encoding `0x11`, not one. -/
theorem union_by_encoding_repeated_encoding :
    ¬ ∀ n, n ∈ encodings group_with_repeated_encoding →
      (encodings (union_by_encoding insertionSort group_with_repeated_encoding [])).count n
        = 1 := by
  intro h
  exact absurd (h 0x11 (by decide)) (by decide)

/-- C7, amended: for groups `a` and `b` in neither of which an encoding occurs twice,
`union_by_encoding(a, b)` is strictly ascending by encoding, holds exactly one event for each
encoding occurring in `a` or `b`, and consists of the events of `a` together with the events
of `b` whose encoding does not occur in `a` (so an encoding of both operands is represented by
the event of `a`). -/
theorem union_by_encoding_spec (S : StdSort) (a b : List PMUEvent)
    (ha : (encodings a).Nodup) (hb : (encodings b).Nodup) :
    (union_by_encoding S a b).Pairwise (fun x y => x.encoding < y.encoding) ∧
    (∀ n, n ∈ encodings a ∨ n ∈ encodings b →
      (encodings (union_by_encoding S a b)).count n = 1) ∧
    (∀ e, e ∈ union_by_encoding S a b ↔ e ∈ a ∨ (e ∈ b ∧ e.encoding ∉ encodings a)) := by
  refine ⟨?_, ?_, mem_union_by_encoding S a b ha hb⟩
  · have := union_by_encoding_strict S a b ha hb
    unfold encodings at this
    rw [List.pairwise_map] at this
    exact this
  · intro n hn
    rw [count_encodings_union_by_encoding]
    have h1 := List.nodup_iff_count_le_one.1 ha n
    have h2 := List.nodup_iff_count_le_one.1 hb n
    rcases hn with hn | hn
    · have := List.count_pos_iff.2 hn
      omega
    · have := List.count_pos_iff.2 hn
      omega

/-- Witness for C7 amended: the test groups `a` and `b`, which share `inst_spec`. -/
theorem union_by_encoding_spec_witness :
    (encodings test_a).Nodup ∧ (encodings test_b).Nodup ∧
    (union_by_encoding insertionSort test_a test_b).Pairwise
      (fun x y => x.encoding < y.encoding) ∧
    (∀ n, n ∈ encodings test_a ∨ n ∈ encodings test_b →
      (encodings (union_by_encoding insertionSort test_a test_b)).count n = 1) ∧
    (∀ e, e ∈ union_by_encoding insertionSort test_a test_b ↔
      e ∈ test_a ∨ (e ∈ test_b ∧ e.encoding ∉ encodings test_a)) :=
  ⟨by decide, by decide,
    union_by_encoding_spec insertionSort test_a test_b (by decide) (by decide)⟩

/-! ## The claims about the estimator -/

/-- C9: for a statistics grid of the shape the constructor builds and at least one group,
`estimation` runs without a bad access, leaves in `stat[0][j].estimated_value`, for every
fixed-event slot `j`, the sum over all groups `i` of `stat[i][j].total_value` in 64-bit
unsigned arithmetic, and changes no `total_value`. It holds whatever the double-precision
scaling of the schedulable slots computes. -/
theorem estimation_fixed_event_total (scale : Nat → Nat → Nat → Nat) (r : Reporter)
    (hwf : r.well_formed) (hn : 0 < r.pmu_config_.get_event_group_num) :
    ∃ r', r.estimation scale = some r' ∧
      (∀ j, j < r.fixed_event_num_ →
        estimated_at r'.stat_ 0 j =
          some (((List.range r.pmu_config_.get_event_group_num).map
            (fun i => (total_at r.stat_ i j).getD 0)).sum % 2 ^ 64)) ∧
      (∀ i j, total_at r'.stat_ i j = total_at r.stat_ i j) := by
  obtain ⟨st1, hst1, htot1, hest1⟩ :=
    estimation_fixed_spec r.stat_ r.pmu_config_.get_event_group_num r.fixed_event_num_ hn
      (fun i j hi hj => Reporter.well_formed_total_at r hwf i j hi (by omega))
  obtain ⟨st2, hst2, htot2, hest2⟩ :=
    estimation_schedulable_upto scale r st1 r.pmu_config_.get_event_group_num
      (le_of_eq hwf.2.1.symm)
      (fun i j hi hj => by
        rw [htot1]; exact Reporter.well_formed_total_at r hwf i _ hi (by omega))
  refine ⟨{ r with stat_ := st2 }, ?_, ?_, ?_⟩
  · unfold Reporter.estimation
    rw [hst1]
    simp only
    unfold estimation_schedulable
    rw [hst2]
  · intro j hj
    show estimated_at st2 0 j = _
    rw [hest2 0 j hj, hest1 j hj]
    rfl
  · intro i j
    show total_at st2 i j = _
    rw [htot2, htot1]


/-- Witness for C9: the estimator state of boundary scenario 6. -/
theorem estimation_fixed_event_total_witness :
    two_group_reporter.well_formed ∧ 0 < two_group_reporter.pmu_config_.get_event_group_num ∧
    ∃ r, two_group_reporter.estimation exact_scale = some r ∧
      (∀ j, j < two_group_reporter.fixed_event_num_ →
        estimated_at r.stat_ 0 j =
          some (((List.range two_group_reporter.pmu_config_.get_event_group_num).map
            (fun i => (total_at two_group_reporter.stat_ i j).getD 0)).sum % 2 ^ 64)) ∧
      (∀ i j, total_at r.stat_ i j = total_at two_group_reporter.stat_ i j) :=
  ⟨by unfold Reporter.well_formed; decide, by decide,
    estimation_fixed_event_total exact_scale two_group_reporter
      (by unfold Reporter.well_formed; decide) (by decide)⟩

/-- C10: for every sequence of records with in-range group and event indices (and `uint64_t`
timestamps) processed by a freshly constructed `Reporter`, every record is processed without a
bad access and the sum over all groups of `enabled_time_in_ns[i]` is at most
`total_time_in_ns`. -/
theorem enabled_time_sum_le_total_time (c : PMUConfig) (records : List Record)
    (h : ∀ record ∈ records, record.in_range c ∧ record.timestamp < 2 ^ 64) :
    ∃ r, (Reporter.new c).process_records records = some r ∧
      r.enabled_time_in_ns_.sum ≤ r.total_time_in_ns_ := by
  obtain ⟨r, hr, hinv⟩ :=
    Reporter.process_records_invariant c records _ (Reporter.new_time_invariant c) h
  exact ⟨r, hr, le_of_eq hinv.2.2.2.1⟩

/-- Witness for C10: the four records of boundary scenario 6. -/
theorem enabled_time_sum_le_total_time_witness :
    (∀ record ∈ two_group_records,
      record.in_range two_group_config ∧ record.timestamp < 2 ^ 64) ∧
    ∃ r, (Reporter.new two_group_config).process_records two_group_records = some r ∧
      r.enabled_time_in_ns_.sum ≤ r.total_time_in_ns_ :=
  ⟨by decide, enabled_time_sum_le_total_time two_group_config two_group_records (by decide)⟩

/-! ## The claims about the command line -/

theorem isDigit_toNat (c : Char) (h : c.isDigit = true) : 48 ≤ c.toNat ∧ c.toNat ≤ 57 := by
  simp only [Char.isDigit, Bool.and_eq_true, decide_eq_true_eq] at h
  exact ⟨h.1, h.2⟩

theorem isDigit_ne (c d : Char) (h : c.isDigit = true) (hd : d.isDigit = false) : c ≠ d := by
  rintro rfl
  rw [h] at hd
  exact absurd hd (by simp)

theorem isDigit_not_isspace (c : Char) (h : c.isDigit = true) : isspace c = false := by
  have h1 := isDigit_toNat c h
  have h2 : c ≠ ' ' := isDigit_ne c ' ' h (by decide)
  simp only [isspace, Bool.or_eq_false_iff, decide_eq_false_iff_not, Bool.and_eq_false_imp,
    decide_eq_true_eq]
  exact ⟨h2, fun _ => by omega⟩

theorem takeWhile_eq_self {α : Type} (p : α → Bool) (l : List α) (h : ∀ c ∈ l, p c = true) :
    l.takeWhile p = l := by
  induction l with
  | nil => rfl
  | cons a l ih =>
    rw [List.takeWhile_cons, h a (List.mem_cons_self _ _)]
    simp only [if_true]
    rw [ih (fun c hc => h c (List.mem_cons_of_mem _ hc))]

theorem dropWhile_eq_nil {α : Type} (p : α → Bool) (l : List α) (h : ∀ c ∈ l, p c = true) :
    l.dropWhile p = [] := by
  induction l with
  | nil => rfl
  | cons a l ih =>
    rw [List.dropWhile_cons, h a (List.mem_cons_self _ _)]
    simp only [if_true]
    exact ih (fun c hc => h c (List.mem_cons_of_mem _ hc))

theorem takeWhile_append_stop {α : Type} (p : α → Bool) (l r : List α) (x : α)
    (h : ∀ c ∈ l, p c = true) (hx : p x = false) : (l ++ x :: r).takeWhile p = l := by
  induction l with
  | nil => simp [List.takeWhile_cons, hx]
  | cons a l ih =>
    rw [List.cons_append, List.takeWhile_cons, h a (List.mem_cons_self _ _)]
    simp only [if_true]
    rw [ih (fun c hc => h c (List.mem_cons_of_mem _ hc))]

theorem dropWhile_append_stop {α : Type} (p : α → Bool) (l r : List α) (x : α)
    (h : ∀ c ∈ l, p c = true) (hx : p x = false) : (l ++ x :: r).dropWhile p = x :: r := by
  induction l with
  | nil => simp [List.dropWhile_cons, hx]
  | cons a l ih =>
    rw [List.cons_append, List.dropWhile_cons, h a (List.mem_cons_self _ _)]
    simp only [if_true]
    exact ih (fun c hc => h c (List.mem_cons_of_mem _ hc))

/-- On a non-empty string of digits `strtol` reads the whole string. -/
theorem strtol_digits (ds : List Char) (hne : ds ≠ []) (hd : ∀ c ∈ ds, c.isDigit = true)
    (hv : (decimal_value ds : Int) ≤ LONG_MAX) :
    strtol ds = ((decimal_value ds : Int), []) := by
  obtain ⟨c, cs, rfl⟩ := List.exists_cons_of_ne_nil hne
  have hc := hd c (List.mem_cons_self _ _)
  have h1 : (c :: cs).dropWhile isspace = c :: cs := by
    rw [List.dropWhile_cons, isDigit_not_isspace c hc]; rfl
  have h2 : strtol_sign (c :: cs) = (false, c :: cs) := by
    have hm : c ≠ '-' := isDigit_ne c '-' hc (by decide)
    have hp : c ≠ '+' := isDigit_ne c '+' hc (by decide)
    unfold strtol_sign
    split
    · rename_i heq; exact absurd (List.cons.inj heq).1 hm
    · rename_i heq; exact absurd (List.cons.inj heq).1 hp
    · rfl
  unfold strtol
  simp only [h1, h2, takeWhile_eq_self _ _ hd, dropWhile_eq_nil _ _ hd]
  rw [if_neg (by simp), if_neg (by simp), if_neg (by omega)]

theorem c_str_digits (ds : List Char) (hd : ∀ c ∈ ds, c.isDigit = true) : c_str ds = ds := by
  unfold c_str
  apply takeWhile_eq_self
  intro c hc
  simpa using isDigit_ne c (Char.ofNat 0) (hd c hc) (by decide)

theorem long_to_int_of_nonneg (x : Int) (h0 : 0 ≤ x) (h1 : x ≤ INT_MAX) : long_to_int x = x := by
  unfold long_to_int
  unfold INT_MAX at h1
  omega

/-- The value `strtol` and the conversion to `int` give for a number of the amended claim. -/
theorem strtol_number (bound : Int) (hb : bound ≤ INT_MAX) (ds : List Char)
    (h : is_number bound ds) :
    (strtol (c_str ds)).2 = [] ∧ long_to_int (strtol (c_str ds)).1 = (decimal_value ds : Int) := by
  obtain ⟨hne, hd, hv⟩ := h
  have hmax : (decimal_value ds : Int) ≤ INT_MAX := le_trans hv hb
  rw [c_str_digits ds hd,
    strtol_digits ds hne hd (by unfold INT_MAX at hmax; unfold LONG_MAX; omega)]
  exact ⟨rfl, long_to_int_of_nonneg _ (by omega) hmax⟩

theorem parse_token_valid (t : CpuToken) (h : t.valid) :
    parse_token t.text = TokenOutcome.push t.cpus := by
  cases t with
  | single n =>
    obtain ⟨h1, h2⟩ := strtol_number INT_MAX (le_refl _) n h
    have hdash : '-' ∉ n := fun hm => isDigit_ne '-' '-' (h.2.1 _ hm) (by decide) rfl
    show parse_token n = _
    unfold parse_token
    rw [if_pos hdash, h1, h2, if_neg (by simp)]
    rfl
  | range m n =>
    obtain ⟨hm, hn, hle⟩ := h
    have hsub : INT_MAX - 1 ≤ INT_MAX := by unfold INT_MAX; omega
    obtain ⟨m1, m2⟩ := strtol_number INT_MAX (le_refl _) m hm
    obtain ⟨n1, n2⟩ := strtol_number (INT_MAX - 1) hsub n hn
    have hdash : ¬ '-' ∉ m ++ '-' :: n := by simp
    have hmd : ∀ c ∈ m, (fun c => decide (c ≠ '-')) c = true := by
      intro c hc
      simpa using isDigit_ne c '-' (hm.2.1 c hc) (by decide)
    have hstart : (m ++ '-' :: n).takeWhile (fun c => decide (c ≠ '-')) = m :=
      takeWhile_append_stop _ m n '-' hmd (by simp)
    have hend : ((m ++ '-' :: n).dropWhile (fun c => decide (c ≠ '-'))).tail = n := by
      rw [dropWhile_append_stop _ m n '-' hmd (by simp)]; rfl
    show parse_token (m ++ '-' :: n) = _
    unfold parse_token
    rw [if_neg hdash]
    simp only [hstart, hend, m1, m2, n1, n2]
    have hnv := hn.2.2
    unfold INT_MAX at hnv
    split
    · rename_i hc
      simp only [ne_eq, not_true_eq_false, false_or] at hc
      omega
    · split
      · rename_i hc
        unfold INT_MAX at hc
        omega
      · show TokenOutcome.push _ = TokenOutcome.push _
        congr 2
        simp only [Int.toNat_ofNat]
        congr 1
        omega

theorem is_number_no_comma (bound : Int) (ds : List Char) (h : is_number bound ds) :
    ∀ c ∈ ds, (fun c => decide (c ≠ ',')) c = true := by
  intro c hc
  simpa using isDigit_ne c ',' (h.2.1 c hc) (by decide)

theorem CpuToken.text_no_comma (t : CpuToken) (h : t.valid) :
    ∀ c ∈ t.text, (fun c => decide (c ≠ ',')) c = true := by
  cases t with
  | single n => exact is_number_no_comma _ n h
  | range m n =>
    intro c hc
    have hc2 : c ∈ m ++ '-' :: n := hc
    rw [List.mem_append, List.mem_cons] at hc2
    rcases hc2 with h1 | h1 | h1
    · exact is_number_no_comma _ m h.1 c h1
    · subst h1; decide
    · exact is_number_no_comma _ n h.2.1 c h1

theorem CpuToken.text_ne_nil (t : CpuToken) (h : t.valid) : t.text ≠ [] := by
  cases t with
  | single n => exact h.1
  | range m n =>
    show m ++ '-' :: n ≠ []
    simp

/-- The loop of `parse_comma_sperated_list` on the text of valid tokens: every token is
accepted and its ids are appended. -/
theorem parse_comma_loop_valid (ts : List CpuToken) (t : CpuToken) (fuel : Nat)
    (result : List Int) (hv : ∀ x ∈ t :: ts, x.valid) (hf : ts.length < fuel) :
    parse_comma_loop fuel (cpu_list_text (t :: ts)) result =
      some (result ++ cpu_list_ids (t :: ts)) := by
  induction ts generalizing t fuel result with
  | nil =>
    obtain ⟨f, rfl⟩ : ∃ f, fuel = f + 1 := ⟨fuel - 1, by simp at hf; omega⟩
    have ht := hv t (List.mem_cons_self _ _)
    have hnc := CpuToken.text_no_comma t ht
    show parse_comma_loop (f + 1) t.text result = _
    unfold parse_comma_loop
    rw [if_neg (CpuToken.text_ne_nil t ht), takeWhile_eq_self _ _ hnc,
      if_neg (CpuToken.text_ne_nil t ht), parse_token_valid t ht, dropWhile_eq_nil _ _ hnc]
    simp [cpu_list_ids]
  | cons t2 ts ih =>
    obtain ⟨f, rfl⟩ : ∃ f, fuel = f + 1 := ⟨fuel - 1, by simp at hf; omega⟩
    have ht := hv t (List.mem_cons_self _ _)
    have hnc := CpuToken.text_no_comma t ht
    have hne : t.text ++ ',' :: cpu_list_text (t2 :: ts) ≠ [] := by simp
    show parse_comma_loop (f + 1) (t.text ++ ',' :: cpu_list_text (t2 :: ts)) result = _
    unfold parse_comma_loop
    rw [if_neg hne, takeWhile_append_stop _ _ _ ',' hnc (by simp),
      if_neg (CpuToken.text_ne_nil t ht), parse_token_valid t ht,
      dropWhile_append_stop _ _ _ ',' hnc (by simp)]
    simp only
    rw [ih t2 f _ (fun x hx => hv x (List.mem_cons_of_mem _ hx)) (by simp at hf; omega)]
    simp [cpu_list_ids]

theorem CpuToken.length_le_text (ts : List CpuToken) (hv : ∀ x ∈ ts, x.valid) :
    ts.length ≤ (cpu_list_text ts).length := by
  induction ts with
  | nil => simp
  | cons t ts ih =>
    have ht := CpuToken.text_ne_nil t (hv t (List.mem_cons_self _ _))
    have hpos : 0 < t.text.length := List.length_pos.2 ht
    cases ts with
    | nil => simpa [cpu_list_text] using hpos
    | cons t2 ts =>
      have := ih (fun x hx => hv x (List.mem_cons_of_mem _ hx))
      simp only [cpu_list_text, List.length_append, List.length_cons] at this ⊢
      omega

theorem CpuToken.cpus_nonneg (t : CpuToken) : ∀ x ∈ t.cpus, 0 ≤ x := by
  cases t with
  | single n => intro x hx; simp [CpuToken.cpus] at hx; omega
  | range m n =>
    intro x hx
    simp only [CpuToken.cpus, List.mem_map] at hx
    obtain ⟨i, -, rfl⟩ := hx
    exact Int.ofNat_nonneg i

theorem CpuToken.cpus_ne_nil (t : CpuToken) (h : t.valid) : t.cpus ≠ [] := by
  cases t with
  | single n => simp [CpuToken.cpus]
  | range m n =>
    have hle := h.2.2
    simp only [CpuToken.cpus, ne_eq, List.map_eq_nil_iff, List.range'_eq_nil]
    omega

/-- C18, as stated, fails: `2147483648` is a non-negative decimal number, but it does not fit
the `int` the code converts it to; the converted value is negative, the token is rejected and
the result is empty instead of `[2147483648]`. -/
theorem parse_comma_sperated_list_beyond_int :
    CpuToken.text (CpuToken.single "2147483648".data) = "2147483648".data ∧
    (∀ c ∈ "2147483648".data, c.isDigit = true) ∧
    parse_comma_sperated_list "2147483648" = some [] := by
  decide

/-- C18, amended: for every string that is a comma-separated list of at least one token, each
of the form `N` or `M-N` with decimal numbers that fit an `int` (at most `INT_MAX`, the end of
a range below `INT_MAX`) and `M ≤ N`, `parse_comma_sperated_list` returns the concatenation in
token order of `[N]` respectively `[M, M+1, …, N]`; the result is non-empty and every element
is non-negative. -/
theorem parse_comma_sperated_list_valid (ts : List CpuToken) (hne : ts ≠ [])
    (hv : ∀ t ∈ ts, t.valid) :
    parse_comma_sperated_list (String.mk (cpu_list_text ts)) = some (cpu_list_ids ts) ∧
    cpu_list_ids ts ≠ [] ∧ ∀ x ∈ cpu_list_ids ts, 0 ≤ x := by
  obtain ⟨t, ts, rfl⟩ := List.exists_cons_of_ne_nil hne
  refine ⟨?_, ?_, ?_⟩
  · unfold parse_comma_sperated_list
    have hlen := CpuToken.length_le_text (t :: ts) hv
    have hnil : (String.mk (cpu_list_text (t :: ts))).data ≠ [] := by
      show cpu_list_text (t :: ts) ≠ []
      intro h0
      rw [h0] at hlen
      simp at hlen
    rw [if_neg hnil]
    show parse_comma_loop ((cpu_list_text (t :: ts)).length + 1) (cpu_list_text (t :: ts)) [] = _
    rw [parse_comma_loop_valid ts t _ [] hv (by simp at hlen; omega)]
    simp
  · intro h0
    have h1 : t.cpus ++ cpu_list_ids ts = [] := h0
    exact CpuToken.cpus_ne_nil t (hv t (List.mem_cons_self _ _)) (List.append_eq_nil.1 h1).1
  · have key : ∀ l : List CpuToken, ∀ x ∈ cpu_list_ids l, 0 ≤ x := by
      intro l
      induction l with
      | nil => intro x hx; simp [cpu_list_ids] at hx
      | cons a l ih =>
        intro x hx
        simp only [cpu_list_ids, List.mem_append] at hx
        rcases hx with hx | hx
        · exact CpuToken.cpus_nonneg a x hx
        · exact ih x hx
    exact key _

/-- Witness for C18 amended: the string `1,3-5,7` yields `[1,3,4,5,7]`. -/
theorem parse_comma_sperated_list_valid_witness :
    ([CpuToken.single ['1'], CpuToken.range ['3'] ['5'], CpuToken.single ['7']] ≠ []) ∧
    (∀ t ∈ [CpuToken.single ['1'], CpuToken.range ['3'] ['5'], CpuToken.single ['7']],
      t.valid) ∧
    parse_comma_sperated_list "1,3-5,7" = some [1, 3, 4, 5, 7] ∧
    ([1, 3, 4, 5, 7] : List Int) ≠ [] ∧ ∀ x ∈ ([1, 3, 4, 5, 7] : List Int), 0 ≤ x :=
  ⟨by decide, by decide,
    parse_comma_sperated_list_valid
      [CpuToken.single ['1'], CpuToken.range ['3'] ['5'], CpuToken.single ['7']]
      (by decide) (by decide)⟩

/-- What the option loop leaves behind when it runs to the end: the flags record whether
`-a` and `-p` occurred, the command vector is untouched, and `--detect-counters` did not
occur. -/
theorem option_loop_ok (opts : List (Int × String)) (st st2 : OptionState)
    (h : option_loop opts st = Except.ok st2) :
    (st2.a_flag = true ↔ st.a_flag = true ∨ opt_code 'a' ∈ opts.map Prod.fst) ∧
    (st2.p_flag = true ↔ st.p_flag = true ∨ opt_code 'p' ∈ opts.map Prod.fst) ∧
    st2.profile_config.command_args = st.profile_config.command_args ∧
    (1 : Int) ∉ opts.map Prod.fst := by
  induction opts generalizing st with
  | nil =>
    simp only [option_loop, Except.ok.injEq] at h
    subst h
    simp
  | cons o rest ih =>
    obtain ⟨opt, optarg⟩ := o
    unfold option_loop at h
    simp only [List.map_cons, List.mem_cons]
    split_ifs at h with h1 h2 h3 h4 h5 h6 h7 h8 h9
    all_goals
      obtain ⟨a1, a2, a3, a4⟩ := ih _ h
      subst_vars
      simp only [opt_code] at *
      refine ⟨?_, ?_, ?_, ?_⟩
      · rw [a1]; simp
      · rw [a2]; simp
      · rw [a3]
      · simp [a4]

/-- The option loop makes `parse` return only at `--detect-counters`, and then with `true`. -/
theorem option_loop_returned (opts : List (Int × String)) (st : OptionState) (ok : Bool)
    (c : ProfileConfig) (h : option_loop opts st = Except.error (ParseOutcome.returned ok c)) :
    ok = true ∧ (1 : Int) ∈ opts.map Prod.fst := by
  induction opts generalizing st with
  | nil => simp [option_loop] at h
  | cons o rest ih =>
    obtain ⟨opt, optarg⟩ := o
    unfold option_loop at h
    simp only [List.map_cons, List.mem_cons]
    split_ifs at h with h1 h2 h3 h4 h5 h6 h7 h8 h9
    any_goals exact ⟨(ih _ h).1, Or.inr (ih _ h).2⟩
    · simp only [Except.error.injEq, ParseOutcome.returned.injEq] at h
      exact ⟨h.1.symm, Or.inl h7.symm⟩
    · simp at h
    · simp at h

/-- After a completed option loop `parse` returns `true` only with exactly one measurement
mode, and in system-wide mode only with a positive duration. -/
theorem validate_options_returned_true (num_cpus : Int) (operands : List String)
    (st : OptionState) (c : ProfileConfig)
    (hcmd : st.profile_config.command_args = [])
    (h : validate_options num_cpus operands st = ParseOutcome.returned true c) :
    ((st.a_flag = true ∧ st.p_flag = false ∧ operands = []) ∨
      (st.a_flag = false ∧ st.p_flag = true ∧ operands = []) ∨
      (st.a_flag = false ∧ st.p_flag = false ∧ operands ≠ [])) ∧
    (st.a_flag = true → 0 < c.test_duration) := by
  unfold validate_options at h
  rw [hcmd] at h
  simp only [List.nil_append] at h
  cases ha : st.a_flag <;> cases hp : st.p_flag <;> cases operands
  all_goals try (simp [ha, hp] at h; done)
  · simp
  · simp
  · refine ⟨by simp, fun _ => ?_⟩
    simp only [ha, hp] at h
    by_cases hd : st.profile_config.test_duration ≤ 0
    · simp [hd] at h
    · have hc : ∀ c0 : ProfileConfig, ParseOutcome.returned true c0 = ParseOutcome.returned true c →
          c0.test_duration = st.profile_config.test_duration → 0 < c.test_duration := by
        intro c0 h0 h1
        simp only [ParseOutcome.returned.injEq, true_and] at h0
        rw [← h0, h1]
        omega
      simp only [List.map_nil, List.append_nil, List.isEmpty_nil, Bool.not_true, if_true,
        Bool.false_eq_true, if_false, Nat.add_zero, Nat.lt_irrefl, Nat.succ_ne_zero,
        true_and, hd] at h
      split at h
      · split at h
        · simp at h
        · split at h
          · simp at h
          · exact hc _ h rfl
      · exact hc _ h rfl

theorem option_loop_ordinary (opts : List (Int × String)) (st : OptionState)
    (h : ∀ o ∈ opts, o.1 ∈ ordinary_options) : ∃ st2, option_loop opts st = Except.ok st2 := by
  induction opts generalizing st with
  | nil => exact ⟨st, rfl⟩
  | cons o rest ih =>
    obtain ⟨opt, optarg⟩ := o
    have ho : opt ∈ ordinary_options := h (opt, optarg) (List.mem_cons_self _ _)
    have hrest : ∀ o ∈ rest, o.1 ∈ ordinary_options :=
      fun o hm => h o (List.mem_cons_of_mem _ hm)
    simp only [ordinary_options, List.mem_cons, List.mem_singleton, List.not_mem_nil,
      or_false] at ho
    unfold option_loop
    rcases ho with ho | ho | ho | ho | ho | ho | ho <;> subst ho
    · rw [if_pos rfl]; exact ih _ hrest
    · rw [if_neg (by decide), if_pos rfl]; exact ih _ hrest
    · rw [if_neg (by decide), if_neg (by decide), if_pos rfl]; exact ih _ hrest
    · rw [if_neg (by decide), if_neg (by decide), if_neg (by decide), if_pos rfl]
      exact ih _ hrest
    · rw [if_neg (by decide), if_neg (by decide), if_neg (by decide), if_neg (by decide),
        if_pos rfl]
      exact ih _ hrest
    · rw [if_neg (by decide), if_neg (by decide), if_neg (by decide), if_neg (by decide),
        if_neg (by decide), if_pos rfl]
      exact ih _ hrest
    · rw [if_neg (by decide), if_neg (by decide), if_neg (by decide), if_neg (by decide),
        if_neg (by decide), if_neg (by decide), if_neg (by decide), if_pos rfl]
      exact ih _ hrest

/-- After a completed option loop `parse` returns `false` unless exactly one measurement mode
is given. -/
theorem validate_options_rejects (num_cpus : Int) (operands : List String) (st : OptionState)
    (hcmd : st.profile_config.command_args = [])
    (h : ¬ ((st.a_flag = true ∧ st.p_flag = false ∧ operands = []) ∨
      (st.a_flag = false ∧ st.p_flag = true ∧ operands = []) ∨
      (st.a_flag = false ∧ st.p_flag = false ∧ operands ≠ []))) :
    ∃ c, validate_options num_cpus operands st = ParseOutcome.returned false c := by
  unfold validate_options
  rw [hcmd]
  cases ha : st.a_flag <;> cases hp : st.p_flag <;> cases operands
  all_goals simp [ha, hp] at h
  all_goals simp [ha, hp]

/-- After a completed option loop `parse` returns `false` in system-wide mode when the
duration is not greater than 0. -/
theorem validate_options_rejects_duration (num_cpus : Int) (operands : List String)
    (st : OptionState) (ha : st.a_flag = true) (hd : st.profile_config.test_duration ≤ 0) :
    ∃ c, validate_options num_cpus operands st = ParseOutcome.returned false c := by
  unfold validate_options
  cases hp : st.p_flag <;>
    cases he : (st.profile_config.command_args ++ List.map some operands).isEmpty <;>
    simp [ha, hp, he, hd]

/-- C19 fails on the code: the string `-1` holds no token of the form `N` or `M-N`, yet it is
read as the range from an empty start (which `strtol` turns into 0) to 1; and in `1,` the
empty token after the last comma is never looked at. Neither result is the empty list. -/
theorem parse_comma_sperated_list_accepts_invalid :
    parse_comma_sperated_list "-1" = some [0, 1] ∧
    parse_comma_sperated_list "1," = some [1] := by
  decide

/-- C20, as stated, fails: with `--detect-counters` alone, none of `-a`, `-p` and a command is
given, and `parse` still returns success, because it returns from inside the option loop. -/
theorem parse_detect_counters_alone :
    ArgsParser.parse 8 [(1, "")] [] ProfileConfig.default =
      ParseOutcome.returned true { ProfileConfig.default with detect_counters := true } ∧
    ¬ exactly_one_mode [(1, "")] [] := by
  decide

/-- C20, amended: on a configuration without a command, `ArgsParser::parse` returns success
only if `--detect-counters` was given (it then returns at once) or exactly one of (`-a`, a PID
via `-p`, a command to execute) is given and, with `-a`, the duration is greater than 0. With
ordinary options only it returns failure when none or more than one of the three is given;
and with `-a` it returns failure when the duration left by the options is not greater than
0. -/
theorem parse_accepts_one_mode (num_cpus : Int) (opts : List (Int × String))
    (operands : List String) (profile_config : ProfileConfig)
    (hcmd : profile_config.command_args = []) :
    (∀ c, ArgsParser.parse num_cpus opts operands profile_config = ParseOutcome.returned true c →
      detect_counters_given opts ∨
      (exactly_one_mode opts operands ∧ (system_wide_given opts → 0 < c.test_duration))) ∧
    ((∀ o ∈ opts, o.1 ∈ ordinary_options) → ¬ exactly_one_mode opts operands →
      ∃ c, ArgsParser.parse num_cpus opts operands profile_config =
        ParseOutcome.returned false c) ∧
    (system_wide_given opts →
      ∀ st, option_loop opts ⟨profile_config, "", false, false⟩ = Except.ok st →
        st.profile_config.test_duration ≤ 0 →
        ∃ c, ArgsParser.parse num_cpus opts operands profile_config =
          ParseOutcome.returned false c) := by
  have hflags : ∀ st, option_loop opts ⟨profile_config, "", false, false⟩ = Except.ok st →
      (st.a_flag = true ↔ system_wide_given opts) ∧ (st.p_flag = true ↔ pid_given opts) ∧
      st.profile_config.command_args = [] := by
    intro st hst
    obtain ⟨a1, a2, a3, -⟩ := option_loop_ok opts _ st hst
    refine ⟨?_, ?_, ?_⟩
    · rw [a1]; simp [system_wide_given]
    · rw [a2]; simp [pid_given]
    · rw [a3]; exact hcmd
  have hmode : ∀ st, option_loop opts ⟨profile_config, "", false, false⟩ = Except.ok st →
      (((st.a_flag = true ∧ st.p_flag = false ∧ operands = []) ∨
        (st.a_flag = false ∧ st.p_flag = true ∧ operands = []) ∨
        (st.a_flag = false ∧ st.p_flag = false ∧ operands ≠ [])) ↔
        exactly_one_mode opts operands) := by
    intro st hst
    obtain ⟨b1, b2, -⟩ := hflags st hst
    unfold exactly_one_mode
    rw [← b1, ← b2]
    simp
  refine ⟨?_, ?_, ?_⟩
  · intro c h
    unfold ArgsParser.parse at h
    cases hloop : option_loop opts ⟨profile_config, "", false, false⟩ with
    | error out =>
      rw [hloop] at h
      simp only at h
      subst h
      exact Or.inl (option_loop_returned opts _ true c hloop).2
    | ok st =>
      rw [hloop] at h
      simp only at h
      obtain ⟨b1, b2, b3⟩ := hflags st hloop
      obtain ⟨c1, c2⟩ := validate_options_returned_true num_cpus operands st c b3 h
      exact Or.inr ⟨(hmode st hloop).1 c1, fun ha => c2 (b1.2 ha)⟩
  · intro hord hnot
    obtain ⟨st, hloop⟩ := option_loop_ordinary opts ⟨profile_config, "", false, false⟩ hord
    obtain ⟨b1, b2, b3⟩ := hflags st hloop
    obtain ⟨c, hc⟩ := validate_options_rejects num_cpus operands st b3
      (fun hm => hnot ((hmode st hloop).1 hm))
    exact ⟨c, by unfold ArgsParser.parse; rw [hloop]; exact hc⟩
  · intro ha st hloop hd
    obtain ⟨b1, b2, b3⟩ := hflags st hloop
    obtain ⟨c, hc⟩ := validate_options_rejects_duration num_cpus operands st (b1.2 ha) hd
    exact ⟨c, by unfold ArgsParser.parse; rw [hloop]; exact hc⟩

/-- Witness for C20 amended: the command line `-a -d 10 -c 1,3`. -/
theorem parse_accepts_one_mode_witness :
    ProfileConfig.default.command_args = [] ∧
    ArgsParser.parse 4 [(opt_code 'a', ""), (opt_code 'd', "10"), (opt_code 'c', "1,3")] []
        ProfileConfig.default =
      ParseOutcome.returned true
        { ProfileConfig.default with test_duration := 10, cpu_id_list := [1, 3] } ∧
    ((∀ c, ArgsParser.parse 4 [(opt_code 'a', ""), (opt_code 'd', "10"), (opt_code 'c', "1,3")]
          [] ProfileConfig.default = ParseOutcome.returned true c →
      detect_counters_given [(opt_code 'a', ""), (opt_code 'd', "10"), (opt_code 'c', "1,3")] ∨
      (exactly_one_mode [(opt_code 'a', ""), (opt_code 'd', "10"), (opt_code 'c', "1,3")] [] ∧
        (system_wide_given [(opt_code 'a', ""), (opt_code 'd', "10"), (opt_code 'c', "1,3")] →
          0 < c.test_duration))) ∧
    ((∀ o ∈ [(opt_code 'a', ""), (opt_code 'd', "10"), (opt_code 'c', "1,3")],
        o.1 ∈ ordinary_options) →
      ¬ exactly_one_mode [(opt_code 'a', ""), (opt_code 'd', "10"), (opt_code 'c', "1,3")] [] →
      ∃ c, ArgsParser.parse 4 [(opt_code 'a', ""), (opt_code 'd', "10"), (opt_code 'c', "1,3")]
        [] ProfileConfig.default = ParseOutcome.returned false c) ∧
    (system_wide_given [(opt_code 'a', ""), (opt_code 'd', "10"), (opt_code 'c', "1,3")] →
      ∀ st, option_loop [(opt_code 'a', ""), (opt_code 'd', "10"), (opt_code 'c', "1,3")]
          ⟨ProfileConfig.default, "", false, false⟩ = Except.ok st →
        st.profile_config.test_duration ≤ 0 →
        ∃ c, ArgsParser.parse 4 [(opt_code 'a', ""), (opt_code 'd', "10"), (opt_code 'c', "1,3")]
          [] ProfileConfig.default = ParseOutcome.returned false c)) :=
  ⟨by decide, by decide,
    parse_accepts_one_mode 4 [(opt_code 'a', ""), (opt_code 'd', "10"), (opt_code 'c', "1,3")]
      [] ProfileConfig.default (by decide)⟩

/-! ## The claims about the counter detector -/

theorem CounterDetector.test_nums (k : Kernel) (cpu_id event_num : Nat) (d : CounterDetector)
    (hist : History) :
    (CounterDetector.test k cpu_id event_num d hist).2.1.detected_general_counter_nums_ =
      d.detected_general_counter_nums_ := by
  unfold CounterDetector.test
  simp only
  split_ifs <;> rfl

theorem CounterDetector.pass_tests_nums (k : Kernel) (cpu_id count start : Nat)
    (d : CounterDetector) (hist : History) :
    (CounterDetector.pass_tests k cpu_id count start d hist).1.detected_general_counter_nums_ =
      d.detected_general_counter_nums_ := by
  induction count generalizing start d hist with
  | zero => rfl
  | succ c ih =>
    unfold CounterDetector.pass_tests
    rw [ih, CounterDetector.test_nums]

/-- The stress test of one CPU stops at the first test that returns `false` and records the
event count before it. -/
theorem CounterDetector.probe_loop_first_failure (k : Kernel) (cpu_id j remaining start : Nat)
    (d : CounterDetector) (hist : History) (hj : j < remaining)
    (hpass : CounterDetector.all_pass k cpu_id j start d hist = true)
    (hfail : (CounterDetector.test k cpu_id (start + j)
      (CounterDetector.pass_tests k cpu_id j start d hist).1
      (CounterDetector.pass_tests k cpu_id j start d hist).2).1 = false) :
    (CounterDetector.probe_loop k cpu_id remaining start d hist).1.detected_general_counter_nums_
      = d.detected_general_counter_nums_.set cpu_id (((start + j : Nat) : Int) - 1) := by
  induction j generalizing remaining start d hist with
  | zero =>
    obtain ⟨r, rfl⟩ : ∃ r, remaining = r + 1 := ⟨remaining - 1, by omega⟩
    simp only [CounterDetector.pass_tests, Nat.add_zero] at hfail
    unfold CounterDetector.probe_loop
    rw [if_pos hfail]
    simp only [CounterDetector.test_nums, Nat.add_zero]
  | succ j ih =>
    obtain ⟨r, rfl⟩ : ∃ r, remaining = r + 1 := ⟨remaining - 1, by omega⟩
    simp only [CounterDetector.all_pass, Bool.and_eq_true] at hpass
    simp only [CounterDetector.pass_tests] at hfail
    unfold CounterDetector.probe_loop
    rw [if_neg (by rw [hpass.1]; simp)]
    have := ih r (start + 1) _ _ (by omega) hpass.2
      (by rw [show start + 1 + j = start + (j + 1) by omega]; exact hfail)
    rw [this, CounterDetector.test_nums, show start + 1 + j = start + (j + 1) by omega]

theorem CounterDetector.probe_loop_other (k : Kernel) (cpu_id remaining start : Nat)
    (d : CounterDetector) (hist : History) :
    (CounterDetector.probe_loop k cpu_id remaining start d
        hist).1.detected_general_counter_nums_.length
        = d.detected_general_counter_nums_.length ∧
    (CounterDetector.probe_loop k cpu_id remaining start d hist).1.cpu_num_ = d.cpu_num_ ∧
    ∀ i, i ≠ cpu_id →
      (CounterDetector.probe_loop k cpu_id remaining start d
          hist).1.detected_general_counter_nums_.getD
          i (-1) = d.detected_general_counter_nums_.getD i (-1) := by
  have htest_cpu : ∀ n d h, (CounterDetector.test k cpu_id n d h).2.1.cpu_num_ = d.cpu_num_ := by
    intro n d h
    unfold CounterDetector.test
    simp only
    split_ifs <;> rfl
  induction remaining generalizing start d hist with
  | zero => exact ⟨rfl, rfl, fun _ _ => rfl⟩
  | succ r ih =>
    unfold CounterDetector.probe_loop
    split_ifs with h
    · refine ⟨?_, ?_, ?_⟩
      · simp only [List.length_set, CounterDetector.test_nums]
      · exact htest_cpu _ _ _
      · intro i hi
        simp only [CounterDetector.test_nums]
        exact getD_set_of_ne _ _ _ _ _ (fun h2 => hi h2.symm)
    · obtain ⟨a1, a2, a3⟩ := ih (start + 1) (CounterDetector.test k cpu_id start d hist).2.1
        (CounterDetector.test k cpu_id start d hist).2.2
      refine ⟨?_, ?_, ?_⟩
      · rw [a1, CounterDetector.test_nums]
      · rw [a2, htest_cpu]
      · intro i hi
        rw [a3 i hi, CounterDetector.test_nums]

theorem CounterDetector.probe_cpus_other (k : Kernel) (cpus : List Nat) (cpu_id : Nat)
    (d : CounterDetector) (hist : History) (h : cpu_id ∉ cpus) :
    (CounterDetector.probe_cpus k cpus d hist).1.detected_general_counter_nums_.length
        = d.detected_general_counter_nums_.length ∧
    (CounterDetector.probe_cpus k cpus d hist).1.detected_general_counter_nums_.getD
        cpu_id (-1) = d.detected_general_counter_nums_.getD cpu_id (-1) := by
  induction cpus generalizing d hist with
  | nil => exact ⟨rfl, rfl⟩
  | cons c cs ih =>
    have hc : cpu_id ≠ c := fun h2 => h (h2 ▸ List.mem_cons_self _ _)
    have hcs : cpu_id ∉ cs := fun h2 => h (List.mem_cons_of_mem _ h2)
    unfold CounterDetector.probe_cpus
    obtain ⟨a1, a2⟩ := ih (CounterDetector.probe_cpu k c d hist).1
      (CounterDetector.probe_cpu k c d hist).2 hcs
    obtain ⟨b1, -, b3⟩ := CounterDetector.probe_loop_other k c (event_list.length - 1) 1 d hist
    refine ⟨?_, ?_⟩
    · rw [a1]; exact b1
    · rw [a2]; exact b3 cpu_id hc

theorem CounterDetector.probe_cpus_append (k : Kernel) (l1 l2 : List Nat)
    (d : CounterDetector) (hist : History) :
    CounterDetector.probe_cpus k (l1 ++ l2) d hist =
      CounterDetector.probe_cpus k l2 (CounterDetector.probe_cpus k l1 d hist).1
        (CounterDetector.probe_cpus k l1 d hist).2 := by
  induction l1 generalizing d hist with
  | nil => rfl
  | cons c cs ih =>
    simp only [List.cons_append, CounterDetector.probe_cpus]
    exact ih _ _

theorem range_split (n c : Nat) (h : c < n) :
    List.range n = List.range c ++ c :: List.range' (c + 1) (n - c - 1) := by
  rw [List.range_eq_range', List.range_eq_range']
  have h1 : n = c + (n - c) := by omega
  have h2 : List.range' 0 n = List.range' 0 c ++ List.range' (0 + c) (n - c) := by
    rw [List.range'_append_1]
    congr 1
    omega
  rw [h2]
  congr 1
  have h3 : n - c = (n - c - 1) + 1 := by omega
  rw [h3, List.range'_succ]
  simp

/-- What `detect` leaves in the entry of a CPU whose stress test first returns `false` at
event count `n`: the count `n - 1`. The stress test of that CPU starts in the state the
CPUs before it left behind. -/
theorem CounterDetector.detect_entry (k : Kernel) (d : CounterDetector) (hist : History)
    (file : HperfFile) (cpu_id n : Nat)
    (hload : (d.load_detected_result file).1 = false)
    (hlen : d.detected_general_counter_nums_.length = d.cpu_num_)
    (hcpu : cpu_id < d.cpu_num_) (hn : 1 ≤ n) (hn2 : n < event_list.length)
    (hpass : CounterDetector.all_pass k cpu_id (n - 1) 1
      (CounterDetector.probe_cpus k (List.range cpu_id) (d.load_detected_result file).2 hist).1
      (CounterDetector.probe_cpus k (List.range cpu_id) (d.load_detected_result file).2 hist).2
        = true)
    (hfail : (CounterDetector.test k cpu_id n
      (CounterDetector.pass_tests k cpu_id (n - 1) 1
        (CounterDetector.probe_cpus k (List.range cpu_id)
          (d.load_detected_result file).2 hist).1
        (CounterDetector.probe_cpus k (List.range cpu_id)
          (d.load_detected_result file).2 hist).2).1
      (CounterDetector.pass_tests k cpu_id (n - 1) 1
        (CounterDetector.probe_cpus k (List.range cpu_id)
          (d.load_detected_result file).2 hist).1
        (CounterDetector.probe_cpus k (List.range cpu_id)
          (d.load_detected_result file).2 hist).2).2).1 = false) :
    (CounterDetector.detect k d hist file).1.detected_general_counter_nums_.getD cpu_id (-1) =
      (n : Int) - 1 := by
  have hload2 : (d.load_detected_result file).2.detected_general_counter_nums_.length =
      d.cpu_num_ ∧ (d.load_detected_result file).2.cpu_num_ = d.cpu_num_ := by
    unfold CounterDetector.load_detected_result at hload ⊢
    cases hc : file.content with
    | none => exact ⟨hlen, rfl⟩
    | some text =>
      rw [hc] at hload
      simp only at hload ⊢
      split_ifs at hload ⊢ with h1
      exact ⟨by simp, rfl⟩
  unfold CounterDetector.detect
  rw [if_neg (by rw [hload]; simp)]
  simp only [hload2.2]
  rw [range_split d.cpu_num_ cpu_id hcpu, CounterDetector.probe_cpus_append]
  generalize hs : CounterDetector.probe_cpus k (List.range cpu_id)
    (d.load_detected_result file).2 hist = s0 at hpass hfail
  have hs_len : s0.1.detected_general_counter_nums_.length = d.cpu_num_ := by
    rw [← hs, (CounterDetector.probe_cpus_other k (List.range cpu_id) cpu_id _ hist
      (by simp)).1]
    exact hload2.1
  unfold CounterDetector.probe_cpus
  have hnot : cpu_id ∉ List.range' (cpu_id + 1) (d.cpu_num_ - cpu_id - 1) := by
    rw [List.mem_range'_1]; omega
  rw [(CounterDetector.probe_cpus_other k _ cpu_id _ _ hnot).2]
  unfold CounterDetector.probe_cpu
  simp only
  have hfirst := CounterDetector.probe_loop_first_failure k cpu_id (n - 1)
    (event_list.length - 1) 1 s0.1 s0.2 (by omega) hpass
    (by rw [show 1 + (n - 1) = n by omega]; exact hfail)
  rw [hfirst, getD_set_self _ _ _ _ (by omega), show 1 + (n - 1) = n by omega]

theorem new_calls_append (hist xs : History) : new_calls hist (hist ++ xs) = xs := by
  simp [new_calls]

theorem CounterDetector.open_events_calls (k : Kernel) (cpu_id : Nat)
    (events : List (String × Nat)) (fds : List Int) (hist : History) :
    ∃ xs, (CounterDetector.open_events k cpu_id events fds hist).2.2 = hist ++ xs ∧
      (∀ c ∈ xs, read_shows_multiplexing c = false) ∧
      ((CounterDetector.open_events k cpu_id events fds hist).1 = false →
        ∃ c ∈ xs, call_failed c = true) := by
  induction events generalizing fds hist with
  | nil => exact ⟨[], by simp [CounterDetector.open_events]⟩
  | cons e es ih =>
    unfold CounterDetector.open_events
    split_ifs with h
    · refine ⟨[(Syscall.perf_event_open (CounterDetector.configure_event e.2) (-1) cpu_id (-1) 0,
        k hist (Syscall.perf_event_open (CounterDetector.configure_event e.2) (-1) cpu_id
          (-1) 0))], rfl, ?_, ?_⟩
      · intro c hc
        rw [List.mem_singleton] at hc
        subst hc
        rfl
      · intro _
        refine ⟨_, List.mem_singleton.mpr rfl, ?_⟩
        simpa [call_failed, CounterDetector.perf_event_open, sys] using h
    · obtain ⟨xs, h1, h2, h3⟩ := ih
        (fds ++ [(CounterDetector.perf_event_open k hist
          (CounterDetector.configure_event e.2) cpu_id).1.ret])
        (CounterDetector.perf_event_open k hist
          (CounterDetector.configure_event e.2) cpu_id).2
      refine ⟨(Syscall.perf_event_open (CounterDetector.configure_event e.2) (-1) cpu_id (-1) 0,
        k hist (Syscall.perf_event_open (CounterDetector.configure_event e.2) (-1) cpu_id
          (-1) 0)) :: xs, ?_, ?_, ?_⟩
      · rw [h1]
        simp [CounterDetector.perf_event_open, sys]
      · intro c hc
        rcases List.mem_cons.mp hc with hc | hc
        · subst hc; rfl
        · exact h2 c hc
      · intro hf
        obtain ⟨c, hc, hcf⟩ := h3 hf
        exact ⟨c, List.mem_cons_of_mem _ hc, hcf⟩

theorem CounterDetector.ioctl_all_events_calls (k : Kernel) (request : IoctlRequest)
    (fds : List Int) (hist : History) :
    ∃ xs, (CounterDetector.ioctl_all_events k request fds hist).2 = hist ++ xs ∧
      (∀ c ∈ xs, read_shows_multiplexing c = false) ∧
      ((CounterDetector.ioctl_all_events k request fds hist).1 = false →
        ∃ c ∈ xs, call_failed c = true) := by
  induction fds generalizing hist with
  | nil => exact ⟨[], by simp [CounterDetector.ioctl_all_events]⟩
  | cons fd fds ih =>
    unfold CounterDetector.ioctl_all_events
    split_ifs with h
    · refine ⟨[(Syscall.ioctl fd request 0, k hist (Syscall.ioctl fd request 0))], rfl, ?_, ?_⟩
      · intro c hc
        rw [List.mem_singleton] at hc
        subst hc
        rfl
      · intro _
        refine ⟨_, List.mem_singleton.mpr rfl, ?_⟩
        simpa [call_failed, sys] using h
    · obtain ⟨xs, h1, h2, h3⟩ := ih (sys k hist (Syscall.ioctl fd request 0)).2
      refine ⟨(Syscall.ioctl fd request 0, k hist (Syscall.ioctl fd request 0)) :: xs,
        ?_, ?_, ?_⟩
      · rw [h1]
        simp [sys]
      · intro c hc
        rcases List.mem_cons.mp hc with hc | hc
        · subst hc; rfl
        · exact h2 c hc
      · intro hf
        obtain ⟨c, hc, hcf⟩ := h3 hf
        exact ⟨c, List.mem_cons_of_mem _ hc, hcf⟩

theorem CounterDetector.read_all_events_calls (k : Kernel) (fds : List Int) (hist : History) :
    ∃ xs, (CounterDetector.read_all_events k fds hist).2 = hist ++ xs ∧
      ((CounterDetector.read_all_events k fds hist).1 = false →
        (∃ c ∈ xs, call_failed c = true) ∨ ∃ c ∈ xs, read_shows_multiplexing c = true) ∧
      ((∃ c ∈ xs, read_shows_multiplexing c = true) →
        (CounterDetector.read_all_events k fds hist).1 = false) := by
  induction fds generalizing hist with
  | nil => exact ⟨[], by simp [CounterDetector.read_all_events]⟩
  | cons fd fds ih =>
    obtain ⟨xs, h1, h2, h3⟩ := ih (sys k hist (Syscall.read fd SingleReadBuffer.size)).2
    unfold CounterDetector.read_all_events
    split_ifs with ha hb hm
    · refine ⟨[(Syscall.read fd SingleReadBuffer.size,
        k hist (Syscall.read fd SingleReadBuffer.size))], rfl, ?_, ?_⟩
      · intro _
        left
        refine ⟨_, List.mem_singleton.mpr rfl, ?_⟩
        simpa [call_failed, sys] using ha
      · intro _; rfl
    · refine ⟨(Syscall.read fd SingleReadBuffer.size,
        k hist (Syscall.read fd SingleReadBuffer.size)) :: xs, ?_, ?_, ?_⟩
      · rw [h1]; simp [sys]
      · intro hf
        rcases h2 hf with ⟨c, hc, hcf⟩ | ⟨c, hc, hcf⟩
        · exact Or.inl ⟨c, List.mem_cons_of_mem _ hc, hcf⟩
        · exact Or.inr ⟨c, List.mem_cons_of_mem _ hc, hcf⟩
      · rintro ⟨c, hc, hcm⟩
        rcases List.mem_cons.mp hc with hc | hc
        · subst hc
          exfalso
          simp only [read_shows_multiplexing, Bool.and_eq_true, decide_eq_true_eq] at hcm
          exact hb hcm.1
        · exact h3 ⟨c, hc, hcm⟩
    · refine ⟨[(Syscall.read fd SingleReadBuffer.size,
        k hist (Syscall.read fd SingleReadBuffer.size))], rfl, ?_, ?_⟩
      · intro _
        right
        refine ⟨_, List.mem_singleton.mpr rfl, ?_⟩
        simp only [read_shows_multiplexing, Bool.and_eq_true, decide_eq_true_eq]
        exact ⟨not_not.mp hb, hm⟩
      · intro _; rfl
    · refine ⟨(Syscall.read fd SingleReadBuffer.size,
        k hist (Syscall.read fd SingleReadBuffer.size)) :: xs, ?_, ?_, ?_⟩
      · rw [h1]; simp [sys]
      · intro hf
        rcases h2 hf with ⟨c, hc, hcf⟩ | ⟨c, hc, hcf⟩
        · exact Or.inl ⟨c, List.mem_cons_of_mem _ hc, hcf⟩
        · exact Or.inr ⟨c, List.mem_cons_of_mem _ hc, hcf⟩
      · rintro ⟨c, hc, hcm⟩
        rcases List.mem_cons.mp hc with hc | hc
        · subst hc
          exfalso
          simp only [read_shows_multiplexing, Bool.and_eq_true, decide_eq_true_eq] at hcm
          exact hm hcm.2
        · exact h3 ⟨c, hc, hcm⟩

/-- The calls of one `test`: it returns `false` only after a failed call or a read that shows
multiplexing, and always after a read that shows multiplexing. -/
theorem CounterDetector.test_calls (k : Kernel) (cpu_id event_num : Nat) (d : CounterDetector)
    (hist : History) :
    ∃ xs, (CounterDetector.test k cpu_id event_num d hist).2.2 = hist ++ xs ∧
      ((CounterDetector.test k cpu_id event_num d hist).1 = false →
        (∃ c ∈ xs, call_failed c = true) ∨ ∃ c ∈ xs, read_shows_multiplexing c = true) ∧
      ((∃ c ∈ xs, read_shows_multiplexing c = true) →
        (CounterDetector.test k cpu_id event_num d hist).1 = false) := by
  unfold CounterDetector.test
  simp only
  obtain ⟨xo, ho1, ho2, ho3⟩ := CounterDetector.open_events_calls k cpu_id
    ((event_list.drop d.fds_.length).take (event_num - d.fds_.length)) d.fds_ hist
  generalize CounterDetector.open_events k cpu_id
    ((event_list.drop d.fds_.length).take (event_num - d.fds_.length)) d.fds_ hist = opened
    at ho1 ho3 ⊢
  obtain ⟨xe, he1, he2, he3⟩ :=
    CounterDetector.ioctl_all_events_calls k IoctlRequest.ENABLE opened.2.1 opened.2.2
  generalize CounterDetector.ioctl_all_events k IoctlRequest.ENABLE opened.2.1 opened.2.2
    = enabled at he1 he3 ⊢
  obtain ⟨xd, hd1, hd2, hd3⟩ :=
    CounterDetector.ioctl_all_events_calls k IoctlRequest.DISABLE opened.2.1
      (sys k enabled.2 (Syscall.usleep 100000)).2
  generalize CounterDetector.ioctl_all_events k IoctlRequest.DISABLE opened.2.1
      (sys k enabled.2 (Syscall.usleep 100000)).2 = disabled at hd1 hd3 ⊢
  obtain ⟨xr, hr1, hr2, hr3⟩ :=
    CounterDetector.read_all_events_calls k opened.2.1 disabled.2
  generalize CounterDetector.read_all_events k opened.2.1 disabled.2 = rd at hr1 hr2 hr3 ⊢
  have hs : (sys k enabled.2 (Syscall.usleep 100000)).2 =
      enabled.2 ++ [(Syscall.usleep 100000, k enabled.2 (Syscall.usleep 100000))] := rfl
  rw [hs] at hd1
  have hu : read_shows_multiplexing
      (Syscall.usleep 100000, k enabled.2 (Syscall.usleep 100000)) = false := rfl
  split_ifs with a b c
  · refine ⟨xo, ho1, fun _ => Or.inl (ho3 a), ?_⟩
    intro _; rfl
  · refine ⟨xo ++ xe, by rw [he1, ho1, List.append_assoc], fun _ => ?_, fun _ => rfl⟩
    obtain ⟨c, hc, hcf⟩ := he3 b
    exact Or.inl ⟨c, List.mem_append_right _ hc, hcf⟩
  · refine ⟨xo ++ xe ++ [(Syscall.usleep 100000, k enabled.2 (Syscall.usleep 100000))] ++ xd,
      by rw [hd1, he1, ho1]; simp, fun _ => ?_, fun _ => rfl⟩
    obtain ⟨c, hc, hcf⟩ := hd3 c
    exact Or.inl ⟨c, List.mem_append_right _ hc, hcf⟩
  · refine ⟨xo ++ xe ++ [(Syscall.usleep 100000, k enabled.2 (Syscall.usleep 100000))] ++ xd
      ++ xr, by rw [hr1, hd1, he1, ho1]; simp, fun hf => ?_, ?_⟩
    · rcases hr2 hf with ⟨c, hc, hcf⟩ | ⟨c, hc, hcf⟩
      · exact Or.inl ⟨c, List.mem_append_right _ hc, hcf⟩
      · exact Or.inr ⟨c, List.mem_append_right _ hc, hcf⟩
    · rintro ⟨c, hc, hcm⟩
      simp only [List.mem_append, List.mem_singleton] at hc
      rcases hc with (((hc | hc) | hc) | hc) | hc
      · rw [ho2 c hc] at hcm; exact absurd hcm (by simp)
      · rw [he2 c hc] at hcm; exact absurd hcm (by simp)
      · rw [hc, hu] at hcm; exact absurd hcm (by simp)
      · rw [hd2 c hc] at hcm; exact absurd hcm (by simp)
      · exact hr3 ⟨c, hc, hcm⟩

theorem CounterDetector.test_quiet_passes (k : Kernel) (cpu_id event_num : Nat)
    (d : CounterDetector) (hist : History)
    (h : CounterDetector.test_quiet k cpu_id event_num d hist = true) :
    (CounterDetector.test k cpu_id event_num d hist).1 = true := by
  obtain ⟨xs, h1, h2, -⟩ := CounterDetector.test_calls k cpu_id event_num d hist
  unfold CounterDetector.test_quiet at h
  rw [h1, new_calls_append, List.all_eq_true] at h
  cases ht : (CounterDetector.test k cpu_id event_num d hist).1 with
  | true => rfl
  | false =>
    exfalso
    rcases h2 ht with ⟨c, hc, hcf⟩ | ⟨c, hc, hcf⟩
    · have := h c hc
      simp [hcf] at this
    · have := h c hc
      simp [hcf] at this

theorem CounterDetector.test_multiplexed_fails (k : Kernel) (cpu_id event_num : Nat)
    (d : CounterDetector) (hist : History)
    (h : CounterDetector.test_multiplexed k cpu_id event_num d hist = true) :
    (CounterDetector.test k cpu_id event_num d hist).1 = false := by
  obtain ⟨xs, h1, -, h3⟩ := CounterDetector.test_calls k cpu_id event_num d hist
  unfold CounterDetector.test_multiplexed at h
  rw [h1, new_calls_append, Bool.and_eq_true, List.any_eq_true] at h
  exact h3 h.2

theorem CounterDetector.first_multiplexing_at_spec (k : Kernel) (cpu_id count start : Nat)
    (d : CounterDetector) (hist : History)
    (h : CounterDetector.first_multiplexing_at k cpu_id count start d hist = true) :
    CounterDetector.all_pass k cpu_id count start d hist = true ∧
    (CounterDetector.test k cpu_id (start + count)
      (CounterDetector.pass_tests k cpu_id count start d hist).1
      (CounterDetector.pass_tests k cpu_id count start d hist).2).1 = false := by
  induction count generalizing start d hist with
  | zero => exact ⟨rfl, CounterDetector.test_multiplexed_fails k cpu_id start d hist h⟩
  | succ c ih =>
    unfold CounterDetector.first_multiplexing_at at h
    rw [Bool.and_eq_true] at h
    obtain ⟨i1, i2⟩ := ih (start + 1) _ _ h.2
    refine ⟨?_, ?_⟩
    · unfold CounterDetector.all_pass
      rw [CounterDetector.test_quiet_passes k cpu_id start d hist h.1, i1]
      rfl
    · unfold CounterDetector.pass_tests
      rw [show start + (c + 1) = start + 1 + c by omega]
      exact i2

/-- C15. For every CPU: when `detect` probes (no cached result was loaded) and, in the stress
test of that CPU, all opens, ioctls and reads succeed and a read with
`time_enabled != time_running` is first seen at event count `n`, `detect` records `n - 1`
as the capacity of that CPU. -/
theorem CounterDetector.detect_records_capacity (k : Kernel) (d : CounterDetector)
    (hist : History) (file : HperfFile) (cpu_id n : Nat)
    (hload : (d.load_detected_result file).1 = false)
    (hlen : d.detected_general_counter_nums_.length = d.cpu_num_)
    (hcpu : cpu_id < d.cpu_num_) (hn : 1 ≤ n) (hn2 : n < event_list.length)
    (hfirst : CounterDetector.first_multiplexing_at k cpu_id (n - 1) 1
      (CounterDetector.probe_cpus k (List.range cpu_id) (d.load_detected_result file).2 hist).1
      (CounterDetector.probe_cpus k (List.range cpu_id) (d.load_detected_result file).2 hist).2
        = true) :
    (CounterDetector.detect k d hist file).1.detected_general_counter_nums_.getD cpu_id (-1) =
      (n : Int) - 1 := by
  obtain ⟨h1, h2⟩ := CounterDetector.first_multiplexing_at_spec k cpu_id (n - 1) 1 _ _ hfirst
  rw [show 1 + (n - 1) = n by omega] at h2
  exact CounterDetector.detect_entry k d hist file cpu_id n hload hlen hcpu hn hn2 h1 h2

set_option maxRecDepth 100000 in
/-- C15, the example of the claim: a kernel with 4 counters first multiplexes at event count
5 and the recorded capacity is 4. -/
theorem CounterDetector.detect_records_capacity_witness :
    CounterDetector.first_multiplexing_at (kernel_with_counters 4) 0 (5 - 1) 1
      (CounterDetector.probe_cpus (kernel_with_counters 4) (List.range 0)
        ((CounterDetector.new 1).load_detected_result ⟨none, true⟩).2 []).1
      (CounterDetector.probe_cpus (kernel_with_counters 4) (List.range 0)
        ((CounterDetector.new 1).load_detected_result ⟨none, true⟩).2 []).2 = true ∧
    (CounterDetector.detect (kernel_with_counters 4) (CounterDetector.new 1) []
      ⟨none, true⟩).1.detected_general_counter_nums_.getD 0 (-1) = ((5 : Nat) : Int) - 1 :=
  ⟨by decide, CounterDetector.detect_records_capacity (kernel_with_counters 4)
    (CounterDetector.new 1) [] ⟨none, true⟩ 0 5 (by decide) (by decide) (by decide)
    (by decide) (by decide) (by decide)⟩

theorem digit_char_spec :
    ∀ d, d < 10 → (digit_char d).isDigit = true ∧ digit_value (digit_char d) = d := by
  decide

theorem decimal_value_append (ds : List Char) (c : Char) :
    decimal_value (ds ++ [c]) = 10 * decimal_value ds + digit_value c := by
  simp [decimal_value, List.foldl_append]

theorem nat_to_decimal_aux_append (fuel n : Nat) (acc : List Char) :
    nat_to_decimal_aux fuel n acc = nat_to_decimal_aux fuel n [] ++ acc := by
  induction fuel generalizing n acc with
  | zero => rfl
  | succ f ih =>
    unfold nat_to_decimal_aux
    split_ifs with h
    · rfl
    · rw [ih (n / 10) (digit_char (n % 10) :: acc), ih (n / 10) [digit_char (n % 10)]]
      simp

theorem nat_to_decimal_aux_spec (fuel n : Nat) (h : n < fuel) :
    nat_to_decimal_aux fuel n [] ≠ [] ∧
    (∀ c ∈ nat_to_decimal_aux fuel n [], c.isDigit = true) ∧
    decimal_value (nat_to_decimal_aux fuel n []) = n := by
  induction fuel generalizing n with
  | zero => omega
  | succ f ih =>
    unfold nat_to_decimal_aux
    split_ifs with h10
    · refine ⟨by simp, ?_, ?_⟩
      · intro c hc
        rw [List.mem_singleton] at hc
        rw [hc]
        exact (digit_char_spec n h10).1
      · simpa [decimal_value] using (digit_char_spec n h10).2
    · obtain ⟨-, i2, i3⟩ := ih (n / 10) (by omega)
      rw [nat_to_decimal_aux_append]
      refine ⟨by simp, ?_, ?_⟩
      · intro c hc
        rcases List.mem_append.mp hc with hc | hc
        · exact i2 c hc
        · rw [List.mem_singleton] at hc
          rw [hc]
          exact (digit_char_spec (n % 10) (Nat.mod_lt _ (by decide))).1
      · rw [decimal_value_append, i3, (digit_char_spec (n % 10) (Nat.mod_lt _ (by decide))).2]
        omega

theorem nat_to_decimal_spec (n : Nat) :
    nat_to_decimal n ≠ [] ∧ (∀ c ∈ nat_to_decimal n, c.isDigit = true) ∧
    decimal_value (nat_to_decimal n) = n :=
  nat_to_decimal_aux_spec (n + 1) n (Nat.lt_succ_self n)

theorem strtol_sign_digit (c : Char) (cs : List Char) (hc : c.isDigit = true) :
    strtol_sign (c :: cs) = (false, c :: cs) := by
  have hm : c ≠ '-' := isDigit_ne c '-' hc (by decide)
  have hp : c ≠ '+' := isDigit_ne c '+' hc (by decide)
  unfold strtol_sign
  split
  · rename_i heq; exact absurd (List.cons.inj heq).1 hm
  · rename_i heq; exact absurd (List.cons.inj heq).1 hp
  · rfl

/-- Reading back a number written by `int_to_decimal` and followed by a line end. -/
theorem read_int_int_to_decimal (x : Int) (rest : List Char)
    (hx : INT_MIN ≤ x ∧ x ≤ INT_MAX) :
    read_int (int_to_decimal x ++ '\n' :: rest) = some (x, '\n' :: rest) := by
  have hnl : Char.isDigit '\n' = false := by decide
  unfold int_to_decimal
  split_ifs with hneg
  · obtain ⟨h1, h2, h3⟩ := nat_to_decimal_spec (-x).toNat
    have htake := takeWhile_append_stop Char.isDigit (nat_to_decimal (-x).toNat) rest '\n' h2 hnl
    have hdrop := dropWhile_append_stop Char.isDigit (nat_to_decimal (-x).toNat) rest '\n' h2 hnl
    have hws : ('-' :: nat_to_decimal (-x).toNat ++ '\n' :: rest).dropWhile isspace =
        '-' :: (nat_to_decimal (-x).toNat ++ '\n' :: rest) := by
      rw [List.cons_append, List.dropWhile_cons]
      rfl
    unfold read_int
    simp only [hws, strtol_sign, htake, hdrop, h3, if_neg h1, if_true]
    have hv : -(((-x).toNat : Nat) : Int) = x := by omega
    rw [hv, if_neg (by omega)]
  · obtain ⟨h1, h2, h3⟩ := nat_to_decimal_spec x.toNat
    have htake := takeWhile_append_stop Char.isDigit (nat_to_decimal x.toNat) rest '\n' h2 hnl
    have hdrop := dropWhile_append_stop Char.isDigit (nat_to_decimal x.toNat) rest '\n' h2 hnl
    obtain ⟨c, cs, hcs⟩ := List.exists_cons_of_ne_nil h1
    have hc : c.isDigit = true := h2 c (by rw [hcs]; exact List.mem_cons_self _ _)
    have hws : (nat_to_decimal x.toNat ++ '\n' :: rest).dropWhile isspace =
        nat_to_decimal x.toNat ++ '\n' :: rest := by
      rw [hcs, List.cons_append, List.dropWhile_cons, isDigit_not_isspace c hc]
      rfl
    have hsign : strtol_sign (nat_to_decimal x.toNat ++ '\n' :: rest) =
        (false, nat_to_decimal x.toNat ++ '\n' :: rest) := by
      rw [hcs, List.cons_append]
      exact strtol_sign_digit c _ hc
    unfold read_int
    simp only [hws, hsign, htake, hdrop, h3, if_neg h1]
    have hv : ((x.toNat : Nat) : Int) = x := by omega
    simp only [Bool.false_eq_true, if_false]
    rw [hv, if_neg (by omega)]

theorem read_int_skip_newline (s : List Char) : read_int ('\n' :: s) = read_int s := by
  unfold read_int
  rw [List.dropWhile_cons]
  rfl

theorem read_ints_after_newline (v : List Int) (fuel : Nat) (hf : v.length < fuel)
    (hv : ∀ x ∈ v, INT_MIN ≤ x ∧ x ≤ INT_MAX) :
    read_ints fuel ('\n' :: detected_result_text v) = v := by
  induction v generalizing fuel with
  | nil =>
    cases fuel with
    | zero => simp at hf
    | succ f => rfl
  | cons x v ih =>
    cases fuel with
    | zero => simp at hf
    | succ f =>
      unfold read_ints
      rw [read_int_skip_newline]
      unfold detected_result_text
      rw [read_int_int_to_decimal x _ (hv x (List.mem_cons_self _ _))]
      simp only
      rw [ih f (by simpa using hf) (fun y hy => hv y (List.mem_cons_of_mem _ hy))]

theorem length_le_detected_result_text (v : List Int) :
    v.length ≤ (detected_result_text v).length := by
  induction v with
  | nil => simp
  | cons x v ih =>
    unfold detected_result_text
    simp only [List.length_cons, List.length_append]
    omega

/-- The text written for a vector of `int` values reads back as that vector. -/
theorem read_ints_detected_result_text (v : List Int)
    (hv : ∀ x ∈ v, INT_MIN ≤ x ∧ x ≤ INT_MAX) :
    read_ints ((detected_result_text v).length + 1) (detected_result_text v) = v := by
  cases v with
  | nil => rfl
  | cons x v =>
    unfold read_ints
    have hlen := length_le_detected_result_text v
    unfold detected_result_text
    rw [read_int_int_to_decimal x _ (hv x (List.mem_cons_self _ _))]
    simp only
    rw [read_ints_after_newline v _ (by simp only [List.length_cons, List.length_append]; omega)
      (fun y hy => hv y (List.mem_cons_of_mem _ hy))]

theorem strtol_sign_length (s : List Char) : (strtol_sign s).2.length ≤ s.length := by
  unfold strtol_sign
  split <;> simp

/-- Every successful extraction consumes at least one character. -/
theorem read_int_length (s rest : List Char) (n : Int) (h : read_int s = some (n, rest)) :
    rest.length < s.length := by
  unfold read_int at h
  simp only at h
  have h3 := List.takeWhile_append_dropWhile Char.isDigit (strtol_sign (s.dropWhile isspace)).2
  have h4 := congrArg List.length h3
  rw [List.length_append] at h4
  have h5 := strtol_sign_length (s.dropWhile isspace)
  have h6 : (s.dropWhile isspace).length ≤ s.length :=
    (List.dropWhile_sublist isspace).length_le
  split_ifs at h with h1 h2
  all_goals
    simp only [Option.some.injEq, Prod.mk.injEq] at h
    have h7 : 0 < ((strtol_sign (s.dropWhile isspace)).2.takeWhile Char.isDigit).length :=
      List.length_pos.mpr h1
    rw [← h.2]
    omega

/-- The loop of `load_detected_result` never uses up a fuel larger than the length of the
text: any two such fuels give the same numbers. -/
theorem read_ints_fuel (f1 f2 : Nat) (s : List Char) (h1 : s.length < f1) (h2 : s.length < f2) :
    read_ints f1 s = read_ints f2 s := by
  induction f1 generalizing f2 s with
  | zero => omega
  | succ f ih =>
    cases f2 with
    | zero => omega
    | succ g =>
      unfold read_ints
      cases hr : read_int s with
      | none => rfl
      | some p =>
        obtain ⟨n, rest⟩ := p
        have hl := read_int_length s rest n hr
        simp only
        rw [ih g rest (by omega) (by omega)]

/-- C17. Capacity persistence round trip: after `save_detected_result` has written the vector
`v` of a detector to a file that can be created, `load_detected_result` of a detector with
`cpu_num_` CPUs returns `true` and restores `v` when `|v| = cpu_num_`, and returns `false`
when `|v| ≠ cpu_num_`; whenever the file holds a number of integers different from `cpu_num_`,
`load_detected_result` returns `false` and leaves `cpu_num_` entries all equal to `-1`. The
entries of `v` are `int` values. -/
theorem CounterDetector.save_load_round_trip (saver loader : CounterDetector) (file : HperfFile)
    (hfile : file.can_create = true)
    (hv : ∀ x ∈ saver.detected_general_counter_nums_, INT_MIN ≤ x ∧ x ≤ INT_MAX) :
    (saver.detected_general_counter_nums_.length = loader.cpu_num_ →
      loader.load_detected_result (saver.save_detected_result file) =
        (true, { loader with
          detected_general_counter_nums_ := saver.detected_general_counter_nums_
          detected_ := true })) ∧
    (saver.detected_general_counter_nums_.length ≠ loader.cpu_num_ →
      loader.load_detected_result (saver.save_detected_result file) =
        (false, { loader with
          detected_general_counter_nums_ := List.replicate loader.cpu_num_ (-1) })) ∧
    (∀ text : List Char, (read_ints (text.length + 1) text).length ≠ loader.cpu_num_ →
      loader.load_detected_result { file with content := some text } =
        (false, { loader with
          detected_general_counter_nums_ := List.replicate loader.cpu_num_ (-1) })) := by
  have hsave : saver.save_detected_result file =
      { file with
        content := some (detected_result_text saver.detected_general_counter_nums_) } := by
    unfold CounterDetector.save_detected_result
    rw [if_neg (by rw [hfile]; simp)]
  have hread := read_ints_detected_result_text saver.detected_general_counter_nums_ hv
  refine ⟨?_, ?_, ?_⟩
  · intro hlen
    rw [hsave]
    unfold CounterDetector.load_detected_result
    simp only [hread, hlen, if_true]
  · intro hlen
    rw [hsave]
    unfold CounterDetector.load_detected_result
    simp only [hread, if_neg hlen]
  · intro text hlen
    unfold CounterDetector.load_detected_result
    simp only [if_neg hlen]

/-- C17 at the vector `4, -1, 12` written by one detector and loaded by a fresh detector of
three CPUs. -/
theorem CounterDetector.save_load_round_trip_witness :
    (⟨none, true⟩ : HperfFile).can_create = true ∧
    (CounterDetector.new 3).load_detected_result
        (CounterDetector.save_detected_result ⟨true, [], 3, [4, -1, 12]⟩ ⟨none, true⟩) =
      (true, ⟨true, [], 3, [4, -1, 12]⟩) :=
  ⟨rfl, (CounterDetector.save_load_round_trip ⟨true, [], 3, [4, -1, 12]⟩ (CounterDetector.new 3)
    ⟨none, true⟩ rfl (by decide)).1 rfl⟩

/-- C16 at a kernel that refuses every `perf_event_open`, on two CPUs and without a cached
result: the first test of each CPU fails to open its probe counter, `detect` records the
capacity 0 for both CPUs, not `-1`, and writes these two zeros to the file. -/
theorem CounterDetector.detect_open_refused :
    CounterDetector.test_open_fails kernel_refusing_open 0 1 (CounterDetector.new 2) [] = true ∧
    (CounterDetector.detect kernel_refusing_open (CounterDetector.new 2) []
      ⟨none, true⟩).1.detected_general_counter_nums_ = [0, 0] ∧
    (CounterDetector.detect kernel_refusing_open (CounterDetector.new 2) []
      ⟨none, true⟩).2.2.content = some "0\n0\n".data := by
  decide

/-! ## The claims about the event scheduler -/

theorem EventScheduler.control_active_group_eq (k : Kernel) (s : EventScheduler)
    (request : IoctlRequest) (hist : History) (hw : s.well_formed) :
    EventScheduler.control_active_group k s request hist =
      (decide ((sys k hist (group_ioctl (s.leader_fd s.active_group_idx_) request)).1.ret ≠ -1),
        (sys k hist (group_ioctl (s.leader_fd s.active_group_idx_) request)).2) := by
  obtain ⟨h1, h2, h3⟩ := hw
  obtain ⟨h4, h5⟩ := h3 _ h2
  have h6 : s.fds_ ≠ [] := by
    intro h
    rw [h] at h2
    simp at h2
  unfold EventScheduler.control_active_group
  rw [if_neg (fun h => h.elim (fun a => by simp [h1] at a)
    (fun a => a.elim (fun b => h6 b) (fun b => h4 b)))]
  unfold EventScheduler.control_group
  rw [if_neg h5]
  unfold group_ioctl
  split_ifs with h <;> simp [h]

theorem EventScheduler.well_formed_set_active (s : EventScheduler) (i : Nat)
    (hw : s.well_formed) (hi : i < s.fds_.length) :
    EventScheduler.well_formed { s with active_group_idx_ := i } :=
  ⟨hw.1, hi, hw.2.2⟩

theorem EventScheduler.get_num_event_groups_eq (s : EventScheduler) (h : s.initialized_ = true) :
    s.get_num_event_groups = s.fds_.length := by
  unfold EventScheduler.get_num_event_groups
  rw [if_neg (by simp [h])]

/-- The method `switch_to_next_group` on an initialized scheduler with at least two groups,
in terms of the answers of the kernel: the calls are the disable of the old leader, the reset
of the new leader and, after a successful reset, the enable of the new leader. -/
theorem EventScheduler.switch_to_next_group_many (k : Kernel) (s : EventScheduler)
    (hist : History) (hw : s.well_formed) (hG : 2 ≤ s.fds_.length) :
    s.switch_to_next_group k hist =
      if (sys k (sys k hist (group_ioctl (s.leader_fd s.active_group_idx_)
            IoctlRequest.DISABLE)).2
          (group_ioctl (s.leader_fd ((s.active_group_idx_ + 1) % s.fds_.length))
            IoctlRequest.RESET)).1.ret = -1 then
        (false, { s with active_group_idx_ := (s.active_group_idx_ + 1) % s.fds_.length },
          (sys k (sys k hist (group_ioctl (s.leader_fd s.active_group_idx_)
              IoctlRequest.DISABLE)).2
            (group_ioctl (s.leader_fd ((s.active_group_idx_ + 1) % s.fds_.length))
              IoctlRequest.RESET)).2)
      else
        (decide ((sys k (sys k (sys k hist (group_ioctl (s.leader_fd s.active_group_idx_)
                IoctlRequest.DISABLE)).2
              (group_ioctl (s.leader_fd ((s.active_group_idx_ + 1) % s.fds_.length))
                IoctlRequest.RESET)).2
            (group_ioctl (s.leader_fd ((s.active_group_idx_ + 1) % s.fds_.length))
              IoctlRequest.ENABLE)).1.ret ≠ -1),
          { s with active_group_idx_ := (s.active_group_idx_ + 1) % s.fds_.length },
          (sys k (sys k (sys k hist (group_ioctl (s.leader_fd s.active_group_idx_)
                IoctlRequest.DISABLE)).2
              (group_ioctl (s.leader_fd ((s.active_group_idx_ + 1) % s.fds_.length))
                IoctlRequest.RESET)).2
            (group_ioctl (s.leader_fd ((s.active_group_idx_ + 1) % s.fds_.length))
              IoctlRequest.ENABLE)).2) := by
  have hn := s.get_num_event_groups_eq hw.1
  have hne : s.fds_ ≠ [] := by
    intro h
    rw [h] at hG
    simp at hG
  have hw2 := EventScheduler.well_formed_set_active s ((s.active_group_idx_ + 1) % s.fds_.length)
    hw (Nat.mod_lt _ (by omega))
  unfold EventScheduler.switch_to_next_group
  rw [if_neg (by rw [hn]; simp [hw.1, hne]; omega)]
  simp only [hn, EventScheduler.reset_active_group, EventScheduler.enable_active_group,
    EventScheduler.disable_active_group, EventScheduler.control_active_group_eq k s _ _ hw,
    EventScheduler.control_active_group_eq k _ _ _ hw2]
  have hl : ∀ i, EventScheduler.leader_fd
      { s with active_group_idx_ := (s.active_group_idx_ + 1) % s.fds_.length } i =
      s.leader_fd i := fun _ => rfl
  simp only [hl]
  split_ifs with h1 h2 <;> first | rfl | simp_all

/-- The method `switch_to_next_group` on an initialized scheduler with exactly one group: the
reset of the leader and, after a successful reset, its enable. -/
theorem EventScheduler.switch_to_next_group_one (k : Kernel) (s : EventScheduler)
    (hist : History) (hw : s.well_formed) (hG : s.fds_.length = 1) :
    s.switch_to_next_group k hist =
      if (sys k hist (group_ioctl (s.leader_fd 0) IoctlRequest.RESET)).1.ret = -1 then
        (false, s, (sys k hist (group_ioctl (s.leader_fd 0) IoctlRequest.RESET)).2)
      else
        (decide ((sys k (sys k hist (group_ioctl (s.leader_fd 0) IoctlRequest.RESET)).2
            (group_ioctl (s.leader_fd 0) IoctlRequest.ENABLE)).1.ret ≠ -1),
          s,
          (sys k (sys k hist (group_ioctl (s.leader_fd 0) IoctlRequest.RESET)).2
            (group_ioctl (s.leader_fd 0) IoctlRequest.ENABLE)).2) := by
  have hn := s.get_num_event_groups_eq hw.1
  have ha : s.active_group_idx_ = 0 := by
    have := hw.2.1
    omega
  have h0 := (hw.2.2 0 (by omega)).1
  unfold EventScheduler.switch_to_next_group
  rw [if_pos (by rw [hn]; right; right; omega), if_pos (by rw [hn]; exact ⟨hG, h0⟩)]
  simp only [EventScheduler.reset_active_group, EventScheduler.enable_active_group,
    EventScheduler.control_active_group_eq k s _ _ hw, ha]
  split_ifs with h1 h2 <;> first | rfl | simp_all

/-- The method `switch_to_next_group` on a scheduler that is not initialized or has no
group. -/
theorem EventScheduler.switch_to_next_group_none (k : Kernel) (s : EventScheduler)
    (hist : History) (h : s.initialized_ = false ∨ s.fds_ = []) :
    s.switch_to_next_group k hist = (false, s, hist) := by
  have hn : s.get_num_event_groups = 0 := by
    unfold EventScheduler.get_num_event_groups
    rcases h with h | h
    · rw [if_pos h]
    · rw [h]; simp
  unfold EventScheduler.switch_to_next_group
  rw [if_pos (by rw [hn]; right; right; omega), if_neg (by rw [hn]; simp)]

/-- C11. For an initialized scheduler with `G ≥ 2` groups, `switch_to_next_group` leaves the
scheduler with `active_group_idx_ = (active_group_idx_ + 1) mod G` whatever the kernel
answers to the disable of the old group; it then resets the new active group and, once the
reset has succeeded, enables it; it returns `true` exactly when neither the reset nor the
enable of the new active group fails. -/
theorem EventScheduler.switch_to_next_group_advances (k : Kernel) (s : EventScheduler)
    (hist : History) (hw : s.well_formed) (hG : 2 ≤ s.fds_.length) :
    (s.switch_to_next_group k hist).2.1 =
      { s with active_group_idx_ := (s.active_group_idx_ + 1) % s.fds_.length } ∧
    ((s.switch_to_next_group k hist).1 = true ↔
      (sys k (sys k hist (group_ioctl (s.leader_fd s.active_group_idx_)
            IoctlRequest.DISABLE)).2
          (group_ioctl (s.leader_fd ((s.active_group_idx_ + 1) % s.fds_.length))
            IoctlRequest.RESET)).1.ret ≠ -1 ∧
      (sys k (sys k (sys k hist (group_ioctl (s.leader_fd s.active_group_idx_)
              IoctlRequest.DISABLE)).2
            (group_ioctl (s.leader_fd ((s.active_group_idx_ + 1) % s.fds_.length))
              IoctlRequest.RESET)).2
          (group_ioctl (s.leader_fd ((s.active_group_idx_ + 1) % s.fds_.length))
            IoctlRequest.ENABLE)).1.ret ≠ -1) ∧
    (s.switch_to_next_group k hist).2.2 =
      if (sys k (sys k hist (group_ioctl (s.leader_fd s.active_group_idx_)
            IoctlRequest.DISABLE)).2
          (group_ioctl (s.leader_fd ((s.active_group_idx_ + 1) % s.fds_.length))
            IoctlRequest.RESET)).1.ret = -1 then
        (sys k (sys k hist (group_ioctl (s.leader_fd s.active_group_idx_)
            IoctlRequest.DISABLE)).2
          (group_ioctl (s.leader_fd ((s.active_group_idx_ + 1) % s.fds_.length))
            IoctlRequest.RESET)).2
      else
        (sys k (sys k (sys k hist (group_ioctl (s.leader_fd s.active_group_idx_)
              IoctlRequest.DISABLE)).2
            (group_ioctl (s.leader_fd ((s.active_group_idx_ + 1) % s.fds_.length))
              IoctlRequest.RESET)).2
          (group_ioctl (s.leader_fd ((s.active_group_idx_ + 1) % s.fds_.length))
            IoctlRequest.ENABLE)).2 := by
  rw [EventScheduler.switch_to_next_group_many k s hist hw hG]
  split_ifs with h
  · exact ⟨rfl, by simp [h], rfl⟩
  · exact ⟨rfl, by simp [h], rfl⟩

/-- C11 on `two_group_scheduler` (active group 0, leaders 3 and 5) with a kernel that
refuses every disable: the switch still moves to group 1, issues the disable of 3, the reset
of 5 and the enable of 5, and returns `true`. -/
theorem EventScheduler.switch_to_next_group_advances_witness :
    two_group_scheduler.well_formed ∧ 2 ≤ two_group_scheduler.fds_.length ∧
    (two_group_scheduler.switch_to_next_group
        (kernel_refusing_ioctl IoctlRequest.DISABLE) []).2.1.active_group_idx_ = 1 ∧
    (two_group_scheduler.switch_to_next_group
        (kernel_refusing_ioctl IoctlRequest.DISABLE) []) =
      (true, { two_group_scheduler with active_group_idx_ := 1 },
        [(group_ioctl 3 IoctlRequest.DISABLE, ⟨-1, []⟩),
         (group_ioctl 5 IoctlRequest.RESET, ⟨0, []⟩),
         (group_ioctl 5 IoctlRequest.ENABLE, ⟨0, []⟩)]) :=
  ⟨by decide, by decide,
    by rw [(EventScheduler.switch_to_next_group_advances
      (kernel_refusing_ioctl IoctlRequest.DISABLE) two_group_scheduler [] (by decide)
      (by decide)).1]; decide,
    by decide⟩

/-- C12. For an initialized scheduler with exactly one group, `switch_to_next_group` issues
a reset to the leader of that group and, once the reset has succeeded, an enable to the same
leader; it issues no disable, changes no data member and `active_group_idx_` is 0. For a
scheduler that is not initialized or has no group it returns `false`, makes no call and
changes no data member. -/
theorem EventScheduler.switch_to_next_group_single (k : Kernel) (s : EventScheduler)
    (hist : History) :
    (s.well_formed → s.fds_.length = 1 →
      (s.switch_to_next_group k hist).2.1 = s ∧ s.active_group_idx_ = 0 ∧
      ((s.switch_to_next_group k hist).1 = true ↔
        (sys k hist (group_ioctl (s.leader_fd 0) IoctlRequest.RESET)).1.ret ≠ -1 ∧
        (sys k (sys k hist (group_ioctl (s.leader_fd 0) IoctlRequest.RESET)).2
          (group_ioctl (s.leader_fd 0) IoctlRequest.ENABLE)).1.ret ≠ -1) ∧
      (s.switch_to_next_group k hist).2.2 =
        if (sys k hist (group_ioctl (s.leader_fd 0) IoctlRequest.RESET)).1.ret = -1 then
          (sys k hist (group_ioctl (s.leader_fd 0) IoctlRequest.RESET)).2
        else
          (sys k (sys k hist (group_ioctl (s.leader_fd 0) IoctlRequest.RESET)).2
            (group_ioctl (s.leader_fd 0) IoctlRequest.ENABLE)).2) ∧
    (s.initialized_ = false ∨ s.fds_ = [] →
      s.switch_to_next_group k hist = (false, s, hist)) := by
  refine ⟨fun hw hG => ?_, EventScheduler.switch_to_next_group_none k s hist⟩
  have ha : s.active_group_idx_ = 0 := by
    have := hw.2.1
    omega
  rw [EventScheduler.switch_to_next_group_one k s hist hw hG]
  split_ifs with h
  · exact ⟨rfl, ha, by simp [h], rfl⟩
  · exact ⟨rfl, ha, by simp [h], rfl⟩

/-- C12 on `one_group_scheduler` (leader 3) with a kernel that accepts every call, and on
the same scheduler before `initialize`. -/
theorem EventScheduler.switch_to_next_group_single_witness :
    one_group_scheduler.well_formed ∧ one_group_scheduler.fds_.length = 1 ∧
    (one_group_scheduler.switch_to_next_group (kernel_with_counters 4) []) =
      (true, one_group_scheduler,
        [(group_ioctl 3 IoctlRequest.RESET, ⟨0, []⟩),
         (group_ioctl 3 IoctlRequest.ENABLE, ⟨0, []⟩)]) ∧
    one_group_scheduler.active_group_idx_ = 0 ∧
    (EventScheduler.new ⟨catalog_fixed_events, [test_c]⟩ (-1) 0).switch_to_next_group
        (kernel_with_counters 4) [] =
      (false, EventScheduler.new ⟨catalog_fixed_events, [test_c]⟩ (-1) 0, []) :=
  ⟨by decide, by decide, by decide,
    ((EventScheduler.switch_to_next_group_single (kernel_with_counters 4)
      one_group_scheduler []).1 (by decide) (by decide)).2.1,
    (EventScheduler.switch_to_next_group_single (kernel_with_counters 4)
      (EventScheduler.new ⟨catalog_fixed_events, [test_c]⟩ (-1) 0) []).2 (Or.inl rfl)⟩

theorem enabled_groups_append (enabled : List Int) (xs ys : History) :
    enabled_groups enabled (xs ++ ys) = enabled_groups (enabled_groups enabled xs) ys := by
  induction xs generalizing enabled with
  | nil => rfl
  | cons x xs ih =>
    obtain ⟨call, r⟩ := x
    cases call with
    | ioctl fd request arg =>
      cases request <;> exact ih _
    | _ => exact ih _

theorem enabled_groups_switch (old new : Int) (rd rr re : SysResult) (hd : rd.ret ≠ -1)
    (he : re.ret ≠ -1) :
    (∀ m, (enabled_groups [old] ([(group_ioctl old IoctlRequest.DISABLE, rd),
      (group_ioctl new IoctlRequest.RESET, rr),
      (group_ioctl new IoctlRequest.ENABLE, re)].take m)).length ≤ 1) ∧
    enabled_groups [old] [(group_ioctl old IoctlRequest.DISABLE, rd),
      (group_ioctl new IoctlRequest.RESET, rr),
      (group_ioctl new IoctlRequest.ENABLE, re)] = [new] := by
  refine ⟨?_, ?_⟩
  · intro m
    rcases m with _ | _ | _ | _ | m <;>
      simp [enabled_groups, group_ioctl, hd, he]
  · simp [enabled_groups, group_ioctl, hd, he]

theorem enabled_groups_enable (leader : Int) (re : SysResult) (he : re.ret ≠ -1) :
    enabled_groups [] [(group_ioctl leader IoctlRequest.ENABLE, re)] = [leader] := by
  simp [enabled_groups, group_ioctl, he]

theorem enabled_groups_reset_enable (leader : Int) (rr re : SysResult) :
    (∀ m, (enabled_groups [leader] ([(group_ioctl leader IoctlRequest.RESET, rr),
      (group_ioctl leader IoctlRequest.ENABLE, re)].take m)).length ≤ 1) ∧
    enabled_groups [leader] [(group_ioctl leader IoctlRequest.RESET, rr),
      (group_ioctl leader IoctlRequest.ENABLE, re)] = [leader] := by
  refine ⟨?_, ?_⟩
  · intro m
    rcases m with _ | _ | _ | m <;>
      simp [enabled_groups, group_ioctl]
  · simp [enabled_groups, group_ioctl]

/-- One `switch_to_next_group` on a well-formed scheduler whose active group is the one
enabled: if all its calls succeed, at most one group is enabled after each of them and the
new active group is the one enabled at the end. -/
theorem EventScheduler.switch_to_next_group_enabled (k : Kernel) (s : EventScheduler)
    (hist : History) (hw : s.well_formed) :
    ∃ calls, (s.switch_to_next_group k hist).2.2 = hist ++ calls ∧
      (s.switch_to_next_group k hist).2.1.well_formed ∧
      (s.switch_to_next_group k hist).2.1.fds_ = s.fds_ ∧
      ((∀ c ∈ calls, c.2.ret ≠ -1) →
        (∀ m, (enabled_groups [s.leader_fd s.active_group_idx_] (calls.take m)).length ≤ 1) ∧
        enabled_groups [s.leader_fd s.active_group_idx_] calls =
          [s.leader_fd (s.switch_to_next_group k hist).2.1.active_group_idx_]) := by
  have hlen : 1 ≤ s.fds_.length := by
    have := hw.2.1
    omega
  rcases Nat.lt_or_ge s.fds_.length 2 with hG | hG
  · have hG1 : s.fds_.length = 1 := by omega
    have ha : s.active_group_idx_ = 0 := by
      have := hw.2.1
      omega
    rw [EventScheduler.switch_to_next_group_one k s hist hw hG1]
    split_ifs with h
    · refine ⟨[(group_ioctl (s.leader_fd 0) IoctlRequest.RESET,
        k hist (group_ioctl (s.leader_fd 0) IoctlRequest.RESET))], rfl, hw, rfl, ?_⟩
      intro hok
      exact absurd h (hok _ (List.mem_singleton.mpr rfl))
    · refine ⟨[(group_ioctl (s.leader_fd 0) IoctlRequest.RESET,
          k hist (group_ioctl (s.leader_fd 0) IoctlRequest.RESET)),
        (group_ioctl (s.leader_fd 0) IoctlRequest.ENABLE,
          k (sys k hist (group_ioctl (s.leader_fd 0) IoctlRequest.RESET)).2
            (group_ioctl (s.leader_fd 0) IoctlRequest.ENABLE))], by simp [sys], hw, rfl, ?_⟩
      intro _
      rw [ha]
      exact enabled_groups_reset_enable _ _ _
  · have hw2 := EventScheduler.well_formed_set_active s
      ((s.active_group_idx_ + 1) % s.fds_.length) hw (Nat.mod_lt _ (by omega))
    rw [EventScheduler.switch_to_next_group_many k s hist hw hG]
    split_ifs with h
    · refine ⟨[(group_ioctl (s.leader_fd s.active_group_idx_) IoctlRequest.DISABLE,
          k hist (group_ioctl (s.leader_fd s.active_group_idx_) IoctlRequest.DISABLE)),
        (group_ioctl (s.leader_fd ((s.active_group_idx_ + 1) % s.fds_.length))
            IoctlRequest.RESET,
          k (sys k hist (group_ioctl (s.leader_fd s.active_group_idx_)
              IoctlRequest.DISABLE)).2
            (group_ioctl (s.leader_fd ((s.active_group_idx_ + 1) % s.fds_.length))
              IoctlRequest.RESET))], by simp [sys], hw2, rfl, ?_⟩
      intro hok
      exact absurd h (hok _ (List.mem_cons_of_mem _ (List.mem_cons_self _ _)))
    · refine ⟨[(group_ioctl (s.leader_fd s.active_group_idx_) IoctlRequest.DISABLE,
          k hist (group_ioctl (s.leader_fd s.active_group_idx_) IoctlRequest.DISABLE)),
        (group_ioctl (s.leader_fd ((s.active_group_idx_ + 1) % s.fds_.length))
            IoctlRequest.RESET,
          k (sys k hist (group_ioctl (s.leader_fd s.active_group_idx_)
              IoctlRequest.DISABLE)).2
            (group_ioctl (s.leader_fd ((s.active_group_idx_ + 1) % s.fds_.length))
              IoctlRequest.RESET)),
        (group_ioctl (s.leader_fd ((s.active_group_idx_ + 1) % s.fds_.length))
            IoctlRequest.ENABLE,
          k (sys k (sys k hist (group_ioctl (s.leader_fd s.active_group_idx_)
                IoctlRequest.DISABLE)).2
              (group_ioctl (s.leader_fd ((s.active_group_idx_ + 1) % s.fds_.length))
                IoctlRequest.RESET)).2
            (group_ioctl (s.leader_fd ((s.active_group_idx_ + 1) % s.fds_.length))
              IoctlRequest.ENABLE))], by simp [sys], hw2, rfl, ?_⟩
      intro hok
      have hd : (k hist (group_ioctl (s.leader_fd s.active_group_idx_)
          IoctlRequest.DISABLE)).ret ≠ -1 := hok _ (List.mem_cons_self _ _)
      have he : (k (sys k (sys k hist (group_ioctl (s.leader_fd s.active_group_idx_)
                IoctlRequest.DISABLE)).2
              (group_ioctl (s.leader_fd ((s.active_group_idx_ + 1) % s.fds_.length))
                IoctlRequest.RESET)).2
            (group_ioctl (s.leader_fd ((s.active_group_idx_ + 1) % s.fds_.length))
              IoctlRequest.ENABLE)).ret ≠ -1 :=
        hok _ (List.mem_cons_of_mem _ (List.mem_cons_of_mem _ (List.mem_cons_self _ _)))
      exact enabled_groups_switch _ _ _ _ _ hd he

theorem EventScheduler.leader_fd_congr (s t : EventScheduler) (h : t.fds_ = s.fds_) (i : Nat) :
    t.leader_fd i = s.leader_fd i := by
  unfold EventScheduler.leader_fd
  rw [h]

theorem enabled_groups_take_append (enabled next : List Int) (xs ys : History)
    (h1 : ∀ m, (enabled_groups enabled (xs.take m)).length ≤ 1)
    (h2 : enabled_groups enabled xs = next)
    (h3 : ∀ m, (enabled_groups next (ys.take m)).length ≤ 1) (m : Nat) :
    (enabled_groups enabled ((xs ++ ys).take m)).length ≤ 1 := by
  rw [List.take_append_eq_append_take, enabled_groups_append]
  rcases Nat.lt_or_ge m xs.length with hm | hm
  · rw [show m - xs.length = 0 by omega, List.take_zero]
    exact h1 m
  · rw [List.take_of_length_le hm, h2]
    exact h3 _

/-- After any number of `switch_to_next_group` calls on a well-formed scheduler whose active
group is the one enabled: if all the calls succeed, at most one group is enabled after each
of them and the active group is the one enabled at the end. -/
theorem EventScheduler.switch_times_enabled (k : Kernel) (n : Nat) (s : EventScheduler)
    (hist : History) (hw : s.well_formed) :
    ∃ calls, (EventScheduler.switch_times k n s hist).2 = hist ++ calls ∧
      (EventScheduler.switch_times k n s hist).1.well_formed ∧
      (EventScheduler.switch_times k n s hist).1.fds_ = s.fds_ ∧
      ((∀ c ∈ calls, c.2.ret ≠ -1) →
        (∀ m, (enabled_groups [s.leader_fd s.active_group_idx_] (calls.take m)).length ≤ 1) ∧
        enabled_groups [s.leader_fd s.active_group_idx_] calls =
          [s.leader_fd (EventScheduler.switch_times k n s hist).1.active_group_idx_]) := by
  induction n generalizing s hist with
  | zero =>
    refine ⟨[], by simp [EventScheduler.switch_times], hw, rfl, fun _ => ⟨fun m => ?_, rfl⟩⟩
    simp [enabled_groups]
  | succ n ih =>
    obtain ⟨c1, h1, hw1, hf1, he1⟩ := EventScheduler.switch_to_next_group_enabled k s hist hw
    obtain ⟨c2, h2, hw2, hf2, he2⟩ := ih (s.switch_to_next_group k hist).2.1
      (s.switch_to_next_group k hist).2.2 hw1
    unfold EventScheduler.switch_times
    refine ⟨c1 ++ c2, by rw [h2, h1, List.append_assoc], hw2, by rw [hf2, hf1], ?_⟩
    intro hok
    obtain ⟨a1, a2⟩ := he1 (fun c hc => hok c (List.mem_append_left _ hc))
    obtain ⟨b1, b2⟩ := he2 (fun c hc => hok c (List.mem_append_right _ hc))
    simp only [EventScheduler.leader_fd_congr s _ hf1] at b1 b2
    refine ⟨enabled_groups_take_append _ _ c1 c2 a1 a2 b1, ?_⟩
    rw [enabled_groups_append, a2, b2]

/-- C13. Starting from a successfully initialized scheduler in which no group is enabled,
after `enable_active_group` and any number `n` of `switch_to_next_group` calls in which every
call to the kernel succeeds: no two groups are enabled at the same time (after each call at
most one leader is enabled), and at the end exactly one group is enabled, the group at
`active_group_idx_`. The leaders of distinct groups are distinct descriptors. -/
theorem EventScheduler.one_group_enabled (k : Kernel) (n : Nat) (s : EventScheduler)
    (hist : History) (hw : s.well_formed)
    (hdistinct : ∀ i, i < s.fds_.length → ∀ j, j < s.fds_.length →
      s.leader_fd i = s.leader_fd j → i = j)
    (hok : ∀ c ∈ new_calls hist (EventScheduler.enable_then_switch k n s hist).2,
      c.2.ret ≠ -1) :
    (∀ m, (enabled_groups []
      ((new_calls hist (EventScheduler.enable_then_switch k n s hist).2).take m)).length ≤ 1) ∧
    (∀ i, i < s.fds_.length →
      (s.leader_fd i ∈ enabled_groups []
          (new_calls hist (EventScheduler.enable_then_switch k n s hist).2) ↔
        i = (EventScheduler.enable_then_switch k n s hist).1.active_group_idx_)) ∧
    (enabled_groups []
      (new_calls hist (EventScheduler.enable_then_switch k n s hist).2)).length = 1 := by
  unfold EventScheduler.enable_then_switch at hok ⊢
  obtain ⟨calls, h1, hw1, hf1, he1⟩ := EventScheduler.switch_times_enabled k n s
    (s.enable_active_group k hist).2 hw
  have hen : (s.enable_active_group k hist).2 =
      hist ++ [(group_ioctl (s.leader_fd s.active_group_idx_) IoctlRequest.ENABLE,
        k hist (group_ioctl (s.leader_fd s.active_group_idx_) IoctlRequest.ENABLE))] := by
    unfold EventScheduler.enable_active_group
    rw [EventScheduler.control_active_group_eq k s _ _ hw]
    rfl
  have h2 : (EventScheduler.switch_times k n s (s.enable_active_group k hist).2).2 =
      hist ++ ([(group_ioctl (s.leader_fd s.active_group_idx_) IoctlRequest.ENABLE,
        k hist (group_ioctl (s.leader_fd s.active_group_idx_) IoctlRequest.ENABLE))] ++
          calls) := by
    rw [h1, hen, List.append_assoc]
  rw [h2, new_calls_append] at hok ⊢
  have hfirst : (k hist (group_ioctl (s.leader_fd s.active_group_idx_)
      IoctlRequest.ENABLE)).ret ≠ -1 := hok _ (List.mem_append_left _ (List.mem_singleton.mpr rfl))
  obtain ⟨a1, a2⟩ := he1 (fun c hc => hok c (List.mem_append_right _ hc))
  have hstart : enabled_groups []
      [(group_ioctl (s.leader_fd s.active_group_idx_) IoctlRequest.ENABLE,
        k hist (group_ioctl (s.leader_fd s.active_group_idx_) IoctlRequest.ENABLE))] =
      [s.leader_fd s.active_group_idx_] := by
    exact enabled_groups_enable _ _ hfirst
  have hstart2 : ∀ m, (enabled_groups []
      ([(group_ioctl (s.leader_fd s.active_group_idx_) IoctlRequest.ENABLE,
        k hist (group_ioctl (s.leader_fd s.active_group_idx_) IoctlRequest.ENABLE))].take
          m)).length ≤ 1 := by
    intro m
    rcases m with _ | m
    · simp [enabled_groups]
    · rw [List.take_of_length_le (by simp), hstart]
      simp
  have hfinal : enabled_groups []
      ([(group_ioctl (s.leader_fd s.active_group_idx_) IoctlRequest.ENABLE,
        k hist (group_ioctl (s.leader_fd s.active_group_idx_) IoctlRequest.ENABLE))] ++ calls) =
      [s.leader_fd (EventScheduler.switch_times k n s
        (s.enable_active_group k hist).2).1.active_group_idx_] := by
    rw [enabled_groups_append, hstart, a2]
  refine ⟨enabled_groups_take_append _ _ _ calls hstart2 hstart a1, ?_, ?_⟩
  · intro i hi
    rw [hfinal, List.mem_singleton]
    constructor
    · intro h
      exact hdistinct i hi _ (by rw [← hf1]; exact hw1.2.1) h
    · intro h
      rw [← h]
  · rw [hfinal]
    rfl

/-- C13 on `two_group_scheduler` with a kernel that accepts every call, after
`enable_active_group` and three switches: the group enabled at the end is group 1. -/
theorem EventScheduler.one_group_enabled_witness :
    two_group_scheduler.well_formed ∧
    (∀ c ∈ new_calls [] (EventScheduler.enable_then_switch (kernel_with_counters 4) 3
      two_group_scheduler []).2, c.2.ret ≠ -1) ∧
    (EventScheduler.enable_then_switch (kernel_with_counters 4) 3
      two_group_scheduler []).1.active_group_idx_ = 1 ∧
    two_group_scheduler.leader_fd 1 ∈ enabled_groups []
      (new_calls [] (EventScheduler.enable_then_switch (kernel_with_counters 4) 3
        two_group_scheduler []).2) :=
  ⟨by decide, by decide, by decide,
    ((EventScheduler.one_group_enabled (kernel_with_counters 4) 3 two_group_scheduler []
      (by decide) (by decide) (by decide)).2.1 1 (by decide)).mpr (by decide)⟩

theorem open_handles_append (opened : List Int) (xs ys : History) :
    open_handles opened (xs ++ ys) = open_handles (open_handles opened xs) ys := by
  induction xs generalizing opened with
  | nil => rfl
  | cons x xs ih =>
    obtain ⟨call, r⟩ := x
    cases call <;> exact ih _

theorem EventScheduler.open_group_calls (k : Kernel) (target_pid target_cpu : Int)
    (events : List PMUEvent) (group_leader_fd : Int) (is_first_in_group : Bool)
    (group_fds : List Int) (hist : History) :
    ∃ calls news,
      (EventScheduler.open_group k target_pid target_cpu events group_leader_fd
        is_first_in_group group_fds hist).2.2 = hist ++ calls ∧
      (EventScheduler.open_group k target_pid target_cpu events group_leader_fd
        is_first_in_group group_fds hist).2.1 = group_fds ++ news ∧
      (∀ opened x, (open_handles opened calls).count x = opened.count x + news.count x) ∧
      (-1 ∉ news) ∧
      ((EventScheduler.open_group k target_pid target_cpu events group_leader_fd
        is_first_in_group group_fds hist).1 = true → ∀ c ∈ calls, open_failed c = false) := by
  induction events generalizing group_leader_fd is_first_in_group group_fds hist with
  | nil =>
    exact ⟨[], [], by simp [EventScheduler.open_group], by simp [EventScheduler.open_group],
      by simp [open_handles], by simp, by simp⟩
  | cons e es ih =>
    unfold EventScheduler.open_group
    by_cases h : (EventScheduler.perf_event_open k hist
        (EventScheduler.configure_event PERF_TYPE_RAW e.encoding is_first_in_group)
        target_pid target_cpu group_leader_fd 0).1.ret = -1
    · rw [if_pos h]
      refine ⟨[(Syscall.perf_event_open
          (EventScheduler.configure_event PERF_TYPE_RAW e.encoding is_first_in_group)
          target_pid target_cpu group_leader_fd 0,
        k hist (Syscall.perf_event_open
          (EventScheduler.configure_event PERF_TYPE_RAW e.encoding is_first_in_group)
          target_pid target_cpu group_leader_fd 0))], [], rfl, by simp, ?_, by simp, by simp⟩
      intro opened x
      have h2 : (k hist (Syscall.perf_event_open
          (EventScheduler.configure_event PERF_TYPE_RAW e.encoding is_first_in_group)
          target_pid target_cpu group_leader_fd 0)).ret = -1 := h
      simp [open_handles, h2]
    · rw [if_neg h]
      have h2 : (k hist (Syscall.perf_event_open
          (EventScheduler.configure_event PERF_TYPE_RAW e.encoding is_first_in_group)
          target_pid target_cpu group_leader_fd 0)).ret ≠ -1 := h
      obtain ⟨calls, news, i1, i2, i3, i4, i5⟩ := ih
        (if is_first_in_group then (EventScheduler.perf_event_open k hist
          (EventScheduler.configure_event PERF_TYPE_RAW e.encoding is_first_in_group)
          target_pid target_cpu group_leader_fd 0).1.ret else group_leader_fd)
        false
        (group_fds ++ [(EventScheduler.perf_event_open k hist
          (EventScheduler.configure_event PERF_TYPE_RAW e.encoding is_first_in_group)
          target_pid target_cpu group_leader_fd 0).1.ret])
        (EventScheduler.perf_event_open k hist
          (EventScheduler.configure_event PERF_TYPE_RAW e.encoding is_first_in_group)
          target_pid target_cpu group_leader_fd 0).2
      refine ⟨(Syscall.perf_event_open
          (EventScheduler.configure_event PERF_TYPE_RAW e.encoding is_first_in_group)
          target_pid target_cpu group_leader_fd 0,
        k hist (Syscall.perf_event_open
          (EventScheduler.configure_event PERF_TYPE_RAW e.encoding is_first_in_group)
          target_pid target_cpu group_leader_fd 0)) :: calls,
        (k hist (Syscall.perf_event_open
          (EventScheduler.configure_event PERF_TYPE_RAW e.encoding is_first_in_group)
          target_pid target_cpu group_leader_fd 0)).ret :: news, ?_, ?_, ?_, ?_, ?_⟩
      · rw [i1]
        simp [EventScheduler.perf_event_open, sys]
      · rw [i2]
        simp [EventScheduler.perf_event_open, sys]
      · intro opened x
        simp only [open_handles, if_neg h2]
        rw [i3, List.count_cons, List.count_cons]
        omega
      · intro hmem
        rcases List.mem_cons.mp hmem with hm | hm
        · exact h2 hm.symm
        · exact i4 hm
      · intro ht c hc
        rcases List.mem_cons.mp hc with hc | hc
        · subst hc
          simp [open_failed, h2]
        · exact i5 ht c hc

theorem count_flatten_set (fds : List (List Int)) (i : Nat) (g : List Int) (x : Int)
    (hi : i < fds.length) :
    (fds.set i g).flatten.count x + (fds.getD i []).count x =
      fds.flatten.count x + g.count x := by
  induction fds generalizing i with
  | nil => simp at hi
  | cons a fds ih =>
    cases i with
    | zero =>
      simp only [List.set_cons_zero, List.flatten_cons, List.count_append, List.getD_cons_zero]
      omega
    | succ i =>
      have := ih i (by simpa using hi)
      simp only [List.set_cons_succ, List.flatten_cons, List.count_append, List.getD_cons_succ]
      omega

theorem EventScheduler.open_groups_calls (k : Kernel) (s : EventScheduler)
    (remaining i : Nat) (fds : List (List Int)) (hist : History)
    (hlen : i + remaining ≤ fds.length) :
    ∃ calls,
      (EventScheduler.open_groups k s remaining i fds hist).2.2 = hist ++ calls ∧
      (∀ opened x, (open_handles opened calls).count x + fds.flatten.count x =
        opened.count x +
          (EventScheduler.open_groups k s remaining i fds hist).2.1.flatten.count x) ∧
      (∀ opened, -1 ∉ opened → -1 ∉ open_handles opened calls) ∧
      ((EventScheduler.open_groups k s remaining i fds hist).1 = true →
        ∀ c ∈ calls, open_failed c = false) := by
  induction remaining generalizing i fds hist with
  | zero =>
    exact ⟨[], by simp [EventScheduler.open_groups], by simp [EventScheduler.open_groups,
      open_handles], by simp [open_handles], by simp⟩
  | succ r ih =>
    obtain ⟨calls, news, g1, g2, g3, g4, g5⟩ := EventScheduler.open_group_calls k s.target_pid_
      s.target_cpu_ (s.pmu_config_.get_fixed_events ++ s.pmu_config_.get_event_group_by_idx i)
      (-1) true (fds.getD i []) hist
    have hset := fun x => count_flatten_set fds i
      (EventScheduler.open_group k s.target_pid_ s.target_cpu_
        (s.pmu_config_.get_fixed_events ++ s.pmu_config_.get_event_group_by_idx i)
        (-1) true (fds.getD i []) hist).2.1 x (by omega)
    have hneg : ∀ opened : List Int, -1 ∉ opened → -1 ∉ open_handles opened calls := by
      intro opened ho
      have h0 := g3 opened (-1)
      rw [List.count_eq_zero.mpr ho, List.count_eq_zero.mpr g4] at h0
      exact List.count_eq_zero.mp h0
    unfold EventScheduler.open_groups
    by_cases h : (EventScheduler.open_group k s.target_pid_ s.target_cpu_
        (s.pmu_config_.get_fixed_events ++ s.pmu_config_.get_event_group_by_idx i)
        (-1) true (fds.getD i []) hist).1 = false
    · rw [if_pos h]
      refine ⟨calls, g1, ?_, hneg, by simp⟩
      intro opened x
      have h1 := hset x
      have h2 := g3 opened x
      have h4 := congrArg (List.count x) g2
      rw [List.count_append] at h4
      simp only
      omega
    · rw [if_neg h]
      obtain ⟨calls2, i1, i2, i3, i4⟩ := ih (i + 1)
        (fds.set i (EventScheduler.open_group k s.target_pid_ s.target_cpu_
          (s.pmu_config_.get_fixed_events ++ s.pmu_config_.get_event_group_by_idx i)
          (-1) true (fds.getD i []) hist).2.1)
        (EventScheduler.open_group k s.target_pid_ s.target_cpu_
          (s.pmu_config_.get_fixed_events ++ s.pmu_config_.get_event_group_by_idx i)
          (-1) true (fds.getD i []) hist).2.2
        (by rw [List.length_set]; omega)
      refine ⟨calls ++ calls2, by rw [i1, g1, List.append_assoc], ?_, ?_, ?_⟩
      · intro opened x
        have h1 := hset x
        have h2 := g3 opened x
        have h3 := i2 (open_handles opened calls) x
        have h4 := congrArg (List.count x) g2
        rw [List.count_append] at h4
        rw [open_handles_append]
        omega
      · intro opened ho
        rw [open_handles_append]
        exact i3 _ (hneg opened ho)
      · intro ht c hc
        rcases List.mem_append.mp hc with hc | hc
        · exact g5 (by simpa using h) c hc
        · exact i4 ht c hc

theorem EventScheduler.close_group_calls (k : Kernel) (group_fds : List Int) (hist : History) :
    ∃ calls, EventScheduler.close_group k group_fds hist = hist ++ calls ∧
      (∀ c ∈ calls, open_failed c = false) ∧
      (∀ opened x, x ≠ -1 →
        (open_handles opened calls).count x = opened.count x - group_fds.count x) ∧
      (∀ opened x, x ∈ open_handles opened calls → x ∈ opened) := by
  induction group_fds generalizing hist with
  | nil => exact ⟨[], by simp [EventScheduler.close_group], by simp, by simp [open_handles],
      by simp [open_handles]⟩
  | cons fd fds ih =>
    unfold EventScheduler.close_group
    by_cases h : fd ≠ -1
    · rw [if_pos h]
      obtain ⟨calls, i1, i2, i3, i4⟩ := ih (sys k hist (Syscall.close fd)).2
      refine ⟨(Syscall.close fd, k hist (Syscall.close fd)) :: calls, ?_, ?_, ?_, ?_⟩
      · rw [i1]; simp [sys]
      · intro c hc
        rcases List.mem_cons.mp hc with hc | hc
        · subst hc; rfl
        · exact i2 c hc
      · intro opened x hx
        simp only [open_handles]
        rw [i3 _ x hx, List.count_erase, List.count_cons]
        by_cases hxf : fd = x
        · subst hxf; simp; omega
        · have : ¬ (x == fd) = true := by simpa using fun h2 => hxf h2.symm
          simp [hxf, this]
      · intro opened x hx
        simp only [open_handles] at hx
        exact List.mem_of_mem_erase (i4 _ x hx)
    · rw [if_neg h]
      obtain ⟨calls, i1, i2, i3, i4⟩ := ih hist
      refine ⟨calls, i1, i2, ?_, i4⟩
      intro opened x hx
      rw [i3 _ x hx, List.count_cons]
      have hfd : fd = -1 := not_not.mp h
      have : ¬ (fd == x) = true := by
        simp only [beq_iff_eq]
        intro h2
        exact hx (h2 ▸ hfd)
      simp [this]

theorem EventScheduler.close_groups_calls (k : Kernel) (fds : List (List Int))
    (hist : History) :
    ∃ calls, EventScheduler.close_groups k fds hist = hist ++ calls ∧
      (∀ c ∈ calls, open_failed c = false) ∧
      (∀ opened x, x ≠ -1 →
        (open_handles opened calls).count x = opened.count x - fds.flatten.count x) ∧
      (∀ opened x, x ∈ open_handles opened calls → x ∈ opened) := by
  induction fds generalizing hist with
  | nil => exact ⟨[], by simp [EventScheduler.close_groups], by simp, by simp [open_handles],
      by simp [open_handles]⟩
  | cons g fds ih =>
    obtain ⟨c1, g1, g2, g3, g4⟩ := EventScheduler.close_group_calls k g hist
    obtain ⟨c2, i1, i2, i3, i4⟩ := ih (EventScheduler.close_group k g hist)
    unfold EventScheduler.close_groups
    refine ⟨c1 ++ c2, by rw [i1, g1, List.append_assoc], ?_, ?_, ?_⟩
    · intro c hc
      rcases List.mem_append.mp hc with hc | hc
      · exact g2 c hc
      · exact i2 c hc
    · intro opened x hx
      rw [open_handles_append, i3 _ x hx, g3 _ x hx, List.flatten_cons, List.count_append]
      omega
    · intro opened x hx
      rw [open_handles_append] at hx
      exact g4 _ x (i4 _ x hx)

/-- C14. If a `perf_event_open` call fails during `EventScheduler::initialize` of a scheduler
that is not initialized, then `initialize` returns `false`, the handle table `fds_` is left
empty, the scheduler stays uninitialized, and every handle opened in that call has been
closed: no descriptor opened by the calls of `initialize` is open at its end. -/
theorem EventScheduler.initialize_failure_closes_handles (k : Kernel) (s : EventScheduler)
    (hist : History)
    (hfail : ∃ c ∈ new_calls hist ( EventScheduler.initialize k s hist).2.2,
      open_failed c = true) :
    ( EventScheduler.initialize k s hist).1 = false ∧
    ( EventScheduler.initialize k s hist).2.1.fds_ = [] ∧
    ( EventScheduler.initialize k s hist).2.1.initialized_ = false ∧
    open_handles [] (new_calls hist ( EventScheduler.initialize k s hist).2.2) = [] := by
  have hs : s.initialized_ = false := by
    cases hi : s.initialized_ with
    | false => rfl
    | true =>
      exfalso
      obtain ⟨c, hc, -⟩ := hfail
      unfold EventScheduler.initialize at hc
      rw [if_pos hi] at hc
      simp [new_calls] at hc
  obtain ⟨opens, o1, o2, o3, o4⟩ := EventScheduler.open_groups_calls k s
    s.pmu_config_.get_event_group_num 0 (resize_fds s.fds_ s.pmu_config_.get_event_group_num)
    hist (by
      unfold resize_fds
      rw [List.length_append, List.length_take, List.length_replicate]
      omega)
  obtain ⟨closes, c1, c2, c3, c4⟩ := EventScheduler.close_groups_calls k
    (EventScheduler.open_groups k s s.pmu_config_.get_event_group_num 0
      (resize_fds s.fds_ s.pmu_config_.get_event_group_num) hist).2.1
    (EventScheduler.open_groups k s s.pmu_config_.get_event_group_num 0
      (resize_fds s.fds_ s.pmu_config_.get_event_group_num) hist).2.2
  unfold EventScheduler.initialize at hfail ⊢
  rw [if_neg (by simp [hs])] at hfail ⊢
  by_cases h : (EventScheduler.open_groups k s s.pmu_config_.get_event_group_num 0
      (resize_fds s.fds_ s.pmu_config_.get_event_group_num) hist).1 = false
  · rw [if_pos h]
    refine ⟨rfl, rfl, hs, ?_⟩
    unfold EventScheduler.cleanup_fds
    simp only
    rw [c1, o1, List.append_assoc, new_calls_append, open_handles_append]
    rw [List.eq_nil_iff_forall_not_mem]
    intro x hx
    by_cases hx1 : x = -1
    · subst hx1
      exact o3 [] (by simp) (c4 _ _ hx)
    · have h1 := c3 (open_handles [] opens) x hx1
      have h2 := o2 [] x
      have h3 : 0 < (open_handles (open_handles [] opens) closes).count x :=
        List.count_pos_iff.mpr hx
      simp only [List.count_nil] at h2
      omega
  · rw [if_neg h] at hfail
    exfalso
    obtain ⟨c, hc, hcf⟩ := hfail
    simp only at hc
    rw [o1, new_calls_append] at hc
    rw [o4 (by simpa using h) c hc] at hcf
    exact absurd hcf (by simp)

/-- C14 on the scheduler of CPU 0 for `two_group_config` with a kernel that has room for
three descriptors: the fourth open (the second event of group 1) fails, and the descriptors
3, 4 of group 0 and 5 of group 1 are closed. -/
theorem EventScheduler.initialize_failure_closes_handles_witness :
    (∃ c ∈ new_calls [] ( EventScheduler.initialize (kernel_with_descriptors 3)
      (EventScheduler.new two_group_config (-1) 0) []).2.2, open_failed c = true) ∧
    ((new_calls [] ( EventScheduler.initialize (kernel_with_descriptors 3)
      (EventScheduler.new two_group_config (-1) 0) []).2.2).filter (fun c => !open_failed c)).map
        (fun c => (c.2.ret, match c.1 with
          | Syscall.close fd => fd
          | _ => -1)) =
      [(3, -1), (4, -1), (5, -1), (0, 3), (0, 4), (0, 5)] ∧
    ( EventScheduler.initialize (kernel_with_descriptors 3)
      (EventScheduler.new two_group_config (-1) 0) []).1 = false ∧
    ( EventScheduler.initialize (kernel_with_descriptors 3)
      (EventScheduler.new two_group_config (-1) 0) []).2.1.fds_ = [] ∧
    ( EventScheduler.initialize (kernel_with_descriptors 3)
      (EventScheduler.new two_group_config (-1) 0) []).2.1.initialized_ = false ∧
    open_handles [] (new_calls [] ( EventScheduler.initialize (kernel_with_descriptors 3)
      (EventScheduler.new two_group_config (-1) 0) []).2.2) = [] :=
  ⟨by decide, by decide,
    EventScheduler.initialize_failure_closes_handles (kernel_with_descriptors 3)
      (EventScheduler.new two_group_config (-1) 0) [] (by decide)⟩

/-! ## The event scheduler after a successful `initialize` -/

theorem EventScheduler.open_group_shape (k : Kernel) (target_pid target_cpu : Int)
    (events : List PMUEvent) (group_leader_fd : Int) (is_first_in_group : Bool)
    (group_fds : List Int) (hist : History)
    (hok : (EventScheduler.open_group k target_pid target_cpu events group_leader_fd
      is_first_in_group group_fds hist).1 = true) :
    ∃ news, (EventScheduler.open_group k target_pid target_cpu events group_leader_fd
        is_first_in_group group_fds hist).2.1 = group_fds ++ news ∧
      news.length = events.length ∧ -1 ∉ news := by
  induction events generalizing group_leader_fd is_first_in_group group_fds hist with
  | nil => exact ⟨[], by simp [EventScheduler.open_group], rfl, by simp⟩
  | cons e es ih =>
    unfold EventScheduler.open_group at hok ⊢
    by_cases h : (EventScheduler.perf_event_open k hist
        (EventScheduler.configure_event PERF_TYPE_RAW e.encoding is_first_in_group)
        target_pid target_cpu group_leader_fd 0).1.ret = -1
    · rw [if_pos h] at hok
      simp at hok
    · rw [if_neg h] at hok ⊢
      obtain ⟨news, i1, i2, i3⟩ := ih _ _ _ _ hok
      refine ⟨(EventScheduler.perf_event_open k hist
        (EventScheduler.configure_event PERF_TYPE_RAW e.encoding is_first_in_group)
        target_pid target_cpu group_leader_fd 0).1.ret :: news, ?_, ?_, ?_⟩
      · rw [i1]; simp
      · simp [i2]
      · intro hmem
        rcases List.mem_cons.mp hmem with hm | hm
        · exact h hm.symm
        · exact i3 hm

theorem getD_set_list {α : Type} (l : List α) (i j : Nat) (x d : α) :
    (l.set i x).getD j d = if i = j ∧ j < l.length then x else l.getD j d := by
  by_cases hij : i = j
  · subst hij
    by_cases hl : i < l.length
    · rw [if_pos ⟨rfl, hl⟩]
      exact getD_set_self l i x d hl
    · rw [if_neg (fun h => hl h.2)]
      rw [List.set_eq_of_length_le (by omega)]
  · rw [if_neg (fun h => hij h.1)]
    exact getD_set_of_ne l i j x d hij

/-- After a successful run of the group loop of `initialize`, the table has the length it
had, and each group holds what it held followed by one descriptor other than `-1` for each
event opened for it. -/
theorem EventScheduler.open_groups_shape (k : Kernel) (s : EventScheduler)
    (remaining i : Nat) (fds : List (List Int)) (hist : History)
    (hlen : i + remaining ≤ fds.length)
    (hok : (EventScheduler.open_groups k s remaining i fds hist).1 = true) :
    (EventScheduler.open_groups k s remaining i fds hist).2.1.length = fds.length ∧
    ∀ j, j < fds.length →
      ∃ news, (EventScheduler.open_groups k s remaining i fds hist).2.1.getD j [] =
          fds.getD j [] ++ news ∧ -1 ∉ news ∧
        news.length = if i ≤ j ∧ j < i + remaining then
          (s.pmu_config_.get_fixed_events ++ s.pmu_config_.get_event_group_by_idx j).length
          else 0 := by
  induction remaining generalizing i fds hist with
  | zero =>
    refine ⟨rfl, fun j _ => ⟨[], by simp [EventScheduler.open_groups], by simp, ?_⟩⟩
    rw [if_neg (by omega)]
    rfl
  | succ r ih =>
    unfold EventScheduler.open_groups at hok ⊢
    by_cases h : (EventScheduler.open_group k s.target_pid_ s.target_cpu_
        (s.pmu_config_.get_fixed_events ++ s.pmu_config_.get_event_group_by_idx i)
        (-1) true (fds.getD i []) hist).1 = false
    · rw [if_pos h] at hok
      simp at hok
    · rw [if_neg h] at hok ⊢
      obtain ⟨news, g1, g2, g3⟩ := EventScheduler.open_group_shape k s.target_pid_
        s.target_cpu_ (s.pmu_config_.get_fixed_events ++ s.pmu_config_.get_event_group_by_idx i)
        (-1) true (fds.getD i []) hist (by simpa using h)
      obtain ⟨i1, i2⟩ := ih (i + 1) _ _ (by rw [List.length_set]; omega) hok
      refine ⟨by rw [i1, List.length_set], ?_⟩
      intro j hj
      obtain ⟨news2, j1, j2, j3⟩ := i2 j (by rw [List.length_set]; exact hj)
      rw [getD_set_list] at j1
      by_cases hij : i = j
      · subst hij
        rw [if_pos ⟨rfl, hj⟩] at j1
        rw [if_neg (by omega)] at j3
        have hn : news2 = [] := List.length_eq_zero.mp j3
        refine ⟨news, by rw [j1, hn, List.append_nil, g1], g3, ?_⟩
        rw [if_pos (by omega), g2]
      · rw [if_neg (fun h2 => hij h2.1)] at j1
        refine ⟨news2, j1, j2, ?_⟩
        rw [j3]
        by_cases hc : i + 1 ≤ j ∧ j < i + 1 + r
        · rw [if_pos hc, if_pos (by omega)]
        · rw [if_neg hc, if_neg (by omega)]

theorem resize_fds_nil (n : Nat) : resize_fds [] n = List.replicate n [] := by
  simp [resize_fds]

/-- A successful `initialize` of a freshly constructed scheduler for a valid catalog leaves
a well-formed scheduler: one non-empty group of descriptors per event group, none of them
`-1`, the first group active. -/
theorem EventScheduler.initialize_well_formed (k : Kernel) (pmu_config : PMUConfig)
    (target_pid target_cpu : Int) (hist : History) (hvalid : pmu_config.is_valid = true)
    (hok : ( EventScheduler.initialize k
      (EventScheduler.new pmu_config target_pid target_cpu) hist).1 = true) :
    ( EventScheduler.initialize k
      (EventScheduler.new pmu_config target_pid target_cpu) hist).2.1.well_formed ∧
    ( EventScheduler.initialize k
      (EventScheduler.new pmu_config target_pid target_cpu) hist).2.1.fds_.length =
        pmu_config.get_event_group_num ∧
    ∀ j, j < pmu_config.get_event_group_num →
      (( EventScheduler.initialize k
        (EventScheduler.new pmu_config target_pid target_cpu) hist).2.1.fds_.getD j []).length =
        pmu_config.get_fixed_events.length + (pmu_config.get_event_group_by_idx j).length := by
  have hfixed : pmu_config.fixed_events_ ≠ [] ∧ pmu_config.event_groups_ ≠ [] := by
    unfold PMUConfig.is_valid at hvalid
    split_ifs at hvalid with h
    simp only [Bool.or_eq_true, List.isEmpty_iff, not_or] at h
    exact h
  have hnum : 0 < pmu_config.get_event_group_num := by
    unfold PMUConfig.get_event_group_num
    exact List.length_pos.mpr hfixed.2
  unfold EventScheduler.initialize at hok ⊢
  rw [if_neg (by simp [EventScheduler.new])] at hok ⊢
  by_cases h : (EventScheduler.open_groups k (EventScheduler.new pmu_config target_pid target_cpu)
      (EventScheduler.new pmu_config target_pid target_cpu).pmu_config_.get_event_group_num 0
      (resize_fds (EventScheduler.new pmu_config target_pid target_cpu).fds_
        (EventScheduler.new pmu_config target_pid target_cpu).pmu_config_.get_event_group_num)
      hist).1 = false
  · rw [if_pos h] at hok
    simp at hok
  · rw [if_neg h]
    have hres : resize_fds (EventScheduler.new pmu_config target_pid target_cpu).fds_
        (EventScheduler.new pmu_config target_pid target_cpu).pmu_config_.get_event_group_num =
        List.replicate pmu_config.get_event_group_num [] := resize_fds_nil _
    rw [hres] at h ⊢
    obtain ⟨s1, s2⟩ := EventScheduler.open_groups_shape k
      (EventScheduler.new pmu_config target_pid target_cpu) pmu_config.get_event_group_num 0
      (List.replicate pmu_config.get_event_group_num []) hist (by simp)
      (by simpa [EventScheduler.new] using h)
    rw [List.length_replicate] at s1 s2
    have hcfg : (EventScheduler.new pmu_config target_pid target_cpu).pmu_config_ = pmu_config :=
      rfl
    simp only [hcfg] at s1 s2 ⊢
    have hgroup : ∀ j, j < pmu_config.get_event_group_num →
        ∃ news, (EventScheduler.open_groups k
            (EventScheduler.new pmu_config target_pid target_cpu)
            pmu_config.get_event_group_num 0
            (List.replicate pmu_config.get_event_group_num []) hist).2.1.getD j [] = news ∧
          -1 ∉ news ∧ news.length =
            pmu_config.get_fixed_events.length + (pmu_config.get_event_group_by_idx j).length := by
      intro j hj
      obtain ⟨news, n1, n2, n3⟩ := s2 j hj
      rw [if_pos (by omega), List.length_append] at n3
      refine ⟨news, ?_, n2, n3⟩
      rw [n1, List.getD_eq_getElem?_getD, List.getElem?_replicate, if_pos hj]
      rfl
    refine ⟨⟨rfl, by simp only; omega, ?_⟩, s1, ?_⟩
    · intro j hj
      simp only at hj
      rw [s1] at hj
      obtain ⟨news, n1, n2, n3⟩ := hgroup j hj
      have hpos : 0 < news.length := by
        rw [n3]
        have := List.length_pos.mpr hfixed.1
        unfold PMUConfig.get_fixed_events
        omega
      unfold EventScheduler.leader_fd
      simp only
      rw [n1]
      refine ⟨List.length_pos.mp hpos, ?_⟩
      obtain ⟨a, as, rfl⟩ := List.exists_cons_of_ne_nil (List.length_pos.mp hpos)
      intro ha
      apply n2
      rw [List.getD_cons_zero] at ha
      rw [ha]
      exact List.mem_cons_self _ _
    · intro j hj
      obtain ⟨news, n1, -, n3⟩ := hgroup j hj
      rw [n1, n3]

/-! ## The claims about one pass, the events kept and the termination of `adaptive_grouping` -/

/-- Invariant of the loop of `get_smallest_event_group_idx` after the indices `1 .. c` have
been visited. -/
theorem get_smallest_event_group_idx_upto (G : List (List PMUEvent)) (c : Nat) :
    ((List.range' 1 c).foldl
      (fun smallest_idx i =>
        if (G.getD i []).length < (G.getD smallest_idx []).length then i else smallest_idx)
      0) ≤ c ∧
    (∀ m, m ≤ c → (G.getD ((List.range' 1 c).foldl
      (fun smallest_idx i =>
        if (G.getD i []).length < (G.getD smallest_idx []).length then i else smallest_idx)
      0) []).length ≤ (G.getD m []).length) ∧
    (∀ m, m < ((List.range' 1 c).foldl
      (fun smallest_idx i =>
        if (G.getD i []).length < (G.getD smallest_idx []).length then i else smallest_idx)
      0) → (G.getD ((List.range' 1 c).foldl
      (fun smallest_idx i =>
        if (G.getD i []).length < (G.getD smallest_idx []).length then i else smallest_idx)
      0) []).length < (G.getD m []).length) := by
  induction c with
  | zero =>
    refine ⟨le_refl _, ?_, ?_⟩
    · intro m hm
      have : m = 0 := by omega
      subst this
      exact le_refl _
    · intro m hm
      simp at hm
  | succ c ih =>
    rw [List.range'_1_concat, List.foldl_append]
    generalize (List.range' 1 c).foldl
      (fun smallest_idx i =>
        if (G.getD i []).length < (G.getD smallest_idx []).length then i else smallest_idx)
      0 = s at ih
    obtain ⟨h1, h2, h3⟩ := ih
    simp only [List.foldl_cons, List.foldl_nil]
    by_cases hc : (G.getD (1 + c) []).length < (G.getD s []).length
    · rw [if_pos hc]
      refine ⟨by omega, ?_, ?_⟩
      · intro m hm
        rcases Nat.lt_or_ge m (1 + c) with h | h
        · have := h2 m (by omega)
          omega
        · have : m = 1 + c := by omega
          subst this
          exact le_refl _
      · intro m hm
        have := h2 m (by omega)
        omega
    · rw [if_neg hc]
      refine ⟨by omega, ?_, h3⟩
      intro m hm
      rcases Nat.lt_or_ge m (1 + c) with h | h
      · exact h2 m (by omega)
      · have : m = 1 + c := by omega
        subst this
        omega

/-- The lambda `get_smallest_event_group_idx` returns the lowest index among the groups of
minimum size. -/
theorem get_smallest_event_group_idx_spec (G : List (List PMUEvent)) (h : 0 < G.length) :
    get_smallest_event_group_idx G < G.length ∧
    (∀ m, m < G.length →
      (G.getD (get_smallest_event_group_idx G) []).length ≤ (G.getD m []).length) ∧
    (∀ m, m < get_smallest_event_group_idx G →
      (G.getD (get_smallest_event_group_idx G) []).length < (G.getD m []).length) := by
  obtain ⟨-, h2, h3⟩ := get_smallest_event_group_idx_upto G (G.length - 1)
  exact ⟨get_smallest_event_group_idx_lt G h, fun m hm => h2 m (by omega), h3⟩

/-- The list left after the erasure of two positions `lo < hi`: the other elements, in their
order. -/
theorem getElem?_eraseIdx_eraseIdx {α : Type} (l : List α) (lo hi m : Nat) (h : lo < hi) :
    ((l.eraseIdx hi).eraseIdx lo)[m]? =
      if m < lo then l[m]? else if m + 1 < hi then l[m + 1]? else l[m + 2]? := by
  rw [List.getElem?_eraseIdx]
  by_cases h1 : m < lo
  · rw [if_pos h1, if_pos h1, List.getElem?_eraseIdx, if_pos (by omega)]
  · rw [if_neg h1, if_neg h1, List.getElem?_eraseIdx]

/-- C25. One pass of the loop of `adaptive_grouping` on a list `G` of groups (holding fewer
than `SIZE_MAX` events in total). With fewer than two groups the pass breaks. With at least
two groups, `i` is the lowest index among the groups of minimum size and `j ≠ i` is the
lowest index that minimises the size of the union by encoding of `G[i]` and `G[j]`; if that
union has at most `k` events, the new list is `G` without the groups at the positions `i`
and `j`, the others in their order, followed by the merged group; otherwise the pass breaks
and, as whenever the pass breaks, the list stays as it is. -/
theorem adaptive_grouping_step_spec (S : StdSort) (G : List (List PMUEvent)) (k : Nat)
    (hsum : (G.map List.length).sum < SIZE_MAX) :
    (G.length < 2 → adaptive_grouping_step S G k = none) ∧
    (2 ≤ G.length →
      get_smallest_event_group_idx G < G.length ∧
      (∀ m, m < G.length →
        (G.getD (get_smallest_event_group_idx G) []).length ≤ (G.getD m []).length) ∧
      (∀ m, m < get_smallest_event_group_idx G →
        (G.getD (get_smallest_event_group_idx G) []).length < (G.getD m []).length) ∧
      (find_merge_partner S G (get_smallest_event_group_idx G)).1 < G.length ∧
      (find_merge_partner S G (get_smallest_event_group_idx G)).1 ≠
        get_smallest_event_group_idx G ∧
      (∀ m, m < G.length → m ≠ get_smallest_event_group_idx G →
        (union_by_encoding S (G.getD (get_smallest_event_group_idx G) [])
          (G.getD (find_merge_partner S G (get_smallest_event_group_idx G)).1 [])).length ≤
        (union_by_encoding S (G.getD (get_smallest_event_group_idx G) [])
          (G.getD m [])).length) ∧
      (∀ m, m < (find_merge_partner S G (get_smallest_event_group_idx G)).1 →
        m ≠ get_smallest_event_group_idx G →
        (union_by_encoding S (G.getD (get_smallest_event_group_idx G) [])
          (G.getD (find_merge_partner S G (get_smallest_event_group_idx G)).1 [])).length <
        (union_by_encoding S (G.getD (get_smallest_event_group_idx G) [])
          (G.getD m [])).length) ∧
      ((union_by_encoding S (G.getD (get_smallest_event_group_idx G) [])
          (G.getD (find_merge_partner S G (get_smallest_event_group_idx G)).1 [])).length ≤ k →
        ∃ rest, adaptive_grouping_step S G k = some (rest ++
            [union_by_encoding S (G.getD (get_smallest_event_group_idx G) [])
              (G.getD (find_merge_partner S G (get_smallest_event_group_idx G)).1 [])]) ∧
          rest.length + 2 = G.length ∧
          ∀ m, rest[m]? =
            if m < min (get_smallest_event_group_idx G)
                (find_merge_partner S G (get_smallest_event_group_idx G)).1 then G[m]?
            else if m + 1 < max (get_smallest_event_group_idx G)
                (find_merge_partner S G (get_smallest_event_group_idx G)).1 then G[m + 1]?
            else G[m + 2]?) ∧
      (k < (union_by_encoding S (G.getD (get_smallest_event_group_idx G) [])
          (G.getD (find_merge_partner S G (get_smallest_event_group_idx G)).1 [])).length →
        adaptive_grouping_step S G k = none)) ∧
    (adaptive_grouping_step S G k = none → adaptive_grouping S G k = G) := by
  refine ⟨fun h => ?_, fun h => ?_, adaptive_grouping_of_terminal S k G⟩
  · rw [adaptive_grouping_step_eq, if_pos h]
  · obtain ⟨a1, a2, a3⟩ := get_smallest_event_group_idx_spec G (by omega)
    obtain ⟨b1, b2, b3, b4⟩ := find_merge_partner_spec S G (get_smallest_event_group_idx G)
      hsum h
    refine ⟨a1, a2, a3, b1, b2, b3, b4, ?_, ?_⟩
    · intro hk
      rw [adaptive_grouping_step_eq, if_neg (by omega),
        if_pos (by rw [count_union_by_encoding_eq_length]; exact hk)]
      generalize get_smallest_event_group_idx G = i at a1 b1 b2 ⊢
      generalize (find_merge_partner S G i).1 = j at b1 b2 ⊢
      by_cases hij : i > j
      · rw [if_pos hij, if_pos hij]
        refine ⟨_, rfl, length_eraseIdx_eraseIdx G j i (Or.inl hij) a1 h, fun m => ?_⟩
        rw [getElem?_eraseIdx_eraseIdx G j i m hij, Nat.min_eq_right (by omega),
          Nat.max_eq_left (by omega)]
      · rw [if_neg hij, if_neg hij]
        have hlt : i < j := by omega
        refine ⟨_, rfl, length_eraseIdx_eraseIdx G i j (Or.inl hlt) b1 h, fun m => ?_⟩
        rw [getElem?_eraseIdx_eraseIdx G i j m hlt, Nat.min_eq_left (by omega),
          Nat.max_eq_right (by omega)]
    · intro hk
      rw [adaptive_grouping_step_eq, if_neg (by omega),
        if_neg (by rw [count_union_by_encoding_eq_length]; omega)]

/-- C25 on the three test groups with budget 7: `i = 2` (the group `c` of three events),
`j = 0`, the union has 6 events and the new list is group `b` followed by the merged
group. -/
theorem adaptive_grouping_step_spec_witness :
    (([test_a, test_b, test_c].map List.length).sum < SIZE_MAX) ∧
    get_smallest_event_group_idx [test_a, test_b, test_c] = 2 ∧
    (find_merge_partner insertionSort [test_a, test_b, test_c] 2).1 = 0 ∧
    get_smallest_event_group_idx [test_a, test_b, test_c] < 3 ∧
    adaptive_grouping_step insertionSort [test_a, test_b, test_c] 7 =
      some [test_b, union_by_encoding insertionSort test_c test_a] :=
  ⟨by decide, by decide, by decide,
    ((adaptive_grouping_step_spec insertionSort [test_a, test_b, test_c] 7 (by decide)).2.1
      (by decide)).1, by decide⟩

theorem mem_encodings_union_by_encoding (S : StdSort) (a b : List PMUEvent) (e : Nat) :
    e ∈ encodings (union_by_encoding S a b) ↔ e ∈ encodings a ∨ e ∈ encodings b := by
  rw [← List.count_pos_iff, ← List.count_pos_iff, ← List.count_pos_iff,
    count_encodings_union_by_encoding]
  omega

theorem adaptive_grouping_step_encodings (S : StdSort) (G G' : List (List PMUEvent)) (k : Nat)
    (hsum : (G.map List.length).sum < SIZE_MAX)
    (h : adaptive_grouping_step S G k = some G') (e : Nat) :
    (∃ g ∈ G', e ∈ encodings g) ↔ ∃ g ∈ G, e ∈ encodings g := by
  obtain ⟨lo, hi, rest, hlt, hhi, hrest, hij, -, hG'⟩ :=
    adaptive_grouping_step_some S G G' k hsum h
  have hperm := perm_eraseIdx_eraseIdx G [] lo hi hlt hhi
  rw [← hrest] at hperm
  have hU : e ∈ encodings (union_by_encoding S (G.getD (get_smallest_event_group_idx G) [])
      (G.getD (find_merge_partner S G (get_smallest_event_group_idx G)).1 [])) ↔
      e ∈ encodings (G.getD lo []) ∨ e ∈ encodings (G.getD hi []) := by
    rw [mem_encodings_union_by_encoding]
    rcases hij with ⟨h1, h2⟩ | ⟨h1, h2⟩
    · rw [← h2, ← h1]
    · rw [← h2, ← h1]
      exact Or.comm
  constructor
  · rintro ⟨g, hg, he⟩
    rw [hG'] at hg
    rcases List.mem_append.mp hg with hg | hg
    · exact ⟨g, hperm.mem_iff.mp (List.mem_cons_of_mem _ (List.mem_cons_of_mem _ hg)), he⟩
    · rw [List.mem_singleton] at hg
      rw [hg] at he
      rcases hU.mp he with he | he
      · exact ⟨_, hperm.mem_iff.mp (List.mem_cons_self _ _), he⟩
      · exact ⟨_, hperm.mem_iff.mp (List.mem_cons_of_mem _ (List.mem_cons_self _ _)), he⟩
  · rintro ⟨g, hg, he⟩
    rw [hG']
    have hg2 := hperm.mem_iff.mpr hg
    rcases List.mem_cons.mp hg2 with hg2 | hg2
    · exact ⟨_, List.mem_append_right _ (List.mem_singleton.mpr rfl),
        hU.mpr (Or.inl (hg2 ▸ he))⟩
    · rcases List.mem_cons.mp hg2 with hg2 | hg2
      · exact ⟨_, List.mem_append_right _ (List.mem_singleton.mpr rfl),
          hU.mpr (Or.inr (hg2 ▸ he))⟩
      · exact ⟨g, List.mem_append_left _ hg2, he⟩

theorem adaptive_grouping_loop_encodings (S : StdSort) (k fuel : Nat) (G : List (List PMUEvent))
    (hsum : (G.map List.length).sum < SIZE_MAX) (e : Nat) :
    (∃ g ∈ adaptive_grouping_loop S k fuel G, e ∈ encodings g) ↔ ∃ g ∈ G, e ∈ encodings g := by
  induction fuel generalizing G with
  | zero => rfl
  | succ n ih =>
    unfold adaptive_grouping_loop
    cases hstep : adaptive_grouping_step S G k with
    | none => rfl
    | some G' =>
      have h1 := adaptive_grouping_step_sum_le S G G' k hsum hstep
      simp only
      rw [ih G' (by omega)]
      exact adaptive_grouping_step_encodings S G G' k hsum hstep e

/-- C29. `adaptive_grouping` neither drops nor invents events: for every catalog (holding
fewer than `SIZE_MAX` events in its groups) and every budget `k`, an encoding occurs in some
group after `adaptive_grouping(k)` exactly when it occurs in some group before, and
`fixed_events_` is unchanged. -/
theorem adaptive_grouping_keeps_encodings (S : StdSort) (c : PMUConfig) (k : Nat)
    (hsum : (c.event_groups_.map List.length).sum < SIZE_MAX) :
    (∀ e : Nat, (∃ g ∈ (c.adaptive_grouping S k).event_groups_, e ∈ encodings g) ↔
      ∃ g ∈ c.event_groups_, e ∈ encodings g) ∧
    (c.adaptive_grouping S k).fixed_events_ = c.fixed_events_ :=
  ⟨fun e => adaptive_grouping_loop_encodings S k _ c.event_groups_ hsum e, rfl⟩

/-- C29 on the catalog of the three test groups with budget 7: the encoding `0x79` of group
`c` is still there, now in the merged group. -/
theorem adaptive_grouping_keeps_encodings_witness :
    ((test_config.event_groups_.map List.length).sum < SIZE_MAX) ∧
    (∃ g ∈ (test_config.adaptive_grouping insertionSort 7).event_groups_,
      0x79 ∈ encodings g) ∧
    (test_config.adaptive_grouping insertionSort 7).fixed_events_ = catalog_fixed_events :=
  ⟨by decide,
    ((adaptive_grouping_keeps_encodings insertionSort test_config 7 (by decide)).1 0x79).mpr
      ⟨test_c, by decide, by decide⟩,
    (adaptive_grouping_keeps_encodings insertionSort test_config 7 (by decide)).2⟩

theorem adaptive_grouping_step_two_le (S : StdSort) (G G' : List (List PMUEvent)) (k : Nat)
    (h : adaptive_grouping_step S G k = some G') : 2 ≤ G.length := by
  rw [adaptive_grouping_step_eq] at h
  by_cases hlen : G.length < 2
  · rw [if_pos hlen] at h; exact absurd h (by simp)
  · omega

theorem adaptive_grouping_merges_length (S : StdSort) (k fuel : Nat) (G : List (List PMUEvent)) :
    (adaptive_grouping_loop S k fuel G).length + adaptive_grouping_merges S k fuel G = G.length ∧
    (G ≠ [] → adaptive_grouping_loop S k fuel G ≠ []) := by
  induction fuel generalizing G with
  | zero => exact ⟨rfl, fun h => h⟩
  | succ n ih =>
    unfold adaptive_grouping_loop adaptive_grouping_merges
    cases hstep : adaptive_grouping_step S G k with
    | none => exact ⟨rfl, fun h => h⟩
    | some G' =>
      have hlen := adaptive_grouping_step_length S G G' k hstep
      have h2 := adaptive_grouping_step_two_le S G G' k hstep
      obtain ⟨i1, i2⟩ := ih G'
      refine ⟨by simp only; omega, fun _ => ?_⟩
      exact i2 (by
        intro h0
        rw [h0] at hlen
        simp at hlen
        omega)

theorem adaptive_grouping_merges_fuel (S : StdSort) (k fuel : Nat) (G : List (List PMUEvent))
    (h : G.length ≤ fuel) :
    adaptive_grouping_merges S k fuel G = adaptive_grouping_merges S k G.length G := by
  induction fuel generalizing G with
  | zero =>
    have h0 : G.length = 0 := by omega
    rw [h0]
  | succ n ih =>
    cases hstep : adaptive_grouping_step S G k with
    | none =>
      have h2 : ∀ f, adaptive_grouping_merges S k f G = 0 := by
        intro f
        cases f with
        | zero => rfl
        | succ f => simp [adaptive_grouping_merges, hstep]
      rw [h2, h2]
    | some G' =>
      have hlen := adaptive_grouping_step_length S G G' k hstep
      have e1 : adaptive_grouping_merges S k (n + 1) G =
          adaptive_grouping_merges S k n G' + 1 := by
        simp only [adaptive_grouping_merges, hstep]
      have e2 : adaptive_grouping_merges S k G.length G =
          adaptive_grouping_merges S k G'.length G' + 1 := by
        rw [← hlen]
        simp only [adaptive_grouping_merges, hstep]
      rw [e1, e2, ih G' (by omega)]

/-- C30. `adaptive_grouping` terminates for every list of groups and every budget: a pass of
the loop either breaks or leaves exactly one group fewer; after at most `|G|` passes the
loop has reached its `break` (allowing more passes changes neither the result nor the number
of merges); it performs at most `|G| - 1` merges, the number of groups never increases, and
at least one group is left whenever the input list is non-empty. -/
theorem adaptive_grouping_terminates (S : StdSort) (G : List (List PMUEvent)) (k fuel : Nat)
    (hfuel : G.length ≤ fuel) :
    (∀ H H', adaptive_grouping_step S H k = some H' → H'.length + 1 = H.length) ∧
    adaptive_grouping_loop S k fuel G = adaptive_grouping S G k ∧
    adaptive_grouping_step S (adaptive_grouping S G k) k = none ∧
    adaptive_grouping_merges S k fuel G = adaptive_grouping_merges S k G.length G ∧
    (adaptive_grouping S G k).length + adaptive_grouping_merges S k G.length G = G.length ∧
    adaptive_grouping_merges S k G.length G ≤ G.length - 1 ∧
    (adaptive_grouping S G k).length ≤ G.length ∧
    (G ≠ [] → adaptive_grouping S G k ≠ []) := by
  obtain ⟨h1, h2⟩ := adaptive_grouping_merges_length S k G.length G
  refine ⟨fun H H' h => adaptive_grouping_step_length S H H' k h,
    adaptive_grouping_loop_fuel S k fuel G hfuel, adaptive_grouping_terminal S k G,
    adaptive_grouping_merges_fuel S k fuel G hfuel, h1, ?_, ?_, h2⟩
  · by_cases h0 : G = []
    · subst h0
      rfl
    · have h3 := List.length_pos.mpr (h2 h0)
      omega
  · unfold adaptive_grouping
    omega

/-- C30 on the three test groups with budget 7: one merge, two groups left. -/
theorem adaptive_grouping_terminates_witness :
    adaptive_grouping_loop insertionSort 7 10 [test_a, test_b, test_c] =
      adaptive_grouping insertionSort [test_a, test_b, test_c] 7 ∧
    adaptive_grouping_merges insertionSort 7 10 [test_a, test_b, test_c] = 1 ∧
    (adaptive_grouping insertionSort [test_a, test_b, test_c] 7).length = 2 :=
  ⟨(adaptive_grouping_terminates insertionSort [test_a, test_b, test_c] 7 10 (by decide)).2.1,
    by decide, by decide⟩

/-! ## The claims about one record and about the divisor of `estimation` -/

theorem stat_at_getD (stat : List (List EventStats)) (i j : Nat)
    (hi : i < stat.length) (hj : j < (stat.getD i []).length) :
    stat_at stat i j = some ((stat.getD i []).getD j EventStats.new) := by
  rw [stat_at_eq]
  have e1 : stat[i]? = some stat[i] := List.getElem?_eq_getElem hi
  have e2 : stat.getD i [] = stat[i] := by
    rw [List.getD_eq_getElem?_getD, e1]
    rfl
  rw [e2] at hj ⊢
  have e3 : (stat[i])[j]? = some (stat[i])[j] := List.getElem?_eq_getElem hj
  rw [e1, Option.some_bind, e3, List.getD_eq_getElem?_getD, e3]
  rfl

/-- C24. `Reporter::process_a_record(r)` on a state reached by processing records, for a
record that addresses a cell of the grid: if `r.timestamp` is greater than `prev_timestamp`,
then `enabled_time_in_ns[r.group_id]` and `total_time_in_ns` each increase by
`r.timestamp − prev_timestamp` and `prev_timestamp` becomes `r.timestamp`; otherwise none of
the three changes. In both cases `total_value` of `stat[r.group_id][r.event_id]` increases by
`r.value` (in `uint64_t`), and no other statistic cell, no `estimated_value` and no other
group's enabled time changes. -/
theorem Reporter.process_a_record_effect (c : PMUConfig) (r : Reporter) (record : Record)
    (hr : r.time_invariant c) (hin : record.in_range c) (ht : record.timestamp < 2 ^ 64) :
    ∃ r2 cell, r.process_a_record record = some r2 ∧
      stat_at r.stat_ record.group_id.toNat record.event_id = some cell ∧
      (record.timestamp > r.prev_timestamp_ →
        r2.enabled_time_in_ns_.getD record.group_id.toNat 0 =
          r.enabled_time_in_ns_.getD record.group_id.toNat 0 +
            (record.timestamp - r.prev_timestamp_) ∧
        r2.total_time_in_ns_ = r.total_time_in_ns_ + (record.timestamp - r.prev_timestamp_) ∧
        r2.prev_timestamp_ = record.timestamp) ∧
      (¬ record.timestamp > r.prev_timestamp_ →
        r2.enabled_time_in_ns_ = r.enabled_time_in_ns_ ∧
        r2.total_time_in_ns_ = r.total_time_in_ns_ ∧
        r2.prev_timestamp_ = r.prev_timestamp_) ∧
      (∀ i, i ≠ record.group_id.toNat →
        r2.enabled_time_in_ns_.getD i 0 = r.enabled_time_in_ns_.getD i 0) ∧
      r2.enabled_time_in_ns_.length = r.enabled_time_in_ns_.length ∧
      stat_at r2.stat_ record.group_id.toNat record.event_id =
        some { cell with total_value := (cell.total_value + record.value) % 2 ^ 64 } ∧
      (cell.total_value + record.value < 2 ^ 64 →
        total_at r2.stat_ record.group_id.toNat record.event_id =
          some (cell.total_value + record.value)) ∧
      (∀ i j, ¬ (i = record.group_id.toNat ∧ j = record.event_id) →
        stat_at r2.stat_ i j = stat_at r.stat_ i j) := by
  obtain ⟨h0, hg, he⟩ := hin
  obtain ⟨h1, h2, ⟨h3, h4, h5⟩, h6, h7, h8⟩ := hr
  unfold Reporter.process_a_record
  rw [if_neg (by omega)]
  generalize record.group_id.toNat = g at hg he ⊢
  have hgs : g < r.stat_.length := by rw [h3, h1]; exact hg
  have hge : g < r.enabled_time_in_ns_.length := by rw [h4, h1]; exact hg
  have hrow := h5 g (by rw [h1]; exact hg)
  rw [h2, h1] at hrow
  have hcell := stat_at_getD r.stat_ g record.event_id hgs (by rw [hrow]; exact he)
  have hframe := stat_at_set r.stat_ g record.event_id
    { (r.stat_.getD g []).getD record.event_id EventStats.new with
      total_value := (((r.stat_.getD g []).getD record.event_id EventStats.new).total_value +
        record.value) % 2 ^ 64 } _ hcell
  unfold Reporter.account_time
  by_cases hts : record.timestamp > r.prev_timestamp_
  · rw [if_pos hts, if_pos hge]
    simp only
    unfold Reporter.add_value
    simp only
    rw [if_pos ⟨hgs, by rw [hrow]; exact he⟩]
    have hle := getD_le_sum r.enabled_time_in_ns_ g
    have hmod1 : (r.enabled_time_in_ns_.getD g 0 + (record.timestamp - r.prev_timestamp_)) %
        2 ^ 64 = r.enabled_time_in_ns_.getD g 0 + (record.timestamp - r.prev_timestamp_) :=
      Nat.mod_eq_of_lt (by omega)
    have hmod2 : (r.total_time_in_ns_ + (record.timestamp - r.prev_timestamp_)) % 2 ^ 64 =
        r.total_time_in_ns_ + (record.timestamp - r.prev_timestamp_) :=
      Nat.mod_eq_of_lt (by omega)
    refine ⟨_, _, rfl, hcell, fun _ => ⟨?_, hmod2, rfl⟩, fun h => absurd hts h, ?_, ?_, ?_, ?_,
      ?_⟩
    · simp only
      rw [getD_set_self _ _ _ _ hge, hmod1]
    · intro i hi
      exact getD_set_of_ne _ _ _ _ _ (fun h => hi h.symm)
    · simp only [List.length_set]
    · rw [hframe, if_pos ⟨rfl, rfl⟩]
    · intro hlt
      unfold total_at
      rw [hframe, if_pos ⟨rfl, rfl⟩]
      simp only [Option.map_some']
      rw [Nat.mod_eq_of_lt hlt]
    · intro i j hij
      rw [hframe, if_neg hij]
  · rw [if_neg hts]
    simp only
    unfold Reporter.add_value
    rw [if_pos ⟨hgs, by rw [hrow]; exact he⟩]
    refine ⟨_, _, rfl, hcell, fun h => absurd h hts, fun _ => ⟨rfl, rfl, rfl⟩, fun _ _ => rfl,
      rfl, ?_, ?_, ?_⟩
    · rw [hframe, if_pos ⟨rfl, rfl⟩]
    · intro hlt
      unfold total_at
      rw [hframe, if_pos ⟨rfl, rfl⟩]
      simp only [Option.map_some']
      rw [Nat.mod_eq_of_lt hlt]
    · intro i j hij
      rw [hframe, if_neg hij]

/-- C24 on the state after the first three records of `two_group_records`, for the fourth
record: the time does not advance (same timestamp as the third record) and the cell
`stat[1][1]` goes from 0 to 50. -/
theorem Reporter.process_a_record_effect_witness :
    ∃ r, (Reporter.new two_group_config).process_records (two_group_records.take 3) = some r ∧
      r.time_invariant two_group_config ∧
      Record.in_range two_group_config ⟨4000000000, -1, 1, 1, 50⟩ ∧
      ∃ r2 cell, r.process_a_record ⟨4000000000, -1, 1, 1, 50⟩ = some r2 ∧
        stat_at r.stat_ 1 1 = some cell ∧
        stat_at r2.stat_ 1 1 =
          some { cell with total_value := (cell.total_value + 50) % 2 ^ 64 } := by
  obtain ⟨r, h1, h2⟩ := Reporter.process_records_invariant two_group_config
    (two_group_records.take 3) (Reporter.new two_group_config)
    (Reporter.new_time_invariant two_group_config) (by decide)
  obtain ⟨r2, cell, a1, a2, -, -, -, -, a7, -, -⟩ :=
    Reporter.process_a_record_effect two_group_config r ⟨4000000000, -1, 1, 1, 50⟩ h2
      (by decide) (by decide)
  exact ⟨r, h1, h2, by decide, r2, cell, a1, a2, a7⟩

/-- C28 on the catalog `two_group_config` after the two records of one interval of group 0
(group 1 has no recorded interval): the state is reached by processing records,
`enabled_time_in_ns_[1]` is 0, and `estimation` computes the estimate of the event of group 1
with this divisor: the value stored is `scale total_value total_time_in_ns_ 0`, whatever the
scaling in double precision does with a zero divisor. -/
theorem estimation_zero_enabled_time (scale : Nat → Nat → Nat → Nat) :
    ∃ r, (Reporter.new two_group_config).process_records (two_group_records.take 2) = some r ∧
      r.enabled_time_in_ns_ = [3000000000, 0] ∧
      r.total_time_in_ns_ = 3000000000 ∧
      (r.estimation scale).map (fun r2 => estimated_at r2.stat_ 1 1) =
        some (some (scale 0 3000000000 0)) :=
  ⟨_, rfl, rfl, rfl, rfl⟩

/-! ## The claims about the driver -/

theorem parse_token_nonneg (token : List Char) (ids : List Int)
    (h : parse_token token = TokenOutcome.push ids) : ∀ x ∈ ids, 0 ≤ x := by
  unfold parse_token at h
  by_cases hd : '-' ∉ token
  · rw [if_pos hd] at h
    by_cases hc : (strtol (c_str token)).2 ≠ [] ∨ long_to_int (strtol (c_str token)).1 < 0
    · rw [if_pos hc] at h
      exact absurd h (by simp)
    · rw [if_neg hc] at h
      simp only [TokenOutcome.push.injEq] at h
      subst h
      intro x hx
      rw [List.mem_singleton] at hx
      rw [not_or] at hc
      omega
  · rw [if_neg hd] at h
    simp only at h
    split_ifs at h
    simp only [TokenOutcome.push.injEq] at h
    subst h
    intro x hx
    rw [List.mem_map] at hx
    obtain ⟨n, -, rfl⟩ := hx
    exact Int.ofNat_nonneg n

theorem parse_comma_loop_nonneg (fuel : Nat) (rest : List Char) (result ids : List Int)
    (hres : ∀ x ∈ result, 0 ≤ x) (h : parse_comma_loop fuel rest result = some ids) :
    ∀ x ∈ ids, 0 ≤ x := by
  induction fuel generalizing rest result with
  | zero => simp [parse_comma_loop] at h
  | succ n ih =>
    unfold parse_comma_loop at h
    by_cases h1 : rest = []
    · rw [if_pos h1] at h
      simp only [Option.some.injEq] at h
      subst h
      exact hres
    · rw [if_neg h1] at h
      by_cases h2 : rest.takeWhile (fun c => c ≠ ',') = []
      · rw [if_pos h2] at h
        simp only [Option.some.injEq] at h
        subst h
        simp
      · rw [if_neg h2] at h
        cases ht : parse_token (rest.takeWhile (fun c => c ≠ ',')) with
        | reject =>
          rw [ht] at h
          simp only [Option.some.injEq] at h
          subst h
          simp
        | undefined =>
          rw [ht] at h
          simp at h
        | push new_ids =>
          rw [ht] at h
          simp only at h
          have hnew := parse_token_nonneg _ _ ht
          have hall : ∀ x ∈ result ++ new_ids, 0 ≤ x := by
            intro x hx
            rcases List.mem_append.mp hx with hx | hx
            · exact hres x hx
            · exact hnew x hx
          cases hd : rest.dropWhile (fun c => c ≠ ',') with
          | nil =>
            rw [hd] at h
            simp only [Option.some.injEq] at h
            subst h
            exact hall
          | cons c more =>
            rw [hd] at h
            exact ih more _ hall h

/-- Every CPU id `parse_comma_sperated_list` returns is non-negative. -/
theorem parse_comma_sperated_list_nonneg (cpu_id_str : String) (ids : List Int)
    (h : parse_comma_sperated_list cpu_id_str = some ids) : ∀ x ∈ ids, 0 ≤ x := by
  unfold parse_comma_sperated_list at h
  by_cases h1 : cpu_id_str.data = []
  · rw [if_pos h1] at h
    simp only [Option.some.injEq] at h
    subst h
    simp
  · rw [if_neg h1] at h
    exact parse_comma_loop_nonneg _ _ _ _ (by simp) h

theorem option_loop_keeps (opts : List (Int × String)) (st st2 : OptionState)
    (h : option_loop opts st = Except.ok st2) :
    st2.profile_config.cpu_id_list = st.profile_config.cpu_id_list ∧
    st2.profile_config.detect_counters = st.profile_config.detect_counters := by
  induction opts generalizing st with
  | nil =>
    simp only [option_loop, Except.ok.injEq] at h
    subst h
    exact ⟨rfl, rfl⟩
  | cons o rest ih =>
    obtain ⟨opt, optarg⟩ := o
    unfold option_loop at h
    split_ifs at h with h1 h2 h3 h4 h5 h6 h7 h8 h9
    all_goals
      have h0 := ih _ h
      exact h0

/-- What `parse` leaves in the configuration when the checks after the option loop accept
it. -/
theorem validate_options_accepts (num_cpus : Int) (operands : List String)
    (st : OptionState) (c : ProfileConfig)
    (hcmd : st.profile_config.command_args = [])
    (hlist : st.profile_config.cpu_id_list = [])
    (h : validate_options num_cpus operands st = ParseOutcome.returned true c) :
    c.target_pid = st.profile_config.target_pid ∧
    c.detect_counters = st.profile_config.detect_counters ∧
    c.output_filename = st.profile_config.output_filename ∧
    (st.a_flag = true → c.mode = ProfileMode.SYSTEM_WIDE ∧ ∀ x ∈ c.cpu_id_list, 0 ≤ x) ∧
    (st.a_flag = false → st.p_flag = true → c.mode = ProfileMode.TRACK_PID) ∧
    (st.a_flag = false → st.p_flag = false → c.mode = ProfileMode.SUBPROCESS) := by
  unfold validate_options at h
  rw [hcmd] at h
  simp only [List.nil_append] at h
  cases ha : st.a_flag <;> cases hp : st.p_flag <;> cases operands
  all_goals try (simp [ha, hp] at h; done)
  · simp [ha, hp] at h
    subst h
    simp
  · simp [ha, hp] at h
    subst h
    simp
  · simp only [ha, hp] at h
    by_cases hd : st.profile_config.test_duration ≤ 0
    · simp [hd] at h
    · simp only [List.map_nil, List.append_nil, List.isEmpty_nil, Bool.not_true, if_true,
        Bool.false_eq_true, if_false, Nat.add_zero, Nat.lt_irrefl, Nat.succ_ne_zero,
        true_and, hd] at h
      split at h
      · split at h
        · simp at h
        · rename_i ids hids
          split at h
          · simp at h
          · simp only [ParseOutcome.returned.injEq, true_and] at h
            subst h
            refine ⟨rfl, rfl, rfl, fun _ => ⟨rfl, ?_⟩, by simp, by simp⟩
            exact parse_comma_sperated_list_nonneg _ _ hids
      · simp only [ParseOutcome.returned.injEq, true_and] at h
        subst h
        refine ⟨rfl, rfl, rfl, fun _ => ⟨rfl, ?_⟩, by simp, by simp⟩
        intro x hx
        simp only [hlist, List.nil_append, List.mem_map] at hx
        obtain ⟨n, -, rfl⟩ := hx
        exact Int.ofNat_nonneg n

theorem option_loop_returned_detect (opts : List (Int × String)) (st : OptionState) (ok : Bool)
    (c : ProfileConfig) (h : option_loop opts st = Except.error (ParseOutcome.returned ok c)) :
    c.detect_counters = true := by
  induction opts generalizing st with
  | nil => simp [option_loop] at h
  | cons o rest ih =>
    obtain ⟨opt, optarg⟩ := o
    unfold option_loop at h
    split_ifs at h with h1 h2 h3 h4 h5 h6 h7 h8 h9
    any_goals exact ih _ h
    · simp only [Except.error.injEq, ParseOutcome.returned.injEq] at h
      rw [← h.2]
    · simp at h
    · simp at h

theorem system_wide_schedulers_mem (k : Kernel) (pmu_config : PMUConfig) (cpus : List Int)
    (hist : History) (s : EventScheduler)
    (h : s ∈ system_wide_schedulers k pmu_config cpus hist) :
    ∃ cpu ∈ cpus, s = EventScheduler.new pmu_config (-1) cpu := by
  induction cpus generalizing hist with
  | nil => simp [system_wide_schedulers] at h
  | cons cpu cpus ih =>
    unfold system_wide_schedulers at h
    split_ifs at h
    · rw [List.mem_singleton] at h
      exact ⟨cpu, List.mem_cons_self _ _, h⟩
    · rcases List.mem_cons.mp h with h | h
      · exact ⟨cpu, List.mem_cons_self _ _, h⟩
      · obtain ⟨c2, hc2, hs⟩ := ih _ h
        exact ⟨c2, List.mem_cons_of_mem _ hc2, hs⟩

/-- C21, as stated, fails: `-p -1` (and `-p -5`) is accepted by `parse`, which does not look
at the sign of the PID, and the scheduler `main` then constructs has the pair
`(target_pid, target_cpu) = (-1, -1)` (respectively `(-5, -1)`), with no non-negative
member. -/
theorem main_scheduler_negative_pid :
    ArgsParser.parse 8 [(opt_code 'p', "-1")] [] ProfileConfig.default =
      ParseOutcome.returned true
        { ProfileConfig.default with mode := ProfileMode.TRACK_PID, target_pid := -1 } ∧
    (main_schedulers (kernel_with_counters 4) two_group_config
      { ProfileConfig.default with mode := ProfileMode.TRACK_PID, target_pid := -1 }
      ⟨-1, 0, true⟩ []).map (fun s => (s.target_pid_, s.target_cpu_)) = [(-1, -1)] ∧
    ArgsParser.parse 8 [(opt_code 'p', "-5")] [] ProfileConfig.default =
      ParseOutcome.returned true
        { ProfileConfig.default with mode := ProfileMode.TRACK_PID, target_pid := -5 } ∧
    (main_schedulers (kernel_with_counters 4) two_group_config
      { ProfileConfig.default with mode := ProfileMode.TRACK_PID, target_pid := -5 }
      ⟨-1, 0, true⟩ []).map (fun s => (s.target_pid_, s.target_cpu_)) = [(-5, -1)] := by
  decide

/-- C21, amended: for every configuration accepted by `ArgsParser::parse` in which the PID
given with `-p`, if any, is non-negative, each `EventScheduler` the driver constructs has
exactly one of (`target_pid`, `target_cpu`) non-negative: the system-wide schedulers use
`pid = -1` with `cpu = c` for a `c ≥ 0` of `cpu_id_list`, and the per-process scheduler uses
`pid = p ≥ 0` (the PID given, or the PID of the child `fork` returned) with `cpu = -1`. -/
theorem main_scheduler_targets (k : Kernel) (pmu_config : PMUConfig) (num_cpus : Int)
    (opts : List (Int × String)) (operands : List String) (c : ProfileConfig)
    (env : Environment) (hist : History)
    (hparse : ArgsParser.parse num_cpus opts operands ProfileConfig.default =
      ParseOutcome.returned true c)
    (hfork : env.child_pid = -1 ∨ 0 < env.child_pid)
    (hpid : c.mode = ProfileMode.TRACK_PID → 0 ≤ c.target_pid) :
    ∀ s ∈ main_schedulers k pmu_config c env hist,
      (c.mode = ProfileMode.SYSTEM_WIDE ∧ s.target_pid_ = -1 ∧ 0 ≤ s.target_cpu_ ∧
        s.target_cpu_ ∈ c.cpu_id_list) ∨
      (c.mode ≠ ProfileMode.SYSTEM_WIDE ∧ 0 ≤ s.target_pid_ ∧
        s.target_pid_ = (main_config c env).target_pid ∧ s.target_cpu_ = -1) := by
  intro s hs
  unfold ArgsParser.parse at hparse
  cases hloop : option_loop opts ⟨ProfileConfig.default, "", false, false⟩ with
  | error outcome =>
    rw [hloop] at hparse
    simp only at hparse
    subst hparse
    have hd := option_loop_returned_detect opts _ true c hloop
    unfold main_schedulers at hs
    rw [if_pos hd] at hs
    simp at hs
  | ok st =>
    rw [hloop] at hparse
    simp only at hparse
    obtain ⟨-, -, a3, -⟩ := option_loop_ok opts _ st hloop
    obtain ⟨b1, b2⟩ := option_loop_keeps opts _ st hloop
    obtain ⟨-, c2, -, c4, c5, c6⟩ :=
      validate_options_accepts num_cpus operands st c a3 b1 hparse
    have hdet : c.detect_counters = false := by rw [c2, b2]; rfl
    unfold main_schedulers at hs
    rw [if_neg (by rw [hdet]; simp)] at hs
    by_cases hchild : c.mode = ProfileMode.SUBPROCESS ∧ env.child_pid = -1
    · rw [if_pos hchild] at hs
      simp at hs
    · rw [if_neg hchild] at hs
      split_ifs at hs with h1 h2 h3
      · simp at hs
      · simp at hs
      · left
        have hcfg : main_config c env = c := by
          unfold main_config
          rw [if_neg (by rw [h3]; decide)]
        rw [hcfg] at hs
        obtain ⟨cpu, hcpu, rfl⟩ := system_wide_schedulers_mem k pmu_config _ hist s hs
        have ha : st.a_flag = true := by
          cases ha : st.a_flag with
          | true => rfl
          | false =>
            exfalso
            cases hp : st.p_flag with
            | true =>
              have := c5 ha hp
              rw [h3] at this
              exact absurd this (by decide)
            | false =>
              have := c6 ha hp
              rw [h3] at this
              exact absurd this (by decide)
        exact ⟨h3, rfl, (c4 ha).2 cpu hcpu, hcpu⟩
      · right
        rw [List.mem_singleton] at hs
        subst hs
        refine ⟨h3, ?_, rfl, rfl⟩
        show 0 ≤ (main_config c env).target_pid
        unfold main_config
        by_cases hm : c.mode = ProfileMode.SUBPROCESS
        · rw [if_pos hm]
          show 0 ≤ env.child_pid
          have : env.child_pid ≠ -1 := fun h => hchild ⟨hm, h⟩
          omega
        · rw [if_neg hm]
          apply hpid
          cases hmode : c.mode with
          | SYSTEM_WIDE => exact absurd hmode h3
          | TRACK_PID => rfl
          | SUBPROCESS => exact absurd hmode hm

/-- C21, amended, on the command line `-p 1234`. -/
theorem main_scheduler_targets_witness :
    ArgsParser.parse 8 [(opt_code 'p', "1234")] [] ProfileConfig.default =
      ParseOutcome.returned true
        { ProfileConfig.default with mode := ProfileMode.TRACK_PID, target_pid := 1234 } ∧
    ∀ s ∈ main_schedulers (kernel_with_counters 4) two_group_config
        { ProfileConfig.default with mode := ProfileMode.TRACK_PID, target_pid := 1234 }
        ⟨-1, 0, true⟩ [],
      (ProfileMode.TRACK_PID = ProfileMode.SYSTEM_WIDE ∧ s.target_pid_ = -1 ∧
        0 ≤ s.target_cpu_ ∧ s.target_cpu_ ∈ ([] : List Int)) ∨
      (ProfileMode.TRACK_PID ≠ ProfileMode.SYSTEM_WIDE ∧ 0 ≤ s.target_pid_ ∧
        s.target_pid_ = 1234 ∧ s.target_cpu_ = -1) :=
  ⟨by decide,
    main_scheduler_targets (kernel_with_counters 4) two_group_config 8
      [(opt_code 'p', "1234")] [] _ ⟨-1, 0, true⟩ [] (by decide) (by decide) (by decide)⟩

/-- The budget `main` passes is the detected capacity minus the number of fixed events when
the capacity is at least that number. -/
theorem adaptive_grouping_budget_of_le (detected : Int) (fixed_event_num : Nat)
    (h1 : (fixed_event_num : Int) ≤ detected) (h2 : detected < 2 ^ 31) :
    (adaptive_grouping_budget detected fixed_event_num : Int) = detected - fixed_event_num := by
  unfold adaptive_grouping_budget
  rw [Int.toNat_of_nonneg (Int.emod_nonneg _ (by norm_num))]
  exact Int.emod_eq_of_lt (by omega) (by omega)

/-- C23 at a detected capacity below the number of fixed events (3 in the catalog): with the
capacity -1 of an undetected CPU the budget is `2 ^ 64 - 4`, with the capacity 0 it is
`2 ^ 64 - 3` and with the capacity 2 it is `2 ^ 64 - 1`, each far above the capacity; and
with the two entries 0 that `detect` records when every open is refused, `main` merges the
three test groups into one group of nine events. -/
theorem adaptive_grouping_budget_wraps :
    adaptive_grouping_budget (-1) 3 = 2 ^ 64 - 4 ∧
    adaptive_grouping_budget 0 3 = 2 ^ 64 - 3 ∧
    adaptive_grouping_budget 2 3 = 2 ^ 64 - 1 ∧
    CounterDetector.get_detected_general_counter_num ⟨true, [], 2, [0, 0]⟩ = some 0 ∧
    (main_optimize_event_groups insertionSort ⟨true, [], 2, [0, 0]⟩ test_config).map
      (fun c => c.event_groups_.map List.length) = some [9] := by
  decide

/-! ## The claims about the opens of `initialize` -/

theorem EventScheduler.open_group_member_opens (k : Kernel) (target_pid target_cpu : Int)
    (events : List PMUEvent) (group_leader_fd : Int) (group_fds : List Int) (hist : History) :
    ∃ calls, (EventScheduler.open_group k target_pid target_cpu events group_leader_fd
        false group_fds hist).2.2 = hist ++ calls ∧
      calls.length ≤ events.length ∧
      ((EventScheduler.open_group k target_pid target_cpu events group_leader_fd
        false group_fds hist).1 = true → calls.length = events.length) ∧
      calls.map Prod.fst = (events.take calls.length).map (fun e =>
        Syscall.perf_event_open ⟨PERF_TYPE_RAW, e.encoding, 0, 0⟩ target_pid target_cpu
          group_leader_fd 0) := by
  induction events generalizing group_fds hist with
  | nil => exact ⟨[], by simp [EventScheduler.open_group], by simp, fun _ => rfl, rfl⟩
  | cons e es ih =>
    unfold EventScheduler.open_group
    by_cases h : (EventScheduler.perf_event_open k hist
        (EventScheduler.configure_event PERF_TYPE_RAW e.encoding false)
        target_pid target_cpu group_leader_fd 0).1.ret = -1
    · rw [if_pos h]
      refine ⟨[(Syscall.perf_event_open
          (EventScheduler.configure_event PERF_TYPE_RAW e.encoding false)
          target_pid target_cpu group_leader_fd 0,
        k hist (Syscall.perf_event_open
          (EventScheduler.configure_event PERF_TYPE_RAW e.encoding false)
          target_pid target_cpu group_leader_fd 0))], rfl, by simp, ?_, rfl⟩
      intro h2
      simp at h2
    · rw [if_neg h]
      obtain ⟨calls, i1, i2, i3, i4⟩ := ih
        (group_fds ++ [(EventScheduler.perf_event_open k hist
          (EventScheduler.configure_event PERF_TYPE_RAW e.encoding false)
          target_pid target_cpu group_leader_fd 0).1.ret])
        (EventScheduler.perf_event_open k hist
          (EventScheduler.configure_event PERF_TYPE_RAW e.encoding false)
          target_pid target_cpu group_leader_fd 0).2
      simp only [Bool.false_eq_true, if_false]
      refine ⟨(Syscall.perf_event_open
          (EventScheduler.configure_event PERF_TYPE_RAW e.encoding false)
          target_pid target_cpu group_leader_fd 0,
        k hist (Syscall.perf_event_open
          (EventScheduler.configure_event PERF_TYPE_RAW e.encoding false)
          target_pid target_cpu group_leader_fd 0)) :: calls, ?_, ?_, ?_, ?_⟩
      · rw [i1]
        simp [EventScheduler.perf_event_open, sys]
      · simp only [List.length_cons]
        omega
      · intro h2
        simp only [List.length_cons]
        rw [i3 h2]
      · simp only [List.length_cons, List.take_succ_cons, List.map_cons, i4]
        rfl

theorem EventScheduler.open_group_leader_opens (k : Kernel) (target_pid target_cpu : Int)
    (events : List PMUEvent) (group_fds : List Int) (hist : History) :
    ∃ calls, (EventScheduler.open_group k target_pid target_cpu events (-1)
        true group_fds hist).2.2 = hist ++ calls ∧
      ((EventScheduler.open_group k target_pid target_cpu events (-1)
        true group_fds hist).1 = true → calls.length = events.length) ∧
      opens_of_group target_pid target_cpu events calls := by
  cases events with
  | nil => exact ⟨[], by simp [EventScheduler.open_group], fun _ => rfl, le_refl _, rfl⟩
  | cons e es =>
    unfold EventScheduler.open_group
    by_cases h : (EventScheduler.perf_event_open k hist
        (EventScheduler.configure_event PERF_TYPE_RAW e.encoding true)
        target_pid target_cpu (-1) 0).1.ret = -1
    · rw [if_pos h]
      refine ⟨[(Syscall.perf_event_open
          (EventScheduler.configure_event PERF_TYPE_RAW e.encoding true)
          target_pid target_cpu (-1) 0,
        k hist (Syscall.perf_event_open
          (EventScheduler.configure_event PERF_TYPE_RAW e.encoding true)
          target_pid target_cpu (-1) 0))], rfl, ?_, ?_, ?_⟩
      · intro h2
        simp at h2
      · simp
      · rfl
    · rw [if_neg h]
      simp only [if_true]
      obtain ⟨calls, i1, i2, i3, i4⟩ := EventScheduler.open_group_member_opens k target_pid
        target_cpu es
        (EventScheduler.perf_event_open k hist
          (EventScheduler.configure_event PERF_TYPE_RAW e.encoding true)
          target_pid target_cpu (-1) 0).1.ret
        (group_fds ++ [(EventScheduler.perf_event_open k hist
          (EventScheduler.configure_event PERF_TYPE_RAW e.encoding true)
          target_pid target_cpu (-1) 0).1.ret])
        (EventScheduler.perf_event_open k hist
          (EventScheduler.configure_event PERF_TYPE_RAW e.encoding true)
          target_pid target_cpu (-1) 0).2
      refine ⟨(Syscall.perf_event_open
          (EventScheduler.configure_event PERF_TYPE_RAW e.encoding true)
          target_pid target_cpu (-1) 0,
        k hist (Syscall.perf_event_open
          (EventScheduler.configure_event PERF_TYPE_RAW e.encoding true)
          target_pid target_cpu (-1) 0)) :: calls, ?_, ?_, ?_, ?_⟩
      · rw [i1]
        simp [EventScheduler.perf_event_open, sys]
      · intro h2
        simp only [List.length_cons]
        rw [i3 h2]
      · simp only [List.length_cons]
        omega
      · simp only [List.length_cons, List.take_succ_cons, List.map_cons, List.head?_cons,
          Option.map_some', Option.getD_some, group_open_calls, i4]
        rfl

theorem EventScheduler.open_groups_opens (k : Kernel) (s : EventScheduler)
    (remaining i : Nat) (fds : List (List Int)) (hist : History) :
    ∃ groups : List History,
      (EventScheduler.open_groups k s remaining i fds hist).2.2 = hist ++ groups.flatten ∧
      groups.length ≤ remaining ∧
      (∀ m g, groups[m]? = some g → opens_of_group s.target_pid_ s.target_cpu_
        (s.pmu_config_.get_fixed_events ++ s.pmu_config_.get_event_group_by_idx (i + m)) g) ∧
      (∀ m g, groups[m]? = some g → m + 1 < groups.length → g.length =
        (s.pmu_config_.get_fixed_events ++
          s.pmu_config_.get_event_group_by_idx (i + m)).length) ∧
      ((EventScheduler.open_groups k s remaining i fds hist).1 = true →
        groups.length = remaining ∧
        ∀ m g, groups[m]? = some g → g.length =
          (s.pmu_config_.get_fixed_events ++
            s.pmu_config_.get_event_group_by_idx (i + m)).length) := by
  induction remaining generalizing i fds hist with
  | zero =>
    exact ⟨[], by simp [EventScheduler.open_groups], le_refl _, by simp, by simp,
      fun _ => ⟨rfl, by simp⟩⟩
  | succ r ih =>
    obtain ⟨calls, g1, g2, g3⟩ := EventScheduler.open_group_leader_opens k s.target_pid_
      s.target_cpu_
      (s.pmu_config_.get_fixed_events ++ s.pmu_config_.get_event_group_by_idx i)
      (fds.getD i []) hist
    unfold EventScheduler.open_groups
    by_cases h : (EventScheduler.open_group k s.target_pid_ s.target_cpu_
        (s.pmu_config_.get_fixed_events ++ s.pmu_config_.get_event_group_by_idx i)
        (-1) true (fds.getD i []) hist).1 = false
    · rw [if_pos h]
      refine ⟨[calls], by rw [g1]; simp, by simp, ?_, ?_, ?_⟩
      · intro m g hg
        cases m with
        | zero =>
          simp only [List.getElem?_cons_zero, Option.some.injEq] at hg
          subst hg
          exact g3
        | succ m => simp at hg
      · intro m g _ hm
        simp only [List.length_cons, List.length_nil] at hm
        omega
      · intro h2
        simp at h2
    · rw [if_neg h]
      have hok : (EventScheduler.open_group k s.target_pid_ s.target_cpu_
          (s.pmu_config_.get_fixed_events ++ s.pmu_config_.get_event_group_by_idx i)
          (-1) true (fds.getD i []) hist).1 = true := by
        simpa using h
      obtain ⟨groups, i1, i2, i3, i4, i5⟩ := ih (i + 1)
        (fds.set i (EventScheduler.open_group k s.target_pid_ s.target_cpu_
          (s.pmu_config_.get_fixed_events ++ s.pmu_config_.get_event_group_by_idx i)
          (-1) true (fds.getD i []) hist).2.1)
        (EventScheduler.open_group k s.target_pid_ s.target_cpu_
          (s.pmu_config_.get_fixed_events ++ s.pmu_config_.get_event_group_by_idx i)
          (-1) true (fds.getD i []) hist).2.2
      refine ⟨calls :: groups, by rw [i1, g1]; simp, ?_, ?_, ?_, ?_⟩
      · simp only [List.length_cons]
        omega
      · intro m g hg
        cases m with
        | zero =>
          simp only [List.getElem?_cons_zero, Option.some.injEq] at hg
          subst hg
          exact g3
        | succ m =>
          rw [List.getElem?_cons_succ] at hg
          rw [show i + (m + 1) = i + 1 + m by omega]
          exact i3 m g hg
      · intro m g hg hm
        cases m with
        | zero =>
          simp only [List.getElem?_cons_zero, Option.some.injEq] at hg
          subst hg
          exact g2 hok
        | succ m =>
          rw [List.getElem?_cons_succ] at hg
          simp only [List.length_cons] at hm
          rw [show i + (m + 1) = i + 1 + m by omega]
          exact i4 m g hg (by omega)
      · intro h2
        obtain ⟨j1, j2⟩ := i5 h2
        refine ⟨by simp only [List.length_cons]; omega, ?_⟩
        intro m g hg
        cases m with
        | zero =>
          simp only [List.getElem?_cons_zero, Option.some.injEq] at hg
          subst hg
          exact g2 hok
        | succ m =>
          rw [List.getElem?_cons_succ] at hg
          rw [show i + (m + 1) = i + 1 + m by omega]
          exact j2 m g hg

theorem EventScheduler.close_group_closes (k : Kernel) (group_fds : List Int) (hist : History) :
    ∃ calls, EventScheduler.close_group k group_fds hist = hist ++ calls ∧
      ∀ c ∈ calls, ∃ fd, c.1 = Syscall.close fd := by
  induction group_fds generalizing hist with
  | nil => exact ⟨[], by simp [EventScheduler.close_group], by simp⟩
  | cons fd fds ih =>
    unfold EventScheduler.close_group
    by_cases h : fd ≠ -1
    · rw [if_pos h]
      obtain ⟨calls, i1, i2⟩ := ih (sys k hist (Syscall.close fd)).2
      refine ⟨(Syscall.close fd, k hist (Syscall.close fd)) :: calls, ?_, ?_⟩
      · rw [i1]; simp [sys]
      · intro c hc
        rcases List.mem_cons.mp hc with hc | hc
        · subst hc; exact ⟨fd, rfl⟩
        · exact i2 c hc
    · rw [if_neg h]
      exact ih hist

theorem EventScheduler.close_groups_closes (k : Kernel) (fds : List (List Int))
    (hist : History) :
    ∃ calls, EventScheduler.close_groups k fds hist = hist ++ calls ∧
      ∀ c ∈ calls, ∃ fd, c.1 = Syscall.close fd := by
  induction fds generalizing hist with
  | nil => exact ⟨[], by simp [EventScheduler.close_groups], by simp⟩
  | cons g fds ih =>
    obtain ⟨c1, g1, g2⟩ := EventScheduler.close_group_closes k g hist
    obtain ⟨c2, i1, i2⟩ := ih (EventScheduler.close_group k g hist)
    unfold EventScheduler.close_groups
    refine ⟨c1 ++ c2, by rw [i1, g1, List.append_assoc], ?_⟩
    intro c hc
    rcases List.mem_append.mp hc with hc | hc
    · exact g2 c hc
    · exact i2 c hc

/-- C26, as stated, fails: in the `initialize` of the scheduler of CPU 0 for
`two_group_config` the second event of each group is opened with `read_format = 0`, not with
the read format 15 (`TOTAL_TIME_ENABLED | TOTAL_TIME_RUNNING | ID | GROUP`) of the leader. The
triples are `read_format`, `disabled` and the group reference of the four opens. -/
theorem initialize_member_read_format :
    (new_calls [] ( EventScheduler.initialize (kernel_with_counters 4)
      (EventScheduler.new two_group_config (-1) 0) []).2.2).map
        (fun c => match c.1 with
          | Syscall.perf_event_open pe _ _ group_fd _ =>
            some (pe.read_format, pe.disabled, group_fd)
          | _ => none) =
      [some (15, 1, -1), some (0, 0, 3), some (15, 1, -1), some (0, 0, 5)] := by
  decide

/-- C26, amended: the calls of `EventScheduler::initialize` are the opens of the groups of
the catalog, group after group (the last one cut short at an open that failed), followed by
the `close` calls of a failed run. In group `i` the events are `fixed_events` followed by
`event_groups[i]`, in this order: the first of them is opened with no group reference
(`-1`), `disabled = 1` and the read format
`TOTAL_TIME_ENABLED | TOTAL_TIME_RUNNING | ID | GROUP`; every later event of the group is
opened with the handle the group's first open returned as its group reference, with
`disabled = 0`, and with `read_format = 0`. A run that returns `true` on a scheduler not yet
initialized opens every event of every group and closes nothing; an initialized scheduler
makes no call. -/
theorem initialize_opens_leader_then_members (k : Kernel) (s : EventScheduler)
    (hist : History) :
    ∃ (groups : List History) (closes : History),
      new_calls hist ( EventScheduler.initialize k s hist).2.2 = groups.flatten ++ closes ∧
      groups.length ≤ s.pmu_config_.get_event_group_num ∧
      (∀ i g, groups[i]? = some g → opens_of_group s.target_pid_ s.target_cpu_
        (s.pmu_config_.get_fixed_events ++ s.pmu_config_.get_event_group_by_idx i) g) ∧
      (∀ i g, groups[i]? = some g → i + 1 < groups.length → g.length =
        (s.pmu_config_.get_fixed_events ++ s.pmu_config_.get_event_group_by_idx i).length) ∧
      (∀ c ∈ closes, ∃ fd, c.1 = Syscall.close fd) ∧
      (s.initialized_ = true → groups = [] ∧ closes = []) ∧
      (s.initialized_ = false → ( EventScheduler.initialize k s hist).1 = true →
        closes = [] ∧ groups.length = s.pmu_config_.get_event_group_num ∧
        ∀ i g, groups[i]? = some g → g.length =
          (s.pmu_config_.get_fixed_events ++
            s.pmu_config_.get_event_group_by_idx i).length) := by
  unfold EventScheduler.initialize
  by_cases hi : s.initialized_ = true
  · rw [if_pos hi]
    exact ⟨[], [], by simp [new_calls], by simp, by simp, by simp, by simp,
      fun _ => ⟨rfl, rfl⟩, fun h2 => by rw [hi] at h2; simp at h2⟩
  · rw [if_neg hi]
    obtain ⟨groups, g1, g2, g3, g4, g5⟩ := EventScheduler.open_groups_opens k s
      s.pmu_config_.get_event_group_num 0
      (resize_fds s.fds_ s.pmu_config_.get_event_group_num) hist
    simp only [Nat.zero_add] at g3 g4 g5
    by_cases h : (EventScheduler.open_groups k s s.pmu_config_.get_event_group_num 0
        (resize_fds s.fds_ s.pmu_config_.get_event_group_num) hist).1 = false
    · rw [if_pos h]
      obtain ⟨closes, c1, c2⟩ := EventScheduler.close_groups_closes k
        (EventScheduler.open_groups k s s.pmu_config_.get_event_group_num 0
          (resize_fds s.fds_ s.pmu_config_.get_event_group_num) hist).2.1
        (EventScheduler.open_groups k s s.pmu_config_.get_event_group_num 0
          (resize_fds s.fds_ s.pmu_config_.get_event_group_num) hist).2.2
      refine ⟨groups, closes, ?_, g2, g3, g4, c2, fun h2 => absurd h2 hi,
        fun _ h2 => by simp at h2⟩
      unfold EventScheduler.cleanup_fds
      simp only
      rw [c1, g1, List.append_assoc, new_calls_append]
    · rw [if_neg h]
      have hok : (EventScheduler.open_groups k s s.pmu_config_.get_event_group_num 0
          (resize_fds s.fds_ s.pmu_config_.get_event_group_num) hist).1 = true := by
        simpa using h
      refine ⟨groups, [], ?_, g2, g3, g4, by simp, fun h2 => absurd h2 hi,
        fun _ _ => ⟨rfl, g5 hok⟩⟩
      simp only
      rw [g1, new_calls_append, List.append_nil]

theorem EventScheduler.open_group_events (k : Kernel) (target_pid target_cpu : Int)
    (events : List PMUEvent) (group_leader_fd : Int) (is_first_in_group : Bool)
    (group_fds : List Int) (hist : History)
    (hok : (EventScheduler.open_group k target_pid target_cpu events group_leader_fd
      is_first_in_group group_fds hist).1 = true) :
    ∃ calls news,
      (EventScheduler.open_group k target_pid target_cpu events group_leader_fd
        is_first_in_group group_fds hist).2.2 = hist ++ calls ∧
      (EventScheduler.open_group k target_pid target_cpu events group_leader_fd
        is_first_in_group group_fds hist).2.1 = group_fds ++ news ∧
      news.length = events.length ∧
      calls.map opened_event = (events.zip news).map (fun p => some (p.1.encoding, p.2)) := by
  induction events generalizing group_leader_fd is_first_in_group group_fds hist with
  | nil => exact ⟨[], [], by simp [EventScheduler.open_group], by simp [EventScheduler.open_group],
      rfl, rfl⟩
  | cons e es ih =>
    unfold EventScheduler.open_group at hok ⊢
    by_cases h : (EventScheduler.perf_event_open k hist
        (EventScheduler.configure_event PERF_TYPE_RAW e.encoding is_first_in_group)
        target_pid target_cpu group_leader_fd 0).1.ret = -1
    · rw [if_pos h] at hok
      simp at hok
    · rw [if_neg h] at hok ⊢
      obtain ⟨calls, news, i1, i2, i3, i4⟩ := ih _ _ _ _ hok
      refine ⟨(Syscall.perf_event_open
          (EventScheduler.configure_event PERF_TYPE_RAW e.encoding is_first_in_group)
          target_pid target_cpu group_leader_fd 0,
        k hist (Syscall.perf_event_open
          (EventScheduler.configure_event PERF_TYPE_RAW e.encoding is_first_in_group)
          target_pid target_cpu group_leader_fd 0)) :: calls,
        (k hist (Syscall.perf_event_open
          (EventScheduler.configure_event PERF_TYPE_RAW e.encoding is_first_in_group)
          target_pid target_cpu group_leader_fd 0)).ret :: news, ?_, ?_, ?_, ?_⟩
      · rw [i1]
        simp [EventScheduler.perf_event_open, sys]
      · rw [i2]
        simp [EventScheduler.perf_event_open, sys]
      · simp [i3]
      · rw [List.map_cons, i4, List.zip_cons_cons, List.map_cons]
        congr 1
        unfold opened_event EventScheduler.configure_event
        cases is_first_in_group <;> rfl

/-- The opens of a successful run of the group loop of `initialize` on a table whose groups
from `i` on are empty: group after group, the events of the group in order, each returning
the handle stored at its position. -/
theorem EventScheduler.open_groups_events (k : Kernel) (s : EventScheduler)
    (remaining i : Nat) (fds : List (List Int)) (hist : History)
    (hlen : i + remaining ≤ fds.length)
    (hempty : ∀ j, i ≤ j → fds.getD j [] = [])
    (hok : (EventScheduler.open_groups k s remaining i fds hist).1 = true) :
    ∃ calls, (EventScheduler.open_groups k s remaining i fds hist).2.2 = hist ++ calls ∧
      calls.map opened_event =
        ((List.range' i remaining).map (fun j =>
          ((s.pmu_config_.get_fixed_events ++ s.pmu_config_.get_event_group_by_idx j).zip
            ((EventScheduler.open_groups k s remaining i fds hist).2.1.getD j [])).map
              (fun p => some (p.1.encoding, p.2)))).flatten := by
  induction remaining generalizing i fds hist with
  | zero => exact ⟨[], by simp [EventScheduler.open_groups], rfl⟩
  | succ r ih =>
    unfold EventScheduler.open_groups at hok ⊢
    by_cases h : (EventScheduler.open_group k s.target_pid_ s.target_cpu_
        (s.pmu_config_.get_fixed_events ++ s.pmu_config_.get_event_group_by_idx i)
        (-1) true (fds.getD i []) hist).1 = false
    · rw [if_pos h] at hok
      simp at hok
    · rw [if_neg h] at hok ⊢
      obtain ⟨calls, news, g1, g2, g3, g4⟩ := EventScheduler.open_group_events k s.target_pid_
        s.target_cpu_ (s.pmu_config_.get_fixed_events ++ s.pmu_config_.get_event_group_by_idx i)
        (-1) true (fds.getD i []) hist (by simpa using h)
      have hrest := EventScheduler.open_groups_shape k s r (i + 1)
        (fds.set i (EventScheduler.open_group k s.target_pid_ s.target_cpu_
          (s.pmu_config_.get_fixed_events ++ s.pmu_config_.get_event_group_by_idx i)
          (-1) true (fds.getD i []) hist).2.1)
        (EventScheduler.open_group k s.target_pid_ s.target_cpu_
          (s.pmu_config_.get_fixed_events ++ s.pmu_config_.get_event_group_by_idx i)
          (-1) true (fds.getD i []) hist).2.2
        (by rw [List.length_set]; omega) hok
      obtain ⟨calls2, i1, i2⟩ := ih (i + 1)
        (fds.set i (EventScheduler.open_group k s.target_pid_ s.target_cpu_
          (s.pmu_config_.get_fixed_events ++ s.pmu_config_.get_event_group_by_idx i)
          (-1) true (fds.getD i []) hist).2.1)
        (EventScheduler.open_group k s.target_pid_ s.target_cpu_
          (s.pmu_config_.get_fixed_events ++ s.pmu_config_.get_event_group_by_idx i)
          (-1) true (fds.getD i []) hist).2.2
        (by rw [List.length_set]; omega)
        (by
          intro j hj
          rw [getD_set_of_ne _ _ _ _ _ (by omega)]
          exact hempty j (by omega))
        hok
      refine ⟨calls ++ calls2, by rw [i1, g1, List.append_assoc], ?_⟩
      rw [List.map_append, i2, g4, List.range'_succ, List.map_cons, List.flatten_cons]
      congr 2
      obtain ⟨news2, n1, -, n3⟩ := hrest.2 i (by rw [List.length_set]; omega)
      rw [if_neg (by omega)] at n3
      rw [n1, List.length_eq_zero.mp n3, List.append_nil, getD_set_self _ _ _ _ (by omega), g2,
        hempty i (le_refl _), List.nil_append]

/-- C22. For every group `i` of the catalog, the read buffer `i` of a scheduler has
`3·8 + N·16` bytes, where `N = |fixed events| + |event_groups[i]|`, and a successful
`initialize` opens exactly `N` handles for group `i`, for the fixed events first and then for
the group's own events, in their order: the opens of `initialize` are, group after group,
those of these events, and the handle each one returns is stored at the position of its event
in `fds_[i]`, so the buffer has one entry per opened handle. -/
theorem initialize_buffers_and_handles (k : Kernel) (pmu_config : PMUConfig)
    (target_pid target_cpu : Int) (hist : History)
    (hok : ( EventScheduler.initialize k
      (EventScheduler.new pmu_config target_pid target_cpu) hist).1 = true) :
    ( EventScheduler.initialize k (EventScheduler.new pmu_config target_pid target_cpu)
      hist).2.1.read_buffers_.length = pmu_config.get_event_group_num ∧
    ( EventScheduler.initialize k (EventScheduler.new pmu_config target_pid target_cpu)
      hist).2.1.fds_.length = pmu_config.get_event_group_num ∧
    (∀ i, i < pmu_config.get_event_group_num →
      GroupReadBuffer.size (( EventScheduler.initialize k
        (EventScheduler.new pmu_config target_pid target_cpu) hist).2.1.read_buffers_.getD i 0) =
        3 * 8 + (pmu_config.get_fixed_events.length +
          (pmu_config.get_event_group_by_idx i).length) * 16 ∧
      (( EventScheduler.initialize k (EventScheduler.new pmu_config target_pid target_cpu)
        hist).2.1.fds_.getD i []).length =
        pmu_config.get_fixed_events.length + (pmu_config.get_event_group_by_idx i).length) ∧
    (new_calls hist ( EventScheduler.initialize k
      (EventScheduler.new pmu_config target_pid target_cpu) hist).2.2).map opened_event =
      ((List.range pmu_config.get_event_group_num).map (fun i =>
        ((pmu_config.get_fixed_events ++ pmu_config.get_event_group_by_idx i).zip
          (( EventScheduler.initialize k (EventScheduler.new pmu_config target_pid target_cpu)
            hist).2.1.fds_.getD i [])).map (fun p => some (p.1.encoding, p.2)))).flatten := by
  unfold EventScheduler.initialize at hok ⊢
  rw [if_neg (by simp [EventScheduler.new])] at hok ⊢
  by_cases h : (EventScheduler.open_groups k (EventScheduler.new pmu_config target_pid target_cpu)
      (EventScheduler.new pmu_config target_pid target_cpu).pmu_config_.get_event_group_num 0
      (resize_fds (EventScheduler.new pmu_config target_pid target_cpu).fds_
        (EventScheduler.new pmu_config target_pid target_cpu).pmu_config_.get_event_group_num)
      hist).1 = false
  · rw [if_pos h] at hok
    simp at hok
  · rw [if_neg h]
    have hres : resize_fds (EventScheduler.new pmu_config target_pid target_cpu).fds_
        (EventScheduler.new pmu_config target_pid target_cpu).pmu_config_.get_event_group_num =
        List.replicate pmu_config.get_event_group_num [] := resize_fds_nil _
    rw [hres] at h ⊢
    have hcfg : (EventScheduler.new pmu_config target_pid target_cpu).pmu_config_ = pmu_config :=
      rfl
    rw [hcfg] at h ⊢
    have hok2 : (EventScheduler.open_groups k (EventScheduler.new pmu_config target_pid target_cpu)
        pmu_config.get_event_group_num 0
        (List.replicate pmu_config.get_event_group_num []) hist).1 = true := by
      simpa using h
    obtain ⟨s1, s2⟩ := EventScheduler.open_groups_shape k
      (EventScheduler.new pmu_config target_pid target_cpu) pmu_config.get_event_group_num 0
      (List.replicate pmu_config.get_event_group_num []) hist (by simp) hok2
    obtain ⟨calls, e1, e2⟩ := EventScheduler.open_groups_events k
      (EventScheduler.new pmu_config target_pid target_cpu) pmu_config.get_event_group_num 0
      (List.replicate pmu_config.get_event_group_num []) hist (by simp)
      (by
        intro j _
        rw [List.getD_eq_getElem?_getD, List.getElem?_replicate]
        split <;> rfl)
      hok2
    rw [List.length_replicate] at s1 s2
    simp only [hcfg] at s2 e2
    refine ⟨?_, s1, ?_, ?_⟩
    · simp [EventScheduler.new]
    · intro i hi
      refine ⟨?_, ?_⟩
      · show GroupReadBuffer.size (List.getD (List.map _ (List.range _)) i 0) = _
        rw [getD_map_range _ _ _ _ hi]
        unfold GroupReadBuffer.size
        omega
      · obtain ⟨news, n1, -, n3⟩ := s2 i hi
        rw [if_pos (by omega), List.length_append] at n3
        simp only
        rw [n1, List.getD_eq_getElem?_getD, List.getElem?_replicate, if_pos hi]
        simpa using n3
    · simp only
      rw [e1, new_calls_append, e2, List.range_eq_range']

set_option maxRecDepth 100000 in
/-- C22 on the scheduler of CPU 0 for the catalog of the three test groups: the buffers have
24 + 7·16, 24 + 7·16 and 24 + 6·16 bytes, and the first group holds the seven handles
3, …, 9. -/
theorem initialize_buffers_and_handles_witness :
    ( EventScheduler.initialize (kernel_with_counters 4)
      (EventScheduler.new test_config (-1) 0) []).1 = true ∧
    (( EventScheduler.initialize (kernel_with_counters 4)
      (EventScheduler.new test_config (-1) 0) []).2.1.read_buffers_.map GroupReadBuffer.size) =
        [136, 136, 120] ∧
    ( EventScheduler.initialize (kernel_with_counters 4)
      (EventScheduler.new test_config (-1) 0) []).2.1.fds_.getD 0 [] = [3, 4, 5, 6, 7, 8, 9] ∧
    (( EventScheduler.initialize (kernel_with_counters 4)
      (EventScheduler.new test_config (-1) 0) []).2.1.fds_.getD 2 []).length =
        test_config.get_fixed_events.length + (test_config.get_event_group_by_idx 2).length :=
  ⟨by decide, by decide, by decide,
    ((initialize_buffers_and_handles (kernel_with_counters 4) test_config (-1) 0 []
      (by decide)).2.2.1 2 (by decide)).2⟩

/-! ## The claim about the last probe of `detect` -/

theorem opens_on_cpu_append (c : Nat) (xs ys : History) :
    opens_on_cpu c (xs ++ ys) = opens_on_cpu c xs + opens_on_cpu c ys := by
  simp [opens_on_cpu, List.countP_append]

theorem CounterDetector.open_events_ok (k : Kernel) (hk : ∀ h c, (k h c).ret ≠ -1)
    (cpu_id : Nat) (events : List (String × Nat)) (fds : List Int) (hist : History) :
    (CounterDetector.open_events k cpu_id events fds hist).1 = true ∧
    (CounterDetector.open_events k cpu_id events fds hist).2.1.length =
      fds.length + events.length ∧
    ∃ xs, (CounterDetector.open_events k cpu_id events fds hist).2.2 = hist ++ xs ∧
      ∀ c, opens_on_cpu c xs = if c = cpu_id then events.length else 0 := by
  induction events generalizing fds hist with
  | nil => exact ⟨rfl, rfl, [], by simp [CounterDetector.open_events], by simp [opens_on_cpu]⟩
  | cons e es ih =>
    have h : ¬ (CounterDetector.perf_event_open k hist
        (CounterDetector.configure_event e.2) cpu_id).1.ret = -1 := hk _ _
    unfold CounterDetector.open_events
    rw [if_neg h]
    obtain ⟨a1, a2, xs, a3, a4⟩ := ih
      (fds ++ [(CounterDetector.perf_event_open k hist
        (CounterDetector.configure_event e.2) cpu_id).1.ret])
      (CounterDetector.perf_event_open k hist (CounterDetector.configure_event e.2) cpu_id).2
    refine ⟨a1, ?_, ?_⟩
    · rw [a2]
      simp only [List.length_append, List.length_cons, List.length_nil]
      omega
    · refine ⟨[(Syscall.perf_event_open (CounterDetector.configure_event e.2) (-1) cpu_id
        (-1) 0, k hist (Syscall.perf_event_open (CounterDetector.configure_event e.2) (-1)
        cpu_id (-1) 0))] ++ xs, ?_, ?_⟩
      · rw [a3]
        simp [CounterDetector.perf_event_open, sys]
      · intro c
        rw [opens_on_cpu_append, a4 c]
        by_cases hc : c = cpu_id
        · subst hc
          simp [opens_on_cpu]
          omega
        · have hc2 : ¬ ((cpu_id : Int) = (c : Int)) := fun h2 => hc (by omega)
          simp [opens_on_cpu, hc, hc2]

theorem CounterDetector.ioctl_all_events_ok (k : Kernel) (hk : ∀ h c, (k h c).ret ≠ -1)
    (request : IoctlRequest) (fds : List Int) (hist : History) :
    (CounterDetector.ioctl_all_events k request fds hist).1 = true ∧
    ∃ xs, (CounterDetector.ioctl_all_events k request fds hist).2 = hist ++ xs ∧
      ∀ c, opens_on_cpu c xs = 0 := by
  induction fds generalizing hist with
  | nil => exact ⟨rfl, [], by simp [CounterDetector.ioctl_all_events], by simp [opens_on_cpu]⟩
  | cons fd fds ih =>
    have h : ¬ (sys k hist (Syscall.ioctl fd request 0)).1.ret = -1 := hk _ _
    unfold CounterDetector.ioctl_all_events
    rw [if_neg h]
    obtain ⟨a1, xs, a3, a4⟩ := ih (sys k hist (Syscall.ioctl fd request 0)).2
    refine ⟨a1, [(Syscall.ioctl fd request 0, k hist (Syscall.ioctl fd request 0))] ++ xs,
      ?_, ?_⟩
    · rw [a3]
      simp [sys]
    · intro c
      rw [opens_on_cpu_append, a4 c]
      simp [opens_on_cpu]

theorem CounterDetector.read_all_events_ok (k : Kernel) (hk : ∀ h c, (k h c).ret ≠ -1)
    (ht : ∀ h fd count, (k h (Syscall.read fd count)).data.getD 1 0 =
      (k h (Syscall.read fd count)).data.getD 2 0)
    (fds : List Int) (hist : History) :
    (CounterDetector.read_all_events k fds hist).1 = true ∧
    ∃ xs, (CounterDetector.read_all_events k fds hist).2 = hist ++ xs ∧
      ∀ c, opens_on_cpu c xs = 0 := by
  induction fds generalizing hist with
  | nil => exact ⟨rfl, [], by simp [CounterDetector.read_all_events], by simp [opens_on_cpu]⟩
  | cons fd fds ih =>
    have h : ¬ (sys k hist (Syscall.read fd SingleReadBuffer.size)).1.ret = -1 := hk _ _
    have h2 : ¬ ((sys k hist (Syscall.read fd SingleReadBuffer.size)).1.data.getD 1 0 ≠
        (sys k hist (Syscall.read fd SingleReadBuffer.size)).1.data.getD 2 0) :=
      fun h3 => h3 (ht _ _ _)
    obtain ⟨a1, xs, a3, a4⟩ := ih (sys k hist (Syscall.read fd SingleReadBuffer.size)).2
    have hres : CounterDetector.read_all_events k (fd :: fds) hist =
        CounterDetector.read_all_events k fds
          (sys k hist (Syscall.read fd SingleReadBuffer.size)).2 := by
      rw [CounterDetector.read_all_events, if_neg h, if_neg h2]
      split_ifs <;> rfl
    rw [hres]
    refine ⟨a1, [(Syscall.read fd SingleReadBuffer.size,
      k hist (Syscall.read fd SingleReadBuffer.size))] ++ xs, ?_, ?_⟩
    · rw [a3]
      simp [sys]
    · intro c
      rw [opens_on_cpu_append, a4 c]
      simp [opens_on_cpu]

/-- With a kernel that never fails and never multiplexes, a `test` returns `true`, opens the
probe events it still lacks and changes nothing else. -/
theorem CounterDetector.test_ok (k : Kernel) (hk : ∀ h c, (k h c).ret ≠ -1)
    (ht : ∀ h fd count, (k h (Syscall.read fd count)).data.getD 1 0 =
      (k h (Syscall.read fd count)).data.getD 2 0)
    (cpu_id event_num : Nat) (d : CounterDetector) (hist : History) :
    (CounterDetector.test k cpu_id event_num d hist).1 = true ∧
    (CounterDetector.test k cpu_id event_num d hist).2.1.fds_.length = d.fds_.length +
      ((event_list.drop d.fds_.length).take (event_num - d.fds_.length)).length ∧
    (CounterDetector.test k cpu_id event_num d hist).2.1.detected_general_counter_nums_ =
      d.detected_general_counter_nums_ ∧
    (CounterDetector.test k cpu_id event_num d hist).2.1.cpu_num_ = d.cpu_num_ ∧
    (CounterDetector.test k cpu_id event_num d hist).2.1.detected_ = d.detected_ ∧
    ∃ xs, (CounterDetector.test k cpu_id event_num d hist).2.2 = hist ++ xs ∧
      ∀ c, opens_on_cpu c xs = if c = cpu_id then
        ((event_list.drop d.fds_.length).take (event_num - d.fds_.length)).length else 0 := by
  obtain ⟨o1, o2, xo, o3, o4⟩ := CounterDetector.open_events_ok k hk cpu_id
    ((event_list.drop d.fds_.length).take (event_num - d.fds_.length)) d.fds_ hist
  unfold CounterDetector.test
  simp only
  generalize CounterDetector.open_events k cpu_id
    ((event_list.drop d.fds_.length).take (event_num - d.fds_.length)) d.fds_ hist = opened
    at o1 o2 o3 ⊢
  obtain ⟨e1, xe, e3, e4⟩ :=
    CounterDetector.ioctl_all_events_ok k hk IoctlRequest.ENABLE opened.2.1 opened.2.2
  generalize CounterDetector.ioctl_all_events k IoctlRequest.ENABLE opened.2.1 opened.2.2 =
    enabled at e1 e3 ⊢
  obtain ⟨d1, xd, d3, d4⟩ := CounterDetector.ioctl_all_events_ok k hk IoctlRequest.DISABLE
    opened.2.1 (sys k enabled.2 (Syscall.usleep 100000)).2
  generalize CounterDetector.ioctl_all_events k IoctlRequest.DISABLE opened.2.1
    (sys k enabled.2 (Syscall.usleep 100000)).2 = disabled at d1 d3 ⊢
  obtain ⟨r1, xr, r3, r4⟩ := CounterDetector.read_all_events_ok k hk ht opened.2.1 disabled.2
  generalize CounterDetector.read_all_events k opened.2.1 disabled.2 = read at r1 r3 ⊢
  rw [if_neg (by rw [o1]; simp), if_neg (by rw [e1]; simp), if_neg (by rw [d1]; simp)]
  refine ⟨r1, o2, rfl, rfl, rfl, xo ++ xe ++ [(Syscall.usleep 100000,
    k enabled.2 (Syscall.usleep 100000))] ++ xd ++ xr, ?_, ?_⟩
  · simp only
    rw [r3, d3, e3, o3]
    simp [sys]
  · intro c
    rw [opens_on_cpu_append, opens_on_cpu_append, opens_on_cpu_append, opens_on_cpu_append,
      o4 c, e4 c, d4 c, r4 c]
    simp [opens_on_cpu]

theorem CounterDetector.probe_loop_ok (k : Kernel) (hk : ∀ h c, (k h c).ret ≠ -1)
    (ht : ∀ h fd count, (k h (Syscall.read fd count)).data.getD 1 0 =
      (k h (Syscall.read fd count)).data.getD 2 0)
    (cpu_id remaining start : Nat) (d : CounterDetector) (hist : History)
    (hfds : d.fds_.length + 1 = start) (hle : start + remaining ≤ event_list.length + 1) :
    (CounterDetector.probe_loop k cpu_id remaining start d hist).1.detected_general_counter_nums_
      = d.detected_general_counter_nums_ ∧
    (CounterDetector.probe_loop k cpu_id remaining start d hist).1.cpu_num_ = d.cpu_num_ ∧
    (CounterDetector.probe_loop k cpu_id remaining start d hist).1.detected_ = d.detected_ ∧
    (CounterDetector.probe_loop k cpu_id remaining start d hist).1.fds_.length =
      d.fds_.length + remaining ∧
    ∃ xs, (CounterDetector.probe_loop k cpu_id remaining start d hist).2 = hist ++ xs ∧
      ∀ c, opens_on_cpu c xs = if c = cpu_id then remaining else 0 := by
  induction remaining generalizing start d hist with
  | zero => exact ⟨rfl, rfl, rfl, rfl, [], by simp [CounterDetector.probe_loop],
      by simp [opens_on_cpu]⟩
  | succ r ih =>
    obtain ⟨t1, t2, t3, t4, t5, xt, t6, t7⟩ := CounterDetector.test_ok k hk ht cpu_id start d hist
    have hone : ((event_list.drop d.fds_.length).take (start - d.fds_.length)).length = 1 := by
      rw [List.length_take, List.length_drop]
      omega
    rw [hone] at t2 t7
    unfold CounterDetector.probe_loop
    rw [if_neg (by rw [t1]; simp)]
    obtain ⟨a1, a2, a3, a4, xs, a5, a6⟩ := ih (start + 1)
      (CounterDetector.test k cpu_id start d hist).2.1
      (CounterDetector.test k cpu_id start d hist).2.2 (by omega) (by omega)
    refine ⟨by rw [a1, t3], by rw [a2, t4], by rw [a3, t5], by rw [a4, t2]; omega,
      xt ++ xs, by rw [a5, t6, List.append_assoc], ?_⟩
    intro c
    rw [opens_on_cpu_append, t7 c, a6 c]
    split <;> omega

theorem CounterDetector.close_all_events_ok (k : Kernel) (fds : List Int) (hist : History) :
    ∃ xs, CounterDetector.close_all_events k fds hist = hist ++ xs ∧
      ∀ c, opens_on_cpu c xs = 0 := by
  induction fds generalizing hist with
  | nil => exact ⟨[], by simp [CounterDetector.close_all_events], by simp [opens_on_cpu]⟩
  | cons fd fds ih =>
    unfold CounterDetector.close_all_events
    split_ifs with h
    · obtain ⟨xs, a1, a2⟩ := ih (sys k hist (Syscall.close fd)).2
      refine ⟨[(Syscall.close fd, k hist (Syscall.close fd))] ++ xs, ?_, ?_⟩
      · rw [a1]
        simp [sys]
      · intro c
        rw [opens_on_cpu_append, a2 c]
        simp [opens_on_cpu]
    · exact ih hist

theorem CounterDetector.probe_cpu_ok (k : Kernel) (hk : ∀ h c, (k h c).ret ≠ -1)
    (ht : ∀ h fd count, (k h (Syscall.read fd count)).data.getD 1 0 =
      (k h (Syscall.read fd count)).data.getD 2 0)
    (cpu_id : Nat) (d : CounterDetector) (hist : History) (hfds : d.fds_ = []) :
    (CounterDetector.probe_cpu k cpu_id d hist).1 = d ∧
    ∃ xs, (CounterDetector.probe_cpu k cpu_id d hist).2 = hist ++ xs ∧
      ∀ c, opens_on_cpu c xs = if c = cpu_id then event_list.length - 1 else 0 := by
  obtain ⟨a1, a2, a3, -, xs, a5, a6⟩ := CounterDetector.probe_loop_ok k hk ht cpu_id
    (event_list.length - 1) 1 d hist (by rw [hfds]; rfl) (by decide)
  unfold CounterDetector.probe_cpu
  simp only
  obtain ⟨ys, b1, b2⟩ := CounterDetector.close_all_events_ok k
    (CounterDetector.probe_loop k cpu_id (event_list.length - 1) 1 d hist).1.fds_
    (CounterDetector.probe_loop k cpu_id (event_list.length - 1) 1 d hist).2
  refine ⟨?_, xs ++ ys, by rw [b1, a5, List.append_assoc], ?_⟩
  · generalize (CounterDetector.probe_loop k cpu_id (event_list.length - 1) 1 d hist).1 = p
      at a1 a2 a3
    cases p
    cases d
    simp only at a1 a2 a3 hfds ⊢
    rw [a1, a2, a3, hfds]
  · intro c
    rw [opens_on_cpu_append, a6 c, b2 c]
    rfl

theorem CounterDetector.probe_cpus_ok (k : Kernel) (hk : ∀ h c, (k h c).ret ≠ -1)
    (ht : ∀ h fd count, (k h (Syscall.read fd count)).data.getD 1 0 =
      (k h (Syscall.read fd count)).data.getD 2 0)
    (cpus : List Nat) (d : CounterDetector) (hist : History) (hfds : d.fds_ = []) :
    (CounterDetector.probe_cpus k cpus d hist).1 = d ∧
    ∃ xs, (CounterDetector.probe_cpus k cpus d hist).2 = hist ++ xs ∧
      ∀ c, opens_on_cpu c xs = cpus.count c * (event_list.length - 1) := by
  induction cpus generalizing hist with
  | nil => exact ⟨rfl, [], by simp [CounterDetector.probe_cpus], by simp [opens_on_cpu]⟩
  | cons cpu cpus ih =>
    obtain ⟨p1, xs, p2, p3⟩ := CounterDetector.probe_cpu_ok k hk ht cpu d hist hfds
    unfold CounterDetector.probe_cpus
    rw [p1]
    obtain ⟨a1, ys, a2, a3⟩ := ih (CounterDetector.probe_cpu k cpu d hist).2
    refine ⟨a1, xs ++ ys, by rw [a2, p2, List.append_assoc], ?_⟩
    intro c
    rw [opens_on_cpu_append, p3 c, a3 c, List.count_cons]
    by_cases hc : c = cpu
    · subst hc
      simp only [if_true, beq_self_eq_true]
      rw [Nat.add_mul]
      omega
    · have hc2 : (cpu == c) = false := by
        rw [beq_eq_false_iff_ne]
        exact fun h => hc h.symm
      rw [if_neg hc, hc2]
      simp

/-- C27. The length of the probe-event list is 32, yet with a kernel that never fails and
never multiplexes `detect` (without a cached result, on a fresh detector) opens only 31
probe events on every CPU, so the event count 32 is never probed, and leaves the capacity
of every CPU at the initial `-1` instead of the largest probed event count. -/
theorem CounterDetector.detect_without_multiplexing (k : Kernel)
    (hk : ∀ h c, (k h c).ret ≠ -1)
    (ht : ∀ h fd count, (k h (Syscall.read fd count)).data.getD 1 0 =
      (k h (Syscall.read fd count)).data.getD 2 0)
    (cpu_num : Nat) (hist : History) (file : HperfFile)
    (hload : ((CounterDetector.new cpu_num).load_detected_result file).1 = false) :
    event_list.length = 32 ∧
    (CounterDetector.detect k (CounterDetector.new cpu_num) hist
      file).1.detected_general_counter_nums_ = List.replicate cpu_num (-1) ∧
    (CounterDetector.detect k (CounterDetector.new cpu_num) hist file).1.detected_ = true ∧
    ∀ cpu_id, cpu_id < cpu_num →
      opens_on_cpu cpu_id (new_calls hist
        (CounterDetector.detect k (CounterDetector.new cpu_num) hist file).2.1) = 31 := by
  have hstate : ((CounterDetector.new cpu_num).load_detected_result file).2 =
      CounterDetector.new cpu_num := by
    unfold CounterDetector.load_detected_result at hload ⊢
    cases hc : file.content with
    | none => rfl
    | some text =>
      rw [hc] at hload
      simp only at hload ⊢
      split_ifs at hload ⊢ with h1
      rfl
  obtain ⟨a1, xs, a2, a3⟩ := CounterDetector.probe_cpus_ok k hk ht
    (List.range (CounterDetector.new cpu_num).cpu_num_) (CounterDetector.new cpu_num) hist rfl
  have hn : (CounterDetector.new cpu_num).cpu_num_ = cpu_num := rfl
  rw [hn] at a1 a2 a3
  unfold CounterDetector.detect
  rw [if_neg (by rw [hload]; simp), hstate, hn]
  simp only
  rw [a1, a2, new_calls_append]
  refine ⟨rfl, rfl, trivial, ?_⟩
  intro c hc
  rw [a3 c, List.count_eq_one_of_mem (List.nodup_range _) (List.mem_range.mpr hc)]
  rfl

/-- C27 on two CPUs with the kernel that never multiplexes: both capacities stay `-1` and 31
probe events are opened on CPU 1. -/
theorem CounterDetector.detect_without_multiplexing_witness :
    (CounterDetector.detect kernel_without_multiplexing (CounterDetector.new 2) []
      ⟨none, true⟩).1.detected_general_counter_nums_ = [-1, -1] ∧
    opens_on_cpu 1 (new_calls [] (CounterDetector.detect kernel_without_multiplexing
      (CounterDetector.new 2) [] ⟨none, true⟩).2.1) = 31 :=
  ⟨(CounterDetector.detect_without_multiplexing kernel_without_multiplexing
      (fun h c => by cases c <;> simp [kernel_without_multiplexing]; omega)
      (fun _ _ _ => rfl) 2 [] ⟨none, true⟩ rfl).2.1,
    (CounterDetector.detect_without_multiplexing kernel_without_multiplexing
      (fun h c => by cases c <;> simp [kernel_without_multiplexing]; omega)
      (fun _ _ _ => rfl) 2 [] ⟨none, true⟩ rfl).2.2.2 1 (by decide)⟩

/-! ## The claim about the estimate of a schedulable slot -/

theorem floor_log2_aux_spec (fuel n : Nat) (hn : 0 < n) (hfuel : n ≤ fuel) :
    2 ^ floor_log2_aux fuel n ≤ n ∧ n < 2 ^ (floor_log2_aux fuel n + 1) := by
  induction fuel generalizing n with
  | zero => omega
  | succ f ih =>
    unfold floor_log2_aux
    by_cases h : n < 2
    · rw [if_pos h]
      simp only [pow_zero, zero_add, pow_one]
      omega
    · rw [if_neg h]
      obtain ⟨h1, h2⟩ := ih (n / 2) (by omega) (by omega)
      rw [Nat.pow_succ] at h2 ⊢
      rw [Nat.pow_succ]
      omega

/-- The fuel of `floor_log2` is enough: for `n > 0` the result is the position of the
leading bit. -/
theorem floor_log2_spec (n : Nat) (hn : 0 < n) :
    2 ^ floor_log2 n ≤ n ∧ n < 2 ^ (floor_log2 n + 1) :=
  floor_log2_aux_spec n n hn (le_refl n)

/-- The rounding of `round_binary64` is the rounding to nearest, ties to even, at 53 bits:
the result is `m · 2 ^ i / 2 ^ j` with
`2 ^ 52 · 2 ^ i / 2 ^ j ≤ p / q < 2 ^ 53 · 2 ^ i / 2 ^ j` and a significand
`2 ^ 52 ≤ m ≤ 2 ^ 53` that differs from `(p / q) · 2 ^ j / 2 ^ i` by at most one half, and
is even when it differs by exactly one half. -/
theorem round_binary64_spec (p q : Nat) (hp : 0 < p) (hq : 0 < q) :
    ∃ m i j, round_binary64 p q = (m * 2 ^ (i - j), 2 ^ (j - i)) ∧
      2 ^ 52 ≤ m ∧ m ≤ 2 ^ 53 ∧
      q * 2 ^ i * 2 ^ 52 ≤ p * 2 ^ j ∧ p * 2 ^ j < q * 2 ^ i * 2 ^ 53 ∧
      2 * (m * (q * 2 ^ i)) ≤ 2 * (p * 2 ^ j) + q * 2 ^ i ∧
      2 * (p * 2 ^ j) ≤ 2 * (m * (q * 2 ^ i)) + q * 2 ^ i ∧
      ((2 * (m * (q * 2 ^ i)) = 2 * (p * 2 ^ j) + q * 2 ^ i ∨
        2 * (p * 2 ^ j) = 2 * (m * (q * 2 ^ i)) + q * 2 ^ i) → m % 2 = 0) := by
  obtain ⟨a1, a2⟩ := floor_log2_spec p hp
  obtain ⟨b1, b2⟩ := floor_log2_spec q hq
  rw [Nat.pow_succ] at a2 b2
  have hA : 0 < 2 ^ floor_log2 p := Nat.two_pow_pos _
  have hB : 0 < 2 ^ floor_log2 q := Nat.two_pow_pos _
  generalize he : (if q * 2 ^ floor_log2 p ≤ p * 2 ^ floor_log2 q then floor_log2 p + 1
    else floor_log2 p) = e
  have he12 : (2 ^ e = 2 ^ floor_log2 p * 2 ∧ q * 2 ^ floor_log2 p ≤ p * 2 ^ floor_log2 q) ∨
      (2 ^ e = 2 ^ floor_log2 p ∧ p * 2 ^ floor_log2 q < q * 2 ^ floor_log2 p) := by
    by_cases h : q * 2 ^ floor_log2 p ≤ p * 2 ^ floor_log2 q
    · rw [if_pos h] at he
      exact Or.inl ⟨by rw [← he, Nat.pow_succ], h⟩
    · rw [if_neg h] at he
      exact Or.inr ⟨by rw [← he], by omega⟩
  have hlow : q * 2 ^ e * 2 ^ 52 ≤ p * 2 ^ (floor_log2 q + 53) := by
    rw [Nat.pow_add]
    rcases he12 with ⟨h, h2⟩ | ⟨h, h2⟩
    · rw [h]
      nlinarith
    · rw [h]
      nlinarith
  have hhigh : p * 2 ^ (floor_log2 q + 53) < q * 2 ^ e * 2 ^ 53 := by
    rw [Nat.pow_add]
    rcases he12 with ⟨h, h2⟩ | ⟨h, h2⟩
    · rw [h]
      nlinarith
    · rw [h]
      nlinarith
  have hD : 0 < q * 2 ^ e := Nat.mul_pos hq (Nat.two_pow_pos _)
  refine ⟨if 2 * (p * 2 ^ (floor_log2 q + 53) % (q * 2 ^ e)) < q * 2 ^ e then
      p * 2 ^ (floor_log2 q + 53) / (q * 2 ^ e)
    else if q * 2 ^ e < 2 * (p * 2 ^ (floor_log2 q + 53) % (q * 2 ^ e)) then
      p * 2 ^ (floor_log2 q + 53) / (q * 2 ^ e) + 1
    else p * 2 ^ (floor_log2 q + 53) / (q * 2 ^ e) +
      p * 2 ^ (floor_log2 q + 53) / (q * 2 ^ e) % 2, e, floor_log2 q + 53, ?_, ?_⟩
  · unfold round_binary64
    rw [if_neg (by omega)]
    simp only
    rw [he]
  · generalize p * 2 ^ (floor_log2 q + 53) = N at hlow hhigh
    generalize q * 2 ^ e = D at hlow hhigh hD
    have hdm := Nat.div_add_mod N D
    have hr : N % D < D := Nat.mod_lt N hD
    have hn1 : 2 ^ 52 ≤ N / D := by
      rw [Nat.le_div_iff_mul_le hD, Nat.mul_comm]
      exact hlow
    have hn2 : N / D < 2 ^ 53 := by
      rw [Nat.div_lt_iff_lt_mul hD, Nat.mul_comm]
      exact hhigh
    generalize N / D = n at hdm hn1 hn2
    generalize N % D = r at hdm hr
    have hmul : ∀ x : Nat, (x + 1) * D = D * x + D := fun x => by ring
    by_cases c1 : 2 * r < D
    · rw [if_pos c1, Nat.mul_comm n D]
      exact ⟨hn1, by omega, hlow, hhigh, by omega, by omega, fun h => by omega⟩
    · rw [if_neg c1]
      by_cases c2 : D < 2 * r
      · rw [if_pos c2, hmul n]
        exact ⟨by omega, by omega, hlow, hhigh, by omega, by omega, fun h => by omega⟩
      · rw [if_neg c2]
        rcases Nat.mod_two_eq_zero_or_one n with h0 | h0
        · rw [h0, Nat.add_zero, Nat.mul_comm n D]
          exact ⟨hn1, by omega, hlow, hhigh, by omega, by omega, fun _ => h0⟩
        · rw [h0, hmul n]
          exact ⟨by omega, by omega, hlow, hhigh, by omega, by omega, fun _ => by omega⟩

/-- The inner loop of the second part of `estimation` after the slots `0 .. m-1` of group
`i`: every total is kept, the slots passed hold the scaled totals, and no other estimate has
changed. -/
theorem estimation_group_values (scale : Nat → Nat → Nat → Nat) (r : Reporter)
    (stat : List (List EventStats)) (i len m : Nat) (hm : m ≤ len)
    (hi : i < r.enabled_time_in_ns_.length)
    (h : ∀ j, j < len → (total_at stat i (r.fixed_event_num_ + j)).isSome) :
    ∃ st, (List.range m).foldlM
        (fun st j =>
          match r.enabled_time_in_ns_.get? i, stat_at st i (r.fixed_event_num_ + j) with
          | some enabled_time, some cell =>
            set_estimated_value st i (r.fixed_event_num_ + j)
              (scale cell.total_value r.total_time_in_ns_ enabled_time)
          | _, _ => none) stat = some st ∧
      (∀ i' j', total_at st i' j' = total_at stat i' j') ∧
      (∀ i' j', ¬ (i' = i ∧ r.fixed_event_num_ ≤ j' ∧ j' < r.fixed_event_num_ + m) →
        estimated_at st i' j' = estimated_at stat i' j') ∧
      (∀ j, j < m → estimated_at st i (r.fixed_event_num_ + j) =
        (total_at stat i (r.fixed_event_num_ + j)).map (fun total =>
          scale total r.total_time_in_ns_ (r.enabled_time_in_ns_.getD i 0))) := by
  induction m with
  | zero =>
    exact ⟨stat, rfl, fun _ _ => rfl, fun _ _ _ => rfl, fun j hj => absurd hj (by omega)⟩
  | succ m ih =>
    obtain ⟨st, hst, htot, hother, hval⟩ := ih (by omega)
    rw [List.range_succ, List.foldlM_append, hst]
    obtain ⟨c, hc⟩ := stat_at_isSome_of_total_at st i (r.fixed_event_num_ + m)
      (by rw [htot]; exact h m (by omega))
    have hen : r.enabled_time_in_ns_.get? i = some (r.enabled_time_in_ns_.get ⟨i, hi⟩) :=
      List.get?_eq_get hi
    have hgetD : r.enabled_time_in_ns_.getD i 0 = r.enabled_time_in_ns_.get ⟨i, hi⟩ := by
      rw [List.getD_eq_getElem?_getD, List.getElem?_eq_getElem hi]
      rfl
    obtain ⟨st', hst', htot', hest', hother'⟩ :=
      set_estimated_value_spec st i (r.fixed_event_num_ + m)
        (scale c.total_value r.total_time_in_ns_ (r.enabled_time_in_ns_.get ⟨i, hi⟩)) c hc
    refine ⟨st', ?_, ?_, ?_, ?_⟩
    · simp only [Option.some_bind, List.foldlM_cons, List.foldlM_nil, Option.bind_eq_bind,
        hen, hc, hst']
      rfl
    · intro i' j'; rw [htot', htot]
    · intro i' j' hn
      rw [hother' i' j' (fun h2 => hn ⟨h2.1, by omega, by omega⟩)]
      exact hother i' j' (fun h2 => hn ⟨h2.1, h2.2.1, by omega⟩)
    · intro j hj
      rcases Nat.lt_succ_iff_lt_or_eq.1 hj with hj | hj
      · rw [hother' i (r.fixed_event_num_ + j) (fun h2 => by omega)]
        exact hval j hj
      · subst hj
        rw [hest', ← htot, total_at_eq_some st i _ c hc, hgetD]
        rfl

/-- The second loop of `estimation` after the groups `0 .. m-1`. -/
theorem estimation_schedulable_values (scale : Nat → Nat → Nat → Nat) (r : Reporter)
    (stat : List (List EventStats)) (m : Nat) (hm : m ≤ r.enabled_time_in_ns_.length)
    (h : ∀ i j, i < m → j < (r.pmu_config_.get_event_group_by_idx i).length →
      (total_at stat i (r.fixed_event_num_ + j)).isSome) :
    ∃ st, (List.range m).foldlM (estimation_group scale r) stat = some st ∧
      (∀ i' j', total_at st i' j' = total_at stat i' j') ∧
      (∀ i j, i < m → j < (r.pmu_config_.get_event_group_by_idx i).length →
        estimated_at st i (r.fixed_event_num_ + j) =
          (total_at stat i (r.fixed_event_num_ + j)).map (fun total =>
            scale total r.total_time_in_ns_ (r.enabled_time_in_ns_.getD i 0))) := by
  induction m with
  | zero => exact ⟨stat, rfl, fun _ _ => rfl, fun i j hi => absurd hi (by omega)⟩
  | succ m ih =>
    obtain ⟨st, hst, htot, hval⟩ := ih (by omega) (fun i j hi hj => h i j (by omega) hj)
    rw [List.range_succ, List.foldlM_append, hst]
    obtain ⟨st', hst', htot', hother', hval'⟩ := estimation_group_values scale r st m
      (r.pmu_config_.get_event_group_by_idx m).length
      (r.pmu_config_.get_event_group_by_idx m).length (le_refl _) (by omega)
      (fun j hj => by rw [htot]; exact h m j (by omega) hj)
    refine ⟨st', ?_, ?_, ?_⟩
    · have hgroup : estimation_group scale r st m = some st' := hst'
      simp only [Option.some_bind, List.foldlM_cons, List.foldlM_nil, Option.bind_eq_bind,
        hgroup]
      rfl
    · intro i' j'; rw [htot', htot]
    · intro i j hi hj
      rcases Nat.lt_succ_iff_lt_or_eq.1 hi with hi | hi
      · rw [hother' i _ (fun h2 => by omega)]
        exact hval i j hi hj
      · subst hi
        rw [hval' j hj, htot]

set_option maxRecDepth 100000 in
/-- C8, as stated, fails: after the records of `long_second_interval_records`
(`T = 13 s`, `E_0 = 3 s`, the total 27) the estimate that `estimation` stores is 116, while
`27 · (13 / 3) = 117` exactly: the quotient `13 / 3` is rounded down to the nearest `double`
and the product, just below 117, is truncated. -/
theorem estimation_rounded_quotient :
    (Reporter.new two_group_config).process_records long_second_interval_records =
      some long_second_interval_reporter ∧
    (long_second_interval_reporter.estimation double_scale).map
      (fun r => estimated_at r.stat_ 0 1) = some (some 116) ∧
    binary64_scale 27 13000000000 3000000000 = some 116 ∧
    27 * 13000000000 / 3000000000 = 117 ∧ 27 * 13000000000 % 3000000000 = 0 := by
  decide

set_option maxRecDepth 100000 in
/-- C8, amended: for a statistics grid of the shape the constructor builds and at least one
group, `estimation` runs without a bad access and, for every group `i` and every schedulable
slot `s` of group `i`, sets the estimated value of that slot to `total[i][s] · (T / E_i)`
evaluated in IEEE binary64 arithmetic (the operands converted to `double`, the quotient and
then the product each rounded to nearest, ties to even) and truncated to an unsigned 64-bit
integer, whenever `E_i` is not zero and the product is below `2 ^ 64`; in particular with
`T = 4 s`, `E_0 = 3 s`, total 300 the estimate is 400, and with `E_1 = 1 s`, total 50 the
estimate is 200. -/
theorem estimation_schedulable_estimate (scale : Nat → Nat → Nat → Nat) (r : Reporter)
    (hwf : r.well_formed) (hn : 0 < r.pmu_config_.get_event_group_num)
    (hscale : ∀ total_value total_time enabled_time v,
      binary64_scale total_value total_time enabled_time = some v →
        scale total_value total_time enabled_time = v) :
    ∃ r', r.estimation scale = some r' ∧
      (∀ i s total v, i < r.pmu_config_.get_event_group_num →
        s < (r.pmu_config_.get_event_group_by_idx i).length →
        total_at r.stat_ i (r.fixed_event_num_ + s) = some total →
        binary64_scale total r.total_time_in_ns_ (r.enabled_time_in_ns_.getD i 0) = some v →
        estimated_at r'.stat_ i (r.fixed_event_num_ + s) = some v) ∧
      binary64_scale 300 4000000000 3000000000 = some 400 ∧
      binary64_scale 50 4000000000 1000000000 = some 200 := by
  obtain ⟨st1, hst1, htot1, -⟩ :=
    estimation_fixed_spec r.stat_ r.pmu_config_.get_event_group_num r.fixed_event_num_ hn
      (fun i j hi hj => Reporter.well_formed_total_at r hwf i j hi (by omega))
  obtain ⟨st2, hst2, -, hval2⟩ :=
    estimation_schedulable_values scale r st1 r.pmu_config_.get_event_group_num
      (le_of_eq hwf.2.1.symm)
      (fun i j hi hj => by
        rw [htot1]; exact Reporter.well_formed_total_at r hwf i _ hi (by omega))
  refine ⟨{ r with stat_ := st2 }, ?_, ?_, by decide, by decide⟩
  · unfold Reporter.estimation
    rw [hst1]
    simp only
    unfold estimation_schedulable
    rw [hst2]
  · intro i s total v hi hs htotal hv
    show estimated_at st2 i (r.fixed_event_num_ + s) = _
    rw [hval2 i s hi hs, htot1, htotal]
    simp only [Option.map_some']
    rw [hscale _ _ _ _ hv]

set_option maxRecDepth 100000 in
/-- C8 amended on the estimator state of boundary scenario 6 (`T = 4 s`, `E_0 = 3 s` with
the total 300, `E_1 = 1 s` with the total 50): the estimates are 400 and 200. -/
theorem estimation_schedulable_estimate_witness :
    two_group_reporter.well_formed ∧ 0 < two_group_reporter.pmu_config_.get_event_group_num ∧
    (∀ total_value total_time enabled_time v,
      binary64_scale total_value total_time enabled_time = some v →
        double_scale total_value total_time enabled_time = v) ∧
    (two_group_reporter.estimation double_scale).map
      (fun r => (estimated_at r.stat_ 0 1, estimated_at r.stat_ 1 1)) =
        some (some 400, some 200) ∧
    ∃ r, two_group_reporter.estimation double_scale = some r ∧
      ∀ i s total v, i < two_group_reporter.pmu_config_.get_event_group_num →
        s < (two_group_reporter.pmu_config_.get_event_group_by_idx i).length →
        total_at two_group_reporter.stat_ i (two_group_reporter.fixed_event_num_ + s) =
          some total →
        binary64_scale total two_group_reporter.total_time_in_ns_
          (two_group_reporter.enabled_time_in_ns_.getD i 0) = some v →
        estimated_at r.stat_ i (two_group_reporter.fixed_event_num_ + s) = some v :=
  ⟨by unfold Reporter.well_formed; decide, by decide,
    fun a b c v h => by unfold double_scale; rw [h]; rfl, by decide,
    (estimation_schedulable_estimate double_scale two_group_reporter
      (by unfold Reporter.well_formed; decide) (by decide)
      (fun a b c v h => by unfold double_scale; rw [h]; rfl)).imp
      (fun _ h => ⟨h.1, h.2.1⟩)⟩

end Hperf
